import Mathlib

/-!
# Voxel sandbox (`src/Main.js`): a shallow embedding and its verified properties

The JavaScript program keeps its world in plain objects keyed by strings
(`"x,y,z"` for a block, `"cx,cz"` for a chunk).  The embedding keeps that
representation:

* a JavaScript string is a `List Char`;
* a JavaScript object used as a dictionary is an association list in
  insertion order (`Obj`), which is the enumeration order of
  `Object.entries` for keys that are not array indices;
* integer-valued numbers are `Int`, fractional ones (player position) are `ℚ`;
* a thrown `TypeError` is `Except.error Err.typeError`.
-/

namespace Voxel

/-! ## Constants (`Main.js` lines 22-37) -/

def MIN_HEIGHT : Int := 0
def MAX_HEIGHT : Int := 64
def CHUNK_SIZE : Int := 16
def CUBE_SIZE : ℚ := 1
def EPSILON : ℚ := 1 / 1000000

/-! ## JavaScript strings and number formatting -/

/-- A JavaScript string, as its list of characters. -/
abbrev JSString := List Char

/-- The decimal digit character of `d` (for `d < 10`). -/
def digitChar (d : Nat) : Char := Char.ofNat (48 + d)

/-- Decimal digits of `n`, most significant first, pushed in front of `acc`.
The first argument bounds the number of digits. -/
def natDigitsAux : Nat → Nat → List Char → List Char
  | 0, _, acc => acc
  | fuel + 1, n, acc =>
    if n < 10 then digitChar n :: acc
    else natDigitsAux fuel (n / 10) (digitChar (n % 10) :: acc)

/-- `String(n)` for a natural number `n`: its decimal digits. -/
def natToString (n : Nat) : JSString := natDigitsAux (n + 1) n []

/-- The text a template literal `${n}` produces for an integer `n`: an
optional minus sign followed by the decimal digits of the magnitude. -/
def numToString (n : Int) : JSString :=
  if n < 0 then '-' :: natToString n.natAbs else natToString n.natAbs

/-- Value of a hexadecimal digit, if `c` is one. -/
def hexDigitValue (c : Char) : Option Nat :=
  if '0' ≤ c ∧ c ≤ '9' then some (c.toNat - 48)
  else if 'a' ≤ c ∧ c ≤ 'f' then some (c.toNat - 87)
  else if 'A' ≤ c ∧ c ≤ 'F' then some (c.toNat - 55)
  else none

/-- Value of a decimal digit, if `c` is one. -/
def decDigitValue (c : Char) : Option Nat :=
  if '0' ≤ c ∧ c ≤ '9' then some (c.toNat - 48) else none

/-- Reads the longest run of digits (as recognised by `dv`) at the front of
the input, in the given radix, starting from the accumulated value `acc`.
The Boolean tells whether at least one digit has been read. -/
def readDigits (dv : Char → Option Nat) (radix : Nat) :
    Nat → Bool → List Char → Nat × Bool
  | acc, seen, [] => (acc, seen)
  | acc, seen, c :: cs =>
    match dv c with
    | some d => readDigits dv radix (radix * acc + d) true cs
    | none => (acc, seen)

/-- White space skipped by `parseInt` (the ASCII part of it). -/
def isJSSpace (c : Char) : Bool :=
  c = ' ' || c = '\t' || c = '\n' || c = '\r' || c.toNat = 11 || c.toNat = 12

/-- The optional sign in front of the digits: whether it is a minus, and the
rest of the input. -/
def readSign : List Char → Bool × List Char
  | '-' :: r => (true, r)
  | '+' :: r => (false, r)
  | r => (false, r)

/-- The digits after the sign: a `0x`/`0X` mark selects base 16, otherwise
base 10.  Returns the value and whether any digit was read. -/
def readMagnitude : List Char → Nat × Bool
  | '0' :: 'x' :: r => readDigits hexDigitValue 16 0 false r
  | '0' :: 'X' :: r => readDigits hexDigitValue 16 0 false r
  | r => readDigits decDigitValue 10 0 false r

/-- `parseInt(s)` with no radix argument: leading white space is skipped,
an optional sign is read, a `0x`/`0X` mark selects base 16, then the longest
run of digits is read.  `none` stands for `NaN` (no digit was read). -/
def parseInt (s : JSString) : Option Int :=
  let signed := readSign (s.dropWhile isJSSpace)
  let magnitude := readMagnitude signed.2
  if magnitude.2 then
    some (if signed.1 then - (magnitude.1 : Int) else (magnitude.1 : Int))
  else none

/-- `s.split(",")`: the pieces of `s` between commas (always at least one). -/
def splitComma : List Char → List JSString
  | [] => [[]]
  | c :: cs =>
    if c = ',' then [] :: splitComma cs
    else
      match splitComma cs with
      | [] => [[c]]
      | piece :: rest => (c :: piece) :: rest

/-! ### Auxiliary notions used to state facts about number formatting -/

/-- A decimal digit character. -/
def IsDecDigit (c : Char) : Prop := '0' ≤ c ∧ c ≤ '9'

instance (c : Char) : Decidable (IsDecDigit c) := by
  unfold IsDecDigit; infer_instance

/-- Value of a digit string read from the left, starting from `acc`. -/
def digitsVal (acc : Nat) (ds : List Char) : Nat :=
  ds.foldl (fun a c => 10 * a + (c.toNat - 48)) acc

/-! ## Spatial keys (`Main.js` lines 69-79) -/

/-- `key(x, y, z)`: the block key `"x,y,z"`. -/
def key (x y z : Int) : JSString :=
  numToString x ++ ',' :: (numToString y ++ ',' :: numToString z)

/-- `chunkKey(cx, cz)`: the chunk key `"cx,cz"`. -/
def chunkKey (cx cz : Int) : JSString :=
  numToString cx ++ ',' :: numToString cz

/-- `keyToArray(k)`: split on commas and `parseInt` every piece. -/
def keyToArray (k : JSString) : List (Option Int) :=
  (splitComma k).map parseInt

/-- `blockChunkKey(x, z)`.  For an integer `x`, `Math.floor(x / CHUNK_SIZE)`
is the floored quotient. -/
def blockChunkKey (x z : Int) : JSString :=
  let cx := Int.fdiv x CHUNK_SIZE
  let cz := Int.fdiv z CHUNK_SIZE
  let ck := chunkKey cx cz
  ck

/-! ## JavaScript objects used as dictionaries -/

/-- Failures of the embedded program.  `typeError` is the `TypeError` thrown
when a property of `undefined` is read; `outOfFuel` marks a loop that was cut
off by the iteration bound of the embedding; `notANumber` marks a `NaN` or
`undefined` coordinate, which lies outside the integers of the embedding. -/
inductive Err where
  | typeError
  | outOfFuel
  | notANumber
  deriving DecidableEq, Repr

deriving instance DecidableEq for Except

/-- A dictionary object: its own properties in insertion order. -/
abbrev Obj (α : Type) := List (JSString × α)

/-- `o[k]`: the value stored under `k`, `none` for `undefined`. -/
def objGet {α : Type} : Obj α → JSString → Option α
  | [], _ => none
  | (k1, v) :: rest, k => if k1 = k then some v else objGet rest k

/-- `o[k] = v`: overwrite in place when `k` is present, append otherwise. -/
def objSet {α : Type} : Obj α → JSString → α → Obj α
  | [], k, v => [(k, v)]
  | (k1, v1) :: rest, k, v =>
    if k1 = k then (k, v) :: rest else (k1, v1) :: objSet rest k v

/-- `delete o[k]`. -/
def objDelete {α : Type} : Obj α → JSString → Obj α
  | [], _ => []
  | (k1, v) :: rest, k =>
    if k1 = k then objDelete rest k else (k1, v) :: objDelete rest k

/-! ## Meshes (the data handed to the renderer) -/

/-- A material of the block-type table: the block type that owns it, the
slot of `texPaths` where it was created, and the texture it was made from. -/
structure Material where
  blockType : Nat
  slot : Nat
  texture : String
  deriving DecidableEq, Repr

/-- A draw group of a `BufferGeometry`. -/
structure Group where
  start : Nat
  count : Nat
  materialIndex : Nat
  deriving DecidableEq, Repr

/-- The geometry and material list of `new THREE.Mesh(geometry, materials)`.
The attribute arrays are kept unflattened (one entry per vertex). -/
structure Mesh where
  positions : List (Int × Int × Int)
  normals : List (Int × Int × Int)
  uvs : List (Int × Int)
  indices : List Nat
  groups : List Group
  materials : List (Option Material)
  deriving DecidableEq, Repr

/-! ## Chunk store (`Main.js` lines 420-491) -/

/-- A stored block `{ id }`. -/
structure Block where
  id : Int
  deriving DecidableEq, Repr

/-- A chunk `{ blocks, mesh, loaded, generated }`; `mesh` is `none` until
`generateChunkMesh` has run on the chunk. -/
structure Chunk where
  blocks : Obj Block
  loaded : Bool
  generated : Bool
  mesh : Option Mesh
  deriving DecidableEq, Repr

/-- The global `chunks` object. -/
abbrev World := Obj Chunk

/-- The object literal `{ blocks: {}, loaded: false, generated: false }`. -/
def emptyChunk : Chunk :=
  { blocks := [], loaded := false, generated := false, mesh := none }

/-- `getBlockChunk(x, z)`; `none` is `undefined`. -/
def getBlockChunk (chunks : World) (x z : Int) : Option Chunk :=
  let ck := blockChunkKey x z
  objGet chunks ck

/-- `isBlockAt(x, y, z)`: reading `.blocks` of a missing chunk throws. -/
def isBlockAt (chunks : World) (x y z : Int) : Except Err Bool :=
  match getBlockChunk chunks x z with
  | none => Except.error Err.typeError
  | some chunk => Except.ok (objGet chunk.blocks (key x y z)).isSome

/-- `placeBlock(id, x, y, z)`: the returned flag and the world afterwards. -/
def placeBlock (chunks : World) (id x y z : Int) : Bool × World :=
  let k := key x y z
  let created : World × Chunk :=
    match getBlockChunk chunks x z with
    | some chunk => (chunks, chunk)
    | none =>
      let ck := blockChunkKey x z
      (objSet chunks ck emptyChunk, emptyChunk)
  let chunks1 := created.1
  let chunk := created.2
  if (objGet chunk.blocks k).isSome then (false, chunks1)
  else
    (true, objSet chunks1 (blockChunkKey x z)
      { chunk with blocks := objSet chunk.blocks k { id := id } })

/-- `removeBlock(x, y, z)`: the returned flag and the world afterwards. -/
def removeBlock (chunks : World) (x y z : Int) : Bool × World :=
  let k := key x y z
  let created : World × Chunk :=
    match getBlockChunk chunks x z with
    | some chunk => (chunks, chunk)
    | none =>
      let ck := blockChunkKey x z
      (objSet chunks ck emptyChunk, emptyChunk)
  let chunks1 := created.1
  let chunk := created.2
  if ¬ (objGet chunk.blocks k).isSome then (false, chunks1)
  else
    (true, objSet chunks1 (blockChunkKey x z)
      { chunk with blocks := objDelete chunk.blocks k })

/-- The block stored for world coordinate `(x, y, z)`, looked up the way the
program does (owning chunk, then block key); `none` when the chunk is missing
or holds no entry. -/
def blockAt (chunks : World) (x y z : Int) : Option Block :=
  (getBlockChunk chunks x z).bind (fun chunk => objGet chunk.blocks (key x y z))

/-- The keys of the chunk map with the `loaded` and `generated` flags. -/
def chunkFlags (chunks : World) : List (JSString × Bool × Bool) :=
  chunks.map (fun e => (e.1, e.2.loaded, e.2.generated))

/-! ## Block-type table (`Main.js` lines 13-19, 147-163) -/

/-- An entry of `texPaths`: a texture file, or the index of an earlier
material of the same block type that is used again. -/
inductive TexPath where
  | file (name : String)
  | index (i : Nat)
  deriving DecidableEq, Repr

/-- An entry of `BLOCK_TYPES`. -/
structure BlockType where
  name : String
  color : Nat
  texPaths : List TexPath
  deriving DecidableEq, Repr

/-- The table `BLOCK_TYPES`; the texture constants are kept by name. -/
def BLOCK_TYPES : List BlockType :=
  [ { name := "grass", color := 0x7cfc00,
      texPaths := [TexPath.file "grass_png", TexPath.file "dirt_png",
        TexPath.file "grass_side_png", TexPath.index 2, TexPath.index 2, TexPath.index 2] },
    { name := "dirt", color := 0x8b5a2b,
      texPaths := [TexPath.file "dirt_png", TexPath.index 0, TexPath.index 0,
        TexPath.index 0, TexPath.index 0, TexPath.index 0] },
    { name := "stone", color := 0x888888,
      texPaths := [TexPath.file "stone_png", TexPath.index 0, TexPath.index 0,
        TexPath.index 0, TexPath.index 0, TexPath.index 0] },
    { name := "wood", color := 0x8b4513,
      texPaths := [TexPath.file "log_top_png", TexPath.index 0, TexPath.file "log_side_png",
        TexPath.index 2, TexPath.index 2, TexPath.index 2] },
    { name := "leaves", color := 0x2b843f,
      texPaths := [TexPath.file "leaves_png", TexPath.index 0, TexPath.index 0,
        TexPath.index 0, TexPath.index 0, TexPath.index 0] } ]

/-- The loop of `generateBlockMaterials` over the `texPaths` of block type
number `bt`: a number reuses `materials[path]`, a file makes a new material. -/
def buildMaterials (bt : Nat) : List TexPath → Nat → List (Option Material) →
    List (Option Material)
  | [], _, mats => mats
  | path :: rest, slot, mats =>
    let material : Option Material :=
      match path with
      | TexPath.index i => (mats.get? i).join
      | TexPath.file name => some { blockType := bt, slot := slot, texture := name }
    buildMaterials bt rest (slot + 1) (mats ++ [material])

/-- `BLOCK_TYPES[blockID].materials` after `generateBlockMaterials`; `none`
when `BLOCK_TYPES[blockID]` is `undefined`. -/
def blockTypeMaterials (blockID : Int) : Option (List (Option Material)) :=
  if 0 ≤ blockID then
    (BLOCK_TYPES.get? blockID.toNat).map
      (fun blockType => buildMaterials blockID.toNat blockType.texPaths 0 [])
  else none

/-! ## Mesher (`Main.js` lines 613-698) -/

/-- An entry of the `faces` table. -/
structure FaceData where
  pos : List (Int × Int × Int)
  normal : Int × Int × Int
  uv : List (Int × Int)
  idx : List Nat
  deriving DecidableEq, Repr

def faces.xn : FaceData :=
  { pos := [(0, 0, 0), (0, 1, 0), (0, 0, 1), (0, 1, 1)], normal := (-1, 0, 0),
    uv := [(0, 0), (0, 1), (1, 0), (1, 1)], idx := [0, 2, 1, 1, 2, 3] }

def faces.xp : FaceData :=
  { pos := [(1, 0, 0), (1, 1, 0), (1, 0, 1), (1, 1, 1)], normal := (1, 0, 0),
    uv := [(1, 0), (1, 1), (0, 0), (0, 1)], idx := [0, 1, 2, 1, 3, 2] }

def faces.yn : FaceData :=
  { pos := [(0, 0, 0), (1, 0, 0), (0, 0, 1), (1, 0, 1)], normal := (0, -1, 0),
    uv := [(1, 1), (0, 1), (1, 0), (0, 0)], idx := [0, 1, 2, 1, 3, 2] }

def faces.yp : FaceData :=
  { pos := [(0, 1, 0), (1, 1, 0), (0, 1, 1), (1, 1, 1)], normal := (0, 1, 0),
    uv := [(0, 1), (1, 1), (0, 0), (1, 0)], idx := [0, 2, 1, 1, 2, 3] }

def faces.zn : FaceData :=
  { pos := [(0, 0, 0), (1, 0, 0), (0, 1, 0), (1, 1, 0)], normal := (0, 0, -1),
    uv := [(1, 0), (0, 0), (1, 1), (0, 1)], idx := [0, 2, 1, 1, 2, 3] }

def faces.zp : FaceData :=
  { pos := [(0, 0, 1), (1, 0, 1), (0, 1, 1), (1, 1, 1)], normal := (0, 0, 1),
    uv := [(0, 0), (1, 0), (0, 1), (1, 1)], idx := [0, 1, 2, 1, 3, 2] }

/-- The geometry before any face has been added. -/
def emptyMesh : Mesh :=
  { positions := [], normals := [], uvs := [], indices := [], groups := [], materials := [] }

/-- The helper `addFaces(vertexData, poss, mat)`, acting on the arrays and the
geometry under construction. -/
def addFaces (m : Mesh) (vertexData : FaceData) (poss : List (Int × Int × Int))
    (mat : Option Material) : Mesh :=
  if poss.length = 0 then m
  else
    let newPositions := poss.flatMap (fun pos =>
      vertexData.pos.map (fun vertex =>
        (vertex.1 + pos.1, vertex.2.1 + pos.2.1, vertex.2.2 + pos.2.2)))
    let newNormals := List.replicate (vertexData.pos.length * poss.length) vertexData.normal
    let newIndices := (List.range poss.length).flatMap (fun i =>
      vertexData.idx.map (fun idx => idx + m.positions.length + i * vertexData.pos.length))
    let newUVs := (List.replicate poss.length vertexData.uv).flatten
    { positions := m.positions ++ newPositions
      normals := m.normals ++ newNormals
      uvs := m.uvs ++ newUVs
      indices := m.indices ++ newIndices
      groups := m.groups ++
        [{ start := m.indices.length, count := vertexData.idx.length * poss.length,
           materialIndex := m.materials.length }]
      materials := m.materials ++ [mat] }

/-- The six position lists `[[], [], [], [], [], []]` kept per block id;
`f0` .. `f5` are the entries `[0]` .. `[5]`. -/
structure FaceBuckets where
  f0 : List (Int × Int × Int)
  f1 : List (Int × Int × Int)
  f2 : List (Int × Int × Int)
  f3 : List (Int × Int × Int)
  f4 : List (Int × Int × Int)
  f5 : List (Int × Int × Int)
  deriving DecidableEq, Repr

def emptyBuckets : FaceBuckets :=
  { f0 := [], f1 := [], f2 := [], f3 := [], f4 := [], f5 := [] }

/-- `facesByID[id] = [[], [], [], [], [], []]` when `facesByID[id]` is not
set yet.  Block ids are array-index keys, which `Object.entries` lists in
ascending numeric order, so the entry is put at its place in that order. -/
def facesEnsure : List (Int × FaceBuckets) → Int → List (Int × FaceBuckets)
  | [], id => [(id, emptyBuckets)]
  | (id1, fb) :: rest, id =>
    if id1 = id then (id1, fb) :: rest
    else if id < id1 then (id, emptyBuckets) :: (id1, fb) :: rest
    else (id1, fb) :: facesEnsure rest id

/-- Applies `f` to the bucket lists stored for `id`. -/
def facesModify (acc : List (Int × FaceBuckets)) (id : Int)
    (f : FaceBuckets → FaceBuckets) : List (Int × FaceBuckets) :=
  acc.map (fun e => if e.1 = id then (e.1, f e.2) else e)

/-- The six neighbour tests of one block at `(x, y, z)` (lines 669-674). -/
def pushBlockFaces (blocks : Obj Block) (x y z : Int) (fb : FaceBuckets) : FaceBuckets :=
  let fb5 := if (objGet blocks (key (x - 1) y z)).isNone
    then { fb with f5 := fb.f5 ++ [(x, y, z)] } else fb
  let fb3 := if (objGet blocks (key (x + 1) y z)).isNone
    then { fb5 with f3 := fb5.f3 ++ [(x, y, z)] } else fb5
  let fb1 := if (objGet blocks (key x (y - 1) z)).isNone
    then { fb3 with f1 := fb3.f1 ++ [(x, y, z)] } else fb3
  let fb0 := if (objGet blocks (key x (y + 1) z)).isNone
    then { fb1 with f0 := fb1.f0 ++ [(x, y, z)] } else fb1
  let fb2 := if (objGet blocks (key x y (z - 1))).isNone
    then { fb0 with f2 := fb0.f2 ++ [(x, y, z)] } else fb0
  let fb4 := if (objGet blocks (key x y (z + 1))).isNone
    then { fb2 with f4 := fb2.f4 ++ [(x, y, z)] } else fb2
  fb4

/-- The loop "calculate all faces we need" over the entries of
`chunk.blocks`.  A key whose first three components are not integers leaves
the integer domain of the embedding (`NaN` coordinates) and is reported as
`Err.notANumber`. -/
def collectFaces (blocks : Obj Block) :
    List (JSString × Block) → List (Int × FaceBuckets) →
      Except Err (List (Int × FaceBuckets))
  | [], facesByID => Except.ok facesByID
  | (k, block) :: rest, facesByID =>
    match keyToArray k with
    | some x :: some y :: some z :: _ =>
      collectFaces blocks rest
        (facesModify (facesEnsure facesByID block.id) block.id (pushBlockFaces blocks x y z))
    | _ => Except.error Err.notANumber

/-- The loop "construct the faces calculated above" over the entries of
`facesByID`; `BLOCK_TYPES[blockID].materials` throws for an id outside the
table. -/
def constructFaces : List (Int × FaceBuckets) → Mesh → Except Err Mesh
  | [], m => Except.ok m
  | (blockID, blockFaces) :: rest, m =>
    match blockTypeMaterials blockID with
    | none => Except.error Err.typeError
    | some materials =>
      let m5 := addFaces m faces.xn blockFaces.f5 (materials.get? 5).join
      let m3 := addFaces m5 faces.xp blockFaces.f3 (materials.get? 3).join
      let m1 := addFaces m3 faces.yn blockFaces.f1 (materials.get? 1).join
      let m0 := addFaces m1 faces.yp blockFaces.f0 (materials.get? 0).join
      let m2 := addFaces m0 faces.zn blockFaces.f2 (materials.get? 2).join
      let m4 := addFaces m2 faces.zp blockFaces.f4 (materials.get? 4).join
      constructFaces rest m4

/-- `generateChunkMesh(chunk)`: the chunk with its new mesh. -/
def generateChunkMesh (chunk : Chunk) : Except Err Chunk :=
  match collectFaces chunk.blocks chunk.blocks [] with
  | Except.error e => Except.error e
  | Except.ok facesByID =>
    match constructFaces facesByID emptyMesh with
    | Except.error e => Except.error e
    | Except.ok mesh => Except.ok { chunk with mesh := some mesh }

/-! ### Reading a mesh back as a list of faces -/

/-- The faces of a vertex buffer: every four consecutive vertices form a
quad, given with the normal of its first vertex. -/
def quadsOf : List (Int × Int × Int) → List (Int × Int × Int) →
    List (List (Int × Int × Int) × (Int × Int × Int))
  | a :: b :: c :: d :: ps, n :: _ :: _ :: _ :: ns => ([a, b, c, d], n) :: quadsOf ps ns
  | _, _ => []

/-- The faces a mesh contains. -/
def meshFaces (m : Mesh) : List (List (Int × Int × Int) × (Int × Int × Int)) :=
  quadsOf m.positions m.normals

/-- The face of the block at `p` for the table entry `fd`: its four
corners and its normal. -/
def blockFace (fd : FaceData) (p : Int × Int × Int) :
    List (Int × Int × Int) × (Int × Int × Int) :=
  (fd.pos.map (fun vertex => (vertex.1 + p.1, vertex.2.1 + p.2.1, vertex.2.2 + p.2.2)),
    fd.normal)

/-- The six entries of the `faces` table. -/
def faceTable : List FaceData :=
  [faces.xn, faces.xp, faces.yn, faces.yp, faces.zn, faces.zp]

/-- The bucket of `facesByID[id]` that `constructFaces` pairs with the
table entry of normal `n`. -/
def bucketFor (fb : FaceBuckets) (n : Int × Int × Int) : List (Int × Int × Int) :=
  if n = (-1, 0, 0) then fb.f5
  else if n = (1, 0, 0) then fb.f3
  else if n = (0, -1, 0) then fb.f1
  else if n = (0, 1, 0) then fb.f0
  else if n = (0, 0, -1) then fb.f2
  else if n = (0, 0, 1) then fb.f4
  else []

/-- The vertex buffer made of the quads `Q` laid out one after the other. -/
def quadPositions : List (List (Int × Int × Int) × (Int × Int × Int)) → List (Int × Int × Int)
  | [] => []
  | q :: Q => q.1 ++ quadPositions Q

/-- The normal buffer of the quads `Q`: four copies of the normal per quad. -/
def quadNormals : List (List (Int × Int × Int) × (Int × Int × Int)) → List (Int × Int × Int)
  | [] => []
  | q :: Q => q.2 :: q.2 :: q.2 :: q.2 :: quadNormals Q

/-- The vertex and normal buffers of `m` are exactly the quads `Q` laid out
one after the other. -/
def MeshWhole (m : Mesh) (Q : List (List (Int × Int × Int) × (Int × Int × Int))) : Prop :=
  (∀ q ∈ Q, q.1.length = 4)
  ∧ m.positions = quadPositions Q
  ∧ m.normals = quadNormals Q

/-- The faces `constructFaces` adds for one entry of `facesByID`. -/
def entryFaces (e : Int × FaceBuckets) :
    List (List (Int × Int × Int) × (Int × Int × Int)) :=
  e.2.f5.map (blockFace faces.xn) ++ e.2.f3.map (blockFace faces.xp)
    ++ e.2.f1.map (blockFace faces.yn) ++ e.2.f0.map (blockFace faces.yp)
    ++ e.2.f2.map (blockFace faces.zn) ++ e.2.f4.map (blockFace faces.zp)

/-- The cell next to `p` in the direction of the normal `n`. -/
def neighbour (p n : Int × Int × Int) : Int × Int × Int :=
  (p.1 + n.1, p.2.1 + n.2.1, p.2.2 + n.2.2)

/-- The block key of a cell. -/
def keyOf (p : Int × Int × Int) : JSString := key p.1 p.2.1 p.2.2

/-- The position `p` is listed, for some block id, in the bucket that goes
with the normal `n`. -/
def Recorded (acc : List (Int × FaceBuckets)) (n p : Int × Int × Int) : Prop :=
  ∃ e ∈ acc, p ∈ bucketFor e.2 n

/-- Every key of the block map is a block key `key x y z`. -/
def KeysWellFormed (blocks : Obj Block) : Prop :=
  ∀ e ∈ blocks, ∃ x y z : Int, e.1 = key x y z

/-- Every block id of the block map is an index of `BLOCK_TYPES`. -/
def IdsInTable (blocks : Obj Block) : Prop :=
  ∀ e ∈ blocks, 0 ≤ e.2.id ∧ e.2.id < 5

/-- Every chunk of the world stores only block keys `key x y z` of its own
columns: the chunk key of `(x, z)` is the key the chunk is stored under. -/
def WorldWellFormed (chunks : World) : Prop :=
  ∀ ck c, objGet chunks ck = some c →
    ∀ e ∈ c.blocks, ∃ x y z : Int, e.1 = key x y z ∧ blockChunkKey x z = ck

/-- The faces of the mesh `generateChunkMesh` builds for the chunk stored
under `ck`; `none` when there is no such chunk or the mesher fails. -/
def chunkMeshFaces (chunks : World) (ck : JSString) :
    Option (List (List (Int × Int × Int) × (Int × Int × Int))) :=
  match objGet chunks ck with
  | none => none
  | some chunk =>
    match generateChunkMesh chunk with
    | Except.error _ => none
    | Except.ok chunk2 => chunk2.mesh.map meshFaces

/-- A world with two grass blocks, at `(15, 0, 0)` and `(16, 0, 0)`: they
touch across the border between the chunks `"0,0"` and `"1,0"`. -/
def boundaryWorld : World :=
  (placeBlock (placeBlock [] 0 15 0 0).2 0 16 0 0).2

/-- A chunk with a grass block at `(0, 0, 0)` and a stone block at
`(1, 0, 0)`. -/
def twoBlockChunk : Chunk :=
  { emptyChunk with blocks := [(key 0 0 0, { id := 0 }), (key 1 0 0, { id := 2 })] }

/-- A world whose only chunk, `"0,0"`, is `twoBlockChunk`. -/
def sameChunkWorld : World := [(chunkKey 0 0, twoBlockChunk)]

/-! ## Player and collision (`Main.js` lines 189-286) -/

/-- A `THREE.Vector3` with exact rational components. -/
structure Vec3Q where
  x : ℚ
  y : ℚ
  z : ℚ
  deriving DecidableEq

/-- A `THREE.Box3`. -/
structure Box3 where
  min : Vec3Q
  max : Vec3Q
  deriving DecidableEq

/-- `PLAYER_SIZE = new THREE.Vector3(0.6, 1.8, 0.6)`. -/
def PLAYER_SIZE : Vec3Q := { x := 3 / 5, y := 9 / 5, z := 3 / 5 }

/-- The mutable player globals `position`, `velocity` and `canJump`. -/
structure Player where
  position : Vec3Q
  velocity : Vec3Q
  canJump : Bool
  deriving DecidableEq

/-- `new THREE.Box3().setFromCenterAndSize(center, size)`. -/
def setFromCenterAndSize (center size : Vec3Q) : Box3 :=
  let halfSize : Vec3Q := { x := size.x * (1 / 2), y := size.y * (1 / 2), z := size.z * (1 / 2) }
  { min := { x := center.x - halfSize.x, y := center.y - halfSize.y, z := center.z - halfSize.z }
    max := { x := center.x + halfSize.x, y := center.y + halfSize.y, z := center.z + halfSize.z } }

/-- `getPlayerBB()` for the given `position`. -/
def getPlayerBB (position : Vec3Q) : Box3 :=
  setFromCenterAndSize position PLAYER_SIZE

/-- `a.intersectsBox(box)` of `THREE.Box3`: six separating planes, so boxes
that only touch do intersect. -/
def intersectsBox (a box : Box3) : Bool :=
  if box.max.x < a.min.x ∨ box.min.x > a.max.x
      ∨ box.max.y < a.min.y ∨ box.min.y > a.max.y
      ∨ box.max.z < a.min.z ∨ box.min.z > a.max.z
  then false else true

/-- The values of `for (let i = lo; i <= hi; i++)`. -/
def intRange (lo hi : Int) : List Int :=
  (List.range (hi + 1 - lo).toNat).map (fun (i : Nat) => lo + (i : Int))

/-- The box of the block at `(x, y, z)` as `isPlayerColliding` builds it. -/
def blockBox (x y z : Int) : Box3 :=
  let blockMin : Vec3Q := { x := x * CUBE_SIZE, y := y * CUBE_SIZE, z := z * CUBE_SIZE }
  let blockMax : Vec3Q :=
    { x := blockMin.x + CUBE_SIZE, y := blockMin.y + CUBE_SIZE, z := blockMin.z + CUBE_SIZE }
  { min := blockMin, max := blockMax }

/-- The body of the three nested loops of `isPlayerColliding`, run over the
cells in loop order: the box of the first occupied cell that intersects the
player box, `none` for `false`. -/
def scanCells (chunks : World) (playerBB : Box3) :
    List (Int × Int × Int) → Except Err (Option Box3)
  | [] => Except.ok none
  | (x, y, z) :: rest =>
    match isBlockAt chunks x y z with
    | Except.error e => Except.error e
    | Except.ok true =>
      let blockBB := blockBox x y z
      if intersectsBox playerBB blockBB then Except.ok (some blockBB)
      else scanCells chunks playerBB rest
    | Except.ok false => scanCells chunks playerBB rest

/-- The cells the loops of `isPlayerColliding` visit, in order. -/
def scannedCells (playerBB : Box3) : List (Int × Int × Int) :=
  let xMin := ⌊playerBB.min.x / CUBE_SIZE⌋
  let xMax := ⌈playerBB.max.x / CUBE_SIZE⌉
  let yMin := ⌊playerBB.min.y / CUBE_SIZE⌋
  let yMax := ⌈playerBB.max.y / CUBE_SIZE⌉
  let zMin := ⌊playerBB.min.z / CUBE_SIZE⌋
  let zMax := ⌈playerBB.max.z / CUBE_SIZE⌉
  (intRange xMin xMax).flatMap (fun x =>
    (intRange yMin yMax).flatMap (fun y =>
      (intRange zMin zMax).map (fun z => (x, y, z))))

/-- `isPlayerColliding()` for the player at `position`. -/
def isPlayerColliding (chunks : World) (position : Vec3Q) : Except Err (Option Box3) :=
  let playerBB := getPlayerBB position
  scanCells chunks playerBB (scannedCells playerBB)

/-- `correctCollision(moveDir, blockBB)`. -/
def correctCollision (p : Player) (moveDir : Vec3Q) (blockBB : Box3) : Player :=
  let playerBB := getPlayerBB p.position
  if moveDir.x ≠ 0 then
    if moveDir.x > 0 then
      { p with position :=
          { p.position with x := p.position.x + (blockBB.min.x - playerBB.max.x - EPSILON) } }
    else
      { p with position :=
          { p.position with x := p.position.x + (blockBB.max.x - playerBB.min.x + EPSILON) } }
  else if moveDir.y ≠ 0 then
    let velocity : Vec3Q := { p.velocity with y := 0 }
    if moveDir.y > 0 then
      { p with velocity := velocity, position :=
          { p.position with y := p.position.y + (blockBB.min.y - playerBB.max.y - EPSILON) } }
    else
      { position :=
          { p.position with y := p.position.y + (blockBB.max.y - playerBB.min.y + EPSILON) }
        velocity := velocity
        canJump := true }
  else
    if moveDir.z > 0 then
      { p with position :=
          { p.position with z := p.position.z + (blockBB.min.z - playerBB.max.z - EPSILON) } }
    else
      { p with position :=
          { p.position with z := p.position.z + (blockBB.max.z - playerBB.min.z + EPSILON) } }

/-- The `while` loop of `movePlayerAxis`, cut off after `fuel` tests of
its condition. -/
def correctionLoop (chunks : World) (deltaPos : Vec3Q) : Nat → Player → Except Err Player
  | 0, _ => Except.error Err.outOfFuel
  | fuel + 1, p =>
    match isPlayerColliding chunks p.position with
    | Except.error e => Except.error e
    | Except.ok none => Except.ok p
    | Except.ok (some blockBB) =>
      correctionLoop chunks deltaPos fuel (correctCollision p deltaPos blockBB)

/-- `movePlayerAxis(deltaPos)`. -/
def movePlayerAxis (fuel : Nat) (chunks : World) (p : Player) (deltaPos : Vec3Q) :
    Except Err Player :=
  let moved : Player :=
    { p with position :=
        { x := p.position.x + deltaPos.x, y := p.position.y + deltaPos.y,
          z := p.position.z + deltaPos.z } }
  correctionLoop chunks deltaPos fuel moved

/-- `movePlayer(deltaPos)`: x, then y, then z. -/
def movePlayer (fuel : Nat) (chunks : World) (p : Player) (deltaPos : Vec3Q) :
    Except Err Player :=
  match movePlayerAxis fuel chunks p { x := deltaPos.x, y := 0, z := 0 } with
  | Except.error e => Except.error e
  | Except.ok p1 =>
    match movePlayerAxis fuel chunks p1 { x := 0, y := deltaPos.y, z := 0 } with
    | Except.error e => Except.error e
    | Except.ok p2 => movePlayerAxis fuel chunks p2 { x := 0, y := 0, z := deltaPos.z }

/-- The box `bb` and the unit cube of the cell `(x, y, z)` overlap: they
share interior points. -/
def Overlaps (bb : Box3) (x y z : Int) : Prop :=
  bb.min.x < (x : ℚ) + 1 ∧ (x : ℚ) < bb.max.x
  ∧ bb.min.y < (y : ℚ) + 1 ∧ (y : ℚ) < bb.max.y
  ∧ bb.min.z < (z : ℚ) + 1 ∧ (z : ℚ) < bb.max.z

/-- A world with one stone block at `(0, 0, 0)`. -/
def oneBlockWorld : World := (placeBlock [] 2 0 0 0).2

/-- A player standing still in the air above the block of `oneBlockWorld`. -/
def fallingPlayer : Player :=
  { position := { x := 1 / 2, y := 2, z := 1 / 2 }
    velocity := { x := 0, y := -5, z := 0 }
    canJump := false }

/-! ## Save codec (`Main.js` lines 81-96, 744-809) -/

/-- `ToInt32`, applied by the bitwise operators to their operands. -/
def toInt32 (n : Int) : Int := (n + 2147483648) % 4294967296 - 2147483648

/-- `String.fromCharCode(n)`: the character with code `n` modulo `2^16`. -/
def fromCharCode (n : Int) : Char := Char.ofNat (n % 65536).toNat

/-- `base64char(num)`. -/
def base64char (num : Int) : Char :=
  if num < 26 then fromCharCode (num + 65)
  else if num < 52 then fromCharCode (num + 71)
  else if num < 62 then fromCharCode (num - 4)
  else if num = 62 then '+'
  else '/'

/-- `base64num(char)`. -/
def base64num (char : Char) : Int :=
  let code : Int := (char.toNat : Int)
  if code = 43 then 62
  else if code = 47 then 63
  else if code < 58 then code + 4
  else if code < 91 then code - 65
  else code - 71

/-- `a >> 6` (arithmetic shift of the `ToInt32` value). -/
def shr6 (a : Int) : Int := toInt32 a >>> (6 : Nat)

/-- `(a << 6) | b`. -/
def shl6or (a b : Int) : Int := Int.lor (toInt32 (toInt32 a * 64)) (toInt32 b)

/-- The variables `code`, `lastBlockID` (`none` for `null`) and
`repeatCount` of `generateChunkSaveCode`. -/
structure EncState where
  code : List Char
  lastBlockID : Option Int
  repeatCount : Int
  deriving DecidableEq

/-- The inner function `addToCode()`: the new value of `code`.  A `null`
`lastBlockID` counts as `0` in `>>` and `%`. -/
def addToCode (s : EncState) : List Char :=
  let lastBlockID := s.lastBlockID.getD 0
  s.code ++ [base64char (shr6 lastBlockID), base64char (Int.tmod lastBlockID 64),
    base64char (shr6 s.repeatCount), base64char (Int.tmod s.repeatCount 64)]

/-- The body of the innermost loop of `generateChunkSaveCode` once the id of
the cell is known. -/
def encodeStep (s : EncState) (id : Int) : EncState :=
  if s.lastBlockID = some id ∧ s.repeatCount < 4095 then
    { s with repeatCount := s.repeatCount + 1 }
  else
    { code := if s.lastBlockID ≠ none then addToCode s else s.code
      lastBlockID := some id
      repeatCount := 1 }

/-- The id the encoder reads for local cell `(x, y, z)` of chunk `(cx, cz)`:
the stored id, or the sentinel `4095` for an empty cell. -/
def cellId (cx cz : Int) (blocks : Obj Block) (y : Int) (x z : Nat) : Int :=
  let wx := cx * CHUNK_SIZE + (x : Int)
  let wz := cz * CHUNK_SIZE + (z : Int)
  let k := key wx y wz
  match objGet blocks k with
  | some block => block.id
  | none => 4095

/-- The ids read by the three nested loops of `generateChunkSaveCode`, in
loop order: `y` from `MIN_HEIGHT` to `MAX_HEIGHT`, then `x`, then `z`. -/
def cellIds (cx cz : Int) (blocks : Obj Block) : List Int :=
  (intRange MIN_HEIGHT MAX_HEIGHT).flatMap (fun y =>
    (List.range CHUNK_SIZE.toNat).flatMap (fun x =>
      (List.range CHUNK_SIZE.toNat).map (fun z => cellId cx cz blocks y x z)))

/-- `generateChunkSaveCode(ck, chunk)`. -/
def generateChunkSaveCode (ck : JSString) (chunk : Chunk) : Except Err (List Char) :=
  match keyToArray ck with
  | some cx :: some cz :: _ =>
    let final := (cellIds cx cz chunk.blocks).foldl encodeStep
      { code := [], lastBlockID := none, repeatCount := 0 }
    Except.ok (addToCode final)
  | _ => Except.error Err.notANumber

/-- The inner function `idxToKey(idx)` of `decodeChunkSaveCode`. -/
def idxToKey (cx cz : Int) (idx : Nat) : JSString :=
  let x := (idx / CHUNK_SIZE.toNat) % CHUNK_SIZE.toNat
  let y := idx / (CHUNK_SIZE.toNat * CHUNK_SIZE.toNat)
  let z := idx % CHUNK_SIZE.toNat
  let wx := CHUNK_SIZE * cx + (x : Int)
  let wz := CHUNK_SIZE * cz + (z : Int)
  key wx (y : Int) wz

/-- The loop `for (let j = 0; j < repeat; j++)` with `n` rounds left: the
block map and `idx` afterwards. -/
def writeRun (cx cz : Int) (blockID : Int) : Nat → Obj Block → Nat → Obj Block × Nat
  | 0, blocks, idx => (blocks, idx)
  | n + 1, blocks, idx =>
    let k := idxToKey cx cz idx
    let blocks1 := if blockID < 4095 then objSet blocks k { id := blockID } else blocks
    writeRun cx cz blockID n blocks1 (idx + 1)

/-- The loop of `decodeChunkSaveCode` over the groups of four symbols.  A
last group with fewer than four symbols makes `base64num` read a property
of `undefined`. -/
def decodeRuns (cx cz : Int) : List Char → Obj Block → Nat → Except Err (Obj Block)
  | [], blocks, _ => Except.ok blocks
  | c0 :: c1 :: c2 :: c3 :: rest, blocks, idx =>
    let blockID := shl6or (base64num c0) (base64num c1)
    let repeatN := shl6or (base64num c2) (base64num c3)
    let written := writeRun cx cz blockID repeatN.toNat blocks idx
    decodeRuns cx cz rest written.1 written.2
  | _, _, _ => Except.error Err.typeError

/-- `decodeChunkSaveCode(ck, code)`. -/
def decodeChunkSaveCode (ck : JSString) (code : List Char) : Except Err (Obj Block) :=
  match keyToArray ck with
  | some cx :: some cz :: _ => decodeRuns cx cz code [] 0
  | _ => Except.error Err.notANumber

/-- The writes the decoder performs for the cell ids `ids`, one cell after
the other, starting at cell index `idx`. -/
def writeCells (cx cz : Int) : List Int → Obj Block → Nat → Obj Block
  | [], blocks, _ => blocks
  | id :: ids, blocks, idx =>
    writeCells cx cz ids
      (if id < 4095 then objSet blocks (idxToKey cx cz idx) { id := id } else blocks) (idx + 1)

/-- The code `code`, read by the decoder, performs the writes of the cell
ids `P` and leaves the rest of the input to be read. -/
def DecodesTo (cx cz : Int) (code : List Char) (P : List Int) : Prop :=
  ∀ (tail : List Char) (blocks : Obj Block) (idx : Nat),
    decodeRuns cx cz (code ++ tail) blocks idx
      = decodeRuns cx cz tail (writeCells cx cz P blocks idx) (idx + P.length)

/-- Invariant of the encoder loop after the cells `P`: the code written so
far decodes to the cells before the current run, and the current run is
`repeatCount` copies of `lastBlockID`. -/
def EncInv (cx cz : Int) (s : EncState) (P : List Int) : Prop :=
  match s.lastBlockID with
  | none => s.code = [] ∧ s.repeatCount = 0 ∧ P = []
  | some id =>
    1 ≤ s.repeatCount ∧ s.repeatCount ≤ 4095 ∧ 0 ≤ id ∧ id ≤ 4095
    ∧ ∃ P0, P = P0 ++ List.replicate s.repeatCount.toNat id ∧ DecodesTo cx cz s.code P0

/-! ## Column scan (`Main.js` lines 437-442) -/

/-- The loop of `findTopBlockY(x, z)` from `y = n` down to `0`: the first
`y` with a block, `none` for `null`. -/
def findTopFrom (chunks : World) (x z : Int) : Nat → Except Err (Option Int)
  | 0 =>
    match isBlockAt chunks x 0 z with
    | Except.error e => Except.error e
    | Except.ok true => Except.ok (some 0)
    | Except.ok false => Except.ok none
  | n + 1 =>
    match isBlockAt chunks x ((n : Int) + 1) z with
    | Except.error e => Except.error e
    | Except.ok true => Except.ok (some ((n : Int) + 1))
    | Except.ok false => findTopFrom chunks x z n

/-- `findTopBlockY(x, z)`. -/
def findTopBlockY (chunks : World) (x z : Int) : Except Err (Option Int) :=
  findTopFrom chunks x z MAX_HEIGHT.toNat

/-- The alphabet of the save code, in the order of the values `0` .. `63`. -/
def base64Alphabet : List Char :=
  "ABCDEFGHIJKLMNOPQRSTUVWXYZabcdefghijklmnopqrstuvwxyz0123456789+/".toList

/-! ## Reading a save code as runs -/

/-- The runs of a save code: each group of four symbols `s0 s1 s2 s3` is the
run of id `64*s0 + s1` and length `64*s2 + s3`; `none` when the length is
not a multiple of four. -/
def readRuns : List Char → Option (List (Int × Int))
  | [] => some []
  | c0 :: c1 :: c2 :: c3 :: rest =>
    (readRuns rest).map (fun runs =>
      (64 * base64num c0 + base64num c1, 64 * base64num c2 + base64num c3) :: runs)
  | _ => none

/-- Two consecutive runs carry the same id only when the earlier one has
the full length `4095`. -/
def RunBreak (r1 r2 : Int × Int) : Prop := r1.1 = r2.1 → r1.2 = 4095

/-- Invariant of the encoder loop after `n` cells, on the runs written to
`code` and the run in progress. -/
def EncRuns (s : EncState) (n : Nat) : Prop :=
  ∃ runs, readRuns s.code = some runs
    ∧ s.code.length = 4 * runs.length
    ∧ (∀ r ∈ runs, 0 ≤ r.1 ∧ r.1 ≤ 4095 ∧ 1 ≤ r.2 ∧ r.2 ≤ 4095)
    ∧ List.Chain' RunBreak runs
    ∧ match s.lastBlockID with
      | none => runs = [] ∧ s.repeatCount = 0 ∧ n = 0
      | some id =>
        0 ≤ id ∧ id ≤ 4095 ∧ 1 ≤ s.repeatCount ∧ s.repeatCount ≤ 4095
        ∧ (runs.map (fun r => r.2)).sum + s.repeatCount = (n : Int)
        ∧ ∀ r ∈ runs.getLast?, RunBreak r (id, s.repeatCount)

/-! ## World generation and streaming (`Main.js` lines 493-611)

`Math.sin`, `Math.cos` and `Math.random` are not part of the embedding: the
generator takes the terrain height `h` of each column, the value of
`Math.floor(WORLD_DEPTH + 10 * LAND_INTENSITY * v)`, as a function `height`,
and the successive results of `Math.random()` as a sequence `random`, read
at a cursor that is threaded through the calls.  The calls `scene.add` and
`scene.remove` act on the renderer only and are left out. -/

def MAX_GENERATE_RADIUS : Int := 5
def LAND_INTENSITY : ℚ := 3 / 10
def WORLD_DEPTH : Int := 30

/-- `BLOCK_ID.grass` after `generateBlockIDs`: the index of the name in
`BLOCK_TYPES`. -/
def BLOCK_ID.grass : Int := 0
def BLOCK_ID.dirt : Int := 1
def BLOCK_ID.stone : Int := 2
def BLOCK_ID.wood : Int := 3
def BLOCK_ID.leaves : Int := 4

/-- A list of `placeBlock(id, x, y, z)` calls, run in order. -/
def placeAll (chunks : World) (calls : List (Int × Int × Int × Int)) : World :=
  calls.foldl (fun w c => (placeBlock w c.1 c.2.1 c.2.2.1 c.2.2.2).2) chunks

/-- The block type of layer `y` in a column of height `h` (line 534). -/
def layerType (h y : Int) : Int :=
  if y = h - 1 then BLOCK_ID.grass else if y ≥ h - 3 then BLOCK_ID.dirt else BLOCK_ID.stone

/-- The `placeBlock` calls of the loop `for (let y = 0; y < h; y++)` for the
column `(wx, wz)`. -/
def columnCalls (h wx wz : Int) : List (Int × Int × Int × Int) :=
  (List.range h.toNat).map (fun (y : Nat) => (layerType h (y : Int), wx, (y : Int), wz))

/-- The `placeBlock` calls of the terrain loops of `generateChunk(cx, cz)`,
in loop order. -/
def terrainCalls (height : Int → Int → Int) (cx cz : Int) : List (Int × Int × Int × Int) :=
  let startX := cx * CHUNK_SIZE
  let startZ := cz * CHUNK_SIZE
  (List.range CHUNK_SIZE.toNat).flatMap (fun (i : Nat) =>
    (List.range CHUNK_SIZE.toNat).flatMap (fun (j : Nat) =>
      let wx := startX + (i : Int)
      let wz := startZ + (j : Int)
      columnCalls (height wx wz) wx wz))

/-- The terrain loops of `generateChunk(cx, cz)` (lines 526-538) on the
world. -/
def terrainPass (height : Int → Int → Int) (chunks : World) (cx cz : Int) : World :=
  placeAll chunks (terrainCalls height cx cz)

/-- The pairs `(lx, lz)` of the two leaf loops, in loop order. -/
def leafOffsets : List (Int × Int) :=
  (intRange (-2) 2).flatMap (fun lx => (intRange (-2) 2).map (fun lz => (lx, lz)))

/-- The body of the leaf loops (lines 559-567) on the world and the cursor
of the random sequence. -/
def leafStep (random : Nat → ℚ) (rx leafY rz : Int) (s : World × Nat) (l : Int × Int) :
    World × Nat :=
  let dist := |l.1| + |l.2|
  if dist ≤ 2 then
    if random s.2 > 1 / 5 then
      let w1 := (placeBlock s.1 BLOCK_ID.leaves (rx + l.1) leafY (rz + l.2)).2
      if dist < 2 then
        if random (s.2 + 1) > 3 / 10 then
          ((placeBlock w1 BLOCK_ID.leaves (rx + l.1) (leafY - 1) (rz + l.2)).2, s.2 + 2)
        else (w1, s.2 + 2)
      else (w1, s.2 + 1)
    else (s.1, s.2 + 1)
  else s

/-- The `placeBlock` calls of the trunk loop. -/
def trunkCalls (rx trunkY rz height : Int) : List (Int × Int × Int × Int) :=
  (List.range height.toNat).map (fun (ty : Nat) => (BLOCK_ID.wood, rx, trunkY + (ty : Int), rz))

/-- One round of the loop `for (let t = 0; t < 3; t++)` (lines 542-571). -/
def treeStep (random : Nat → ℚ) (startX startZ : Int) (s : World × Nat) :
    Except Err (World × Nat) :=
  if random s.2 < 7 / 20 then
    let rx := startX + ⌊random (s.2 + 1) * (CHUNK_SIZE : ℚ)⌋
    let rz := startZ + ⌊random (s.2 + 2) * (CHUNK_SIZE : ℚ)⌋
    match findTopBlockY s.1 rx rz with
    | Except.error e => Except.error e
    | Except.ok none => Except.ok (s.1, s.2 + 3)
    | Except.ok (some topY) =>
      let trunkY := topY + 1
      let height := 2 + ⌊random (s.2 + 3) * 3⌋
      let w1 := placeAll s.1 (trunkCalls rx trunkY rz height)
      let leafY := trunkY + height
      Except.ok (leafOffsets.foldl (leafStep random rx leafY rz) (w1, s.2 + 4))
  else Except.ok (s.1, s.2 + 1)

/-- The tree loop with `t` rounds left. -/
def treesPass (random : Nat → ℚ) (startX startZ : Int) :
    Nat → World × Nat → Except Err (World × Nat)
  | 0, s => Except.ok s
  | t + 1, s =>
    match treeStep random startX startZ s with
    | Except.error e => Except.error e
    | Except.ok s1 => treesPass random startX startZ t s1

/-- `unloadChunk(chunk)`. -/
def unloadChunk (chunk : Chunk) : Chunk :=
  if ¬ chunk.loaded then chunk else { chunk with loaded := false }

/-- `reloadChunk(chunk)`. -/
def reloadChunk (chunk : Chunk) : Chunk :=
  if chunk.loaded then chunk else { chunk with loaded := true }

/-- The part of `generateChunk(cx, cz)` after the flags have been set
(lines 523-576): terrain, trees, mesh. -/
def synthesizeChunk (height : Int → Int → Int) (random : Nat → ℚ) (s : World × Nat)
    (cx cz : Int) : Except Err (World × Nat) :=
  let startX := cx * CHUNK_SIZE
  let startZ := cz * CHUNK_SIZE
  let w1 := terrainPass height s.1 cx cz
  match treesPass random startX startZ 3 (w1, s.2) with
  | Except.error e => Except.error e
  | Except.ok s2 =>
    match objGet s2.1 (chunkKey cx cz) with
    | none => Except.error Err.typeError
    | some chunk =>
      match generateChunkMesh chunk with
      | Except.error e => Except.error e
      | Except.ok chunk2 => Except.ok (objSet s2.1 (chunkKey cx cz) chunk2, s2.2)

/-- `generateChunk(cx, cz)` on the world and the cursor of the random
sequence. -/
def generateChunk (height : Int → Int → Int) (random : Nat → ℚ) (s : World × Nat)
    (cx cz : Int) : Except Err (World × Nat) :=
  let ck := chunkKey cx cz
  match objGet s.1 ck with
  | some chunk =>
    if chunk.generated then
      if ¬ chunk.loaded then Except.ok (objSet s.1 ck (reloadChunk chunk), s.2)
      else Except.ok s
    else
      synthesizeChunk height random
        (objSet s.1 ck { chunk with loaded := true, generated := true }, s.2) cx cz
  | none =>
    synthesizeChunk height random
      (objSet s.1 ck { blocks := [], loaded := true, generated := true, mesh := none }, s.2)
      cx cz

/-- The calls `generateChunk(cx, cz)` for a list of chunk coordinates. -/
def generateAll (height : Int → Int → Int) (random : Nat → ℚ) :
    List (Int × Int) → World × Nat → Except Err (World × Nat)
  | [], s => Except.ok s
  | c :: rest, s =>
    match generateChunk height random s c.1 c.2 with
    | Except.error e => Except.error e
    | Except.ok s1 => generateAll height random rest s1

/-- The chunk coordinates of the two loops over `dx` and `dz`. -/
def aroundCoords (pcx pcz : Int) : List (Int × Int) :=
  (intRange (-MAX_GENERATE_RADIUS) MAX_GENERATE_RADIUS).flatMap (fun dx =>
    (intRange (-MAX_GENERATE_RADIUS) MAX_GENERATE_RADIUS).map (fun dz => (pcx + dx, pcz + dz)))

/-- `Math.abs(c - p) > MAX_GENERATE_RADIUS` for a component `c` read by
`keyToArray`; the comparison is false for `NaN` and `undefined`. -/
def beyondRadius (c : Option Int) (p : Int) : Bool :=
  match c with
  | some v => decide (|v - p| > MAX_GENERATE_RADIUS)
  | none => false

/-- The body of the unload loop for one entry of `chunks`. -/
def unloadEntry (pcx pcz : Int) (e : JSString × Chunk) : JSString × Chunk :=
  let arr := keyToArray e.1
  if beyondRadius (arr.get? 0).join pcx || beyondRadius (arr.get? 1).join pcz
  then (e.1, unloadChunk e.2) else e

/-- `generateChunksAroundPlayer()` for the player at `position`. -/
def generateChunksAroundPlayer (height : Int → Int → Int) (random : Nat → ℚ)
    (s : World × Nat) (position : Vec3Q) : Except Err (World × Nat) :=
  let px := ⌊position.x / CUBE_SIZE⌋
  let pz := ⌊position.z / CUBE_SIZE⌋
  let pcx := Int.fdiv px CHUNK_SIZE
  let pcz := Int.fdiv pz CHUNK_SIZE
  match generateAll height random (aroundCoords pcx pcz) s with
  | Except.error e => Except.error e
  | Except.ok s1 => Except.ok (s1.1.map (unloadEntry pcx pcz), s1.2)

/-- `placeBlockGenMesh(id, x, y, z)`: reading `chunk.mesh` of a missing
chunk throws. -/
def placeBlockGenMesh (chunks : World) (id x y z : Int) : Except Err World :=
  match getBlockChunk chunks x z with
  | none => Except.error Err.typeError
  | some _ =>
    let w1 := (placeBlock chunks id x y z).2
    match getBlockChunk w1 x z with
    | none => Except.error Err.typeError
    | some chunk =>
      match generateChunkMesh chunk with
      | Except.error e => Except.error e
      | Except.ok chunk2 => Except.ok (objSet w1 (blockChunkKey x z) chunk2)

/-- `removeBlockGenMesh(x, y, z)`. -/
def removeBlockGenMesh (chunks : World) (x y z : Int) : Except Err World :=
  match getBlockChunk chunks x z with
  | none => Except.error Err.typeError
  | some _ =>
    let w1 := (removeBlock chunks x y z).2
    match getBlockChunk w1 x z with
    | none => Except.error Err.typeError
    | some chunk =>
      match generateChunkMesh chunk with
      | Except.error e => Except.error e
      | Except.ok chunk2 => Except.ok (objSet w1 (blockChunkKey x z) chunk2)

/-! ### Relations between a world before and after generation steps -/

/-- No key occurs twice in the dictionary. -/
def KeysNodup {α : Type} (o : Obj α) : Prop := (o.map Prod.fst).Nodup

/-- A chunk after some `placeBlock` calls: flags and mesh are kept, no
stored block is lost or replaced, and every new entry is a block of this
chunk that satisfies `Q id x y z`. -/
def ChunkGrows (Q : Int → Int → Int → Int → Prop) (ck : JSString) (c c2 : Chunk) : Prop :=
  c2.loaded = c.loaded ∧ c2.generated = c.generated ∧ c2.mesh = c.mesh
  ∧ (∀ k b, objGet c.blocks k = some b → objGet c2.blocks k = some b)
  ∧ (∀ e ∈ c2.blocks, e ∈ c.blocks
      ∨ ∃ x y z : Int, e.1 = key x y z ∧ blockChunkKey x z = ck ∧ Q e.2.id x y z)
  ∧ (KeysNodup c.blocks → KeysNodup c2.blocks)

/-- A chunk after a call of `generateChunk`: the flags `loaded` and
`generated` can only have been raised, no stored block is lost or replaced,
and every new entry is a block of this chunk that satisfies `Q id x y z`. -/
def ChunkEvolves (Q : Int → Int → Int → Int → Prop) (ck : JSString) (c c2 : Chunk) : Prop :=
  (c.loaded = true → c2.loaded = true) ∧ (c.generated = true → c2.generated = true)
  ∧ (∀ k b, objGet c.blocks k = some b → objGet c2.blocks k = some b)
  ∧ (∀ e ∈ c2.blocks, e ∈ c.blocks
      ∨ ∃ x y z : Int, e.1 = key x y z ∧ blockChunkKey x z = ck ∧ Q e.2.id x y z)
  ∧ (KeysNodup c.blocks → KeysNodup c2.blocks)

/-- No chunk disappears from `w` to `w2`, and every chunk of `w2` is related
by `R` to what it was in `w` (to the empty chunk when it is new). -/
def WorldRel (R : JSString → Chunk → Chunk → Prop) (w w2 : World) : Prop :=
  (∀ ck, (objGet w ck).isSome → (objGet w2 ck).isSome)
  ∧ (KeysNodup w → KeysNodup w2)
  ∧ ∀ ck c2, objGet w2 ck = some c2 → R ck ((objGet w ck).getD emptyChunk) c2

/-- A world after some `placeBlock` calls. -/
def Grows (Q : Int → Int → Int → Int → Prop) (w w2 : World) : Prop :=
  WorldRel (ChunkGrows Q) w w2

/-- A world after some calls of `generateChunk`. -/
def Evolves (Q : Int → Int → Int → Int → Prop) (w w2 : World) : Prop :=
  WorldRel (ChunkEvolves Q) w w2

/-- The blocks of the chunk stored under `ck` are blocks of its own columns
with ids of the block-type table. -/
def ChunkOk (ck : JSString) (c : Chunk) : Prop :=
  ∀ e ∈ c.blocks, ∃ x y z : Int,
    e.1 = key x y z ∧ blockChunkKey x z = ck ∧ 0 ≤ e.2.id ∧ e.2.id < 5

/-- Every chunk of the world satisfies `ChunkOk`. -/
def WorldOk (w : World) : Prop := ∀ ck c, objGet w ck = some c → ChunkOk ck c

/-- `Math.random()` returns numbers in `[0, 1)`. -/
def Random01 (random : Nat → ℚ) : Prop := ∀ n, 0 ≤ random n ∧ random n < 1

/-- A block of the terrain pass of chunk `(cx, cz)`: in one of its columns,
in layer `y` below the height of the column, with the block type of that
layer. -/
def TerrainBlock (height : Int → Int → Int) (cx cz id x y z : Int) : Prop :=
  0 ≤ y ∧ y < height x z ∧ id = layerType (height x z) y
    ∧ blockChunkKey x z = chunkKey cx cz

/-- A block of a tree of chunk `(cx, cz)`: wood or leaves; when the random
numbers lie in `[0, 1)`, at most five above `MAX_HEIGHT`, and wood only in
a column of the chunk. -/
def TreeBlock (random : Nat → ℚ) (cx cz id x y z : Int) : Prop :=
  (id = BLOCK_ID.wood ∨ id = BLOCK_ID.leaves)
    ∧ (Random01 random → 0 ≤ y ∧ y ≤ MAX_HEIGHT + 5
        ∧ (id = BLOCK_ID.wood → blockChunkKey x z = chunkKey cx cz))

/-- The blocks `generateChunk(cx, cz)` places. -/
def GenBlock (height : Int → Int → Int) (random : Nat → ℚ) (cx cz id x y z : Int) : Prop :=
  TerrainBlock height cx cz id x y z ∨ TreeBlock random cx cz id x y z

/-- A world whose only chunk, `"0,0"`, is `twoBlockChunk` marked as
generated and not loaded. -/
def generatedWorld : World := [(chunkKey 0 0, { twoBlockChunk with generated := true })]

/-! ### Reachable worlds -/

/-- The worlds the program can be in: the empty chunk map at start-up, then
any sequence of `placeBlock`, `removeBlock` and `generateChunk` calls that
return, for any terrain heights and any results of `Math.random()`. -/
inductive Reachable : World → Prop where
  | empty : Reachable []
  | place (w : World) (id x y z : Int) : Reachable w → Reachable (placeBlock w id x y z).2
  | remove (w : World) (x y z : Int) : Reachable w → Reachable (removeBlock w x y z).2
  | generate (w : World) (height : Int → Int → Int) (random : Nat → ℚ) (n : Nat)
      (cx cz : Int) (s1 : World × Nat) :
      Reachable w → generateChunk height random (w, n) cx cz = Except.ok s1 → Reachable s1.1

/-- Every chunk stores only block keys of its own columns, no chunk key
occurs twice in the chunk map and no block key occurs twice in a block
map. -/
def WorldInv (w : World) : Prop :=
  WorldWellFormed w ∧ KeysNodup w ∧ ∀ ck c, objGet w ck = some c → KeysNodup c.blocks

/-- A world with the empty, ungenerated chunk `"-6,-5"`, as `removeBlock`
leaves it behind when called on the empty chunk map. -/
def spillWorld : World := (removeBlock [] (-96) 0 (-80)).2

/-- A sequence of random numbers that grows one tree at once, at the first
column of the chunk, with all its leaves, and no other tree. -/
def spillRandom (n : Nat) : ℚ := if n < 4 then 0 else 1 / 2

/-- A world with one stone block at `(0, 40, 0)`, placed before the chunk
`"0,0"` has been generated. -/
def stoneAboveWorld : World := (placeBlock [] 2 0 40 0).2

/-! ### Loading a save (`Main.js` lines 734-740) -/

/-- The body of the loop of `loadSaveCode` for one saved chunk: the entry
`chunks[ck]` gets the decoded block map, the saved `generated` flag and
`loaded = false`, and a generated chunk gets its mesh. -/
def loadChunk (chunks : World) (ck : JSString) (code : JSString) (generated : Bool) :
    Except Err World :=
  match decodeChunkSaveCode ck code with
  | Except.error e => Except.error e
  | Except.ok blocks =>
    let chunk : Chunk := { blocks := blocks, loaded := false, generated := generated, mesh := none }
    if generated then
      match generateChunkMesh chunk with
      | Except.error e => Except.error e
      | Except.ok chunk2 => Except.ok (objSet chunks ck chunk2)
    else Except.ok (objSet chunks ck chunk)

/-- The worlds reached from the empty chunk map by `placeBlock` at heights
between `MIN_HEIGHT` and `MAX_HEIGHT`, by `removeBlock`, by `generateChunk`
with the terrain heights `height` and random numbers in `[0, 1)`, and by
loading a chunk from a code that `generateChunkSaveCode` wrote for a chunk
with block ids below 4095. -/
inductive ReachableBounded (height : Int → Int → Int) : World → Prop where
  | empty : ReachableBounded height []
  | place (w : World) (id x y z : Int) :
      ReachableBounded height w → MIN_HEIGHT ≤ y → y ≤ MAX_HEIGHT →
      ReachableBounded height (placeBlock w id x y z).2
  | remove (w : World) (x y z : Int) :
      ReachableBounded height w → ReachableBounded height (removeBlock w x y z).2
  | generate (w : World) (random : Nat → ℚ) (n : Nat) (cx cz : Int) (s1 : World × Nat) :
      ReachableBounded height w → Random01 random →
      generateChunk height random (w, n) cx cz = Except.ok s1 → ReachableBounded height s1.1
  | load (w : World) (ck : JSString) (saved : Chunk) (code : JSString) (generated : Bool)
      (w2 : World) :
      ReachableBounded height w →
      (∀ k b, objGet saved.blocks k = some b → 0 ≤ b.id ∧ b.id < 4095) →
      generateChunkSaveCode ck saved = Except.ok code →
      loadChunk w ck code generated = Except.ok w2 → ReachableBounded height w2

/-- Every stored block key is a key `key x y z` with
`MIN_HEIGHT <= y <= MAX_HEIGHT + 5`. -/
def HeightOk (w : World) : Prop :=
  ∀ ck c, objGet w ck = some c →
    ∀ e ∈ c.blocks, ∃ x y z : Int, e.1 = key x y z ∧ MIN_HEIGHT ≤ y ∧ y ≤ MAX_HEIGHT + 5

/-- A world with one grass block at `(0, 64, 0)`, the largest height of
the declared range. -/
def tallWorld : World := (placeBlock [] 0 0 64 0).2

/-- A sequence of random numbers with no tree in the first call of
`generateChunk` (three draws) and, in the second call, one tree at the first
column of the chunk with all its leaves. -/
def staleRandom (n : Nat) : ℚ := if n < 3 then 1 / 2 else if n < 7 then 0 else 1 / 2

/-! ## Geometry of the `faces` table -/

/-- The difference of two integer vectors. -/
def vecSub (a b : Int × Int × Int) : Int × Int × Int :=
  (a.1 - b.1, a.2.1 - b.2.1, a.2.2 - b.2.2)

/-- The scalar product of two integer vectors. -/
def vecDot (a b : Int × Int × Int) : Int :=
  a.1 * b.1 + a.2.1 * b.2.1 + a.2.2 * b.2.2

/-- The cross product of two integer vectors. -/
def vecCross (a b : Int × Int × Int) : Int × Int × Int :=
  (a.2.1 * b.2.2 - a.2.2 * b.2.1, a.2.2 * b.1 - a.1 * b.2.2, a.1 * b.2.1 - a.2.1 * b.1)

/-- The triangles of an index list: every three consecutive indices. -/
def trianglesOf : List Nat → List (Nat × Nat × Nat)
  | a :: b :: c :: rest => (a, b, c) :: trianglesOf rest
  | _ => []

/-- The right-hand-rule normal of the triangle `t` of the table entry `fd`:
the cross product of its edges in index order; `none` when an index is not
one of the vertices of the entry. -/
def triangleNormal (fd : FaceData) (t : Nat × Nat × Nat) : Option (Int × Int × Int) :=
  match fd.pos.get? t.1, fd.pos.get? t.2.1, fd.pos.get? t.2.2 with
  | some a, some b, some c => some (vecCross (vecSub b a) (vecSub c a))
  | _, _, _ => none

/-! ## The collision test on touching boxes -/

/-- The box `bb` and the closed unit cube of the cell `(x, y, z)` have a
point in common; cubes that only touch the box are included. -/
def Touches (bb : Box3) (x y z : Int) : Prop :=
  bb.min.x ≤ (x : ℚ) + 1 ∧ (x : ℚ) ≤ bb.max.x
  ∧ bb.min.y ≤ (y : ℚ) + 1 ∧ (y : ℚ) ≤ bb.max.y
  ∧ bb.min.z ≤ (z : ℚ) + 1 ∧ (z : ℚ) ≤ bb.max.z

/-- A world with a stone block at `(-1, 0, 0)` and, far above, a stone block
at `(5, 50, 5)` that makes the chunk `"0,0"` exist. -/
def touchWorld : World := (placeBlock (placeBlock [] 2 (-1) 0 0).2 2 5 50 5).2

/-! ## Buffers and groups of a mesh -/

/-- The index buffer cut into faces: every six consecutive indices. -/
def sixes : List Nat → List (List Nat)
  | a :: b :: c :: d :: e :: f :: rest => [a, b, c, d, e, f] :: sixes rest
  | _ => []

/-- The groups `gs` follow one another without gap or overlap from index
`start` up to index `total`, none is empty, and their material indices count
up from `mi`. -/
def Tiles : List Group → Nat → Nat → Nat → Prop
  | [], start, _, total => start = total
  | g :: gs, start, mi, total =>
    g.start = start ∧ g.materialIndex = mi ∧ 0 < g.count
      ∧ Tiles gs (start + g.count) (mi + 1) total

/-- The buckets of `facesByID` in the order in which `constructFaces` hands
them to `addFaces`. -/
def bucketList (acc : List (Int × FaceBuckets)) : List (List (Int × Int × Int)) :=
  acc.flatMap (fun e => [e.2.f5, e.2.f3, e.2.f1, e.2.f0, e.2.f2, e.2.f4])

/-- The index buffer is made of the blocks `L`, one per face, block number
`k` holding six indices among `4k .. 4k+3`. -/
def IndexBlocks (indices : List Nat) (L : List (List Nat)) : Prop :=
  indices = L.flatten ∧ (∀ s ∈ L, s.length = 6)
    ∧ ∀ k s, L.get? k = some s → ∀ i ∈ s, 4 * k ≤ i ∧ i ≤ 4 * k + 3

/-- The shape of a mesh with `F` faces whose groups hold `gs` faces each. -/
def MeshShape (m : Mesh) (F : Nat) (gs : List Nat) : Prop :=
  m.positions.length = 4 * F ∧ m.normals.length = 4 * F ∧ m.uvs.length = 4 * F
    ∧ m.indices.length = 6 * F
    ∧ (∃ L, L.length = F ∧ IndexBlocks m.indices L)
    ∧ m.groups.map (fun g => g.count) = gs.map (fun n => 6 * n)
    ∧ Tiles m.groups 0 0 m.indices.length
    ∧ m.materials.length = m.groups.length
    ∧ gs.sum = F

/-! ## Progress of the correction loop -/

/-- The leading face of the box `bb` for the branch of `correctCollision`
that the direction `d` selects, with the sign turned so that a correction
lowers the value: `max.x` for a move towards `+x`, `-min.x` for a move
towards `-x`, likewise for `y`, and for `z` when `d.x` and `d.y` are zero. -/
def frontOf (d : Vec3Q) (bb : Box3) : ℚ :=
  if d.x ≠ 0 then (if d.x > 0 then bb.max.x else -bb.min.x)
  else if d.y ≠ 0 then (if d.y > 0 then bb.max.y else -bb.min.y)
  else (if d.z > 0 then bb.max.z else -bb.min.z)

/-- The face of the block box `b` that `correctCollision` puts the player
in front of, with the same sign convention as `frontOf`. -/
def faceOf (d : Vec3Q) (b : Box3) : ℚ :=
  if d.x ≠ 0 then (if d.x > 0 then b.min.x else -b.max.x)
  else if d.y ≠ 0 then (if d.y > 0 then b.min.y else -b.max.y)
  else (if d.z > 0 then b.min.z else -b.max.z)

/-- The two position components that the branch of `correctCollision`
selected by `d` does not write. -/
def offAxis (d : Vec3Q) (v : Vec3Q) : ℚ × ℚ :=
  if d.x ≠ 0 then (v.y, v.z) else if d.y ≠ 0 then (v.x, v.z) else (v.x, v.y)

/-- The cells named by the block keys stored in the world. -/
def storedCells (chunks : World) : List (Int × Int × Int) :=
  chunks.flatMap (fun e => e.2.blocks.filterMap (fun kb =>
    match keyToArray kb.1 with
    | some x :: some y :: some z :: _ => some (x, y, z)
    | _ => none))

/-- The number of block entries stored in the world. -/
def blockCount (chunks : World) : Nat :=
  (chunks.map (fun e => e.2.blocks.length)).sum

/-- The number of stored cells whose block face has not been passed by the
leading face of the player box at `position`. -/
def aheadCount (chunks : World) (d : Vec3Q) (position : Vec3Q) : Nat :=
  ((storedCells chunks).filter (fun c =>
    decide (faceOf d (blockBox c.1 c.2.1 c.2.2) ≤ frontOf d (getPlayerBB position)))).length

/-- The position component along the axis that the branch of
`correctCollision` selected by `d` writes, with the sign convention of
`frontOf`. -/
def along (d : Vec3Q) (v : Vec3Q) : ℚ :=
  if d.x ≠ 0 then (if d.x > 0 then v.x else -v.x)
  else if d.y ≠ 0 then (if d.y > 0 then v.y else -v.y)
  else (if d.z > 0 then v.z else -v.z)

/-- `this.position.add(deltaPos)`, the first statement of `movePlayerAxis`. -/
def addPosition (p : Player) (deltaPos : Vec3Q) : Player :=
  { p with position :=
      { x := p.position.x + deltaPos.x, y := p.position.y + deltaPos.y,
        z := p.position.z + deltaPos.z } }

/-- The positions at which the loop of `movePlayerAxis` started at `p`
tests its condition, in order, within `fuel` tests. -/
def loopPositions (chunks : World) (deltaPos : Vec3Q) : Nat → Player → List Vec3Q
  | 0, _ => []
  | fuel + 1, p =>
    p.position ::
      match isPlayerColliding chunks p.position with
      | Except.ok (some blockBB) =>
        loopPositions chunks deltaPos fuel (correctCollision p deltaPos blockBB)
      | _ => []

/-- The block boxes that the loop of `movePlayerAxis` started at `p` passes
to `correctCollision`, in order, within `fuel` tests of its condition. -/
def correctedBoxes (chunks : World) (deltaPos : Vec3Q) : Nat → Player → List Box3
  | 0, _ => []
  | fuel + 1, p =>
    match isPlayerColliding chunks p.position with
    | Except.ok (some blockBB) =>
      blockBB :: correctedBoxes chunks deltaPos fuel (correctCollision p deltaPos blockBB)
    | _ => []
/-! # Theorems -/

/-! ## Number formatting and parsing -/

theorem digitChar_isDecDigit : ∀ d, d < 10 → IsDecDigit (digitChar d) := by decide

theorem digitChar_value : ∀ d, d < 10 → (digitChar d).toNat - 48 = d := by decide

theorem natDigitsAux_fuel (f1 : Nat) : ∀ (f2 n : Nat) (acc : List Char),
    n < f1 → n < f2 → natDigitsAux f1 n acc = natDigitsAux f2 n acc := by
  induction f1 with
  | zero => intro f2 n acc h; omega
  | succ f1 ih =>
    intro f2 n acc h1 h2
    cases f2 with
    | zero => omega
    | succ f2 =>
      simp only [natDigitsAux]
      split
      · rfl
      · exact ih f2 (n / 10) _ (by omega) (by omega)

theorem natDigitsAux_acc (fuel : Nat) : ∀ (n : Nat) (acc : List Char),
    natDigitsAux fuel n acc = natDigitsAux fuel n [] ++ acc := by
  induction fuel with
  | zero => intro n acc; simp [natDigitsAux]
  | succ fuel ih =>
    intro n acc
    simp only [natDigitsAux]
    split
    · simp
    · rw [ih (n / 10) (digitChar (n % 10) :: acc), ih (n / 10) [digitChar (n % 10)]]
      simp

theorem natToString_small (n : Nat) (h : n < 10) : natToString n = [digitChar n] := by
  simp [natToString, natDigitsAux, h]

theorem natToString_large (n : Nat) (h : ¬ n < 10) :
    natToString n = natToString (n / 10) ++ [digitChar (n % 10)] := by
  have h1 : natToString n = natDigitsAux n (n / 10) [digitChar (n % 10)] := by
    simp [natToString, natDigitsAux, h]
  rw [h1, natDigitsAux_acc, natToString,
    natDigitsAux_fuel n (n / 10 + 1) (n / 10) [] (by omega) (by omega)]

theorem natToString_digits (n : Nat) : ∀ c ∈ natToString n, IsDecDigit c := by
  induction n using Nat.strong_induction_on with
  | _ n ih =>
    by_cases h : n < 10
    · rw [natToString_small n h]
      intro c hc
      simp only [List.mem_singleton] at hc
      subst hc
      exact digitChar_isDecDigit n h
    · rw [natToString_large n h]
      intro c hc
      rcases List.mem_append.mp hc with hc | hc
      · exact ih (n / 10) (by omega) c hc
      · simp only [List.mem_singleton] at hc
        subst hc
        exact digitChar_isDecDigit _ (by omega)

theorem natToString_ne_nil (n : Nat) : natToString n ≠ [] := by
  by_cases h : n < 10
  · rw [natToString_small n h]; simp
  · rw [natToString_large n h]; simp

theorem digitsVal_natToString (n : Nat) : digitsVal 0 (natToString n) = n := by
  induction n using Nat.strong_induction_on with
  | _ n ih =>
    by_cases h : n < 10
    · rw [natToString_small n h]
      simp [digitsVal, digitChar_value n h]
    · rw [natToString_large n h]
      have := ih (n / 10) (by omega)
      simp only [digitsVal, List.foldl_append, List.foldl_cons, List.foldl_nil] at this ⊢
      rw [this, digitChar_value _ (by omega)]
      omega


theorem readDigits_dec (ds : List Char) : ∀ (acc : Nat) (seen : Bool) (rest : List Char),
    (∀ c ∈ ds, IsDecDigit c) → (∀ c, rest.head? = some c → ¬ IsDecDigit c) →
    readDigits decDigitValue 10 acc seen (ds ++ rest)
      = (digitsVal acc ds, seen || !ds.isEmpty) := by
  induction ds with
  | nil =>
    intro acc seen rest _ hrest
    cases rest with
    | nil => simp [readDigits, digitsVal]
    | cons c cs =>
      have hc : ¬ IsDecDigit c := hrest c rfl
      have : decDigitValue c = none := by
        unfold decDigitValue; rw [if_neg]; exact hc
      simp [readDigits, digitsVal, this]
  | cons d ds ih =>
    intro acc seen rest hds hrest
    have hd : IsDecDigit d := hds d (List.mem_cons_self _ _)
    have : decDigitValue d = some (d.toNat - 48) := by
      unfold decDigitValue; rw [if_pos]; exact hd
    simp only [List.cons_append, readDigits, this]
    refine (ih _ _ rest (fun c hc => hds c (List.mem_cons_of_mem _ hc)) hrest).trans ?_
    simp [digitsVal]

theorem isJSSpace_digit (c : Char) (hc : IsDecDigit c) : isJSSpace c = false := by
  have h48 : 48 ≤ c.toNat := by
    have := hc.1
    exact this
  have e1 : c ≠ ' ' := by rintro rfl; exact absurd hc (by decide)
  have e2 : c ≠ '\t' := by rintro rfl; exact absurd hc (by decide)
  have e3 : c ≠ '\n' := by rintro rfl; exact absurd hc (by decide)
  have e4 : c ≠ '\r' := by rintro rfl; exact absurd hc (by decide)
  have e5 : c.toNat ≠ 11 := by omega
  have e6 : c.toNat ≠ 12 := by omega
  simp [isJSSpace, e1, e2, e3, e4, e5, e6]

theorem readSign_digit (c : Char) (cs : List Char) (hc : IsDecDigit c) :
    readSign (c :: cs) = (false, c :: cs) := by
  have hminus : c ≠ '-' := by
    rintro rfl; exact absurd hc (by decide)
  have hplus : c ≠ '+' := by
    rintro rfl; exact absurd hc (by decide)
  unfold readSign
  split
  · simp_all
  · simp_all
  · rfl

theorem readMagnitude_digits (ds : List Char) (hds : ∀ c ∈ ds, IsDecDigit c) :
    readMagnitude ds = readDigits decDigitValue 10 0 false ds := by
  unfold readMagnitude
  split
  · exact absurd (hds 'x' (by simp)) (by decide)
  · exact absurd (hds 'X' (by simp)) (by decide)
  · rfl

theorem parseInt_digits (ds : List Char) (hne : ds ≠ []) (hds : ∀ c ∈ ds, IsDecDigit c) :
    parseInt ds = some (digitsVal 0 ds : Int)
      ∧ parseInt ('-' :: ds) = some (- (digitsVal 0 ds : Int)) := by
  have hread : readDigits decDigitValue 10 0 false ds = (digitsVal 0 ds, true) := by
    have := readDigits_dec ds 0 false [] hds (by simp)
    simp only [List.append_nil] at this
    rw [this]
    cases ds with
    | nil => exact absurd rfl hne
    | cons => simp
  constructor
  · cases ds with
    | nil => exact absurd rfl hne
    | cons c cs =>
      have hc : IsDecDigit c := hds c (List.mem_cons_self _ _)
      unfold parseInt
      simp only [List.dropWhile, isJSSpace_digit c hc, readSign_digit c cs hc,
        readMagnitude_digits _ hds, hread]
      simp
  · unfold parseInt
    have hsp : isJSSpace '-' = false := by decide
    simp only [List.dropWhile, hsp, readSign, readMagnitude_digits _ hds, hread]
    simp

theorem parseInt_numToString (n : Int) : parseInt (numToString n) = some n := by
  have h := parseInt_digits (natToString n.natAbs) (natToString_ne_nil _)
    (natToString_digits _)
  rw [digitsVal_natToString] at h
  unfold numToString
  split
  · rw [h.2]; congr 1; omega
  · rw [h.1]; congr 1; omega

/-! ## Splitting keys -/

theorem numToString_no_comma (n : Int) : ',' ∉ numToString n := by
  intro h
  have hd : ∀ c ∈ natToString n.natAbs, IsDecDigit c := natToString_digits _
  unfold numToString at h
  split at h
  · rcases List.mem_cons.mp h with h | h
    · exact absurd h (by decide)
    · exact absurd (hd _ h) (by decide)
  · exact absurd (hd _ h) (by decide)

theorem splitComma_ne_nil (s : List Char) : splitComma s ≠ [] := by
  cases s with
  | nil => simp [splitComma]
  | cons c cs =>
    unfold splitComma
    split
    · simp
    · split <;> simp

theorem splitComma_single (a : List Char) (ha : ',' ∉ a) : splitComma a = [a] := by
  induction a with
  | nil => rfl
  | cons c cs ih =>
    have hc : c ≠ ',' := fun h => ha (h ▸ List.mem_cons_self _ _)
    have hcs : ',' ∉ cs := fun h => ha (List.mem_cons_of_mem _ h)
    simp [splitComma, hc, ih hcs]

theorem splitComma_append (a b : List Char) (ha : ',' ∉ a) :
    splitComma (a ++ ',' :: b) = a :: splitComma b := by
  induction a with
  | nil => simp [splitComma]
  | cons c cs ih =>
    have hc : c ≠ ',' := fun h => ha (h ▸ List.mem_cons_self _ _)
    have hcs : ',' ∉ cs := fun h => ha (List.mem_cons_of_mem _ h)
    simp [splitComma, hc, ih hcs]

theorem keyToArray_key (x y z : Int) : keyToArray (key x y z) = [some x, some y, some z] := by
  unfold keyToArray key
  rw [splitComma_append _ _ (numToString_no_comma x),
    splitComma_append _ _ (numToString_no_comma y),
    splitComma_single _ (numToString_no_comma z)]
  simp [parseInt_numToString]

theorem keyToArray_chunkKey (cx cz : Int) : keyToArray (chunkKey cx cz) = [some cx, some cz] := by
  unfold keyToArray chunkKey
  rw [splitComma_append _ _ (numToString_no_comma cx),
    splitComma_single _ (numToString_no_comma cz)]
  simp [parseInt_numToString]

theorem key_inj {x y z x2 y2 z2 : Int} (h : key x y z = key x2 y2 z2) :
    x = x2 ∧ y = y2 ∧ z = z2 := by
  have e := congrArg keyToArray h
  simpa [keyToArray_key] using e

theorem chunkKey_inj {cx cz cx2 cz2 : Int} (h : chunkKey cx cz = chunkKey cx2 cz2) :
    cx = cx2 ∧ cz = cz2 := by
  have e := congrArg keyToArray h
  simpa [keyToArray_chunkKey] using e

/-- C2: `keyToArray` inverts `key` and `chunkKey` on all integers (negative
components included), hence both key functions are injective. -/
theorem key_roundtrip_and_injective :
    (∀ x y z : Int, keyToArray (key x y z) = [some x, some y, some z])
    ∧ (∀ cx cz : Int, keyToArray (chunkKey cx cz) = [some cx, some cz])
    ∧ (∀ x y z x2 y2 z2 : Int, key x y z = key x2 y2 z2 → x = x2 ∧ y = y2 ∧ z = z2)
    ∧ (∀ cx cz cx2 cz2 : Int, chunkKey cx cz = chunkKey cx2 cz2 → cx = cx2 ∧ cz = cz2) :=
  ⟨keyToArray_key, keyToArray_chunkKey, fun _ _ _ _ _ _ h => key_inj h,
    fun _ _ _ _ h => chunkKey_inj h⟩

/-- C2 at concrete keys: `"5,-10,0"` and `"-1,3"` are read back, and equal
keys have equal components. -/
theorem key_roundtrip_and_injective_witness :
    keyToArray (key 5 (-10) 0) = [some 5, some (-10), some 0]
    ∧ keyToArray (chunkKey (-1) 3) = [some (-1), some 3]
    ∧ ((5 : Int) = 5 ∧ (-10 : Int) = -10 ∧ (0 : Int) = 0) :=
  ⟨key_roundtrip_and_injective.1 5 (-10) 0, key_roundtrip_and_injective.2.1 (-1) 3,
    key_roundtrip_and_injective.2.2.1 5 (-10) 0 5 (-10) 0 rfl⟩

/-! ## Chunk coordinates -/

theorem fdiv_chunk (x : Int) : Int.fdiv x CHUNK_SIZE = x / 16 := by
  unfold CHUNK_SIZE
  rw [Int.fdiv_eq_ediv x (by decide : (0 : Int) ≤ 16)]

theorem fdiv_chunk_floor (x : Int) : Int.fdiv x CHUNK_SIZE = ⌊(x : ℚ) / 16⌋ := by
  rw [fdiv_chunk]
  have := Rat.floor_intCast_div_natCast x 16
  simpa using this.symm

/-- C10: `blockChunkKey` is the chunk key of the floored quotients; the local
offset is in `[0, 15]`; world `x = -1` lies in chunk `-1` at offset `15`
(truncation would give chunk `0`). -/
theorem blockChunkKey_floor (x z : Int) :
    blockChunkKey x z = chunkKey ⌊(x : ℚ) / 16⌋ ⌊(z : ℚ) / 16⌋
    ∧ (0 ≤ x - 16 * ⌊(x : ℚ) / 16⌋ ∧ x - 16 * ⌊(x : ℚ) / 16⌋ ≤ 15)
    ∧ (0 ≤ z - 16 * ⌊(z : ℚ) / 16⌋ ∧ z - 16 * ⌊(z : ℚ) / 16⌋ ≤ 15)
    ∧ blockChunkKey (-1) z = chunkKey (-1) ⌊(z : ℚ) / 16⌋
    ∧ (-1 : Int) - 16 * ⌊((-1 : Int) : ℚ) / 16⌋ = 15
    ∧ Int.tdiv (-1) 16 = 0 := by
  have hx := fdiv_chunk_floor x
  have hz := fdiv_chunk_floor z
  have hm := fdiv_chunk_floor (-1)
  have hxe := fdiv_chunk x
  have hze := fdiv_chunk z
  have hme := fdiv_chunk (-1)
  refine ⟨?_, ?_, ?_, ?_, ?_, by decide⟩
  · simp only [blockChunkKey, hx, hz]
  · rw [← hx, hxe]; omega
  · rw [← hz, hze]; omega
  · simp only [blockChunkKey, hz]
    rw [hme]; rfl
  · rw [← hm, hme]; decide

/-! ## Dictionary objects -/

theorem objGet_objSet_same {α : Type} (o : Obj α) (k : JSString) (v : α) :
    objGet (objSet o k v) k = some v := by
  induction o with
  | nil => simp [objSet, objGet]
  | cons e rest ih =>
    obtain ⟨k1, v1⟩ := e
    by_cases h : k1 = k
    · simp [objSet, objGet, h]
    · simp [objSet, objGet, h, ih]

theorem objGet_objSet_other {α : Type} (o : Obj α) (k k2 : JSString) (v : α) (h : k ≠ k2) :
    objGet (objSet o k v) k2 = objGet o k2 := by
  induction o with
  | nil => simp [objSet, objGet, h]
  | cons e rest ih =>
    obtain ⟨k1, v1⟩ := e
    by_cases h1 : k1 = k
    · subst h1
      simp [objSet, objGet, h]
    · by_cases h2 : k1 = k2
      · subst h2
        simp [objSet, objGet, h1]
      · simp [objSet, objGet, h1, h2, ih]

theorem objGet_objDelete_same {α : Type} (o : Obj α) (k : JSString) :
    objGet (objDelete o k) k = none := by
  induction o with
  | nil => rfl
  | cons e rest ih =>
    obtain ⟨k1, v1⟩ := e
    by_cases h : k1 = k
    · simp [objDelete, h, ih]
    · simp [objDelete, h, objGet, ih]

theorem objGet_objDelete_other {α : Type} (o : Obj α) (k k2 : JSString) (h : k ≠ k2) :
    objGet (objDelete o k) k2 = objGet o k2 := by
  induction o with
  | nil => rfl
  | cons e rest ih =>
    obtain ⟨k1, v1⟩ := e
    by_cases h1 : k1 = k
    · subst h1
      simp [objDelete, objGet, h, ih]
    · by_cases h2 : k1 = k2
      · subst h2
        simp [objDelete, objGet, h1]
      · simp [objDelete, objGet, h1, h2, ih]

/-- Overwriting the value of a present key with itself changes nothing. -/
theorem objSet_self {α : Type} (o : Obj α) (k : JSString) (v : α) (h : objGet o k = some v) :
    objSet o k v = o := by
  induction o with
  | nil => simp [objGet] at h
  | cons e rest ih =>
    obtain ⟨k1, v1⟩ := e
    by_cases h1 : k1 = k
    · subst h1
      simp [objGet] at h
      simp [objSet, h]
    · simp [objGet, h1] at h
      simp [objSet, h1, ih h]

theorem objSet_absent {α : Type} (o : Obj α) (k : JSString) (v : α) (h : objGet o k = none) :
    objSet o k v = o ++ [(k, v)] := by
  induction o with
  | nil => rfl
  | cons e rest ih =>
    obtain ⟨k1, v1⟩ := e
    by_cases h1 : k1 = k
    · simp [objGet, h1] at h
    · simp [objGet, h1] at h
      simp [objSet, h1, ih h]

/-! ## Chunk store: `placeBlock`, `removeBlock`, `isBlockAt` -/

theorem key_ne {x y z x2 y2 z2 : Int} (h : (x2, y2, z2) ≠ (x, y, z)) :
    key x y z ≠ key x2 y2 z2 := by
  intro e
  obtain ⟨h1, h2, h3⟩ := key_inj e
  exact h (by rw [h1, h2, h3])

theorem placeBlock_occupied (chunks : World) (id x y z : Int) (b : Block)
    (h : blockAt chunks x y z = some b) :
    placeBlock chunks id x y z = (false, chunks) := by
  unfold blockAt at h
  unfold placeBlock
  cases hc : getBlockChunk chunks x z with
  | none => simp [hc] at h
  | some c =>
    simp only [hc, Option.bind] at h
    simp [h]

/-- The world `placeBlock` leaves behind when the cell was free. -/
theorem placeBlock_free (chunks : World) (id x y z : Int)
    (h : blockAt chunks x y z = none) :
    ∃ c0 w1, placeBlock chunks id x y z
        = (true, objSet w1 (blockChunkKey x z)
            { c0 with blocks := objSet c0.blocks (key x y z) { id := id } })
      ∧ objGet c0.blocks (key x y z) = none
      ∧ ((getBlockChunk chunks x z = some c0 ∧ w1 = chunks)
          ∨ (getBlockChunk chunks x z = none ∧ c0 = emptyChunk
              ∧ w1 = objSet chunks (blockChunkKey x z) emptyChunk)) := by
  unfold blockAt at h
  unfold placeBlock
  cases hc : getBlockChunk chunks x z with
  | none =>
    refine ⟨emptyChunk, objSet chunks (blockChunkKey x z) emptyChunk, ?_, rfl, Or.inr ⟨rfl, rfl, rfl⟩⟩
    simp [emptyChunk, objGet]
  | some c =>
    simp only [hc, Option.bind] at h
    exact ⟨c, chunks, by simp [h], h, Or.inl ⟨rfl, rfl⟩⟩

/-- C3: `placeBlock` on an occupied cell returns `false` and leaves the whole
world as it was; on a free cell it returns `true`, the cell then holds a block
with the given id, the owning chunk exists (a chunk that had to be created
holds just this block, with `loaded = false`, `generated = false` and no
mesh; an existing chunk keeps its flags), every other chunk is untouched, and
the block at every other coordinate is unchanged. -/
theorem placeBlock_spec (chunks : World) (id x y z : Int) :
    (∀ b, blockAt chunks x y z = some b →
        placeBlock chunks id x y z = (false, chunks))
    ∧ (blockAt chunks x y z = none →
        (placeBlock chunks id x y z).1 = true
        ∧ isBlockAt (placeBlock chunks id x y z).2 x y z = Except.ok true
        ∧ blockAt (placeBlock chunks id x y z).2 x y z = some { id := id }
        ∧ (∃ c, getBlockChunk (placeBlock chunks id x y z).2 x z = some c
            ∧ (getBlockChunk chunks x z = none →
                c.blocks = [(key x y z, { id := id })] ∧ c.loaded = false
                  ∧ c.generated = false ∧ c.mesh = none)
            ∧ (∀ c0, getBlockChunk chunks x z = some c0 →
                c.loaded = c0.loaded ∧ c.generated = c0.generated ∧ c.mesh = c0.mesh))
        ∧ (∀ ck, ck ≠ blockChunkKey x z →
            objGet (placeBlock chunks id x y z).2 ck = objGet chunks ck)
        ∧ (∀ x2 y2 z2, (x2, y2, z2) ≠ (x, y, z) →
            blockAt (placeBlock chunks id x y z).2 x2 y2 z2 = blockAt chunks x2 y2 z2)) := by
  refine ⟨fun b h => placeBlock_occupied chunks id x y z b h, fun h => ?_⟩
  obtain ⟨c0, w1, hp, hfree, hcase⟩ := placeBlock_free chunks id x y z h
  rw [hp]
  have hget : objGet (objSet w1 (blockChunkKey x z)
      { c0 with blocks := objSet c0.blocks (key x y z) { id := id } }) (blockChunkKey x z)
      = some { c0 with blocks := objSet c0.blocks (key x y z) { id := id } } :=
    objGet_objSet_same _ _ _
  have hother : ∀ ck, ck ≠ blockChunkKey x z →
      objGet (objSet w1 (blockChunkKey x z)
        { c0 with blocks := objSet c0.blocks (key x y z) { id := id } }) ck
        = objGet chunks ck := by
    intro ck hck
    rw [objGet_objSet_other _ _ _ _ (Ne.symm hck)]
    rcases hcase with ⟨_, hw⟩ | ⟨_, _, hw⟩
    · rw [hw]
    · rw [hw, objGet_objSet_other _ _ _ _ (Ne.symm hck)]
  refine ⟨rfl, ?_, ?_, ?_, hother, ?_⟩
  · simp [isBlockAt, getBlockChunk, hget, objGet_objSet_same]
  · simp [blockAt, getBlockChunk, hget, objGet_objSet_same]
  · refine ⟨_, hget, ?_, ?_⟩
    · intro hnone
      rcases hcase with ⟨hsome, _⟩ | ⟨_, hc0, _⟩
      · rw [hsome] at hnone; cases hnone
      · subst hc0
        simp [emptyChunk, objSet]
    · intro c1 hc1
      rcases hcase with ⟨hsome, _⟩ | ⟨hnone, _, _⟩
      · rw [hsome] at hc1
        cases hc1
        exact ⟨rfl, rfl, rfl⟩
      · rw [hnone] at hc1; cases hc1
  · intro x2 y2 z2 hne
    have hk : key x y z ≠ key x2 y2 z2 := key_ne hne
    by_cases hck : blockChunkKey x2 z2 = blockChunkKey x z
    · simp only [blockAt, getBlockChunk, hck, hget, Option.bind]
      rw [objGet_objSet_other _ _ _ _ hk]
      rcases hcase with ⟨hsome, _⟩ | ⟨hnone, hc0, _⟩
      · simp only [getBlockChunk] at hsome
        rw [hsome]
      · simp only [getBlockChunk] at hnone
        rw [hnone, hc0]
        rfl
    · simp only [blockAt, getBlockChunk]
      rw [hother _ hck]

/-- C3, the scenario of the specification: in the empty world a grass block
placed at `(5, 10, 5)` is found there, and `(5, 11, 5)` stays empty. -/
theorem placeBlock_spec_witness :
    blockAt [] 5 10 5 = none
    ∧ (placeBlock [] 0 5 10 5).1 = true
    ∧ isBlockAt (placeBlock [] 0 5 10 5).2 5 10 5 = Except.ok true
    ∧ isBlockAt (placeBlock [] 0 5 10 5).2 5 11 5 = Except.ok false
    ∧ blockAt (placeBlock [] 0 5 10 5).2 5 11 5 = blockAt [] 5 11 5 :=
  ⟨by decide, ((placeBlock_spec [] 0 5 10 5).2 (by decide)).1,
    ((placeBlock_spec [] 0 5 10 5).2 (by decide)).2.1, by decide,
    ((placeBlock_spec [] 0 5 10 5).2 (by decide)).2.2.2.2.2 5 11 5 (by decide)⟩

theorem chunkFlags_objSet (w : World) (ck : JSString) (c c2 : Chunk)
    (h : objGet w ck = some c) (hl : c2.loaded = c.loaded) (hg : c2.generated = c.generated) :
    chunkFlags (objSet w ck c2) = chunkFlags w := by
  induction w with
  | nil => simp [objGet] at h
  | cons e rest ih =>
    obtain ⟨k1, v1⟩ := e
    by_cases h1 : k1 = ck
    · subst h1
      simp [objGet] at h
      subst h
      simp [objSet, chunkFlags, hl, hg]
    · simp [objGet, h1] at h
      have := ih h
      simp only [chunkFlags] at this
      simp [objSet, h1, chunkFlags, this]

/-- C4: removing a block that is present returns `true`; afterwards the cell
is empty, the block at every other coordinate is unchanged, every other
chunk is untouched, and the chunk map lists the same chunks with the same
`loaded` and `generated` flags. -/
theorem removeBlock_present (chunks : World) (x y z : Int) (b : Block)
    (h : blockAt chunks x y z = some b) :
    (removeBlock chunks x y z).1 = true
    ∧ blockAt (removeBlock chunks x y z).2 x y z = none
    ∧ isBlockAt (removeBlock chunks x y z).2 x y z = Except.ok false
    ∧ (∀ x2 y2 z2, (x2, y2, z2) ≠ (x, y, z) →
        blockAt (removeBlock chunks x y z).2 x2 y2 z2 = blockAt chunks x2 y2 z2)
    ∧ (∀ ck, ck ≠ blockChunkKey x z →
        objGet (removeBlock chunks x y z).2 ck = objGet chunks ck)
    ∧ chunkFlags (removeBlock chunks x y z).2 = chunkFlags chunks := by
  unfold blockAt at h
  cases hc : getBlockChunk chunks x z with
  | none => simp [hc] at h
  | some c =>
    simp only [hc, Option.bind] at h
    have hr : removeBlock chunks x y z
        = (true, objSet chunks (blockChunkKey x z)
            { c with blocks := objDelete c.blocks (key x y z) }) := by
      unfold removeBlock
      simp [hc, h]
    rw [hr]
    have hget : objGet (objSet chunks (blockChunkKey x z)
        { c with blocks := objDelete c.blocks (key x y z) }) (blockChunkKey x z)
        = some { c with blocks := objDelete c.blocks (key x y z) } :=
      objGet_objSet_same _ _ _
    refine ⟨rfl, ?_, ?_, ?_, ?_, ?_⟩
    · simp [blockAt, getBlockChunk, hget, objGet_objDelete_same]
    · simp [isBlockAt, getBlockChunk, hget, objGet_objDelete_same]
    · intro x2 y2 z2 hne
      have hk : key x y z ≠ key x2 y2 z2 := key_ne hne
      by_cases hck : blockChunkKey x2 z2 = blockChunkKey x z
      · simp only [blockAt, getBlockChunk, hck, hget, Option.bind]
        rw [objGet_objDelete_other _ _ _ hk]
        simp only [getBlockChunk] at hc
        rw [hc]
      · simp only [blockAt, getBlockChunk]
        rw [objGet_objSet_other _ _ _ _ (Ne.symm hck)]
    · intro ck hck
      exact objGet_objSet_other _ _ _ _ (Ne.symm hck)
    · exact chunkFlags_objSet chunks _ c _ hc rfl rfl

/-- C4 at a concrete world: one chunk holding a block at `(5, 10, 5)`. -/
theorem removeBlock_present_witness :
    blockAt (placeBlock [] 2 5 10 5).2 5 10 5 = some { id := 2 }
    ∧ (removeBlock (placeBlock [] 2 5 10 5).2 5 10 5).1 = true
    ∧ blockAt (removeBlock (placeBlock [] 2 5 10 5).2 5 10 5).2 5 10 5 = none :=
  ⟨by decide,
    (removeBlock_present (placeBlock [] 2 5 10 5).2 5 10 5 { id := 2 } (by decide)).1,
    (removeBlock_present (placeBlock [] 2 5 10 5).2 5 10 5 { id := 2 } (by decide)).2.1⟩

/-- C5, as stated, fails: in the empty world no block is present at
`(0, 0, 0)`, yet `removeBlock(0, 0, 0)` leaves a world that is no longer
empty, because it has created the owning chunk `"0,0"`. -/
theorem removeBlock_absent_creates_chunk :
    blockAt [] 0 0 0 = none
    ∧ removeBlock [] 0 0 0 = (false, [(chunkKey 0 0, emptyChunk)])
    ∧ (removeBlock [] 0 0 0).2 ≠ [] := by
  decide

/-- C5, amended: removing where no block is present returns `false` and
changes no block; the world is left identical when the owning chunk exists,
and otherwise gains exactly one chunk, the owning one, created empty with
`loaded = false` and `generated = false`, after the existing chunks. -/
theorem removeBlock_absent (chunks : World) (x y z : Int)
    (h : blockAt chunks x y z = none) :
    (removeBlock chunks x y z).1 = false
    ∧ (∀ c, getBlockChunk chunks x z = some c → (removeBlock chunks x y z).2 = chunks)
    ∧ (getBlockChunk chunks x z = none →
        (removeBlock chunks x y z).2 = chunks ++ [(blockChunkKey x z, emptyChunk)])
    ∧ (∀ x2 y2 z2, blockAt (removeBlock chunks x y z).2 x2 y2 z2 = blockAt chunks x2 y2 z2) := by
  unfold blockAt at h
  cases hc : getBlockChunk chunks x z with
  | some c =>
    simp only [hc, Option.bind] at h
    have hr : removeBlock chunks x y z = (false, chunks) := by
      unfold removeBlock
      simp [hc, h]
    rw [hr]
    exact ⟨rfl, fun _ _ => rfl, fun hn => (by cases hn), fun _ _ _ => rfl⟩
  | none =>
    have hr : removeBlock chunks x y z
        = (false, objSet chunks (blockChunkKey x z) emptyChunk) := by
      unfold removeBlock
      simp [hc, emptyChunk, objGet]
    rw [hr]
    refine ⟨rfl, fun c hn => (by cases hn), fun _ => ?_, ?_⟩
    · exact objSet_absent _ _ _ hc
    · intro x2 y2 z2
      by_cases hck : blockChunkKey x2 z2 = blockChunkKey x z
      · simp only [getBlockChunk] at hc
        simp [blockAt, getBlockChunk, hck, objGet_objSet_same, hc, emptyChunk, objGet]
      · simp only [blockAt, getBlockChunk]
        rw [objGet_objSet_other _ _ _ _ (Ne.symm hck)]

/-- C5 amended, at the empty world and at a world where the owning chunk
exists. -/
theorem removeBlock_absent_witness :
    (removeBlock [] 0 0 0).1 = false
    ∧ (removeBlock [] 0 0 0).2 = [] ++ [(blockChunkKey 0 0, emptyChunk)]
    ∧ (removeBlock (placeBlock [] 2 5 10 5).2 5 11 5).2 = (placeBlock [] 2 5 10 5).2 :=
  ⟨(removeBlock_absent [] 0 0 0 (by decide)).1,
    (removeBlock_absent [] 0 0 0 (by decide)).2.2.1 (by decide),
    (removeBlock_absent (placeBlock [] 2 5 10 5).2 5 11 5 (by decide)).2.1
      { emptyChunk with blocks := [(key 5 10 5, { id := 2 })] } (by decide)⟩

/-- C6: in a world where the owning chunk of `(0, 0, 0)` has not been
created, `isBlockAt(0, 0, 0)` throws instead of answering `false`; the
sibling operations `placeBlock` and `removeBlock` guard the same lookup. -/
theorem isBlockAt_missing_chunk_throws :
    getBlockChunk [] 0 0 = none
    ∧ isBlockAt [] 0 0 0 = Except.error Err.typeError
    ∧ isBlockAt [] 0 0 0 ≠ Except.ok false
    ∧ (removeBlock [] 0 0 0).1 = false := by
  decide

/-! ## Mesher: reading faces back from the buffers -/

theorem quadsOf_flat (Q : List (List (Int × Int × Int) × (Int × Int × Int)))
    (h4 : ∀ q ∈ Q, q.1.length = 4) :
    quadsOf (quadPositions Q) (quadNormals Q) = Q := by
  induction Q with
  | nil => simp [quadsOf, quadPositions, quadNormals]
  | cons q Q ih =>
    obtain ⟨vs, n⟩ := q
    have hl : vs.length = 4 := h4 (vs, n) (List.mem_cons_self _ _)
    have ih2 := ih (fun q hq => h4 q (List.mem_cons_of_mem _ hq))
    match vs, hl with
    | [a, b, c, d], _ =>
      show quadsOf (a :: b :: c :: d :: quadPositions Q) (n :: n :: n :: n :: quadNormals Q) = _
      rw [quadsOf, ih2]

theorem meshFaces_whole (m : Mesh) (Q : List (List (Int × Int × Int) × (Int × Int × Int)))
    (h : MeshWhole m Q) : meshFaces m = Q := by
  obtain ⟨h4, hp, hn⟩ := h
  unfold meshFaces
  rw [hp, hn, quadsOf_flat Q h4]

theorem meshWhole_empty : MeshWhole emptyMesh [] := by
  simp [MeshWhole, emptyMesh, quadPositions, quadNormals]

theorem quadPositions_append (Q R : List (List (Int × Int × Int) × (Int × Int × Int))) :
    quadPositions (Q ++ R) = quadPositions Q ++ quadPositions R := by
  induction Q with
  | nil => rfl
  | cons q Q ih => simp [quadPositions, ih]

theorem quadNormals_append (Q R : List (List (Int × Int × Int) × (Int × Int × Int))) :
    quadNormals (Q ++ R) = quadNormals Q ++ quadNormals R := by
  induction Q with
  | nil => rfl
  | cons q Q ih => simp [quadNormals, ih]

theorem quadPositions_blockFace (fd : FaceData) (poss : List (Int × Int × Int)) :
    poss.flatMap (fun pos => fd.pos.map (fun vertex =>
        (vertex.1 + pos.1, vertex.2.1 + pos.2.1, vertex.2.2 + pos.2.2)))
      = quadPositions (poss.map (blockFace fd)) := by
  induction poss with
  | nil => rfl
  | cons p poss ih =>
    rw [List.flatMap_cons, ih]
    rfl

theorem quadNormals_blockFace (fd : FaceData) (h4 : fd.pos.length = 4)
    (poss : List (Int × Int × Int)) :
    List.replicate (fd.pos.length * poss.length) fd.normal
      = quadNormals (poss.map (blockFace fd)) := by
  rw [h4]
  induction poss with
  | nil => rfl
  | cons p poss ih =>
    have e : 4 * (p :: poss).length = 4 * poss.length + 4 := by
      simp only [List.length_cons]; omega
    rw [e]
    simp only [List.replicate_succ, List.map_cons, quadNormals]
    rw [ih]
    rfl

theorem addFaces_whole (m : Mesh) (Q : List (List (Int × Int × Int) × (Int × Int × Int)))
    (fd : FaceData) (poss : List (Int × Int × Int)) (mat : Option Material)
    (h4 : fd.pos.length = 4) (h : MeshWhole m Q) :
    MeshWhole (addFaces m fd poss mat) (Q ++ poss.map (blockFace fd)) := by
  obtain ⟨hq, hp, hn⟩ := h
  unfold addFaces
  split
  · rename_i h0
    have : poss = [] := List.length_eq_zero.mp h0
    subst this
    rw [List.map_nil, List.append_nil]
    exact ⟨hq, hp, hn⟩
  · refine ⟨?_, ?_, ?_⟩
    · intro q hqm
      rcases List.mem_append.mp hqm with hqm | hqm
      · exact hq q hqm
      · obtain ⟨p, _, rfl⟩ := List.mem_map.mp hqm
        simp [blockFace, h4]
    · simp only [quadPositions_append, hp, quadPositions_blockFace]
    · simp only [quadNormals_append, hn, quadNormals_blockFace fd h4]

theorem constructFaces_whole (acc : List (Int × FaceBuckets)) :
    ∀ (m m2 : Mesh) (Q : List (List (Int × Int × Int) × (Int × Int × Int))),
      MeshWhole m Q → constructFaces acc m = Except.ok m2 →
      MeshWhole m2 (Q ++ acc.flatMap entryFaces) := by
  induction acc with
  | nil =>
    intro m m2 Q h hc
    simp only [constructFaces, Except.ok.injEq] at hc
    subst hc
    simpa using h
  | cons e acc ih =>
    intro m m2 Q h hc
    obtain ⟨blockID, bf⟩ := e
    simp only [constructFaces] at hc
    cases hm : blockTypeMaterials blockID with
    | none => simp [hm] at hc
    | some mats =>
      simp only [hm] at hc
      have h5 := addFaces_whole m Q faces.xn bf.f5 (mats.get? 5).join rfl h
      have h3 := addFaces_whole _ _ faces.xp bf.f3 (mats.get? 3).join rfl h5
      have h1 := addFaces_whole _ _ faces.yn bf.f1 (mats.get? 1).join rfl h3
      have h0 := addFaces_whole _ _ faces.yp bf.f0 (mats.get? 0).join rfl h1
      have h2 := addFaces_whole _ _ faces.zn bf.f2 (mats.get? 2).join rfl h0
      have h4 := addFaces_whole _ _ faces.zp bf.f4 (mats.get? 4).join rfl h2
      have := ih _ m2 _ h4 hc
      simpa [entryFaces, List.flatMap_cons, List.append_assoc] using this

theorem constructFaces_total (acc : List (Int × FaceBuckets))
    (hids : ∀ e ∈ acc, 0 ≤ e.1 ∧ e.1 < 5) :
    ∀ m : Mesh, ∃ m2, constructFaces acc m = Except.ok m2 := by
  induction acc with
  | nil => intro m; exact ⟨m, rfl⟩
  | cons e acc ih =>
    intro m
    obtain ⟨blockID, bf⟩ := e
    have hid := hids (blockID, bf) (List.mem_cons_self _ _)
    have hm : ∃ mats, blockTypeMaterials blockID = some mats := by
      obtain ⟨h0, h5⟩ := hid
      simp only at h0 h5
      have : blockID = 0 ∨ blockID = 1 ∨ blockID = 2 ∨ blockID = 3 ∨ blockID = 4 := by omega
      rcases this with h | h | h | h | h <;> subst h <;> exact ⟨_, rfl⟩
    obtain ⟨mats, hm⟩ := hm
    simp only [constructFaces, hm]
    exact ih (fun e he => hids e (List.mem_cons_of_mem _ he)) _

theorem blockFace_mem_map (fd fd2 : FaceData) (hfd : fd ∈ faceTable) (hfd2 : fd2 ∈ faceTable)
    (p : Int × Int × Int) (ps : List (Int × Int × Int)) :
    blockFace fd p ∈ ps.map (blockFace fd2) ↔ fd.normal = fd2.normal ∧ p ∈ ps := by
  simp only [List.mem_map]
  constructor
  · rintro ⟨q, hq, he⟩
    have hn : fd2.normal = fd.normal := congrArg Prod.snd he
    have hpos := congrArg Prod.fst he
    refine ⟨hn.symm, ?_⟩
    have hqp : q = p := by
      obtain ⟨q1, q2, q3⟩ := q
      obtain ⟨p1, p2, p3⟩ := p
      simp only [faceTable, List.mem_cons, List.mem_singleton, List.not_mem_nil, or_false] at hfd hfd2
      rcases hfd with h | h | h | h | h | h <;> rcases hfd2 with h2 | h2 | h2 | h2 | h2 | h2 <;>
        subst h <;> subst h2 <;>
        simp [blockFace, faces.xn, faces.xp, faces.yn, faces.yp, faces.zn, faces.zp] at hn hpos ⊢ <;>
        omega
    rw [← hqp]; exact hq
  · rintro ⟨hn, hp⟩
    refine ⟨p, hp, ?_⟩
    simp only [faceTable, List.mem_cons, List.mem_singleton, List.not_mem_nil, or_false] at hfd hfd2
    rcases hfd with h | h | h | h | h | h <;> rcases hfd2 with h2 | h2 | h2 | h2 | h2 | h2 <;>
      subst h <;> subst h2 <;>
      first
        | rfl
        | (exfalso; revert hn; decide)

theorem blockFace_mem_entryFaces (fd : FaceData) (hfd : fd ∈ faceTable)
    (p : Int × Int × Int) (e : Int × FaceBuckets) :
    blockFace fd p ∈ entryFaces e ↔ p ∈ bucketFor e.2 fd.normal := by
  have hxn : faces.xn ∈ faceTable := by decide
  have hxp : faces.xp ∈ faceTable := by decide
  have hyn : faces.yn ∈ faceTable := by decide
  have hyp : faces.yp ∈ faceTable := by decide
  have hzn : faces.zn ∈ faceTable := by decide
  have hzp : faces.zp ∈ faceTable := by decide
  simp only [entryFaces, List.mem_append, blockFace_mem_map fd _ hfd hxn,
    blockFace_mem_map fd _ hfd hxp, blockFace_mem_map fd _ hfd hyn,
    blockFace_mem_map fd _ hfd hyp, blockFace_mem_map fd _ hfd hzn,
    blockFace_mem_map fd _ hfd hzp]
  simp only [faceTable, List.mem_cons, List.mem_singleton, List.not_mem_nil, or_false] at hfd
  rcases hfd with h | h | h | h | h | h <;> subst h <;>
    simp [bucketFor, faces.xn, faces.xp, faces.yn, faces.yp, faces.zn, faces.zp]

/-! ## Mesher: which faces are recorded -/

theorem pushBlockFaces_fields (blocks : Obj Block) (x y z : Int) (fb : FaceBuckets) :
    (pushBlockFaces blocks x y z fb).f5
        = fb.f5 ++ (if (objGet blocks (key (x - 1) y z)).isNone then [(x, y, z)] else [])
    ∧ (pushBlockFaces blocks x y z fb).f3
        = fb.f3 ++ (if (objGet blocks (key (x + 1) y z)).isNone then [(x, y, z)] else [])
    ∧ (pushBlockFaces blocks x y z fb).f1
        = fb.f1 ++ (if (objGet blocks (key x (y - 1) z)).isNone then [(x, y, z)] else [])
    ∧ (pushBlockFaces blocks x y z fb).f0
        = fb.f0 ++ (if (objGet blocks (key x (y + 1) z)).isNone then [(x, y, z)] else [])
    ∧ (pushBlockFaces blocks x y z fb).f2
        = fb.f2 ++ (if (objGet blocks (key x y (z - 1))).isNone then [(x, y, z)] else [])
    ∧ (pushBlockFaces blocks x y z fb).f4
        = fb.f4 ++ (if (objGet blocks (key x y (z + 1))).isNone then [(x, y, z)] else []) := by
  unfold pushBlockFaces
  generalize (objGet blocks (key (x - 1) y z)).isNone = c5
  generalize (objGet blocks (key (x + 1) y z)).isNone = c3
  generalize (objGet blocks (key x (y - 1) z)).isNone = c1
  generalize (objGet blocks (key x (y + 1) z)).isNone = c0
  generalize (objGet blocks (key x y (z - 1))).isNone = c2
  generalize (objGet blocks (key x y (z + 1))).isNone = c4
  cases c5 <;> cases c3 <;> cases c1 <;> cases c0 <;> cases c2 <;> cases c4 <;> simp

theorem pushBlockFaces_bucket (blocks : Obj Block) (x y z : Int) (fb : FaceBuckets)
    (fd : FaceData) (hfd : fd ∈ faceTable) :
    bucketFor (pushBlockFaces blocks x y z fb) fd.normal
      = bucketFor fb fd.normal
        ++ (if (objGet blocks (keyOf (neighbour (x, y, z) fd.normal))).isNone
            then [(x, y, z)] else []) := by
  obtain ⟨h5, h3, h1, h0, h2, h4⟩ := pushBlockFaces_fields blocks x y z fb
  have e1 : x + -1 = x - 1 := by omega
  have e2 : y + -1 = y - 1 := by omega
  have e3 : z + -1 = z - 1 := by omega
  simp only [faceTable, List.mem_cons, List.mem_singleton, List.not_mem_nil, or_false] at hfd
  rcases hfd with h | h | h | h | h | h <;> subst h
  · simpa [bucketFor, neighbour, keyOf, faces.xn, e1] using h5
  · simpa [bucketFor, neighbour, keyOf, faces.xp] using h3
  · simpa [bucketFor, neighbour, keyOf, faces.yn, e2] using h1
  · simpa [bucketFor, neighbour, keyOf, faces.yp] using h0
  · simpa [bucketFor, neighbour, keyOf, faces.zn, e3] using h2
  · simpa [bucketFor, neighbour, keyOf, faces.zp] using h4

theorem facesEnsure_mem (acc : List (Int × FaceBuckets)) (id : Int) (e : Int × FaceBuckets)
    (h : e ∈ facesEnsure acc id) : e ∈ acc ∨ e = (id, emptyBuckets) := by
  induction acc with
  | nil =>
    simp only [facesEnsure, List.mem_singleton] at h
    exact Or.inr h
  | cons a acc ih =>
    obtain ⟨id1, fb⟩ := a
    unfold facesEnsure at h
    split at h
    · exact Or.inl h
    · split at h
      · rcases List.mem_cons.mp h with h | h
        · exact Or.inr h
        · exact Or.inl h
      · rcases List.mem_cons.mp h with h | h
        · exact Or.inl (h ▸ List.mem_cons_self _ _)
        · rcases ih h with h | h
          · exact Or.inl (List.mem_cons_of_mem _ h)
          · exact Or.inr h

theorem facesEnsure_subset (acc : List (Int × FaceBuckets)) (id : Int) (e : Int × FaceBuckets)
    (h : e ∈ acc) : e ∈ facesEnsure acc id := by
  induction acc with
  | nil => cases h
  | cons a acc ih =>
    obtain ⟨id1, fb⟩ := a
    unfold facesEnsure
    split
    · exact h
    · split
      · exact List.mem_cons_of_mem _ h
      · rcases List.mem_cons.mp h with h | h
        · exact h ▸ List.mem_cons_self _ _
        · exact List.mem_cons_of_mem _ (ih h)

theorem facesEnsure_has (acc : List (Int × FaceBuckets)) (id : Int) :
    ∃ e ∈ facesEnsure acc id, e.1 = id := by
  induction acc with
  | nil => exact ⟨(id, emptyBuckets), by simp [facesEnsure], rfl⟩
  | cons a acc ih =>
    obtain ⟨id1, fb⟩ := a
    unfold facesEnsure
    split
    · rename_i h
      exact ⟨(id1, fb), List.mem_cons_self _ _, h⟩
    · split
      · exact ⟨(id, emptyBuckets), List.mem_cons_self _ _, rfl⟩
      · obtain ⟨e, he, hid⟩ := ih
        exact ⟨e, List.mem_cons_of_mem _ he, hid⟩

theorem bucketFor_empty (n : Int × Int × Int) : bucketFor emptyBuckets n = [] := by
  unfold bucketFor emptyBuckets
  split_ifs <;> rfl

theorem recorded_ensure (acc : List (Int × FaceBuckets)) (id : Int) (n p : Int × Int × Int) :
    Recorded (facesEnsure acc id) n p ↔ Recorded acc n p := by
  constructor
  · rintro ⟨e, he, hp⟩
    rcases facesEnsure_mem acc id e he with h | h
    · exact ⟨e, h, hp⟩
    · subst h
      rw [bucketFor_empty] at hp
      cases hp
  · rintro ⟨e, he, hp⟩
    exact ⟨e, facesEnsure_subset acc id e he, hp⟩

theorem recorded_modify (blocks : Obj Block) (acc : List (Int × FaceBuckets)) (id x y z : Int)
    (fd : FaceData) (hfd : fd ∈ faceTable) (p : Int × Int × Int) :
    Recorded (facesModify acc id (pushBlockFaces blocks x y z)) fd.normal p
      ↔ Recorded acc fd.normal p
        ∨ ((∃ e ∈ acc, e.1 = id) ∧ p = (x, y, z)
            ∧ objGet blocks (keyOf (neighbour (x, y, z) fd.normal)) = none) := by
  unfold Recorded facesModify
  constructor
  · rintro ⟨e, he, hp⟩
    obtain ⟨e0, he0, rfl⟩ := List.mem_map.mp he
    by_cases hid : e0.1 = id
    · simp only [hid, if_true] at hp
      rw [pushBlockFaces_bucket blocks x y z e0.2 fd hfd] at hp
      rcases List.mem_append.mp hp with hp | hp
      · exact Or.inl ⟨e0, he0, hp⟩
      · split at hp
        · rename_i hnone
          simp only [List.mem_singleton] at hp
          exact Or.inr ⟨⟨e0, he0, hid⟩, hp, Option.isNone_iff_eq_none.mp hnone⟩
        · cases hp
    · simp only [hid, if_false] at hp
      exact Or.inl ⟨e0, he0, hp⟩
  · rintro (⟨e, he, hp⟩ | ⟨⟨e, he, hid⟩, hp, hnone⟩)
    · refine ⟨_, List.mem_map.mpr ⟨e, he, rfl⟩, ?_⟩
      by_cases hid : e.1 = id
      · simp only [hid, if_true]
        rw [pushBlockFaces_bucket blocks x y z e.2 fd hfd]
        exact List.mem_append_left _ hp
      · simp only [hid, if_false]
        exact hp
    · refine ⟨_, List.mem_map.mpr ⟨e, he, rfl⟩, ?_⟩
      simp only [hid, if_true]
      rw [pushBlockFaces_bucket blocks x y z e.2 fd hfd]
      apply List.mem_append_right
      rw [hnone]
      simp [hp]

theorem facesModify_ids (acc : List (Int × FaceBuckets)) (id : Int)
    (f : FaceBuckets → FaceBuckets) (e : Int × FaceBuckets)
    (h : e ∈ facesModify acc id f) : ∃ e0 ∈ acc, e0.1 = e.1 := by
  obtain ⟨e0, he0, rfl⟩ := List.mem_map.mp h
  refine ⟨e0, he0, ?_⟩
  by_cases hid : e0.1 = id <;> simp [hid]

theorem collectFaces_spec (blocks : Obj Block) (rest : List (JSString × Block)) :
    ∀ acc : List (Int × FaceBuckets),
      (∀ e ∈ rest, ∃ x y z : Int, e.1 = key x y z) →
      ∃ acc2, collectFaces blocks rest acc = Except.ok acc2
        ∧ (∀ fd ∈ faceTable, ∀ p, Recorded acc2 fd.normal p ↔
            Recorded acc fd.normal p
              ∨ ((∃ e ∈ rest, e.1 = keyOf p)
                  ∧ objGet blocks (keyOf (neighbour p fd.normal)) = none))
        ∧ (∀ e ∈ acc2, (∃ e0 ∈ acc, e0.1 = e.1) ∨ ∃ e1 ∈ rest, e1.2.id = e.1) := by
  induction rest with
  | nil =>
    intro acc _
    refine ⟨acc, rfl, ?_, ?_⟩
    · intro fd _ p
      constructor
      · intro h
        exact Or.inl h
      · rintro (h | ⟨⟨e, he, _⟩, _⟩)
        · exact h
        · cases he
    · intro e he
      exact Or.inl ⟨e, he, rfl⟩
  | cons a rest ih =>
    intro acc hk
    obtain ⟨k, block⟩ := a
    obtain ⟨x, y, z, hkey⟩ := hk (k, block) (List.mem_cons_self _ _)
    simp only at hkey
    subst hkey
    obtain ⟨acc2, hc, hrec, hids⟩ :=
      ih (facesModify (facesEnsure acc block.id) block.id (pushBlockFaces blocks x y z))
        (fun e he => hk e (List.mem_cons_of_mem _ he))
    refine ⟨acc2, ?_, ?_, ?_⟩
    · simp only [collectFaces, keyToArray_key]
      exact hc
    · intro fd hfd p
      rw [hrec fd hfd p, recorded_modify blocks _ _ x y z fd hfd p, recorded_ensure]
      constructor
      · rintro ((h | ⟨_, hp, hnone⟩) | ⟨⟨e, he, hke⟩, hnone⟩)
        · exact Or.inl h
        · refine Or.inr ⟨⟨_, List.mem_cons_self _ _, ?_⟩, ?_⟩
          · rw [hp]; rfl
          · rw [hp]; exact hnone
        · exact Or.inr ⟨⟨e, List.mem_cons_of_mem _ he, hke⟩, hnone⟩
      · rintro (h | ⟨⟨e, he, hke⟩, hnone⟩)
        · exact Or.inl (Or.inl h)
        · rcases List.mem_cons.mp he with he | he
          · subst he
            simp only [keyOf] at hke
            obtain ⟨h1, h2, h3⟩ := key_inj hke
            have hp : p = (x, y, z) := by
              obtain ⟨p1, p2, p3⟩ := p
              simp only at h1 h2 h3
              rw [h1, h2, h3]
            refine Or.inl (Or.inr ⟨facesEnsure_has acc block.id, hp, ?_⟩)
            rw [← hp]; exact hnone
          · exact Or.inr ⟨⟨e, he, hke⟩, hnone⟩
    · intro e he
      rcases hids e he with ⟨e0, he0, hid0⟩ | ⟨e1, he1, hid1⟩
      · obtain ⟨e00, he00, hid00⟩ := facesModify_ids _ _ _ e0 he0
        rcases facesEnsure_mem acc block.id e00 he00 with h | h
        · exact Or.inl ⟨e00, h, by rw [hid00, hid0]⟩
        · refine Or.inr ⟨(key x y z, block), List.mem_cons_self _ _, ?_⟩
          rw [← hid0, ← hid00, h]
      · exact Or.inr ⟨e1, List.mem_cons_of_mem _ he1, hid1⟩

theorem objGet_isSome_iff {α : Type} (o : Obj α) (k : JSString) :
    (objGet o k).isSome ↔ ∃ e ∈ o, e.1 = k := by
  induction o with
  | nil =>
    constructor
    · intro h; cases h
    · rintro ⟨e, he, _⟩; cases he
  | cons a o ih =>
    obtain ⟨k1, v⟩ := a
    by_cases h : k1 = k
    · constructor
      · intro _
        exact ⟨(k1, v), List.mem_cons_self _ _, h⟩
      · intro _
        simp [objGet, h]
    · have e : objGet ((k1, v) :: o) k = objGet o k := by simp [objGet, h]
      rw [e, ih]
      constructor
      · rintro ⟨e, he, hk⟩
        exact ⟨e, List.mem_cons_of_mem _ he, hk⟩
      · rintro ⟨e, he, hk⟩
        rcases List.mem_cons.mp he with he | he
        · subst he
          exact absurd hk h
        · exact ⟨e, he, hk⟩

/-- What `generateChunkMesh` returns on a block map with well-formed keys:
the chunk with a mesh whose faces are exactly the faces of stored blocks
towards cells that have no entry in this block map. -/
theorem generateChunkMesh_faces (chunk chunk2 : Chunk) (hk : KeysWellFormed chunk.blocks)
    (h : generateChunkMesh chunk = Except.ok chunk2) :
    ∃ mesh, chunk2 = { chunk with mesh := some mesh }
      ∧ ∀ fd ∈ faceTable, ∀ p, blockFace fd p ∈ meshFaces mesh ↔
          ((objGet chunk.blocks (keyOf p)).isSome
            ∧ objGet chunk.blocks (keyOf (neighbour p fd.normal)) = none) := by
  obtain ⟨acc2, hc, hrec, _⟩ := collectFaces_spec chunk.blocks chunk.blocks [] hk
  unfold generateChunkMesh at h
  simp only [hc] at h
  cases hm : constructFaces acc2 emptyMesh with
  | error e => simp [hm] at h
  | ok mesh =>
    simp only [hm, Except.ok.injEq] at h
    refine ⟨mesh, h.symm, ?_⟩
    intro fd hfd p
    have hw := constructFaces_whole acc2 emptyMesh mesh [] meshWhole_empty hm
    rw [meshFaces_whole mesh _ hw, List.nil_append, List.mem_flatMap]
    have : (∃ e ∈ acc2, blockFace fd p ∈ entryFaces e) ↔ Recorded acc2 fd.normal p := by
      unfold Recorded
      constructor
      · rintro ⟨e, he, hf⟩
        exact ⟨e, he, (blockFace_mem_entryFaces fd hfd p e).mp hf⟩
      · rintro ⟨e, he, hf⟩
        exact ⟨e, he, (blockFace_mem_entryFaces fd hfd p e).mpr hf⟩
    rw [this, hrec fd hfd p, objGet_isSome_iff]
    constructor
    · rintro (⟨e, he, _⟩ | h2)
      · cases he
      · exact h2
    · intro h2
      exact Or.inr h2

theorem generateChunkMesh_total (chunk : Chunk) (hk : KeysWellFormed chunk.blocks)
    (hids : IdsInTable chunk.blocks) :
    ∃ chunk2, generateChunkMesh chunk = Except.ok chunk2 := by
  obtain ⟨acc2, hc, _, hid2⟩ := collectFaces_spec chunk.blocks chunk.blocks [] hk
  have hacc : ∀ e ∈ acc2, 0 ≤ e.1 ∧ e.1 < 5 := by
    intro e he
    rcases hid2 e he with ⟨e0, he0, _⟩ | ⟨e1, he1, hid1⟩
    · cases he0
    · rw [← hid1]
      exact hids e1 he1
  obtain ⟨mesh, hm⟩ := constructFaces_total acc2 hacc emptyMesh
  exact ⟨{ chunk with mesh := some mesh }, by simp [generateChunkMesh, hc, hm]⟩

/-- C7: on a chunk whose block keys are block keys and whose ids are in the
block-type table, `generateChunkMesh` succeeds, and the mesh contains the
face of a stored block `p` in the direction of a table entry `fd` exactly
when the block map has no entry at the neighbouring cell.  Hence the face
of `p` towards an occupied neighbour is never in the mesh (for two adjacent
blocks this holds from either side), a block with six occupied neighbours
contributes no face, and cells without a block contribute none. -/
theorem generateChunkMesh_culls (chunk : Chunk) (hk : KeysWellFormed chunk.blocks)
    (hids : IdsInTable chunk.blocks) :
    ∃ mesh, generateChunkMesh chunk = Except.ok { chunk with mesh := some mesh }
      ∧ (∀ fd ∈ faceTable, ∀ p, (objGet chunk.blocks (keyOf p)).isSome →
          (blockFace fd p ∈ meshFaces mesh
            ↔ objGet chunk.blocks (keyOf (neighbour p fd.normal)) = none))
      ∧ (∀ fd ∈ faceTable, ∀ p q, q = neighbour p fd.normal →
          (objGet chunk.blocks (keyOf p)).isSome → (objGet chunk.blocks (keyOf q)).isSome →
          blockFace fd p ∉ meshFaces mesh)
      ∧ (∀ p, (objGet chunk.blocks (keyOf p)).isSome →
          (∀ fd ∈ faceTable, (objGet chunk.blocks (keyOf (neighbour p fd.normal))).isSome) →
          ∀ fd ∈ faceTable, blockFace fd p ∉ meshFaces mesh)
      ∧ (∀ fd ∈ faceTable, ∀ p, objGet chunk.blocks (keyOf p) = none →
          blockFace fd p ∉ meshFaces mesh) := by
  obtain ⟨chunk2, hgen⟩ := generateChunkMesh_total chunk hk hids
  obtain ⟨mesh, hc2, hfaces⟩ := generateChunkMesh_faces chunk chunk2 hk hgen
  refine ⟨mesh, hc2 ▸ hgen, ?_, ?_, ?_, ?_⟩
  · intro fd hfd p hp
    rw [hfaces fd hfd p]
    exact ⟨fun h => h.2, fun h => ⟨hp, h⟩⟩
  · intro fd hfd p q hq _ hqs hmem
    have := ((hfaces fd hfd p).mp hmem).2
    rw [hq, this] at hqs
    cases hqs
  · intro p _ hall fd hfd hmem
    have := ((hfaces fd hfd p).mp hmem).2
    have h2 := hall fd hfd
    rw [this] at h2
    cases h2
  · intro fd hfd p hnone hmem
    have := ((hfaces fd hfd p).mp hmem).1
    rw [hnone] at this
    cases this

theorem twoBlockChunk_keys : KeysWellFormed twoBlockChunk.blocks := by
  intro e he
  simp only [twoBlockChunk, List.mem_cons, List.mem_singleton, List.not_mem_nil, or_false] at he
  rcases he with h | h
  · exact ⟨0, 0, 0, by rw [h]⟩
  · exact ⟨1, 0, 0, by rw [h]⟩

theorem twoBlockChunk_ids : IdsInTable twoBlockChunk.blocks := by
  intro e he
  simp only [twoBlockChunk, List.mem_cons, List.mem_singleton, List.not_mem_nil, or_false] at he
  rcases he with h | h <;> subst h <;> decide

/-- C7 on a chunk with two blocks side by side: the mesh is built, has no
`+x` face for the block at `(0, 0, 0)`, and has its `-x` face. -/
theorem generateChunkMesh_culls_witness :
    ∃ mesh, generateChunkMesh twoBlockChunk = Except.ok { twoBlockChunk with mesh := some mesh }
      ∧ blockFace faces.xp (0, 0, 0) ∉ meshFaces mesh
      ∧ blockFace faces.xn (0, 0, 0) ∈ meshFaces mesh := by
  obtain ⟨mesh, hgen, hiff, hadj, _, _⟩ :=
    generateChunkMesh_culls twoBlockChunk twoBlockChunk_keys twoBlockChunk_ids
  refine ⟨mesh, hgen, ?_, ?_⟩
  · exact hadj faces.xp (by decide) (0, 0, 0) (1, 0, 0) (by decide) (by decide) (by decide)
  · exact (hiff faces.xn (by decide) (0, 0, 0) (by decide)).mpr (by decide)

/-- C8, as stated, fails: in `boundaryWorld` the blocks at `(15, 0, 0)` and
`(16, 0, 0)` are both present and adjacent along x, yet the mesh of chunk
`"0,0"` contains the `+x` face of the first and the mesh of chunk `"1,0"`
contains the `-x` face of the second. -/
theorem mesh_face_on_chunk_boundary :
    isBlockAt boundaryWorld 15 0 0 = Except.ok true
    ∧ isBlockAt boundaryWorld 16 0 0 = Except.ok true
    ∧ neighbour (15, 0, 0) faces.xp.normal = (16, 0, 0)
    ∧ (chunkMeshFaces boundaryWorld (chunkKey 0 0)).map
        (fun fs => decide (blockFace faces.xp (15, 0, 0) ∈ fs)) = some true
    ∧ (chunkMeshFaces boundaryWorld (chunkKey 1 0)).map
        (fun fs => decide (blockFace faces.xn (16, 0, 0) ∈ fs)) = some true := by
  decide

theorem keysWellFormed_of_world (chunks : World) (hwf : WorldWellFormed chunks)
    (ck : JSString) (c : Chunk) (hc : objGet chunks ck = some c) :
    KeysWellFormed c.blocks := by
  intro e he
  obtain ⟨x, y, z, hk, _⟩ := hwf ck c hc e he
  exact ⟨x, y, z, hk⟩

/-- In a well-formed world no mesh of any chunk has the face of `p` towards
a present neighbour `q` that is owned by the same chunk as `p`. -/
theorem no_face_towards_same_chunk (chunks : World) (hwf : WorldWellFormed chunks)
    (fd : FaceData) (hfd : fd ∈ faceTable) (p q : Int × Int × Int)
    (hq : q = neighbour p fd.normal)
    (hqs : (blockAt chunks q.1 q.2.1 q.2.2).isSome)
    (hsame : blockChunkKey p.1 p.2.2 = blockChunkKey q.1 q.2.2)
    (ck : JSString) (c c2 : Chunk) (mesh : Mesh) (hc : objGet chunks ck = some c)
    (hgen : generateChunkMesh c = Except.ok c2) (hmesh : c2.mesh = some mesh) :
    blockFace fd p ∉ meshFaces mesh := by
  intro hmem
  obtain ⟨mesh2, hc2, hfaces⟩ :=
    generateChunkMesh_faces c c2 (keysWellFormed_of_world chunks hwf ck c hc) hgen
  have hm : mesh2 = mesh := by
    rw [hc2] at hmesh
    simpa using hmesh
  subst hm
  obtain ⟨hpres, hnone⟩ := (hfaces fd hfd p).mp hmem
  obtain ⟨e, he, hke⟩ := (objGet_isSome_iff c.blocks (keyOf p)).mp hpres
  obtain ⟨x, y, z, hk, hck⟩ := hwf ck c hc e he
  rw [hke] at hk
  obtain ⟨h1, h2, h3⟩ := key_inj hk
  have hown : blockChunkKey p.1 p.2.2 = ck := by rw [h1, h3]; exact hck
  unfold blockAt getBlockChunk at hqs
  rw [← hsame, hown, hc] at hqs
  simp only [Option.bind] at hqs
  rw [hq] at hqs
  have : objGet c.blocks (keyOf (neighbour p fd.normal)) = none := hnone
  simp only [keyOf] at this
  rw [this] at hqs
  cases hqs

/-- C8, amended: in a world whose chunks store only blocks of their own
columns, for two present blocks `p` and `q` that are adjacent (`q` is the
neighbour of `p` in the direction of `fd`, and `p` the neighbour of `q` in
the direction of `fd2`) and owned by the same chunk, no mesh that
`generateChunkMesh` builds for a chunk of the world contains the face of `p`
towards `q` or the face of `q` towards `p`; and the mesh of the owning chunk
is built whenever its block ids are in the block-type table. -/
theorem generateChunkMesh_culls_same_chunk (chunks : World) (hwf : WorldWellFormed chunks)
    (fd fd2 : FaceData) (hfd : fd ∈ faceTable) (hfd2 : fd2 ∈ faceTable)
    (p q : Int × Int × Int)
    (hq : q = neighbour p fd.normal) (hp : p = neighbour q fd2.normal)
    (hps : (blockAt chunks p.1 p.2.1 p.2.2).isSome)
    (hqs : (blockAt chunks q.1 q.2.1 q.2.2).isSome)
    (hsame : blockChunkKey p.1 p.2.2 = blockChunkKey q.1 q.2.2) :
    (∀ ck c c2 mesh, objGet chunks ck = some c → generateChunkMesh c = Except.ok c2 →
        c2.mesh = some mesh →
        blockFace fd p ∉ meshFaces mesh ∧ blockFace fd2 q ∉ meshFaces mesh)
    ∧ (∀ c, getBlockChunk chunks p.1 p.2.2 = some c → IdsInTable c.blocks →
        ∃ mesh, generateChunkMesh c = Except.ok { c with mesh := some mesh }) := by
  constructor
  · intro ck c c2 mesh hc hgen hmesh
    exact ⟨no_face_towards_same_chunk chunks hwf fd hfd p q hq hqs hsame ck c c2 mesh hc
        hgen hmesh,
      no_face_towards_same_chunk chunks hwf fd2 hfd2 q p hp hps hsame.symm ck c c2 mesh hc
        hgen hmesh⟩
  · intro c hc hids
    have hk := keysWellFormed_of_world chunks hwf _ c hc
    obtain ⟨c2, hgen⟩ := generateChunkMesh_total c hk hids
    obtain ⟨mesh, hc2, _⟩ := generateChunkMesh_faces c c2 hk hgen
    exact ⟨mesh, hc2 ▸ hgen⟩

theorem sameChunkWorld_wf : WorldWellFormed sameChunkWorld := by
  intro ck c hc e he
  simp only [sameChunkWorld, objGet] at hc
  split at hc
  · rename_i hck
    simp only [Option.some.injEq] at hc
    subst hc
    subst hck
    simp only [twoBlockChunk, List.mem_cons, List.mem_singleton, List.not_mem_nil,
      or_false] at he
    rcases he with h | h
    · exact ⟨0, 0, 0, by rw [h], by decide⟩
    · exact ⟨1, 0, 0, by rw [h], by decide⟩
  · cases hc

/-- C8 amended, on a world whose only chunk holds two blocks side by side:
the mesh of that chunk is built and has neither the `+x` face of the block
at `(0, 0, 0)` nor the `-x` face of the block at `(1, 0, 0)`. -/
theorem generateChunkMesh_culls_same_chunk_witness :
    WorldWellFormed sameChunkWorld
    ∧ ∃ mesh, generateChunkMesh twoBlockChunk
          = Except.ok { twoBlockChunk with mesh := some mesh }
        ∧ blockFace faces.xp (0, 0, 0) ∉ meshFaces mesh
        ∧ blockFace faces.xn (1, 0, 0) ∉ meshFaces mesh := by
  have h := generateChunkMesh_culls_same_chunk sameChunkWorld sameChunkWorld_wf faces.xp
    faces.xn (by decide) (by decide) (0, 0, 0) (1, 0, 0) (by decide) (by decide) (by decide)
    (by decide) (by decide)
  obtain ⟨mesh, hgen⟩ := h.2 twoBlockChunk (by decide) twoBlockChunk_ids
  have hno := h.1 (chunkKey 0 0) twoBlockChunk _ mesh (by decide) hgen rfl
  exact ⟨sameChunkWorld_wf, mesh, hgen, hno.1, hno.2⟩

/-! ## Collision resolution -/

theorem mem_intRange (lo hi x : Int) : x ∈ intRange lo hi ↔ lo ≤ x ∧ x ≤ hi := by
  unfold intRange
  simp only [List.mem_map, List.mem_range]
  constructor
  · rintro ⟨i, hi1, rfl⟩
    omega
  · rintro ⟨h1, h2⟩
    exact ⟨(x - lo).toNat, by omega, by omega⟩

theorem mem_scannedCells (bb : Box3) (x y z : Int) :
    (x, y, z) ∈ scannedCells bb ↔
      (⌊bb.min.x / CUBE_SIZE⌋ ≤ x ∧ x ≤ ⌈bb.max.x / CUBE_SIZE⌉)
      ∧ (⌊bb.min.y / CUBE_SIZE⌋ ≤ y ∧ y ≤ ⌈bb.max.y / CUBE_SIZE⌉)
      ∧ (⌊bb.min.z / CUBE_SIZE⌋ ≤ z ∧ z ≤ ⌈bb.max.z / CUBE_SIZE⌉) := by
  unfold scannedCells
  simp only [List.mem_flatMap, List.mem_map, mem_intRange, Prod.mk.injEq]
  constructor
  · rintro ⟨a, ha, b, hb, c, hc, rfl, rfl, rfl⟩
    exact ⟨ha, hb, hc⟩
  · rintro ⟨ha, hb, hc⟩
    exact ⟨x, ha, y, hb, z, hc, rfl, rfl, rfl⟩

theorem scanCells_none (chunks : World) (bb : Box3) (cells : List (Int × Int × Int))
    (h : scanCells chunks bb cells = Except.ok none) :
    ∀ c ∈ cells, isBlockAt chunks c.1 c.2.1 c.2.2 = Except.ok true →
      intersectsBox bb (blockBox c.1 c.2.1 c.2.2) = false := by
  induction cells with
  | nil => intro c hc; cases hc
  | cons a cells ih =>
    obtain ⟨x, y, z⟩ := a
    intro c hc hblock
    unfold scanCells at h
    rcases List.mem_cons.mp hc with hc | hc
    · subst hc
      simp only at hblock
      rw [hblock] at h
      simp only at h
      split at h
      · cases h
      · rename_i hno
        simpa using hno
    · cases hb : isBlockAt chunks x y z with
      | error e => rw [hb] at h; cases h
      | ok b =>
        rw [hb] at h
        cases b with
        | false => exact ih h c hc hblock
        | true =>
          simp only at h
          split at h
          · cases h
          · exact ih h c hc hblock

theorem correctionLoop_ok (chunks : World) (deltaPos : Vec3Q) (fuel : Nat) :
    ∀ p p2 : Player, correctionLoop chunks deltaPos fuel p = Except.ok p2 →
      isPlayerColliding chunks p2.position = Except.ok none := by
  induction fuel with
  | zero => intro p p2 h; cases h
  | succ fuel ih =>
    intro p p2 h
    unfold correctionLoop at h
    cases hc : isPlayerColliding chunks p.position with
    | error e => rw [hc] at h; cases h
    | ok r =>
      rw [hc] at h
      cases r with
      | none =>
        simp only [Except.ok.injEq] at h
        subst h
        exact hc
      | some blockBB => exact ih _ p2 h

theorem isBlockAt_of_blockAt (chunks : World) (x y z : Int)
    (h : (blockAt chunks x y z).isSome) : isBlockAt chunks x y z = Except.ok true := by
  unfold blockAt at h
  unfold isBlockAt
  cases hc : getBlockChunk chunks x z with
  | none => rw [hc] at h; cases h
  | some c =>
    rw [hc] at h
    simp only [Option.bind] at h
    simp [h]

theorem intersectsBox_of_overlaps (bb : Box3) (x y z : Int) (h : Overlaps bb x y z) :
    intersectsBox bb (blockBox x y z) = true := by
  obtain ⟨h1, h2, h3, h4, h5, h6⟩ := h
  unfold intersectsBox blockBox CUBE_SIZE
  simp only [mul_one]
  rw [if_neg]
  intro hor
  rcases hor with h | h | h | h | h | h <;> linarith

theorem scanned_of_overlaps (bb : Box3) (x y z : Int) (h : Overlaps bb x y z) :
    (x, y, z) ∈ scannedCells bb := by
  obtain ⟨h1, h2, h3, h4, h5, h6⟩ := h
  rw [mem_scannedCells]
  unfold CUBE_SIZE
  simp only [div_one]
  have lo : ∀ (q : ℚ) (n : Int), q < (n : ℚ) + 1 → ⌊q⌋ ≤ n := by
    intro q n hq
    have h := Int.floor_le q
    have : ((⌊q⌋ : Int) : ℚ) < ((n + 1 : Int) : ℚ) := by
      push_cast
      linarith
    have := Int.cast_lt.mp this
    omega
  have hi : ∀ (q : ℚ) (n : Int), (n : ℚ) < q → n ≤ ⌈q⌉ := by
    intro q n hq
    have h := Int.le_ceil q
    have : ((n : Int) : ℚ) < ((⌈q⌉ : Int) : ℚ) + 1 := by linarith
    have : ((n : Int) : ℚ) < ((⌈q⌉ + 1 : Int) : ℚ) := by
      push_cast
      exact this
    have := Int.cast_lt.mp this
    omega
  exact ⟨⟨lo _ _ h1, hi _ _ h2⟩, ⟨lo _ _ h3, hi _ _ h4⟩, ⟨lo _ _ h5, hi _ _ h6⟩⟩

theorem no_overlap_of_not_colliding (chunks : World) (position : Vec3Q)
    (h : isPlayerColliding chunks position = Except.ok none) (x y z : Int)
    (hb : (blockAt chunks x y z).isSome) : ¬ Overlaps (getPlayerBB position) x y z := by
  intro hov
  unfold isPlayerColliding at h
  have := scanCells_none chunks _ _ h (x, y, z) (scanned_of_overlaps _ x y z hov)
    (isBlockAt_of_blockAt chunks x y z hb)
  rw [intersectsBox_of_overlaps _ x y z hov] at this
  cases this

theorem movePlayerAxis_ok (fuel : Nat) (chunks : World) (p p2 : Player) (deltaPos : Vec3Q)
    (h : movePlayerAxis fuel chunks p deltaPos = Except.ok p2) :
    isPlayerColliding chunks p2.position = Except.ok none :=
  correctionLoop_ok chunks deltaPos fuel _ p2 h

theorem movePlayer_ok (fuel : Nat) (chunks : World) (p p2 : Player) (deltaPos : Vec3Q)
    (h : movePlayer fuel chunks p deltaPos = Except.ok p2) :
    isPlayerColliding chunks p2.position = Except.ok none := by
  unfold movePlayer at h
  cases h1 : movePlayerAxis fuel chunks p { x := deltaPos.x, y := 0, z := 0 } with
  | error e => rw [h1] at h; cases h
  | ok p1 =>
    rw [h1] at h
    simp only at h
    cases h2 : movePlayerAxis fuel chunks p1 { x := 0, y := deltaPos.y, z := 0 } with
    | error e => rw [h2] at h; cases h
    | ok p3 =>
      rw [h2] at h
      exact movePlayerAxis_ok fuel chunks p3 p2 _ h

/-- C9: whenever `movePlayerAxis` returns (no missing chunk was queried and
the correction loop ended), and likewise whenever `movePlayer` returns, the
player box (centre `position`, size `0.6 x 1.8 x 0.6`) overlaps the unit
cube of no occupied block, where to overlap is to share interior points.
Moreover the final collision test has found nothing: among the scanned
cells no occupied one has a cube that so much as touches the box. -/
theorem movePlayer_no_overlap (fuel : Nat) (chunks : World) (p p2 : Player)
    (deltaPos : Vec3Q)
    (h : movePlayerAxis fuel chunks p deltaPos = Except.ok p2
        ∨ movePlayer fuel chunks p deltaPos = Except.ok p2) :
    (∀ x y z : Int, (blockAt chunks x y z).isSome →
        ¬ Overlaps (getPlayerBB p2.position) x y z)
    ∧ isPlayerColliding chunks p2.position = Except.ok none
    ∧ (∀ x y z : Int, (blockAt chunks x y z).isSome →
        (x, y, z) ∈ scannedCells (getPlayerBB p2.position) →
        intersectsBox (getPlayerBB p2.position) (blockBox x y z) = false) := by
  have hc : isPlayerColliding chunks p2.position = Except.ok none := by
    rcases h with h | h
    · exact movePlayerAxis_ok fuel chunks p p2 deltaPos h
    · exact movePlayer_ok fuel chunks p p2 deltaPos h
  refine ⟨fun x y z hb => no_overlap_of_not_colliding chunks _ hc x y z hb, hc, ?_⟩
  intro x y z hb hmem
  exact scanCells_none chunks _ _ hc (x, y, z) hmem (isBlockAt_of_blockAt chunks x y z hb)

/-! ## Save codec -/

theorem base64_roundtrip : ∀ n : Nat, n < 64 → base64num (base64char (n : Int)) = (n : Int) := by
  decide

theorem toInt32_small (n : Int) (h0 : -2147483648 ≤ n) (h1 : n < 2147483648) :
    toInt32 n = n := by
  unfold toInt32
  omega

theorem shr6_small (n : Int) (h0 : 0 ≤ n) (h1 : n < 4096) : shr6 n = n / 64 := by
  unfold shr6
  rw [toInt32_small n (by omega) (by omega)]
  exact Int.shiftRight_eq_div_pow n 6

theorem shl6or_small (a b : Nat) (ha : a < 64) (hb : b < 64) :
    shl6or (a : Int) (b : Int) = ((64 * a + b : Nat) : Int) := by
  unfold shl6or
  rw [toInt32_small (a : Int) (by omega) (by omega),
    toInt32_small ((a : Int) * 64) (by omega) (by omega),
    toInt32_small (b : Int) (by omega) (by omega)]
  have e : ((a : Int) * 64) = ((64 * a : Nat) : Int) := by push_cast; ring
  rw [e]
  show (((64 * a) ||| b : Nat) : Int) = _
  have := Nat.mul_add_lt_is_or (i := 6) (b := b) (by simpa using hb) a
  simp only [Nat.reducePow] at this
  rw [this]

theorem pair_roundtrip (n : Int) (h0 : 0 ≤ n) (h1 : n < 4096) :
    shl6or (base64num (base64char (shr6 n))) (base64num (base64char (Int.tmod n 64))) = n := by
  rw [shr6_small n h0 h1, Int.tmod_eq_emod h0 (by decide)]
  obtain ⟨m, rfl⟩ := Int.eq_ofNat_of_zero_le h0
  have hm : m < 4096 := by omega
  have e1 : ((m : Int) / 64) = ((m / 64 : Nat) : Int) := by omega
  have e2 : ((m : Int) % 64) = ((m % 64 : Nat) : Int) := by omega
  rw [e1, e2, base64_roundtrip _ (by omega), base64_roundtrip _ (by omega),
    shl6or_small _ _ (by omega) (by omega)]
  congr 1
  omega

theorem writeRun_eq (cx cz id : Int) (n : Nat) : ∀ (blocks : Obj Block) (idx : Nat),
    writeRun cx cz id n blocks idx
      = (writeCells cx cz (List.replicate n id) blocks idx, idx + n) := by
  induction n with
  | zero => intro blocks idx; rfl
  | succ n ih =>
    intro blocks idx
    simp only [writeRun, List.replicate_succ, writeCells]
    rw [ih]
    congr 1
    omega

theorem writeCells_append (cx cz : Int) (P Q : List Int) : ∀ (blocks : Obj Block) (idx : Nat),
    writeCells cx cz (P ++ Q) blocks idx
      = writeCells cx cz Q (writeCells cx cz P blocks idx) (idx + P.length) := by
  induction P with
  | nil => intro blocks idx; rfl
  | cons id P ih =>
    intro blocks idx
    rw [List.cons_append]
    simp only [writeCells, List.length_cons]
    rw [show idx + (P.length + 1) = idx + 1 + P.length by omega]
    exact ih _ _

theorem decodeRuns_group (cx cz id rc : Int) (hid0 : 0 ≤ id) (hid1 : id < 4096)
    (hrc0 : 0 ≤ rc) (hrc1 : rc < 4096) (tail : List Char) (blocks : Obj Block) (idx : Nat) :
    decodeRuns cx cz
        ([base64char (shr6 id), base64char (Int.tmod id 64),
          base64char (shr6 rc), base64char (Int.tmod rc 64)] ++ tail) blocks idx
      = decodeRuns cx cz tail (writeCells cx cz (List.replicate rc.toNat id) blocks idx)
          (idx + rc.toNat) := by
  show decodeRuns cx cz (base64char (shr6 id) :: base64char (Int.tmod id 64)
      :: base64char (shr6 rc) :: base64char (Int.tmod rc 64) :: tail) blocks idx = _
  rw [decodeRuns, pair_roundtrip id hid0 hid1, pair_roundtrip rc hrc0 hrc1, writeRun_eq]

theorem decodesTo_nil (cx cz : Int) : DecodesTo cx cz [] [] := by
  intro tail blocks idx
  rfl

theorem decodesTo_snoc (cx cz id rc : Int) (code : List Char) (P0 : List Int)
    (hid0 : 0 ≤ id) (hid1 : id < 4096) (hrc0 : 0 ≤ rc) (hrc1 : rc < 4096)
    (h : DecodesTo cx cz code P0) :
    DecodesTo cx cz
      (code ++ [base64char (shr6 id), base64char (Int.tmod id 64),
        base64char (shr6 rc), base64char (Int.tmod rc 64)])
      (P0 ++ List.replicate rc.toNat id) := by
  intro tail blocks idx
  rw [List.append_assoc, h, decodeRuns_group cx cz id rc hid0 hid1 hrc0 hrc1,
    writeCells_append, List.length_append, List.length_replicate, Nat.add_assoc]

theorem addToCode_decodes (cx cz : Int) (s : EncState) (P : List Int)
    (h : EncInv cx cz s P) : DecodesTo cx cz (addToCode s) P := by
  unfold EncInv at h
  unfold addToCode
  cases hl : s.lastBlockID with
  | none =>
    rw [hl] at h
    obtain ⟨hcode, hrc, hP⟩ := h
    subst hP
    rw [hcode, hrc]
    intro tail blocks idx
    exact decodeRuns_group cx cz 0 0 (by decide) (by decide) (by decide) (by decide)
      tail blocks idx
  | some id =>
    rw [hl] at h
    obtain ⟨h1, h2, h3, h4, P0, hP, hdec⟩ := h
    subst hP
    exact decodesTo_snoc cx cz id s.repeatCount s.code P0 h3 (by omega) (by omega)
      (by omega) hdec

theorem encodeStep_inv (cx cz : Int) (s : EncState) (P : List Int) (id : Int)
    (h : EncInv cx cz s P) (hid0 : 0 ≤ id) (hid1 : id ≤ 4095) :
    EncInv cx cz (encodeStep s id) (P ++ [id]) := by
  unfold EncInv at h
  cases hl : s.lastBlockID with
  | none =>
    rw [hl] at h
    obtain ⟨hcode, _, hP⟩ := h
    subst hP
    have hs : encodeStep s id = { code := s.code, lastBlockID := some id, repeatCount := 1 } := by
      simp [encodeStep, hl]
    rw [hs]
    unfold EncInv
    refine ⟨le_refl _, (by decide : (1 : Int) ≤ 4095), hid0, hid1, [], ?_, ?_⟩
    · rfl
    · rw [hcode]; exact decodesTo_nil cx cz
  | some id0 =>
    rw [hl] at h
    obtain ⟨h1, h2, h3, h4, P0, hP, hdec⟩ := h
    subst hP
    by_cases hc : id0 = id ∧ s.repeatCount < 4095
    · obtain ⟨hid, hrc⟩ := hc
      subst hid
      have hs : encodeStep s id0 = { s with repeatCount := s.repeatCount + 1 } := by
        simp [encodeStep, hl, hrc]
      rw [hs]
      unfold EncInv
      simp only [hl]
      refine ⟨by omega, by omega, h3, h4, P0, ?_, hdec⟩
      have e : (s.repeatCount + 1).toNat = s.repeatCount.toNat + 1 := by omega
      rw [e, List.replicate_succ', List.append_assoc]
    · have hs : encodeStep s id
          = { code := addToCode s, lastBlockID := some id, repeatCount := 1 } := by
        unfold encodeStep
        rw [if_neg]
        · simp [hl]
        · rw [hl]
          intro hcon
          apply hc
          exact ⟨by simpa using hcon.1, hcon.2⟩
      rw [hs]
      unfold EncInv
      refine ⟨le_refl _, (by decide : (1 : Int) ≤ 4095), hid0, hid1,
        P0 ++ List.replicate s.repeatCount.toNat id0, rfl, ?_⟩
      apply addToCode_decodes
      unfold EncInv
      rw [hl]
      exact ⟨h1, h2, h3, h4, P0, rfl, hdec⟩

theorem encodeFold_inv (cx cz : Int) (ids : List Int) : ∀ (s : EncState) (P : List Int),
    EncInv cx cz s P → (∀ id ∈ ids, 0 ≤ id ∧ id ≤ 4095) →
    EncInv cx cz (ids.foldl encodeStep s) (P ++ ids) := by
  induction ids with
  | nil => intro s P h _; simpa using h
  | cons id ids ih =>
    intro s P h hb
    have hid := hb id (List.mem_cons_self _ _)
    have := ih (encodeStep s id) (P ++ [id]) (encodeStep_inv cx cz s P id h hid.1 hid.2)
      (fun i hi => hb i (List.mem_cons_of_mem _ hi))
    simpa using this

theorem encode_decode (cx cz : Int) (ids : List Int)
    (hb : ∀ id ∈ ids, 0 ≤ id ∧ id ≤ 4095) :
    decodeRuns cx cz
        (addToCode (ids.foldl encodeStep { code := [], lastBlockID := none, repeatCount := 0 }))
        [] 0
      = Except.ok (writeCells cx cz ids [] 0) := by
  have hinit : EncInv cx cz { code := [], lastBlockID := none, repeatCount := 0 } [] :=
    ⟨rfl, rfl, rfl⟩
  have hfin := encodeFold_inv cx cz ids _ [] hinit hb
  rw [List.nil_append] at hfin
  have hdec := addToCode_decodes cx cz _ ids hfin [] [] 0
  rw [List.append_nil] at hdec
  rw [hdec]
  rfl

theorem idxToKey_inj (cx cz : Int) (i j : Nat) (h : idxToKey cx cz i = idxToKey cx cz j) :
    i = j := by
  unfold idxToKey at h
  obtain ⟨h1, h2, h3⟩ := key_inj h
  have e : CHUNK_SIZE.toNat = 16 := rfl
  rw [e] at h1 h2 h3
  unfold CHUNK_SIZE at h1 h3
  omega

theorem writeCells_get_other (cx cz : Int) (k : JSString) (ids : List Int) :
    ∀ (blocks : Obj Block) (idx : Nat),
      (∀ j, j < ids.length → idxToKey cx cz (idx + j) ≠ k) →
      objGet (writeCells cx cz ids blocks idx) k = objGet blocks k := by
  induction ids with
  | nil => intro blocks idx _; rfl
  | cons id ids ih =>
    intro blocks idx h
    simp only [writeCells]
    rw [ih]
    · split
      · exact objGet_objSet_other _ _ _ _ (by simpa using h 0 (by simp))
      · rfl
    · intro j hj
      have := h (j + 1) (by simp only [List.length_cons]; omega)
      rwa [show idx + (j + 1) = idx + 1 + j by omega] at this

theorem writeCells_get (cx cz : Int) (ids : List Int) :
    ∀ (blocks : Obj Block) (idx j : Nat) (id : Int), ids[j]? = some id →
      objGet (writeCells cx cz ids blocks idx) (idxToKey cx cz (idx + j))
        = if id < 4095 then some { id := id } else objGet blocks (idxToKey cx cz (idx + j)) := by
  induction ids with
  | nil => intro blocks idx j id h; simp at h
  | cons id0 ids ih =>
    intro blocks idx j id h
    cases j with
    | zero =>
      simp only [List.getElem?_cons_zero, Option.some.injEq] at h
      subst h
      simp only [writeCells, Nat.add_zero]
      rw [writeCells_get_other]
      · split
        · exact objGet_objSet_same _ _ _
        · rfl
      · intro j _ hcon
        have := idxToKey_inj cx cz _ _ hcon
        omega
    | succ j =>
      rw [List.getElem?_cons_succ] at h
      simp only [writeCells]
      rw [show idx + (j + 1) = idx + 1 + j by omega, ih _ (idx + 1) j id h]
      split
      · rfl
      · split
        · apply objGet_objSet_other
          intro hcon
          have := idxToKey_inj cx cz _ _ hcon
          omega
        · rfl

theorem range_flatMap_map {α : Type} (a b : Nat) (f : Nat → Nat → α) :
    (List.range a).flatMap (fun i => (List.range b).map (f i))
      = (List.range (a * b)).map (fun k => f (k / b) (k % b)) := by
  induction a with
  | zero => simp
  | succ a ih =>
    rw [List.range_succ, List.flatMap_append, ih, List.flatMap_singleton,
      show (a + 1) * b = a * b + b by ring, List.range_add, List.map_append, List.map_map]
    congr 1
    apply List.map_congr_left
    intro j hj
    have hjb : j < b := List.mem_range.mp hj
    have hb : 0 < b := by omega
    simp only [Function.comp]
    have e1 : (a * b + j) / b = a := by
      rw [Nat.add_comm, Nat.add_mul_div_right _ _ hb, Nat.div_eq_of_lt hjb, Nat.zero_add]
    have e2 : (a * b + j) % b = j := by
      rw [Nat.add_comm, Nat.add_mul_mod_self_right, Nat.mod_eq_of_lt hjb]
    rw [e1, e2]

theorem cellIds_eq (cx cz : Int) (blocks : Obj Block) :
    cellIds cx cz blocks
      = (List.range 16640).map (fun j =>
          cellId cx cz blocks ((j / 256 : Nat) : Int) (j / 16 % 16) (j % 16)) := by
  unfold cellIds intRange
  have e : CHUNK_SIZE.toNat = 16 := rfl
  have e2 : (MAX_HEIGHT + 1 - MIN_HEIGHT).toNat = 65 := rfl
  rw [e, e2, List.flatMap_map]
  have inner : ∀ y : Int,
      ((List.range 16).flatMap fun x => (List.range 16).map fun z => cellId cx cz blocks y x z)
        = (List.range 256).map (fun k => cellId cx cz blocks y (k / 16) (k % 16)) := by
    intro y
    exact range_flatMap_map 16 16 (fun x z => cellId cx cz blocks y x z)
  simp only [inner]
  rw [range_flatMap_map 65 256
    (fun i k => cellId cx cz blocks (MIN_HEIGHT + (i : Int)) (k / 16) (k % 16))]
  apply List.map_congr_left
  intro j _
  have e3 : MIN_HEIGHT + ((j / 256 : Nat) : Int) = ((j / 256 : Nat) : Int) := by
    unfold MIN_HEIGHT; omega
  have e4 : j % 256 / 16 = j / 16 % 16 := by omega
  have e5 : j % 256 % 16 = j % 16 := by omega
  simp only [e3, e4, e5]

theorem cellId_bounds (cx cz : Int) (blocks : Obj Block) (y : Int) (x z : Nat)
    (hids : ∀ k b, objGet blocks k = some b → 0 ≤ b.id ∧ b.id < 4095) :
    0 ≤ cellId cx cz blocks y x z ∧ cellId cx cz blocks y x z ≤ 4095 := by
  unfold cellId
  simp only
  split
  · rename_i b hb
    have := hids _ b hb
    omega
  · decide

theorem cellIds_bounds (cx cz : Int) (blocks : Obj Block)
    (hids : ∀ k b, objGet blocks k = some b → 0 ≤ b.id ∧ b.id < 4095) :
    ∀ id ∈ cellIds cx cz blocks, 0 ≤ id ∧ id ≤ 4095 := by
  intro id hid
  rw [cellIds_eq] at hid
  obtain ⟨j, _, rfl⟩ := List.mem_map.mp hid
  exact cellId_bounds cx cz blocks _ _ _ hids

theorem writeCells_air (cx cz : Int) (ids : List Int) (h : ∀ id ∈ ids, id = 4095) :
    ∀ (blocks : Obj Block) (idx : Nat), writeCells cx cz ids blocks idx = blocks := by
  induction ids with
  | nil => intro blocks idx; rfl
  | cons id ids ih =>
    intro blocks idx
    have hid : id = 4095 := h id (List.mem_cons_self _ _)
    subst hid
    simp only [writeCells]
    rw [if_neg (by decide)]
    exact ih (fun i hi => h i (List.mem_cons_of_mem _ hi)) blocks (idx + 1)

theorem cellIds_empty (cx cz : Int) : ∀ id ∈ cellIds cx cz [], id = 4095 := by
  intro id hid
  rw [cellIds_eq] at hid
  obtain ⟨j, _, rfl⟩ := List.mem_map.mp hid
  rfl

/-- The block map the decoder rebuilds agrees with the encoded one on every
cell of the chunk. -/
theorem writeCells_cellIds_get (cx cz : Int) (blocks : Obj Block)
    (hids : ∀ k b, objGet blocks k = some b → 0 ≤ b.id ∧ b.id < 4095)
    (wx y wz : Int) (hy0 : MIN_HEIGHT ≤ y) (hy1 : y ≤ MAX_HEIGHT)
    (hx0 : 16 * cx ≤ wx) (hx1 : wx < 16 * cx + 16)
    (hz0 : 16 * cz ≤ wz) (hz1 : wz < 16 * cz + 16) :
    objGet (writeCells cx cz (cellIds cx cz blocks) [] 0) (key wx y wz)
      = objGet blocks (key wx y wz) := by
  unfold MIN_HEIGHT at hy0
  unfold MAX_HEIGHT at hy1
  obtain ⟨x, hx⟩ : ∃ x : Nat, (x : Int) = wx - 16 * cx := ⟨(wx - 16 * cx).toNat, by omega⟩
  obtain ⟨z, hz⟩ : ∃ z : Nat, (z : Int) = wz - 16 * cz := ⟨(wz - 16 * cz).toNat, by omega⟩
  obtain ⟨yn, hyn⟩ : ∃ yn : Nat, (yn : Int) = y := ⟨y.toNat, by omega⟩
  have hxb : x < 16 := by omega
  have hzb : z < 16 := by omega
  have hyb : yn < 65 := by omega
  have hj : yn * 256 + x * 16 + z < 16640 := by omega
  have e1 : (yn * 256 + x * 16 + z) / 256 = yn := by omega
  have e2 : (yn * 256 + x * 16 + z) / 16 % 16 = x := by omega
  have e3 : (yn * 256 + x * 16 + z) % 16 = z := by omega
  have hkey : idxToKey cx cz (0 + (yn * 256 + x * 16 + z)) = key wx y wz := by
    unfold idxToKey
    have e : CHUNK_SIZE.toNat = 16 := rfl
    simp only [e, Nat.zero_add, Nat.reduceMul, e1, e2, e3]
    unfold CHUNK_SIZE
    rw [hx, hz, hyn]
    congr 1 <;> [omega; (congr 2; omega)]
  have hget : (cellIds cx cz blocks)[yn * 256 + x * 16 + z]?
      = some (cellId cx cz blocks (yn : Int) x z) := by
    rw [cellIds_eq, List.getElem?_map, List.getElem?_range hj]
    simp only [Option.map, e1, e2, e3]
  have hw := writeCells_get cx cz (cellIds cx cz blocks) [] 0 _ _ hget
  rw [hkey] at hw
  rw [hw]
  have hcell : cellId cx cz blocks (yn : Int) x z
      = match objGet blocks (key wx y wz) with
        | some block => block.id
        | none => 4095 := by
    unfold cellId CHUNK_SIZE
    have a1 : cx * 16 + (x : Int) = wx := by omega
    have a2 : cz * 16 + (z : Int) = wz := by omega
    simp only [a1, a2, hyn]
  rw [hcell]
  cases hb : objGet blocks (key wx y wz) with
  | none => simp [objGet]
  | some b =>
    have := hids _ b hb
    simp only
    rw [if_pos this.2]

/-- C1: for a chunk key `(cx, cz)` and a chunk whose stored ids are in
`[0, 4095)`, encoding succeeds, decoding the code succeeds, and the decoded
block map agrees with the chunk's at every cell `(wx, y, wz)` of the chunk
between `MIN_HEIGHT` and `MAX_HEIGHT`: the same block (same id) or no block.
A chunk with no blocks decodes to the empty block map. -/
theorem save_code_roundtrip (cx cz : Int) (chunk : Chunk)
    (hids : ∀ k b, objGet chunk.blocks k = some b → 0 ≤ b.id ∧ b.id < 4095) :
    ∃ code blocks2,
      generateChunkSaveCode (chunkKey cx cz) chunk = Except.ok code
      ∧ decodeChunkSaveCode (chunkKey cx cz) code = Except.ok blocks2
      ∧ (∀ wx y wz : Int, MIN_HEIGHT ≤ y → y ≤ MAX_HEIGHT →
          16 * cx ≤ wx → wx < 16 * cx + 16 → 16 * cz ≤ wz → wz < 16 * cz + 16 →
          objGet blocks2 (key wx y wz) = objGet chunk.blocks (key wx y wz))
      ∧ (chunk.blocks = [] → blocks2 = []) := by
  refine ⟨addToCode ((cellIds cx cz chunk.blocks).foldl encodeStep
      { code := [], lastBlockID := none, repeatCount := 0 }),
    writeCells cx cz (cellIds cx cz chunk.blocks) [] 0, ?_, ?_, ?_, ?_⟩
  · simp only [generateChunkSaveCode, keyToArray_chunkKey]
  · simp only [decodeChunkSaveCode, keyToArray_chunkKey]
    exact encode_decode cx cz _ (cellIds_bounds cx cz chunk.blocks hids)
  · intro wx y wz hy0 hy1 hx0 hx1 hz0 hz1
    exact writeCells_cellIds_get cx cz chunk.blocks hids wx y wz hy0 hy1 hx0 hx1 hz0 hz1
  · intro hempty
    rw [hempty]
    exact writeCells_air cx cz _ (cellIds_empty cx cz) [] 0

theorem twoBlockChunk_codec_ids :
    ∀ k b, objGet twoBlockChunk.blocks k = some b → 0 ≤ b.id ∧ b.id < 4095 := by
  intro k b h
  simp only [twoBlockChunk, objGet] at h
  split at h
  · cases h; decide
  · split at h
    · cases h; decide
    · cases h

/-- C1 on `twoBlockChunk` stored under chunk key `"0,0"`: the decoded block
map has the stone block at `(1, 0, 0)` and no block at `(5, 5, 5)`. -/
theorem save_code_roundtrip_witness :
    ∃ code blocks2,
      generateChunkSaveCode (chunkKey 0 0) twoBlockChunk = Except.ok code
      ∧ decodeChunkSaveCode (chunkKey 0 0) code = Except.ok blocks2
      ∧ objGet blocks2 (key 1 0 0) = some { id := 2 }
      ∧ objGet blocks2 (key 5 5 5) = none := by
  obtain ⟨code, blocks2, h1, h2, h3, _⟩ := save_code_roundtrip 0 0 twoBlockChunk
    twoBlockChunk_codec_ids
  refine ⟨code, blocks2, h1, h2, ?_, ?_⟩
  · rw [h3 1 0 0 (by decide) (by decide) (by decide) (by decide) (by decide) (by decide)]
    decide
  · rw [h3 5 5 5 (by decide) (by decide) (by decide) (by decide) (by decide) (by decide)]
    decide

/-- C9 on `oneBlockWorld`: the player falling by `1/2` onto the block comes
to rest `EPSILON` above it (`canJump` latched, vertical velocity zero), and
its box does not overlap the cube of the block. -/
theorem movePlayer_no_overlap_witness :
    movePlayerAxis 3 oneBlockWorld fallingPlayer { x := 0, y := -1 / 2, z := 0 }
      = Except.ok { position := { x := 1 / 2, y := 19 / 10 + 1 / 1000000, z := 1 / 2 }
                    velocity := { x := 0, y := 0, z := 0 }
                    canJump := true }
    ∧ (blockAt oneBlockWorld 0 0 0).isSome
    ∧ ¬ Overlaps (getPlayerBB { x := 1 / 2, y := 19 / 10 + 1 / 1000000, z := 1 / 2 }) 0 0 0 :=
  ⟨by decide!, by decide,
    (movePlayer_no_overlap 3 oneBlockWorld fallingPlayer
      { position := { x := 1 / 2, y := 19 / 10 + 1 / 1000000, z := 1 / 2 }
        velocity := { x := 0, y := 0, z := 0 }
        canJump := true }
      { x := 0, y := -1 / 2, z := 0 } (Or.inl (by decide!))).1 0 0 0 (by decide)⟩

/-! ## Column scan -/

theorem isBlockAt_eq (chunks : World) (x y z : Int) (c : Chunk)
    (hc : getBlockChunk chunks x z = some c) :
    isBlockAt chunks x y z = Except.ok (blockAt chunks x y z).isSome := by
  simp [isBlockAt, blockAt, hc]

theorem findTopFrom_spec (chunks : World) (x z : Int) (c : Chunk)
    (hc : getBlockChunk chunks x z = some c) (n : Nat) :
    ∃ r, findTopFrom chunks x z n = Except.ok r
      ∧ (∀ y, r = some y →
          0 ≤ y ∧ y ≤ (n : Int) ∧ (blockAt chunks x y z).isSome
          ∧ ∀ y2 : Int, y < y2 → y2 ≤ (n : Int) → blockAt chunks x y2 z = none)
      ∧ (r = none → ∀ y2 : Int, 0 ≤ y2 → y2 ≤ (n : Int) → blockAt chunks x y2 z = none) := by
  induction n with
  | zero =>
    unfold findTopFrom
    rw [isBlockAt_eq chunks x 0 z c hc]
    cases hb : (blockAt chunks x 0 z).isSome with
    | true =>
      refine ⟨some 0, rfl, ?_, ?_⟩
      · intro y hy
        simp only [Option.some.injEq] at hy
        subst hy
        refine ⟨le_refl _, by simp, hb, ?_⟩
        intro y2 h1 h2
        simp only [Nat.cast_zero] at h2
        omega
      · intro h; cases h
    | false =>
      refine ⟨none, rfl, ?_, ?_⟩
      · intro y hy; cases hy
      · intro _ y2 h1 h2
        simp only [Nat.cast_zero] at h2
        have : y2 = 0 := by omega
        subst this
        simpa using hb
  | succ n ih =>
    unfold findTopFrom
    rw [isBlockAt_eq chunks x _ z c hc]
    cases hb : (blockAt chunks x ((n : Int) + 1) z).isSome with
    | true =>
      refine ⟨some ((n : Int) + 1), rfl, ?_, ?_⟩
      · intro y hy
        simp only [Option.some.injEq] at hy
        subst hy
        refine ⟨by omega, by push_cast; omega, hb, ?_⟩
        intro y2 h1 h2
        push_cast at h2
        omega
      · intro h; cases h
    | false =>
      obtain ⟨r, hr, hsome, hnone⟩ := ih
      have htop : blockAt chunks x ((n : Int) + 1) z = none := by simpa using hb
      refine ⟨r, hr, ?_, ?_⟩
      · intro y hy
        obtain ⟨h0, h1, h2, h3⟩ := hsome y hy
        refine ⟨h0, by push_cast; omega, h2, ?_⟩
        intro y2 hlt hle
        push_cast at hle
        by_cases hy2 : y2 = (n : Int) + 1
        · rw [hy2]; exact htop
        · exact h3 y2 hlt (by omega)
      · intro hrn y2 h0 hle
        push_cast at hle
        by_cases hy2 : y2 = (n : Int) + 1
        · rw [hy2]; exact htop
        · exact hnone hrn y2 h0 (by omega)

/-- C11: when the chunk owning `(x, z)` exists, `findTopBlockY(x, z)`
returns; a returned `y` lies in `[0, MAX_HEIGHT]`, holds a block, and no
larger `y` up to `MAX_HEIGHT` holds one; `null` is returned exactly when no
`y` in `[0, MAX_HEIGHT]` holds a block. -/
theorem findTopBlockY_spec (chunks : World) (x z : Int) (c : Chunk)
    (hc : getBlockChunk chunks x z = some c) :
    ∃ r, findTopBlockY chunks x z = Except.ok r
      ∧ (∀ y, r = some y →
          0 ≤ y ∧ y ≤ MAX_HEIGHT ∧ (blockAt chunks x y z).isSome
          ∧ ∀ y2 : Int, 0 ≤ y2 → y2 ≤ MAX_HEIGHT → (blockAt chunks x y2 z).isSome → y2 ≤ y)
      ∧ (r = none ↔ ∀ y2 : Int, 0 ≤ y2 → y2 ≤ MAX_HEIGHT → blockAt chunks x y2 z = none) := by
  obtain ⟨r, hr, hsome, hnone⟩ := findTopFrom_spec chunks x z c hc MAX_HEIGHT.toNat
  have e : ((MAX_HEIGHT.toNat : Nat) : Int) = MAX_HEIGHT := by decide
  rw [e] at hsome hnone
  refine ⟨r, hr, ?_, ?_⟩
  · intro y hy
    obtain ⟨h0, h1, h2, h3⟩ := hsome y hy
    refine ⟨h0, h1, h2, ?_⟩
    intro y2 _ hle hpres
    by_contra hgt
    have := h3 y2 (by omega) hle
    rw [this] at hpres
    cases hpres
  · constructor
    · exact hnone
    · intro hall
      cases r with
      | none => rfl
      | some y =>
        obtain ⟨h0, h1, h2, _⟩ := hsome y rfl
        rw [hall y h0 h1] at h2
        cases h2

/-- C11 on `sameChunkWorld`: the column `(0, 0)` has its top block at
`y = 0`, the column `(5, 5)` of the same chunk has none. -/
theorem findTopBlockY_spec_witness :
    findTopBlockY sameChunkWorld 0 0 = Except.ok (some 0)
    ∧ findTopBlockY sameChunkWorld 5 5 = Except.ok none
    ∧ ∃ r, findTopBlockY sameChunkWorld 0 0 = Except.ok r
        ∧ (r = none ↔ ∀ y2 : Int, 0 ≤ y2 → y2 ≤ MAX_HEIGHT →
            blockAt sameChunkWorld 0 y2 0 = none) := by
  obtain ⟨r, hr, _, hn⟩ := findTopBlockY_spec sameChunkWorld 0 0 twoBlockChunk (by decide)
  exact ⟨by decide, by decide, r, hr, hn⟩

/-! ## The 64-symbol alphabet -/

theorem base64char_alphabet :
    ∀ n : Nat, n < 64 → base64Alphabet[n]? = some (base64char (n : Int)) := by
  decide

theorem base64char_num_alphabet :
    ∀ c ∈ base64Alphabet, base64char (base64num c) = c := by
  decide

/-- C18: for `0 <= n <= 63`, `base64char(n)` is the `n`-th character of
`A-Z a-z 0-9 + /` and `base64num` reads it back as `n`; for every character
`c` of that alphabet `base64char(base64num(c)) = c`. -/
theorem base64_alphabet_bijection :
    (∀ n : Int, 0 ≤ n → n ≤ 63 →
        base64Alphabet[n.toNat]? = some (base64char n) ∧ base64num (base64char n) = n)
    ∧ (∀ c ∈ base64Alphabet, base64char (base64num c) = c)
    ∧ base64Alphabet.length = 64 := by
  refine ⟨?_, base64char_num_alphabet, by decide⟩
  intro n h0 h1
  obtain ⟨m, rfl⟩ := Int.eq_ofNat_of_zero_le h0
  have hm : m < 64 := by omega
  exact ⟨base64char_alphabet m hm, base64_roundtrip m hm⟩

/-- C18 at `n = 26` (`a`), `n = 62` (`+`) and at the character `7`. -/
theorem base64_alphabet_bijection_witness :
    base64char 26 = 'a' ∧ base64num (base64char 26) = 26
    ∧ base64char 62 = '+' ∧ base64char (base64num '7') = '7' :=
  ⟨by decide, (base64_alphabet_bijection.1 26 (by decide) (by decide)).2, by decide,
    base64_alphabet_bijection.2.1 '7' (by decide)⟩

/-! ## Collision correction -/

/-- C20: `correctCollision` moves the position along the axis of movement
only, back by the penetration depth plus `EPSILON`: after a `+x` move the
box's max x is `blockBB.min.x - EPSILON`, after a `-x` move its min x is
`blockBB.max.x + EPSILON`, likewise for y and z.  The other two position
components and the x and z velocity never change.  A y correction sets
`velocity.y = 0`, and `canJump` becomes `true` for a downward move and is
left alone for an upward one; x and z corrections leave `velocity.y` and
`canJump` alone. -/
theorem correctCollision_frame (p : Player) (moveDir : Vec3Q) (blockBB : Box3) :
    (0 < moveDir.x →
        (getPlayerBB (correctCollision p moveDir blockBB).position).max.x
            = blockBB.min.x - EPSILON
        ∧ (correctCollision p moveDir blockBB).position.x
            = p.position.x - ((getPlayerBB p.position).max.x - blockBB.min.x + EPSILON)
        ∧ (correctCollision p moveDir blockBB).position.y = p.position.y
        ∧ (correctCollision p moveDir blockBB).position.z = p.position.z
        ∧ (correctCollision p moveDir blockBB).velocity = p.velocity
        ∧ (correctCollision p moveDir blockBB).canJump = p.canJump)
    ∧ (moveDir.x < 0 →
        (getPlayerBB (correctCollision p moveDir blockBB).position).min.x
            = blockBB.max.x + EPSILON
        ∧ (correctCollision p moveDir blockBB).position.x
            = p.position.x + (blockBB.max.x - (getPlayerBB p.position).min.x + EPSILON)
        ∧ (correctCollision p moveDir blockBB).position.y = p.position.y
        ∧ (correctCollision p moveDir blockBB).position.z = p.position.z
        ∧ (correctCollision p moveDir blockBB).velocity = p.velocity
        ∧ (correctCollision p moveDir blockBB).canJump = p.canJump)
    ∧ (moveDir.x = 0 → 0 < moveDir.y →
        (getPlayerBB (correctCollision p moveDir blockBB).position).max.y
            = blockBB.min.y - EPSILON
        ∧ (correctCollision p moveDir blockBB).position.y
            = p.position.y - ((getPlayerBB p.position).max.y - blockBB.min.y + EPSILON)
        ∧ (correctCollision p moveDir blockBB).position.x = p.position.x
        ∧ (correctCollision p moveDir blockBB).position.z = p.position.z
        ∧ (correctCollision p moveDir blockBB).velocity = { p.velocity with y := 0 }
        ∧ (correctCollision p moveDir blockBB).canJump = p.canJump)
    ∧ (moveDir.x = 0 → moveDir.y < 0 →
        (getPlayerBB (correctCollision p moveDir blockBB).position).min.y
            = blockBB.max.y + EPSILON
        ∧ (correctCollision p moveDir blockBB).position.y
            = p.position.y + (blockBB.max.y - (getPlayerBB p.position).min.y + EPSILON)
        ∧ (correctCollision p moveDir blockBB).position.x = p.position.x
        ∧ (correctCollision p moveDir blockBB).position.z = p.position.z
        ∧ (correctCollision p moveDir blockBB).velocity = { p.velocity with y := 0 }
        ∧ (correctCollision p moveDir blockBB).canJump = true)
    ∧ (moveDir.x = 0 → moveDir.y = 0 → 0 < moveDir.z →
        (getPlayerBB (correctCollision p moveDir blockBB).position).max.z
            = blockBB.min.z - EPSILON
        ∧ (correctCollision p moveDir blockBB).position.z
            = p.position.z - ((getPlayerBB p.position).max.z - blockBB.min.z + EPSILON)
        ∧ (correctCollision p moveDir blockBB).position.x = p.position.x
        ∧ (correctCollision p moveDir blockBB).position.y = p.position.y
        ∧ (correctCollision p moveDir blockBB).velocity = p.velocity
        ∧ (correctCollision p moveDir blockBB).canJump = p.canJump)
    ∧ (moveDir.x = 0 → moveDir.y = 0 → moveDir.z < 0 →
        (getPlayerBB (correctCollision p moveDir blockBB).position).min.z
            = blockBB.max.z + EPSILON
        ∧ (correctCollision p moveDir blockBB).position.z
            = p.position.z + (blockBB.max.z - (getPlayerBB p.position).min.z + EPSILON)
        ∧ (correctCollision p moveDir blockBB).position.x = p.position.x
        ∧ (correctCollision p moveDir blockBB).position.y = p.position.y
        ∧ (correctCollision p moveDir blockBB).velocity = p.velocity
        ∧ (correctCollision p moveDir blockBB).canJump = p.canJump) := by
  refine ⟨?_, ?_, ?_, ?_, ?_, ?_⟩
  · intro h
    have h1 : moveDir.x ≠ 0 := ne_of_gt h
    have e : correctCollision p moveDir blockBB
        = { p with position := { p.position with
              x := p.position.x + (blockBB.min.x - (getPlayerBB p.position).max.x - EPSILON) } } := by
      unfold correctCollision
      rw [if_pos h1, if_pos h]
    rw [e]
    refine ⟨?_, ?_, rfl, rfl, rfl, rfl⟩
    · simp only [getPlayerBB, setFromCenterAndSize, PLAYER_SIZE]; ring
    · simp only [getPlayerBB, setFromCenterAndSize, PLAYER_SIZE]; ring
  · intro h
    have h1 : moveDir.x ≠ 0 := ne_of_lt h
    have h2 : ¬ moveDir.x > 0 := not_lt.mpr (le_of_lt h)
    have e : correctCollision p moveDir blockBB
        = { p with position := { p.position with
              x := p.position.x + (blockBB.max.x - (getPlayerBB p.position).min.x + EPSILON) } } := by
      unfold correctCollision
      rw [if_pos h1, if_neg h2]
    rw [e]
    refine ⟨?_, ?_, rfl, rfl, rfl, rfl⟩
    · simp only [getPlayerBB, setFromCenterAndSize, PLAYER_SIZE]; ring
    · simp only [getPlayerBB, setFromCenterAndSize, PLAYER_SIZE]
  · intro hx h
    have h0 : ¬ moveDir.x ≠ 0 := not_not.mpr hx
    have h1 : moveDir.y ≠ 0 := ne_of_gt h
    have e : correctCollision p moveDir blockBB
        = { p with velocity := { p.velocity with y := 0 }, position := { p.position with
              y := p.position.y + (blockBB.min.y - (getPlayerBB p.position).max.y - EPSILON) } } := by
      unfold correctCollision
      rw [if_neg h0, if_pos h1]
      simp only [if_pos h]
    rw [e]
    refine ⟨?_, ?_, rfl, rfl, rfl, rfl⟩
    · simp only [getPlayerBB, setFromCenterAndSize, PLAYER_SIZE]; ring
    · simp only [getPlayerBB, setFromCenterAndSize, PLAYER_SIZE]; ring
  · intro hx h
    have h0 : ¬ moveDir.x ≠ 0 := not_not.mpr hx
    have h1 : moveDir.y ≠ 0 := ne_of_lt h
    have h2 : ¬ moveDir.y > 0 := not_lt.mpr (le_of_lt h)
    have e : correctCollision p moveDir blockBB
        = { position := { p.position with
              y := p.position.y + (blockBB.max.y - (getPlayerBB p.position).min.y + EPSILON) }
            velocity := { p.velocity with y := 0 }
            canJump := true } := by
      unfold correctCollision
      rw [if_neg h0, if_pos h1]
      simp only [if_neg h2]
    rw [e]
    refine ⟨?_, ?_, rfl, rfl, rfl, rfl⟩
    · simp only [getPlayerBB, setFromCenterAndSize, PLAYER_SIZE]; ring
    · simp only [getPlayerBB, setFromCenterAndSize, PLAYER_SIZE]
  · intro hx hy h
    have h0 : ¬ moveDir.x ≠ 0 := not_not.mpr hx
    have h1 : ¬ moveDir.y ≠ 0 := not_not.mpr hy
    have e : correctCollision p moveDir blockBB
        = { p with position := { p.position with
              z := p.position.z + (blockBB.min.z - (getPlayerBB p.position).max.z - EPSILON) } } := by
      unfold correctCollision
      rw [if_neg h0, if_neg h1, if_pos h]
    rw [e]
    refine ⟨?_, ?_, rfl, rfl, rfl, rfl⟩
    · simp only [getPlayerBB, setFromCenterAndSize, PLAYER_SIZE]; ring
    · simp only [getPlayerBB, setFromCenterAndSize, PLAYER_SIZE]; ring
  · intro hx hy h
    have h0 : ¬ moveDir.x ≠ 0 := not_not.mpr hx
    have h1 : ¬ moveDir.y ≠ 0 := not_not.mpr hy
    have h2 : ¬ moveDir.z > 0 := not_lt.mpr (le_of_lt h)
    have e : correctCollision p moveDir blockBB
        = { p with position := { p.position with
              z := p.position.z + (blockBB.max.z - (getPlayerBB p.position).min.z + EPSILON) } } := by
      unfold correctCollision
      rw [if_neg h0, if_neg h1, if_neg h2]
    rw [e]
    refine ⟨?_, ?_, rfl, rfl, rfl, rfl⟩
    · simp only [getPlayerBB, setFromCenterAndSize, PLAYER_SIZE]; ring
    · simp only [getPlayerBB, setFromCenterAndSize, PLAYER_SIZE]

/-- C20 for the falling player of `oneBlockWorld`, moved down by `1/2` into
the block at `(0, 0, 0)`: the box bottom ends `EPSILON` above the block top,
`velocity.y` is `0` and `canJump` is latched. -/
theorem correctCollision_frame_witness :
    (getPlayerBB (correctCollision { fallingPlayer with position := { x := 1 / 2, y := 3 / 2, z := 1 / 2 } }
        { x := 0, y := -1 / 2, z := 0 } (blockBox 0 0 0)).position).min.y
      = (blockBox 0 0 0).max.y + EPSILON
    ∧ (correctCollision { fallingPlayer with position := { x := 1 / 2, y := 3 / 2, z := 1 / 2 } }
        { x := 0, y := -1 / 2, z := 0 } (blockBox 0 0 0)).canJump = true :=
  ⟨((correctCollision_frame { fallingPlayer with position := { x := 1 / 2, y := 3 / 2, z := 1 / 2 } }
      { x := 0, y := -1 / 2, z := 0 } (blockBox 0 0 0)).2.2.2.1 rfl (by decide!)).1,
    ((correctCollision_frame { fallingPlayer with position := { x := 1 / 2, y := 3 / 2, z := 1 / 2 } }
      { x := 0, y := -1 / 2, z := 0 } (blockBox 0 0 0)).2.2.2.1 rfl (by decide!)).2.2.2.2.2⟩

/-! ## Save codec: the runs of the code -/

theorem group_value (n : Int) (h0 : 0 ≤ n) (h1 : n < 4096) :
    64 * base64num (base64char (shr6 n)) + base64num (base64char (Int.tmod n 64)) = n := by
  rw [shr6_small n h0 h1, Int.tmod_eq_emod h0 (by decide)]
  obtain ⟨m, rfl⟩ := Int.eq_ofNat_of_zero_le h0
  have hm : m < 4096 := by omega
  have e1 : ((m : Int) / 64) = ((m / 64 : Nat) : Int) := by omega
  have e2 : ((m : Int) % 64) = ((m % 64 : Nat) : Int) := by omega
  rw [e1, e2, base64_roundtrip _ (by omega), base64_roundtrip _ (by omega)]
  omega

theorem readRuns_append (code : List Char) : ∀ (runs : List (Int × Int)) (tail : List Char),
    readRuns code = some runs → code.length = 4 * runs.length →
    readRuns (code ++ tail) = (readRuns tail).map (fun rs => runs ++ rs) := by
  intro runs
  induction runs generalizing code with
  | nil =>
    intro tail _ hl
    have : code = [] := List.length_eq_zero.mp (by simpa using hl)
    subst this
    simp only [List.nil_append]
    cases readRuns tail <;> rfl
  | cons r runs ih =>
    intro tail hr hl
    match code, hl with
    | c0 :: c1 :: c2 :: c3 :: rest, hl =>
      simp only [readRuns, Option.map_eq_some'] at hr
      obtain ⟨rs, hrs, he⟩ := hr
      simp only [List.cons.injEq] at he
      obtain ⟨he1, he2⟩ := he
      subst he2
      have hl2 : rest.length = 4 * rs.length := by
        simp only [List.length_cons] at hl
        omega
      show readRuns (c0 :: c1 :: c2 :: c3 :: (rest ++ tail)) = _
      rw [readRuns, ih rest tail hrs hl2, ← he1]
      cases readRuns tail <;> rfl
    | [], hl => simp at hl
    | [_], hl => simp only [List.length_cons, List.length_nil] at hl; omega
    | [_, _], hl => simp only [List.length_cons, List.length_nil] at hl; omega
    | [_, _, _], hl => simp only [List.length_cons, List.length_nil] at hl; omega

theorem readRuns_snoc (code : List Char) (runs : List (Int × Int)) (id rc : Int)
    (hr : readRuns code = some runs) (hl : code.length = 4 * runs.length)
    (hid0 : 0 ≤ id) (hid1 : id < 4096) (hrc0 : 0 ≤ rc) (hrc1 : rc < 4096) :
    readRuns (code ++ [base64char (shr6 id), base64char (Int.tmod id 64),
        base64char (shr6 rc), base64char (Int.tmod rc 64)]) = some (runs ++ [(id, rc)])
    ∧ (code ++ [base64char (shr6 id), base64char (Int.tmod id 64),
        base64char (shr6 rc), base64char (Int.tmod rc 64)]).length
        = 4 * (runs ++ [(id, rc)]).length := by
  constructor
  · rw [readRuns_append code runs _ hr hl]
    simp only [readRuns, Option.map_some', group_value id hid0 hid1, group_value rc hrc0 hrc1]
  · simp only [List.length_append, List.length_cons, List.length_nil, hl]
    omega

theorem encRuns_close (s : EncState) (n : Nat) (id : Int) (hl : s.lastBlockID = some id)
    (h : EncRuns s n) :
    ∃ runs, readRuns (addToCode s) = some runs
      ∧ (addToCode s).length = 4 * runs.length
      ∧ (∀ r ∈ runs, 0 ≤ r.1 ∧ r.1 ≤ 4095 ∧ 1 ≤ r.2 ∧ r.2 ≤ 4095)
      ∧ List.Chain' RunBreak runs
      ∧ (runs.map (fun r => r.2)).sum = (n : Int)
      ∧ runs.getLast? = some (id, s.repeatCount) := by
  obtain ⟨runs, hr, hlen, hb, hch, hlast⟩ := h
  rw [hl] at hlast
  obtain ⟨h1, h2, h3, h4, hsum, hbr⟩ := hlast
  obtain ⟨hr2, hlen2⟩ := readRuns_snoc s.code runs id s.repeatCount hr hlen h1 (by omega)
    (by omega) (by omega)
  refine ⟨runs ++ [(id, s.repeatCount)], ?_, ?_, ?_, ?_, ?_, ?_⟩
  · simpa [addToCode, hl] using hr2
  · simpa [addToCode, hl] using hlen2
  · intro r hrm
    rcases List.mem_append.mp hrm with hrm | hrm
    · exact hb r hrm
    · simp only [List.mem_singleton] at hrm
      subst hrm
      exact ⟨h1, h2, h3, h4⟩
  · rw [List.chain'_append]
    refine ⟨hch, List.chain'_singleton _, ?_⟩
    intro x hx y hy
    simp only [List.head?_cons, Option.mem_def, Option.some.injEq] at hy
    subst hy
    exact hbr x hx
  · simp only [List.map_append, List.sum_append, List.map_cons, List.map_nil, List.sum_cons,
      List.sum_nil]
    omega
  · simp

theorem encodeStep_runs (s : EncState) (n : Nat) (id : Int) (h : EncRuns s n)
    (hid0 : 0 ≤ id) (hid1 : id ≤ 4095) : EncRuns (encodeStep s id) (n + 1) := by
  cases hl : s.lastBlockID with
  | none =>
    obtain ⟨runs, hr, hlen, hb, hch, hlast⟩ := h
    rw [hl] at hlast
    obtain ⟨hruns, hrc, hn⟩ := hlast
    have hs : encodeStep s id = { code := s.code, lastBlockID := some id, repeatCount := 1 } := by
      simp [encodeStep, hl]
    rw [hs]
    refine ⟨runs, hr, hlen, hb, hch, ?_⟩
    subst hruns
    subst hn
    simp only
    refine ⟨hid0, hid1, le_refl _, by decide, by simp, ?_⟩
    intro r hrm
    simp at hrm
  | some id0 =>
    by_cases hc : id0 = id ∧ s.repeatCount < 4095
    · obtain ⟨hid, hrc⟩ := hc
      subst hid
      obtain ⟨runs, hr, hlen, hb, hch, hlast⟩ := h
      rw [hl] at hlast
      obtain ⟨h1, h2, h3, h4, hsum, hbr⟩ := hlast
      have hs : encodeStep s id0 = { s with repeatCount := s.repeatCount + 1 } := by
        simp [encodeStep, hl, hrc]
      rw [hs]
      refine ⟨runs, hr, hlen, hb, hch, ?_⟩
      simp only [hl]
      refine ⟨h1, h2, by omega, by omega, by push_cast; omega, ?_⟩
      intro r hrm heq
      exact hbr r hrm heq
    · have hs : encodeStep s id
          = { code := addToCode s, lastBlockID := some id, repeatCount := 1 } := by
        unfold encodeStep
        rw [if_neg]
        · simp [hl]
        · rw [hl]
          intro hcon
          apply hc
          exact ⟨by simpa using hcon.1, hcon.2⟩
      have hrc4 : s.repeatCount ≤ 4095 := by
        obtain ⟨runs, _, _, _, _, hlast⟩ := h
        rw [hl] at hlast
        exact hlast.2.2.2.1
      obtain ⟨runs, hr, hlen, hb, hch, hsum, hlastrun⟩ := encRuns_close s n id0 hl h
      rw [hs]
      refine ⟨runs, hr, hlen, hb, hch, ?_⟩
      simp only
      refine ⟨hid0, hid1, le_refl _, by decide, by push_cast; omega, ?_⟩
      intro r hrm heq
      rw [hlastrun] at hrm
      simp only [Option.mem_def, Option.some.injEq] at hrm
      subst hrm
      simp only at heq ⊢
      by_contra hne
      exact hc ⟨heq, by omega⟩

theorem encodeFold_runs (ids : List Int) : ∀ (s : EncState) (n : Nat),
    EncRuns s n → (∀ id ∈ ids, 0 ≤ id ∧ id ≤ 4095) →
    EncRuns (ids.foldl encodeStep s) (n + ids.length) := by
  induction ids with
  | nil => intro s n h _; simpa using h
  | cons id ids ih =>
    intro s n h hb
    have hid := hb id (List.mem_cons_self _ _)
    have := ih (encodeStep s id) (n + 1) (encodeStep_runs s n id h hid.1 hid.2)
      (fun i hi => hb i (List.mem_cons_of_mem _ hi))
    simp only [List.foldl_cons, List.length_cons]
    rw [show n + (ids.length + 1) = n + 1 + ids.length by omega]
    exact this

theorem cellIds_length (cx cz : Int) (blocks : Obj Block) :
    (cellIds cx cz blocks).length = 16640 := by
  rw [cellIds_eq, List.length_map, List.length_range]

theorem encRuns_final (s : EncState) (n : Nat) (h : EncRuns s n) (hn : 0 < n) :
    ∃ runs, readRuns (addToCode s) = some runs
      ∧ (addToCode s).length = 4 * runs.length
      ∧ (∀ r ∈ runs, 1 ≤ r.2 ∧ r.2 ≤ 4095)
      ∧ List.Chain' RunBreak runs
      ∧ (runs.map (fun r => r.2)).sum = (n : Int) := by
  cases hl : s.lastBlockID with
  | none =>
    obtain ⟨_, _, _, _, _, hlast⟩ := h
    rw [hl] at hlast
    omega
  | some id =>
    obtain ⟨runs, hr, hlen, hb, hch, hsum, _⟩ := encRuns_close s n id hl h
    exact ⟨runs, hr, hlen, fun r hrm => ⟨(hb r hrm).2.2.1, (hb r hrm).2.2.2⟩, hch, hsum⟩

/-- C17: for a chunk whose stored ids are in `[0, 4095)`, the code written by
`generateChunkSaveCode` has a length that is a multiple of 4 and reads as a
list of runs in which every run length is between 1 and 4095, the lengths
add up to `65 * 16 * 16 = 16640`, and two consecutive runs have the same id
only when the earlier one has length 4095. -/
theorem save_code_runs (cx cz : Int) (chunk : Chunk)
    (hids : ∀ k b, objGet chunk.blocks k = some b → 0 ≤ b.id ∧ b.id < 4095) :
    ∃ code runs,
      generateChunkSaveCode (chunkKey cx cz) chunk = Except.ok code
      ∧ code.length % 4 = 0
      ∧ readRuns code = some runs
      ∧ (∀ r ∈ runs, 1 ≤ r.2 ∧ r.2 ≤ 4095)
      ∧ (runs.map (fun r => r.2)).sum = 65 * 16 * 16
      ∧ List.Chain' (fun r1 r2 : Int × Int => r1.1 = r2.1 → r1.2 = 4095) runs := by
  have hinit : EncRuns { code := [], lastBlockID := none, repeatCount := 0 } 0 :=
    ⟨[], rfl, rfl, fun r hr => (by cases hr), List.chain'_nil, rfl, rfl, rfl⟩
  have hfin := encodeFold_runs (cellIds cx cz chunk.blocks) _ 0 hinit
    (cellIds_bounds cx cz chunk.blocks hids)
  have hlen0 := cellIds_length cx cz chunk.blocks
  obtain ⟨runs, hr, hlen, hb, hch, hsum⟩ := encRuns_final _ _ hfin (by omega)
  refine ⟨_, runs, ?_, ?_, hr, hb, ?_, hch⟩
  · simp only [generateChunkSaveCode, keyToArray_chunkKey]
  · rw [hlen]; omega
  · rw [hsum, hlen0]; norm_num

/-- C17 on `twoBlockChunk` stored under `"0,0"`. -/
theorem save_code_runs_witness :
    ∃ code runs,
      generateChunkSaveCode (chunkKey 0 0) twoBlockChunk = Except.ok code
      ∧ code.length % 4 = 0
      ∧ readRuns code = some runs
      ∧ (runs.map (fun r => r.2)).sum = 65 * 16 * 16 := by
  obtain ⟨code, runs, h1, h2, h3, _, h5, _⟩ :=
    save_code_runs 0 0 twoBlockChunk twoBlockChunk_codec_ids
  exact ⟨code, runs, h1, h2, h3, h5⟩
/-! ## World generation: what `placeBlock` calls preserve -/

theorem mem_objSet {α : Type} (o : Obj α) (k : JSString) (v : α) (e : JSString × α)
    (h : e ∈ objSet o k v) : e ∈ o ∨ e = (k, v) := by
  induction o with
  | nil =>
    simp only [objSet, List.mem_singleton] at h
    exact Or.inr h
  | cons a o ih =>
    obtain ⟨k1, v1⟩ := a
    unfold objSet at h
    split at h
    · rcases List.mem_cons.mp h with h | h
      · exact Or.inr h
      · exact Or.inl (List.mem_cons_of_mem _ h)
    · rcases List.mem_cons.mp h with h | h
      · exact Or.inl (h ▸ List.mem_cons_self _ _)
      · rcases ih h with h | h
        · exact Or.inl (List.mem_cons_of_mem _ h)
        · exact Or.inr h

theorem keys_objSet {α : Type} (o : Obj α) (k : JSString) (v : α) (k2 : JSString)
    (h : k2 ∈ (objSet o k v).map Prod.fst) : k2 ∈ o.map Prod.fst ∨ k2 = k := by
  obtain ⟨e, he, hk⟩ := List.mem_map.mp h
  rcases mem_objSet o k v e he with h1 | h1
  · exact Or.inl (List.mem_map.mpr ⟨e, h1, hk⟩)
  · subst h1
    exact Or.inr hk.symm

theorem keysNodup_objSet {α : Type} (o : Obj α) (k : JSString) (v : α)
    (h : KeysNodup o) : KeysNodup (objSet o k v) := by
  induction o with
  | nil => simp [objSet, KeysNodup]
  | cons a o ih =>
    obtain ⟨k1, v1⟩ := a
    unfold KeysNodup at h ih ⊢
    rw [List.map_cons, List.nodup_cons] at h
    unfold objSet
    split
    · rename_i hk
      rw [List.map_cons, List.nodup_cons]
      subst hk
      exact h
    · rename_i hk
      rw [List.map_cons, List.nodup_cons]
      refine ⟨?_, ih h.2⟩
      intro hmem
      rcases keys_objSet o k v k1 hmem with h1 | h1
      · exact h.1 h1
      · exact hk h1

theorem mem_objDelete {α : Type} (o : Obj α) (k : JSString) (e : JSString × α)
    (h : e ∈ objDelete o k) : e ∈ o := by
  induction o with
  | nil => simp [objDelete] at h
  | cons a o ih =>
    obtain ⟨k1, v1⟩ := a
    unfold objDelete at h
    split at h
    · exact List.mem_cons_of_mem _ (ih h)
    · rcases List.mem_cons.mp h with h | h
      · exact h ▸ List.mem_cons_self _ _
      · exact List.mem_cons_of_mem _ (ih h)

theorem keysNodup_objDelete {α : Type} (o : Obj α) (k : JSString)
    (h : KeysNodup o) : KeysNodup (objDelete o k) := by
  induction o with
  | nil => simp [objDelete, KeysNodup]
  | cons a o ih =>
    obtain ⟨k1, v1⟩ := a
    unfold KeysNodup at h ih ⊢
    rw [List.map_cons, List.nodup_cons] at h
    unfold objDelete
    split
    · exact ih h.2
    · rw [List.map_cons, List.nodup_cons]
      refine ⟨?_, ih h.2⟩
      intro hmem
      obtain ⟨e, he, hk⟩ := List.mem_map.mp hmem
      exact h.1 (List.mem_map.mpr ⟨e, mem_objDelete o k e he, hk⟩)

/-- With distinct keys, an entry of the dictionary is what `objGet` reads
under its key. -/
theorem objGet_of_mem {α : Type} (o : Obj α) (h : KeysNodup o) (e : JSString × α)
    (he : e ∈ o) : objGet o e.1 = some e.2 := by
  induction o with
  | nil => cases he
  | cons a o ih =>
    obtain ⟨k1, v1⟩ := a
    unfold KeysNodup at h ih
    rw [List.map_cons, List.nodup_cons] at h
    unfold objGet
    rcases List.mem_cons.mp he with h1 | h1
    · subst h1
      simp
    · have hne : k1 ≠ e.1 := by
        intro hk
        apply h.1
        rw [hk]
        exact List.mem_map.mpr ⟨e, h1, rfl⟩
      rw [if_neg hne]
      exact ih h.2 h1

theorem mem_of_objGet {α : Type} (o : Obj α) (k : JSString) (v : α)
    (h : objGet o k = some v) : (k, v) ∈ o := by
  induction o with
  | nil => simp [objGet] at h
  | cons a o ih =>
    obtain ⟨k1, v1⟩ := a
    unfold objGet at h
    split at h
    · rename_i hk
      simp only [Option.some.injEq] at h
      subst hk; subst h
      exact List.mem_cons_self _ _
    · exact List.mem_cons_of_mem _ (ih h)

theorem chunkGrows_refl (Q : Int → Int → Int → Int → Prop) (ck : JSString) (c : Chunk) :
    ChunkGrows Q ck c c :=
  ⟨rfl, rfl, rfl, fun _ _ h => h, fun _ he => Or.inl he, fun h => h⟩

theorem chunkGrows_trans (Q : Int → Int → Int → Int → Prop) (ck : JSString) (a b c : Chunk)
    (h1 : ChunkGrows Q ck a b) (h2 : ChunkGrows Q ck b c) : ChunkGrows Q ck a c := by
  obtain ⟨l1, g1, m1, b1, n1, d1⟩ := h1
  obtain ⟨l2, g2, m2, b2, n2, d2⟩ := h2
  refine ⟨l2.trans l1, g2.trans g1, m2.trans m1, fun k blk h => b2 k blk (b1 k blk h), ?_,
    fun h => d2 (d1 h)⟩
  intro e he
  rcases n2 e he with h | h
  · exact n1 e h
  · exact Or.inr h

theorem worldRel_refl (R : JSString → Chunk → Chunk → Prop) (hR : ∀ ck c, R ck c c)
    (w : World) : WorldRel R w w := by
  refine ⟨fun _ h => h, fun h => h, ?_⟩
  intro ck c2 hc
  rw [hc]
  exact hR ck c2

theorem worldRel_trans (R : JSString → Chunk → Chunk → Prop)
    (hR : ∀ ck a b c, R ck a b → R ck b c → R ck a c) (a b c : World)
    (h1 : WorldRel R a b) (h2 : WorldRel R b c) : WorldRel R a c := by
  refine ⟨fun ck h => h2.1 ck (h1.1 ck h), fun h => h2.2.1 (h1.2.1 h), ?_⟩
  intro ck c2 hc
  have hbc := h2.2.2 ck c2 hc
  cases hb : objGet b ck with
  | none =>
    rw [hb] at hbc
    have ha : objGet a ck = none := by
      cases ha : objGet a ck with
      | none => rfl
      | some x =>
        have := h1.1 ck (by rw [ha]; rfl)
        rw [hb] at this
        cases this
    rw [ha]
    exact hbc
  | some cb =>
    rw [hb] at hbc
    exact hR ck _ cb c2 (h1.2.2 ck cb hb) hbc

theorem worldRel_mono (R R2 : JSString → Chunk → Chunk → Prop)
    (hR : ∀ ck a b, R ck a b → R2 ck a b) (w w2 : World) (h : WorldRel R w w2) :
    WorldRel R2 w w2 :=
  ⟨h.1, h.2.1, fun ck c2 hc => hR ck _ c2 (h.2.2 ck c2 hc)⟩

/-- Storing `c2` under `ck` relates the worlds when `c2` is related to what
was stored there. -/
theorem worldRel_objSet (R : JSString → Chunk → Chunk → Prop) (hR : ∀ ck c, R ck c c)
    (w : World) (ck : JSString) (c2 : Chunk)
    (h : R ck ((objGet w ck).getD emptyChunk) c2) : WorldRel R w (objSet w ck c2) := by
  refine ⟨?_, keysNodup_objSet w ck c2, ?_⟩
  · intro ck2 hpres
    by_cases hck : ck = ck2
    · rw [← hck, objGet_objSet_same]; rfl
    · rw [objGet_objSet_other _ _ _ _ hck]; exact hpres
  · intro ck2 c3 hc3
    by_cases hck : ck = ck2
    · subst hck
      rw [objGet_objSet_same] at hc3
      simp only [Option.some.injEq] at hc3
      subst hc3
      exact h
    · rw [objGet_objSet_other _ _ _ _ hck] at hc3
      rw [hc3]
      exact hR ck2 c3

theorem chunkEvolves_refl (Q : Int → Int → Int → Int → Prop) (ck : JSString) (c : Chunk) :
    ChunkEvolves Q ck c c :=
  ⟨fun h => h, fun h => h, fun _ _ h => h, fun _ he => Or.inl he, fun h => h⟩

theorem chunkEvolves_trans (Q : Int → Int → Int → Int → Prop) (ck : JSString) (a b c : Chunk)
    (h1 : ChunkEvolves Q ck a b) (h2 : ChunkEvolves Q ck b c) : ChunkEvolves Q ck a c := by
  obtain ⟨l1, g1, b1, n1, d1⟩ := h1
  obtain ⟨l2, g2, b2, n2, d2⟩ := h2
  refine ⟨fun h => l2 (l1 h), fun h => g2 (g1 h), fun k blk h => b2 k blk (b1 k blk h), ?_,
    fun h => d2 (d1 h)⟩
  intro e he
  rcases n2 e he with h | h
  · exact n1 e h
  · exact Or.inr h

theorem chunkEvolves_of_grows (Q : Int → Int → Int → Int → Prop) (ck : JSString) (a b : Chunk)
    (h : ChunkGrows Q ck a b) : ChunkEvolves Q ck a b := by
  obtain ⟨l, g, _, bk, n, d⟩ := h
  exact ⟨fun h => by rw [l]; exact h, fun h => by rw [g]; exact h, bk, n, d⟩

theorem grows_refl (Q : Int → Int → Int → Int → Prop) (w : World) : Grows Q w w :=
  worldRel_refl _ (chunkGrows_refl Q) w

theorem grows_trans (Q : Int → Int → Int → Int → Prop) (a b c : World)
    (h1 : Grows Q a b) (h2 : Grows Q b c) : Grows Q a c :=
  worldRel_trans _ (chunkGrows_trans Q) a b c h1 h2

theorem evolves_refl (Q : Int → Int → Int → Int → Prop) (w : World) : Evolves Q w w :=
  worldRel_refl _ (chunkEvolves_refl Q) w

theorem evolves_trans (Q : Int → Int → Int → Int → Prop) (a b c : World)
    (h1 : Evolves Q a b) (h2 : Evolves Q b c) : Evolves Q a c :=
  worldRel_trans _ (chunkEvolves_trans Q) a b c h1 h2

theorem evolves_of_grows (Q : Int → Int → Int → Int → Prop) (w w2 : World)
    (h : Grows Q w w2) : Evolves Q w w2 :=
  worldRel_mono _ _ (chunkEvolves_of_grows Q) w w2 h

theorem grows_mono (Q Q2 : Int → Int → Int → Int → Prop) (w w2 : World)
    (hq : ∀ id x y z, Q id x y z → Q2 id x y z) (h : Grows Q w w2) : Grows Q2 w w2 := by
  refine worldRel_mono _ _ ?_ w w2 h
  intro ck a b hab
  obtain ⟨l, g, m, bk, n, d⟩ := hab
  refine ⟨l, g, m, bk, ?_, d⟩
  intro e he
  rcases n e he with h | ⟨x, y, z, h1, h2, h3⟩
  · exact Or.inl h
  · exact Or.inr ⟨x, y, z, h1, h2, hq _ _ _ _ h3⟩

theorem evolves_mono (Q Q2 : Int → Int → Int → Int → Prop) (w w2 : World)
    (hq : ∀ id x y z, Q id x y z → Q2 id x y z) (h : Evolves Q w w2) : Evolves Q2 w w2 := by
  refine worldRel_mono _ _ ?_ w w2 h
  intro ck a b hab
  obtain ⟨l, g, bk, n, d⟩ := hab
  refine ⟨l, g, bk, ?_, d⟩
  intro e he
  rcases n e he with h | ⟨x, y, z, h1, h2, h3⟩
  · exact Or.inl h
  · exact Or.inr ⟨x, y, z, h1, h2, hq _ _ _ _ h3⟩

/-- One `placeBlock` call with a block that satisfies `Q`. -/
theorem placeBlock_grows (Q : Int → Int → Int → Int → Prop) (w : World) (id x y z : Int)
    (hq : Q id x y z) : Grows Q w (placeBlock w id x y z).2 := by
  cases hb : blockAt w x y z with
  | some b =>
    rw [placeBlock_occupied w id x y z b hb]
    exact grows_refl Q w
  | none =>
    obtain ⟨c0, w1, hp, hfree, hcase⟩ := placeBlock_free w id x y z hb
    rw [hp]
    have hc0 : (objGet w (blockChunkKey x z)).getD emptyChunk = c0 := by
      rcases hcase with ⟨hsome, _⟩ | ⟨hnone, hc, _⟩
      · simp only [getBlockChunk] at hsome
        rw [hsome]; rfl
      · simp only [getBlockChunk] at hnone
        rw [hnone, hc]; rfl
    have hw1 : ∀ ck, ck ≠ blockChunkKey x z → objGet w1 ck = objGet w ck := by
      intro ck hck
      rcases hcase with ⟨_, hw⟩ | ⟨_, _, hw⟩
      · rw [hw]
      · rw [hw, objGet_objSet_other _ _ _ _ (Ne.symm hck)]
    have hnd : KeysNodup w → KeysNodup w1 := by
      intro h
      rcases hcase with ⟨_, hw⟩ | ⟨_, _, hw⟩
      · rw [hw]; exact h
      · rw [hw]; exact keysNodup_objSet _ _ _ h
    refine ⟨?_, fun h => keysNodup_objSet _ _ _ (hnd h), ?_⟩
    · intro ck hpres
      by_cases hck : ck = blockChunkKey x z
      · rw [hck, objGet_objSet_same]; rfl
      · rw [objGet_objSet_other _ _ _ _ (Ne.symm hck), hw1 ck hck]
        exact hpres
    · intro ck c2 hc2
      by_cases hck : ck = blockChunkKey x z
      · subst hck
        rw [objGet_objSet_same] at hc2
        simp only [Option.some.injEq] at hc2
        subst hc2
        rw [hc0]
        refine ⟨rfl, rfl, rfl, ?_, ?_, fun h => keysNodup_objSet _ _ _ h⟩
        · intro k b hk
          by_cases hkk : key x y z = k
          · rw [← hkk, hfree] at hk
            cases hk
          · simp only
            rw [objGet_objSet_other _ _ _ _ hkk]
            exact hk
        · intro e he
          rcases mem_objSet _ _ _ e he with h | h
          · exact Or.inl h
          · subst h
            exact Or.inr ⟨x, y, z, rfl, rfl, hq⟩
      · rw [objGet_objSet_other _ _ _ _ (Ne.symm hck), hw1 ck hck] at hc2
        rw [hc2]
        exact chunkGrows_refl Q ck c2

theorem placeAll_grows (Q : Int → Int → Int → Int → Prop)
    (calls : List (Int × Int × Int × Int)) : ∀ w : World,
    (∀ c ∈ calls, Q c.1 c.2.1 c.2.2.1 c.2.2.2) → Grows Q w (placeAll w calls) := by
  induction calls with
  | nil => intro w _; exact grows_refl Q w
  | cons c calls ih =>
    intro w hq
    have h1 := placeBlock_grows Q w c.1 c.2.1 c.2.2.1 c.2.2.2 (hq c (List.mem_cons_self _ _))
    have h2 := ih (placeBlock w c.1 c.2.1 c.2.2.1 c.2.2.2).2
      (fun d hd => hq d (List.mem_cons_of_mem _ hd))
    exact grows_trans Q _ _ _ h1 h2

/-! ### Columns of a chunk, lookups through the relations -/

theorem blockChunkKey_in_chunk (cx cz i j : Int) (hi : 0 ≤ i ∧ i < 16) (hj : 0 ≤ j ∧ j < 16) :
    blockChunkKey (cx * CHUNK_SIZE + i) (cz * CHUNK_SIZE + j) = chunkKey cx cz := by
  unfold blockChunkKey
  simp only [fdiv_chunk]
  unfold CHUNK_SIZE
  have h1 : (cx * 16 + i) / 16 = cx := by omega
  have h2 : (cz * 16 + j) / 16 = cz := by omega
  rw [h1, h2]

theorem evolves_blockAt (Q : Int → Int → Int → Int → Prop) (w w2 : World)
    (h : Evolves Q w w2) (x y z : Int) (b : Block) (hb : blockAt w x y z = some b) :
    blockAt w2 x y z = some b := by
  unfold blockAt getBlockChunk at hb ⊢
  cases hc : objGet w (blockChunkKey x z) with
  | none => rw [hc] at hb; cases hb
  | some c =>
    rw [hc] at hb
    have hp := h.1 (blockChunkKey x z) (by rw [hc]; rfl)
    cases hc2 : objGet w2 (blockChunkKey x z) with
    | none => rw [hc2] at hp; cases hp
    | some c2 =>
      have hr := h.2.2 _ c2 hc2
      rw [hc] at hr
      exact hr.2.2.1 _ b hb

theorem grows_blockAt (Q : Int → Int → Int → Int → Prop) (w w2 : World)
    (h : Grows Q w w2) (x y z : Int) (b : Block) (hb : blockAt w x y z = some b) :
    blockAt w2 x y z = some b :=
  evolves_blockAt Q w w2 (evolves_of_grows Q w w2 h) x y z b hb

/-- A block of the later world was there before or is a new block that
satisfies `Q`. -/
theorem evolves_blockAt_inv (Q : Int → Int → Int → Int → Prop) (w w2 : World)
    (h : Evolves Q w w2)
    (hcn : ∀ ck c, objGet w ck = some c → KeysNodup c.blocks)
    (x y z : Int) (b : Block) (hb : blockAt w2 x y z = some b) :
    blockAt w x y z = some b ∨ Q b.id x y z := by
  unfold blockAt getBlockChunk at hb ⊢
  cases hc2 : objGet w2 (blockChunkKey x z) with
  | none => rw [hc2] at hb; cases hb
  | some c2 =>
    rw [hc2] at hb
    have hr := h.2.2 _ c2 hc2
    rcases hr.2.2.2.1 _ (mem_of_objGet _ _ _ hb) with hold | ⟨x2, y2, z2, hk, _, hq⟩
    · cases hc : objGet w (blockChunkKey x z) with
      | none =>
        rw [hc] at hold
        cases hold
      | some c =>
        rw [hc] at hold
        left
        exact objGet_of_mem c.blocks (hcn _ c hc) _ hold
    · obtain ⟨h1, h2, h3⟩ := key_inj hk
      subst h1; subst h2; subst h3
      exact Or.inr hq

theorem worldOk_nil : WorldOk [] := by
  intro ck c hc
  cases hc

theorem evolves_worldOk (Q : Int → Int → Int → Int → Prop) (w w2 : World)
    (hq : ∀ id x y z, Q id x y z → 0 ≤ id ∧ id < 5)
    (h : Evolves Q w w2) (hok : WorldOk w) : WorldOk w2 := by
  intro ck c2 hc2 e he
  have hr := h.2.2 ck c2 hc2
  rcases hr.2.2.2.1 e he with hold | ⟨x, y, z, hk, hck, hid⟩
  · cases hc : objGet w ck with
    | none =>
      rw [hc] at hold
      cases hold
    | some c =>
      rw [hc] at hold
      exact hok ck c hc e hold
  · exact ⟨x, y, z, hk, hck, hq _ _ _ _ hid⟩

theorem worldOk_wellFormed (w : World) (h : WorldOk w) : WorldWellFormed w := by
  intro ck c hc e he
  obtain ⟨x, y, z, hk, hck, _⟩ := h ck c hc e he
  exact ⟨x, y, z, hk, hck⟩

theorem genBlock_ids (height : Int → Int → Int) (random : Nat → ℚ) (cx cz id x y z : Int)
    (h : GenBlock height random cx cz id x y z) : 0 ≤ id ∧ id < 5 := by
  rcases h with ⟨_, _, hid, _⟩ | ⟨hid, _⟩
  · rw [hid]
    unfold layerType BLOCK_ID.grass BLOCK_ID.dirt BLOCK_ID.stone
    split_ifs <;> decide
  · rcases hid with hid | hid <;> rw [hid] <;> decide

/-! ### The column scan inside the tree loop -/

theorem findTopFrom_missing (chunks : World) (x z : Int)
    (hc : getBlockChunk chunks x z = none) (n : Nat) :
    findTopFrom chunks x z n = Except.error Err.typeError := by
  cases n <;> simp [findTopFrom, isBlockAt, hc]

theorem findTopBlockY_bounds (chunks : World) (x z topY : Int)
    (h : findTopBlockY chunks x z = Except.ok (some topY)) :
    0 ≤ topY ∧ topY ≤ MAX_HEIGHT ∧ (blockAt chunks x topY z).isSome := by
  unfold findTopBlockY at h
  cases hc : getBlockChunk chunks x z with
  | none =>
    rw [findTopFrom_missing chunks x z hc] at h
    cases h
  | some c =>
    obtain ⟨r, hr, hsome, _⟩ := findTopFrom_spec chunks x z c hc MAX_HEIGHT.toNat
    rw [hr] at h
    simp only [Except.ok.injEq] at h
    obtain ⟨h0, h1, h2, _⟩ := hsome topY h
    have e : ((MAX_HEIGHT.toNat : Nat) : Int) = MAX_HEIGHT := by decide
    rw [e] at h1
    exact ⟨h0, h1, h2⟩

theorem floor_random_mul (r : ℚ) (n : Int) (hn : 0 < n) (h0 : 0 ≤ r) (h1 : r < 1) :
    0 ≤ ⌊r * (n : ℚ)⌋ ∧ ⌊r * (n : ℚ)⌋ < n := by
  have hnq : (0 : ℚ) < (n : ℚ) := by exact_mod_cast hn
  constructor
  · exact Int.floor_nonneg.mpr (mul_nonneg h0 hnq.le)
  · rw [Int.floor_lt]
    calc r * (n : ℚ) < 1 * (n : ℚ) := mul_lt_mul_of_pos_right h1 hnq
      _ = (n : ℚ) := one_mul _

/-! ### Trees -/

theorem leafStep_grows (Q : Int → Int → Int → Int → Prop) (random : Nat → ℚ)
    (rx leafY rz : Int)
    (hq : ∀ x z, Q BLOCK_ID.leaves x leafY z ∧ Q BLOCK_ID.leaves x (leafY - 1) z)
    (s : World × Nat) (l : Int × Int) :
    Grows Q s.1 (leafStep random rx leafY rz s l).1
      ∧ s.2 ≤ (leafStep random rx leafY rz s l).2 := by
  unfold leafStep
  dsimp only
  split_ifs
  · exact ⟨grows_trans Q _ _ _ (placeBlock_grows Q _ _ _ _ _ (hq _ _).1)
      (placeBlock_grows Q _ _ _ _ _ (hq _ _).2), by omega⟩
  · exact ⟨placeBlock_grows Q _ _ _ _ _ (hq _ _).1, by omega⟩
  · exact ⟨placeBlock_grows Q _ _ _ _ _ (hq _ _).1, by omega⟩
  · exact ⟨grows_refl Q _, by omega⟩
  · exact ⟨grows_refl Q _, le_refl _⟩

theorem leafFold_grows (Q : Int → Int → Int → Int → Prop) (random : Nat → ℚ)
    (rx leafY rz : Int)
    (hq : ∀ x z, Q BLOCK_ID.leaves x leafY z ∧ Q BLOCK_ID.leaves x (leafY - 1) z)
    (ls : List (Int × Int)) : ∀ s : World × Nat,
    Grows Q s.1 (ls.foldl (leafStep random rx leafY rz) s).1
      ∧ s.2 ≤ (ls.foldl (leafStep random rx leafY rz) s).2 := by
  induction ls with
  | nil => intro s; exact ⟨grows_refl Q _, le_refl _⟩
  | cons l ls ih =>
    intro s
    obtain ⟨h1, h2⟩ := leafStep_grows Q random rx leafY rz hq s l
    obtain ⟨h3, h4⟩ := ih (leafStep random rx leafY rz s l)
    exact ⟨grows_trans Q _ _ _ h1 h3, le_trans h2 h4⟩

theorem treeStep_grows (random : Nat → ℚ) (cx cz : Int) (s s2 : World × Nat)
    (h : treeStep random (cx * CHUNK_SIZE) (cz * CHUNK_SIZE) s = Except.ok s2) :
    Grows (TreeBlock random cx cz) s.1 s2.1 ∧ s.2 ≤ s2.2 := by
  unfold treeStep at h
  split_ifs at h with hr
  · dsimp only at h
    split at h
    · cases h
    · simp only [Except.ok.injEq] at h
      subst h
      exact ⟨grows_refl _ _, by simp⟩
    · rename_i topY hf
      simp only [Except.ok.injEq] at h
      subst h
      obtain ⟨t0, t1, _⟩ := findTopBlockY_bounds _ _ _ _ hf
      have hheight : Random01 random →
          0 ≤ ⌊random (s.2 + 3) * 3⌋ ∧ ⌊random (s.2 + 3) * 3⌋ < 3 := by
        intro h01
        have := floor_random_mul (random (s.2 + 3)) 3 (by decide) (h01 _).1 (h01 _).2
        simpa using this
      have hown : Random01 random →
          blockChunkKey (cx * CHUNK_SIZE + ⌊random (s.2 + 1) * (CHUNK_SIZE : ℚ)⌋)
            (cz * CHUNK_SIZE + ⌊random (s.2 + 2) * (CHUNK_SIZE : ℚ)⌋) = chunkKey cx cz := by
        intro h01
        exact blockChunkKey_in_chunk cx cz _ _
          (floor_random_mul (random (s.2 + 1)) CHUNK_SIZE (by decide) (h01 _).1 (h01 _).2)
          (floor_random_mul (random (s.2 + 2)) CHUNK_SIZE (by decide) (h01 _).1 (h01 _).2)
      have htrunk := placeAll_grows (TreeBlock random cx cz)
        (trunkCalls (cx * CHUNK_SIZE + ⌊random (s.2 + 1) * (CHUNK_SIZE : ℚ)⌋) (topY + 1)
          (cz * CHUNK_SIZE + ⌊random (s.2 + 2) * (CHUNK_SIZE : ℚ)⌋)
          (2 + ⌊random (s.2 + 3) * 3⌋)) s.1
        (by
          intro c hc
          unfold trunkCalls at hc
          obtain ⟨ty, hty, rfl⟩ := List.mem_map.mp hc
          rw [List.mem_range] at hty
          refine ⟨Or.inl rfl, ?_⟩
          intro h01
          obtain ⟨a, b⟩ := hheight h01
          refine ⟨?_, ?_, fun _ => hown h01⟩
          · dsimp only
            omega
          · unfold MAX_HEIGHT at t1 ⊢
            dsimp only
            omega)
      obtain ⟨hl, hcur⟩ := leafFold_grows (TreeBlock random cx cz) random
        (cx * CHUNK_SIZE + ⌊random (s.2 + 1) * (CHUNK_SIZE : ℚ)⌋)
        (topY + 1 + (2 + ⌊random (s.2 + 3) * 3⌋))
        (cz * CHUNK_SIZE + ⌊random (s.2 + 2) * (CHUNK_SIZE : ℚ)⌋)
        (by
          intro x z
          have hne : BLOCK_ID.leaves = BLOCK_ID.wood → blockChunkKey x z = chunkKey cx cz :=
            fun e => absurd e (by decide)
          refine ⟨⟨Or.inr rfl, ?_⟩, ⟨Or.inr rfl, ?_⟩⟩
          · intro h01
            obtain ⟨a, b⟩ := hheight h01
            refine ⟨?_, ?_, hne⟩
            · omega
            · unfold MAX_HEIGHT at t1 ⊢
              omega
          · intro h01
            obtain ⟨a, b⟩ := hheight h01
            refine ⟨?_, ?_, hne⟩
            · omega
            · unfold MAX_HEIGHT at t1 ⊢
              omega)
        leafOffsets
        (placeAll s.1 (trunkCalls (cx * CHUNK_SIZE + ⌊random (s.2 + 1) * (CHUNK_SIZE : ℚ)⌋)
          (topY + 1) (cz * CHUNK_SIZE + ⌊random (s.2 + 2) * (CHUNK_SIZE : ℚ)⌋)
          (2 + ⌊random (s.2 + 3) * 3⌋)), s.2 + 4)
      refine ⟨grows_trans _ _ _ _ htrunk hl, ?_⟩
      have : s.2 ≤ s.2 + 4 := by omega
      exact le_trans this hcur
  · simp only [Except.ok.injEq] at h
    subst h
    exact ⟨grows_refl _ _, by simp⟩

theorem treesPass_grows (random : Nat → ℚ) (cx cz : Int) (t : Nat) :
    ∀ s s2 : World × Nat,
    treesPass random (cx * CHUNK_SIZE) (cz * CHUNK_SIZE) t s = Except.ok s2 →
    Grows (TreeBlock random cx cz) s.1 s2.1 ∧ s.2 ≤ s2.2 := by
  induction t with
  | zero =>
    intro s s2 h
    simp only [treesPass, Except.ok.injEq] at h
    subst h
    exact ⟨grows_refl _ _, le_refl _⟩
  | succ t ih =>
    intro s s2 h
    unfold treesPass at h
    split at h
    · cases h
    · rename_i s1 hs1
      obtain ⟨g1, c1⟩ := treeStep_grows random cx cz s s1 hs1
      obtain ⟨g2, c2⟩ := ih s1 s2 h
      exact ⟨grows_trans _ _ _ _ g1 g2, le_trans c1 c2⟩

theorem treeStep_total (random : Nat → ℚ) (h01 : Random01 random) (cx cz : Int)
    (s : World × Nat) (hc : (objGet s.1 (chunkKey cx cz)).isSome) :
    ∃ s2, treeStep random (cx * CHUNK_SIZE) (cz * CHUNK_SIZE) s = Except.ok s2 := by
  unfold treeStep
  split_ifs with hr
  · dsimp only
    have hx := floor_random_mul (random (s.2 + 1)) CHUNK_SIZE (by decide) (h01 _).1 (h01 _).2
    have hz := floor_random_mul (random (s.2 + 2)) CHUNK_SIZE (by decide) (h01 _).1 (h01 _).2
    have hck := blockChunkKey_in_chunk cx cz _ _ hx hz
    obtain ⟨c, hcc⟩ := Option.isSome_iff_exists.mp hc
    have hg : getBlockChunk s.1 (cx * CHUNK_SIZE + ⌊random (s.2 + 1) * (CHUNK_SIZE : ℚ)⌋)
        (cz * CHUNK_SIZE + ⌊random (s.2 + 2) * (CHUNK_SIZE : ℚ)⌋) = some c := by
      unfold getBlockChunk
      dsimp only
      rw [hck]
      exact hcc
    obtain ⟨r, hr2, _⟩ := findTopFrom_spec s.1 _ _ c hg MAX_HEIGHT.toNat
    unfold findTopBlockY
    rw [hr2]
    cases r with
    | none => exact ⟨_, rfl⟩
    | some topY => exact ⟨_, rfl⟩
  · exact ⟨_, rfl⟩

theorem treesPass_total (random : Nat → ℚ) (h01 : Random01 random) (cx cz : Int) (t : Nat) :
    ∀ s : World × Nat, (objGet s.1 (chunkKey cx cz)).isSome →
    ∃ s2, treesPass random (cx * CHUNK_SIZE) (cz * CHUNK_SIZE) t s = Except.ok s2 := by
  induction t with
  | zero => intro s _; exact ⟨s, rfl⟩
  | succ t ih =>
    intro s hc
    obtain ⟨s1, hs1⟩ := treeStep_total random h01 cx cz s hc
    have hg := (treeStep_grows random cx cz s s1 hs1).1
    obtain ⟨s2, hs2⟩ := ih s1 (hg.1 _ hc)
    refine ⟨s2, ?_⟩
    unfold treesPass
    rw [hs1]
    exact hs2

/-! ### The terrain pass -/

theorem placeBlock_blockAt_self (w : World) (id x y z : Int) :
    blockAt (placeBlock w id x y z).2 x y z
      = some ((blockAt w x y z).getD { id := id }) := by
  cases hb : blockAt w x y z with
  | some b =>
    rw [placeBlock_occupied w id x y z b hb]
    exact hb
  | none =>
    obtain ⟨c0, w1, hp, _, _⟩ := placeBlock_free w id x y z hb
    rw [hp]
    simp [blockAt, getBlockChunk, objGet_objSet_same]

theorem placeBlock_blockAt_other (w : World) (id x y z x2 y2 z2 : Int)
    (hne : (x2, y2, z2) ≠ (x, y, z)) :
    blockAt (placeBlock w id x y z).2 x2 y2 z2 = blockAt w x2 y2 z2 := by
  cases hb : blockAt w x y z with
  | some b => rw [placeBlock_occupied w id x y z b hb]
  | none =>
    obtain ⟨c0, w1, hp, _, hcase⟩ := placeBlock_free w id x y z hb
    rw [hp]
    have hk : key x y z ≠ key x2 y2 z2 := key_ne hne
    by_cases hck : blockChunkKey x2 z2 = blockChunkKey x z
    · simp only [blockAt, getBlockChunk, hck, objGet_objSet_same, Option.bind]
      rw [objGet_objSet_other _ _ _ _ hk]
      rcases hcase with ⟨hsome, _⟩ | ⟨hnone, hc0, _⟩
      · simp only [getBlockChunk] at hsome
        rw [hsome]
      · simp only [getBlockChunk] at hnone
        rw [hnone, hc0]
        rfl
    · simp only [blockAt, getBlockChunk]
      rw [objGet_objSet_other _ _ _ _ (Ne.symm hck)]
      rcases hcase with ⟨_, hw⟩ | ⟨_, _, hw⟩
      · rw [hw]
      · rw [hw, objGet_objSet_other _ _ _ _ (Ne.symm hck)]

theorem placeAll_blockAt_old (calls : List (Int × Int × Int × Int)) (w : World)
    (x y z : Int) (b : Block) (hb : blockAt w x y z = some b) :
    blockAt (placeAll w calls) x y z = some b :=
  grows_blockAt (fun _ _ _ _ => True) w _
    (placeAll_grows _ calls w (fun _ _ => trivial)) x y z b hb

theorem placeAll_blockAt_untouched (calls : List (Int × Int × Int × Int)) :
    ∀ (w : World) (x y z : Int), (∀ c ∈ calls, (x, y, z) ≠ (c.2.1, c.2.2.1, c.2.2.2)) →
    blockAt (placeAll w calls) x y z = blockAt w x y z := by
  induction calls with
  | nil => intro w x y z _; rfl
  | cons c calls ih =>
    intro w x y z h
    have h1 := ih (placeBlock w c.1 c.2.1 c.2.2.1 c.2.2.2).2 x y z
      (fun d hd => h d (List.mem_cons_of_mem _ hd))
    have h2 := placeBlock_blockAt_other w c.1 c.2.1 c.2.2.1 c.2.2.2 x y z
      (h c (List.mem_cons_self _ _))
    exact h1.trans h2

theorem placeAll_blockAt_new (calls : List (Int × Int × Int × Int)) (id : Int) :
    ∀ (w : World) (x y z : Int), blockAt w x y z = none →
    (∃ c ∈ calls, (c.2.1, c.2.2.1, c.2.2.2) = (x, y, z)) →
    (∀ c ∈ calls, (c.2.1, c.2.2.1, c.2.2.2) = (x, y, z) → c.1 = id) →
    blockAt (placeAll w calls) x y z = some { id := id } := by
  induction calls with
  | nil =>
    intro w x y z _ h
    obtain ⟨c, hc, _⟩ := h
    cases hc
  | cons c calls ih =>
    intro w x y z hb hex hid
    by_cases hpos : (c.2.1, c.2.2.1, c.2.2.2) = (x, y, z)
    · have hc := hid c (List.mem_cons_self _ _) hpos
      simp only [Prod.mk.injEq] at hpos
      obtain ⟨h1, h2, h3⟩ := hpos
      have hs := placeBlock_blockAt_self w c.1 c.2.1 c.2.2.1 c.2.2.2
      rw [h1, h2, h3, hb, hc] at hs
      exact placeAll_blockAt_old calls _ x y z _ (by
        rw [← h1, ← h2, ← h3, ← hc] at hs ⊢
        exact hs)
    · have ho := placeBlock_blockAt_other w c.1 c.2.1 c.2.2.1 c.2.2.2 x y z
        (fun e => hpos e.symm)
      refine ih (placeBlock w c.1 c.2.1 c.2.2.1 c.2.2.2).2 x y z (ho.trans hb) ?_
        (fun d hd => hid d (List.mem_cons_of_mem _ hd))
      obtain ⟨d, hd, hdp⟩ := hex
      rcases List.mem_cons.mp hd with h | h
      · subst h
        exact absurd hdp hpos
      · exact ⟨d, h, hdp⟩

theorem mem_columnCalls (h wx wz : Int) (c : Int × Int × Int × Int) :
    c ∈ columnCalls h wx wz ↔
      ∃ y : Int, 0 ≤ y ∧ y < h ∧ c = (layerType h y, wx, y, wz) := by
  unfold columnCalls
  simp only [List.mem_map, List.mem_range]
  constructor
  · rintro ⟨n, hn, rfl⟩
    exact ⟨(n : Int), by omega, by omega, rfl⟩
  · rintro ⟨y, h0, h1, rfl⟩
    refine ⟨y.toNat, by omega, ?_⟩
    rw [Int.toNat_of_nonneg h0]

theorem mem_terrainCalls (height : Int → Int → Int) (cx cz : Int) (c : Int × Int × Int × Int) :
    c ∈ terrainCalls height cx cz ↔
      ∃ i j y : Int, (0 ≤ i ∧ i < 16) ∧ (0 ≤ j ∧ j < 16)
        ∧ 0 ≤ y ∧ y < height (cx * CHUNK_SIZE + i) (cz * CHUNK_SIZE + j)
        ∧ c = (layerType (height (cx * CHUNK_SIZE + i) (cz * CHUNK_SIZE + j)) y,
            cx * CHUNK_SIZE + i, y, cz * CHUNK_SIZE + j) := by
  unfold terrainCalls
  simp only [List.mem_flatMap, List.mem_range, mem_columnCalls]
  have e : CHUNK_SIZE.toNat = 16 := by decide
  rw [e]
  constructor
  · rintro ⟨i, hi, j, hj, y, h0, h1, rfl⟩
    exact ⟨(i : Int), (j : Int), y, by omega, by omega, h0, h1, rfl⟩
  · rintro ⟨i, j, y, hi, hj, h0, h1, rfl⟩
    refine ⟨i.toNat, by omega, j.toNat, by omega, y, ?_⟩
    rw [Int.toNat_of_nonneg hi.1, Int.toNat_of_nonneg hj.1]
    exact ⟨h0, h1, rfl⟩

theorem terrainPass_grows (height : Int → Int → Int) (w : World) (cx cz : Int) :
    Grows (TerrainBlock height cx cz) w (terrainPass height w cx cz) := by
  unfold terrainPass
  apply placeAll_grows
  intro c hc
  obtain ⟨i, j, y, hi, hj, h0, h1, rfl⟩ := (mem_terrainCalls height cx cz c).mp hc
  exact ⟨h0, h1, rfl, blockChunkKey_in_chunk cx cz i j hi hj⟩

/-- The cells of one column after the terrain pass: an empty cell below the
height of the column holds the block of its layer, an occupied cell keeps
its block, and the cells of the column at or above the height and below
zero are as before. -/
theorem terrainPass_column (height : Int → Int → Int) (w : World) (cx cz i j : Int)
    (hi : 0 ≤ i ∧ i < 16) (hj : 0 ≤ j ∧ j < 16) (y : Int) :
    (0 ≤ y → y < height (cx * CHUNK_SIZE + i) (cz * CHUNK_SIZE + j) →
      blockAt w (cx * CHUNK_SIZE + i) y (cz * CHUNK_SIZE + j) = none →
      blockAt (terrainPass height w cx cz) (cx * CHUNK_SIZE + i) y (cz * CHUNK_SIZE + j)
        = some { id := layerType (height (cx * CHUNK_SIZE + i) (cz * CHUNK_SIZE + j)) y })
    ∧ (∀ b, blockAt w (cx * CHUNK_SIZE + i) y (cz * CHUNK_SIZE + j) = some b →
      blockAt (terrainPass height w cx cz) (cx * CHUNK_SIZE + i) y (cz * CHUNK_SIZE + j)
        = some b)
    ∧ ((y < 0 ∨ height (cx * CHUNK_SIZE + i) (cz * CHUNK_SIZE + j) ≤ y) →
      blockAt (terrainPass height w cx cz) (cx * CHUNK_SIZE + i) y (cz * CHUNK_SIZE + j)
        = blockAt w (cx * CHUNK_SIZE + i) y (cz * CHUNK_SIZE + j)) := by
  refine ⟨?_, ?_, ?_⟩
  · intro h0 h1 hb
    unfold terrainPass
    apply placeAll_blockAt_new _ _ w _ _ _ hb
    · exact ⟨_, (mem_terrainCalls height cx cz _).mpr ⟨i, j, y, hi, hj, h0, h1, rfl⟩, rfl⟩
    · intro c hc hpos
      obtain ⟨i2, j2, y2, _, _, _, _, rfl⟩ := (mem_terrainCalls height cx cz c).mp hc
      simp only [Prod.mk.injEq] at hpos
      obtain ⟨h1, h2, h3⟩ := hpos
      simp only
      rw [h1, h2, h3]
  · intro b hb
    exact placeAll_blockAt_old _ w _ _ _ b hb
  · intro hy
    unfold terrainPass
    apply placeAll_blockAt_untouched
    intro c hc hpos
    obtain ⟨i2, j2, y2, _, _, h0, h1, rfl⟩ := (mem_terrainCalls height cx cz c).mp hc
    simp only [Prod.mk.injEq] at hpos
    obtain ⟨h2, h3, h4⟩ := hpos
    rw [← h2, ← h4, ← h3] at h1
    omega

/-! ### `generateChunk` -/

theorem generateChunkMesh_fields (chunk chunk2 : Chunk)
    (h : generateChunkMesh chunk = Except.ok chunk2) :
    ∃ mesh, chunk2 = { chunk with mesh := some mesh } := by
  unfold generateChunkMesh at h
  split at h
  · cases h
  · split at h
    · cases h
    · rename_i mesh _
      simp only [Except.ok.injEq] at h
      exact ⟨mesh, h.symm⟩

theorem grows_genBlock_terrain (height : Int → Int → Int) (random : Nat → ℚ) (cx cz : Int)
    (w w2 : World) (h : Grows (TerrainBlock height cx cz) w w2) :
    Grows (GenBlock height random cx cz) w w2 :=
  grows_mono _ _ w w2 (fun _ _ _ _ hq => Or.inl hq) h

theorem grows_genBlock_tree (height : Int → Int → Int) (random : Nat → ℚ) (cx cz : Int)
    (w w2 : World) (h : Grows (TreeBlock random cx cz) w w2) :
    Grows (GenBlock height random cx cz) w w2 :=
  grows_mono _ _ w w2 (fun _ _ _ _ hq => Or.inr hq) h

/-- A change of flags and mesh of the chunk stored under `ck`. -/
theorem evolves_objSet_flags (Q : Int → Int → Int → Int → Prop) (w : World) (ck : JSString)
    (c c2 : Chunk) (hc : (objGet w ck).getD emptyChunk = c) (hb : c2.blocks = c.blocks)
    (hl : c.loaded = true → c2.loaded = true)
    (hg : c.generated = true → c2.generated = true) :
    Evolves Q w (objSet w ck c2) := by
  apply worldRel_objSet _ (chunkEvolves_refl Q)
  rw [hc]
  refine ⟨hl, hg, ?_, ?_, ?_⟩
  · intro k b h; rw [hb]; exact h
  · intro e he; rw [hb] at he; exact Or.inl he
  · intro h; rw [hb]; exact h

theorem reloadChunk_fields (c : Chunk) :
    (reloadChunk c).blocks = c.blocks ∧ (reloadChunk c).loaded = true
      ∧ (reloadChunk c).generated = c.generated ∧ (reloadChunk c).mesh = c.mesh := by
  unfold reloadChunk
  split_ifs with h
  · exact ⟨rfl, h, rfl, rfl⟩
  · exact ⟨rfl, rfl, rfl, rfl⟩

theorem synthesizeChunk_evolves (height : Int → Int → Int) (random : Nat → ℚ)
    (s s1 : World × Nat) (cx cz : Int)
    (h : synthesizeChunk height random s cx cz = Except.ok s1) :
    Evolves (GenBlock height random cx cz) s.1 s1.1 ∧ s.2 ≤ s1.2 := by
  unfold synthesizeChunk at h
  dsimp only at h
  split at h
  · cases h
  · rename_i s2 hs2
    obtain ⟨g2, c2⟩ := treesPass_grows random cx cz 3 _ s2 hs2
    have g1 := terrainPass_grows height s.1 cx cz
    have g12 : Grows (GenBlock height random cx cz) s.1 s2.1 :=
      grows_trans _ _ _ _ (grows_genBlock_terrain height random cx cz _ _ g1)
        (grows_genBlock_tree height random cx cz _ _ g2)
    split at h
    · cases h
    · rename_i chunk hchunk
      split at h
      · cases h
      · rename_i chunk2 hmesh
        simp only [Except.ok.injEq] at h
        subst h
        obtain ⟨mesh, hm⟩ := generateChunkMesh_fields chunk chunk2 hmesh
        refine ⟨evolves_trans _ _ _ _ (evolves_of_grows _ _ _ g12) ?_, c2⟩
        apply evolves_objSet_flags _ s2.1 _ chunk chunk2 (by rw [hchunk]; rfl)
        · rw [hm]
        · rw [hm]; exact fun h => h
        · rw [hm]; exact fun h => h

theorem synthesizeChunk_total (height : Int → Int → Int) (random : Nat → ℚ)
    (h01 : Random01 random) (s : World × Nat) (cx cz : Int) (hok : WorldOk s.1)
    (hc : (objGet s.1 (chunkKey cx cz)).isSome) :
    ∃ s1, synthesizeChunk height random s cx cz = Except.ok s1 := by
  unfold synthesizeChunk
  dsimp only
  have g1 := terrainPass_grows height s.1 cx cz
  obtain ⟨s2, hs2⟩ := treesPass_total random h01 cx cz 3 (terrainPass height s.1 cx cz, s.2)
    (g1.1 _ hc)
  rw [hs2]
  obtain ⟨g2, _⟩ := treesPass_grows random cx cz 3 _ s2 hs2
  have g12 : Grows (GenBlock height random cx cz) s.1 s2.1 :=
    grows_trans _ _ _ _ (grows_genBlock_terrain height random cx cz _ _ g1)
      (grows_genBlock_tree height random cx cz _ _ g2)
  have hok2 : WorldOk s2.1 :=
    evolves_worldOk _ _ _ (genBlock_ids height random cx cz) (evolves_of_grows _ _ _ g12) hok
  obtain ⟨chunk, hchunk⟩ := Option.isSome_iff_exists.mp (g12.1 _ hc)
  dsimp only
  rw [hchunk]
  have hk : KeysWellFormed chunk.blocks :=
    keysWellFormed_of_world s2.1 (worldOk_wellFormed _ hok2) _ chunk hchunk
  have hids : IdsInTable chunk.blocks := by
    intro e he
    obtain ⟨_, _, _, _, _, hid⟩ := hok2 _ chunk hchunk e he
    exact hid
  obtain ⟨chunk2, hmesh⟩ := generateChunkMesh_total chunk hk hids
  dsimp only
  rw [hmesh]
  exact ⟨_, rfl⟩

theorem generateChunk_evolves (height : Int → Int → Int) (random : Nat → ℚ)
    (s s1 : World × Nat) (cx cz : Int)
    (h : generateChunk height random s cx cz = Except.ok s1) :
    Evolves (GenBlock height random cx cz) s.1 s1.1 ∧ s.2 ≤ s1.2
      ∧ ∃ c1, objGet s1.1 (chunkKey cx cz) = some c1
          ∧ c1.generated = true ∧ c1.loaded = true := by
  unfold generateChunk at h
  dsimp only at h
  split at h
  · rename_i chunk hchunk
    split_ifs at h with hg hl
    · simp only [Except.ok.injEq] at h
      subst h
      exact ⟨evolves_refl _ _, le_refl _, chunk, hchunk, hg, hl⟩
    · simp only [Except.ok.injEq] at h
      subst h
      obtain ⟨r1, r2, r3, _⟩ := reloadChunk_fields chunk
      refine ⟨?_, le_refl _, _, objGet_objSet_same _ _ _, r3.trans hg, r2⟩
      exact evolves_objSet_flags _ s.1 _ chunk _ (by rw [hchunk]; rfl) r1 (fun _ => r2)
        (fun h => r3.trans h)
    · obtain ⟨e1, c1⟩ := synthesizeChunk_evolves height random _ s1 cx cz h
      have e0 : Evolves (GenBlock height random cx cz) s.1
          (objSet s.1 (chunkKey cx cz) { chunk with loaded := true, generated := true }) :=
        evolves_objSet_flags _ s.1 _ chunk _ (by rw [hchunk]; rfl) rfl
          (fun _ => rfl) (fun _ => rfl)
      refine ⟨evolves_trans _ _ _ _ e0 e1, c1, ?_⟩
      have hp := e1.1 (chunkKey cx cz) (by rw [objGet_objSet_same]; rfl)
      obtain ⟨c2, hc2⟩ := Option.isSome_iff_exists.mp hp
      have hr := e1.2.2 _ c2 hc2
      rw [objGet_objSet_same] at hr
      exact ⟨c2, hc2, hr.2.1 rfl, hr.1 rfl⟩
  · rename_i hchunk
    obtain ⟨e1, c1⟩ := synthesizeChunk_evolves height random _ s1 cx cz h
    have e0 : Evolves (GenBlock height random cx cz) s.1
        (objSet s.1 (chunkKey cx cz)
          { blocks := [], loaded := true, generated := true, mesh := none }) :=
      evolves_objSet_flags _ s.1 _ emptyChunk _ (by rw [hchunk]; rfl) rfl
        (fun _ => rfl) (fun _ => rfl)
    refine ⟨evolves_trans _ _ _ _ e0 e1, c1, ?_⟩
    have hp := e1.1 (chunkKey cx cz) (by rw [objGet_objSet_same]; rfl)
    obtain ⟨c2, hc2⟩ := Option.isSome_iff_exists.mp hp
    have hr := e1.2.2 _ c2 hc2
    rw [objGet_objSet_same] at hr
    exact ⟨c2, hc2, hr.2.1 rfl, hr.1 rfl⟩

theorem generateChunk_total (height : Int → Int → Int) (random : Nat → ℚ)
    (h01 : Random01 random) (s : World × Nat) (cx cz : Int) (hok : WorldOk s.1) :
    ∃ s1, generateChunk height random s cx cz = Except.ok s1 := by
  unfold generateChunk
  dsimp only
  cases hchunk : objGet s.1 (chunkKey cx cz) with
  | some chunk =>
    dsimp only
    split_ifs
    · exact ⟨_, rfl⟩
    · exact ⟨_, rfl⟩
    · apply synthesizeChunk_total height random h01
      · exact evolves_worldOk _ _ _ (genBlock_ids height random cx cz)
          (evolves_objSet_flags (GenBlock height random cx cz) s.1 _ chunk _ (by rw [hchunk]; rfl) rfl
            (fun _ => rfl) (fun _ => rfl)) hok
      · rw [objGet_objSet_same]; rfl
  | none =>
    dsimp only
    apply synthesizeChunk_total height random h01
    · exact evolves_worldOk _ _ _ (genBlock_ids height random cx cz)
        (evolves_objSet_flags (GenBlock height random cx cz) s.1 _ emptyChunk _ (by rw [hchunk]; rfl)
          rfl (fun _ => rfl) (fun _ => rfl)) hok
    · rw [objGet_objSet_same]; rfl

theorem map_objSet_same {α β : Type} (f : JSString × α → β) (o : Obj α) (k : JSString)
    (v v2 : α) (h : objGet o k = some v) (hf : f (k, v2) = f (k, v)) :
    (objSet o k v2).map f = o.map f := by
  induction o with
  | nil => simp [objGet] at h
  | cons a o ih =>
    obtain ⟨k1, v1⟩ := a
    unfold objGet at h
    unfold objSet
    split_ifs at h ⊢ with hk
    · simp only [Option.some.injEq] at h
      subst hk; subst h
      rw [List.map_cons, List.map_cons, hf]
    · rw [List.map_cons, List.map_cons, ih h]

theorem generateChunk_again (height : Int → Int → Int) (random : Nat → ℚ)
    (s s1 : World × Nat) (cx cz : Int)
    (h : generateChunk height random s cx cz = Except.ok s1) :
    generateChunk height random s1 cx cz = Except.ok s1 := by
  obtain ⟨_, _, c1, hc1, hg, hl⟩ := generateChunk_evolves height random s s1 cx cz h
  unfold generateChunk
  simp [hc1, hg, hl]

/-- C12: when the chunk `(cx, cz)` exists with `generated = true`,
`generateChunk(cx, cz)` returns without drawing a random number; the chunk
map keeps its keys in order and every chunk keeps its block map, its
`generated` flag and its mesh; the chunk `(cx, cz)` is the old one with
`loaded = true`, and every other chunk is as it was.  After any call that
returns, a second call on the same coordinate changes nothing at all. -/
theorem generateChunk_generated (height : Int → Int → Int) (random : Nat → ℚ)
    (s : World × Nat) (cx cz : Int) (c : Chunk)
    (hc : objGet s.1 (chunkKey cx cz) = some c) (hg : c.generated = true) :
    ∃ w1, generateChunk height random s cx cz = Except.ok (w1, s.2)
      ∧ w1.map (fun e => (e.1, e.2.blocks, e.2.generated, e.2.mesh))
          = s.1.map (fun e => (e.1, e.2.blocks, e.2.generated, e.2.mesh))
      ∧ objGet w1 (chunkKey cx cz) = some { c with loaded := true }
      ∧ (∀ ck, ck ≠ chunkKey cx cz → objGet w1 ck = objGet s.1 ck)
      ∧ generateChunk height random (w1, s.2) cx cz = Except.ok (w1, s.2)
      ∧ ∀ t t1 : World × Nat, generateChunk height random t cx cz = Except.ok t1 →
          generateChunk height random t1 cx cz = Except.ok t1 := by
  have hgen : generateChunk height random s cx cz
      = Except.ok (objSet s.1 (chunkKey cx cz) { c with loaded := true }, s.2) := by
    unfold generateChunk
    dsimp only
    rw [hc]
    dsimp only
    rw [if_pos hg]
    by_cases hl : c.loaded = true
    · rw [if_neg (by simpa using hl)]
      have e : ({ c with loaded := true } : Chunk) = c := by
        cases c
        simp only at hl
        subst hl
        rfl
      rw [e, objSet_self _ _ _ hc]
    · rw [if_pos (by simpa using hl)]
      unfold reloadChunk
      rw [if_neg hl]
  refine ⟨_, hgen, ?_, objGet_objSet_same _ _ _, ?_,
    generateChunk_again height random s _ cx cz hgen,
    fun t t1 h => generateChunk_again height random t t1 cx cz h⟩
  · exact map_objSet_same _ s.1 _ c _ hc rfl
  · intro ck hck
    exact objGet_objSet_other _ _ _ _ (Ne.symm hck)

/-- C12 on `generatedWorld`: the generated, unloaded chunk `"0,0"` keeps its
two blocks and becomes loaded; no random number is drawn. -/
theorem generateChunk_generated_witness :
    ∃ w1, generateChunk (fun _ _ => 33) (fun _ => 1 / 2) (generatedWorld, 0) 0 0
        = Except.ok (w1, 0)
      ∧ w1.map (fun e => (e.1, e.2.blocks, e.2.generated, e.2.mesh))
          = generatedWorld.map (fun e => (e.1, e.2.blocks, e.2.generated, e.2.mesh))
      ∧ objGet w1 (chunkKey 0 0)
          = some { twoBlockChunk with generated := true, loaded := true } := by
  obtain ⟨w1, h1, h2, h3, _⟩ := generateChunk_generated (fun _ _ => 33) (fun _ => 1 / 2)
    (generatedWorld, 0) 0 0 { twoBlockChunk with generated := true } (by decide) rfl
  exact ⟨w1, h1, h2, h3⟩

/-! ### The invariant of reachable worlds -/

theorem worldInv_nil : WorldInv [] := by
  refine ⟨?_, ?_, ?_⟩
  · intro ck c hc; cases hc
  · exact List.nodup_nil
  · intro ck c hc; cases hc

theorem evolves_worldInv (Q : Int → Int → Int → Int → Prop) (w w2 : World)
    (h : Evolves Q w w2) (hinv : WorldInv w) : WorldInv w2 := by
  obtain ⟨hwf, hnd, hcn⟩ := hinv
  refine ⟨?_, h.2.1 hnd, ?_⟩
  · intro ck c2 hc2 e he
    have hr := h.2.2 ck c2 hc2
    rcases hr.2.2.2.1 e he with hold | ⟨x, y, z, hk, hck, _⟩
    · cases hc : objGet w ck with
      | none =>
        rw [hc] at hold
        cases hold
      | some c =>
        rw [hc] at hold
        exact hwf ck c hc e hold
    · exact ⟨x, y, z, hk, hck⟩
  · intro ck c2 hc2
    have hr := h.2.2 ck c2 hc2
    apply hr.2.2.2.2
    cases hc : objGet w ck with
    | none => exact List.nodup_nil
    | some c => exact hcn ck c hc

theorem worldInv_objSet (w : World) (ck : JSString) (c2 : Chunk) (hinv : WorldInv w)
    (hkeys : ∀ e ∈ c2.blocks, ∃ x y z : Int, e.1 = key x y z ∧ blockChunkKey x z = ck)
    (hnd2 : KeysNodup c2.blocks) : WorldInv (objSet w ck c2) := by
  obtain ⟨hwf, hnd, hcn⟩ := hinv
  refine ⟨?_, keysNodup_objSet w ck c2 hnd, ?_⟩
  · intro ck2 c3 hc3
    by_cases hck : ck = ck2
    · subst hck
      rw [objGet_objSet_same] at hc3
      simp only [Option.some.injEq] at hc3
      subst hc3
      exact hkeys
    · rw [objGet_objSet_other _ _ _ _ hck] at hc3
      exact hwf ck2 c3 hc3
  · intro ck2 c3 hc3
    by_cases hck : ck = ck2
    · subst hck
      rw [objGet_objSet_same] at hc3
      simp only [Option.some.injEq] at hc3
      subst hc3
      exact hnd2
    · rw [objGet_objSet_other _ _ _ _ hck] at hc3
      exact hcn ck2 c3 hc3

theorem removeBlock_worldInv (w : World) (x y z : Int) (hinv : WorldInv w) :
    WorldInv (removeBlock w x y z).2 := by
  unfold removeBlock
  cases hc : getBlockChunk w x z with
  | none =>
    simp only [emptyChunk, objGet, Option.isSome_none, Bool.false_eq_true, not_false_eq_true,
      if_true]
    apply worldInv_objSet w _ _ hinv
    · intro e he; cases he
    · exact List.nodup_nil
  | some chunk =>
    dsimp only
    split_ifs
    · apply worldInv_objSet w _ _ hinv
      · intro e he
        exact hinv.1 _ chunk hc e (mem_objDelete _ _ e he)
      · exact keysNodup_objDelete _ _ (hinv.2.2 _ chunk hc)
    · exact hinv

theorem reachable_worldInv (w : World) (h : Reachable w) : WorldInv w := by
  induction h with
  | empty => exact worldInv_nil
  | place w id x y z _ ih =>
    exact evolves_worldInv (fun _ _ _ _ => True) _ _
      (evolves_of_grows _ _ _ (placeBlock_grows _ w id x y z trivial)) ih
  | remove w x y z _ ih => exact removeBlock_worldInv w x y z ih
  | generate w height random n cx cz s1 _ hgen ih =>
    exact evolves_worldInv _ _ _ (generateChunk_evolves height random (w, n) s1 cx cz hgen).1 ih

/-- C16: in a reachable world every key of the block map of the chunk stored
under `chunkKey cx cz` is a block key `key x y z` with `cx = floor(x / 16)`
and `cz = floor(z / 16)`; every entry of the chunk map stores only block keys
of the chunk its own key names; a coordinate triple that occurs in the block
maps of two entries of the chunk map occurs in one and the same entry, with
one and the same block. -/
theorem reachable_one_block_per_cell (w : World) (h : Reachable w) :
    (∀ cx cz c, objGet w (chunkKey cx cz) = some c →
        ∀ p ∈ c.blocks, ∃ x y z : Int, p.1 = key x y z
          ∧ cx = ⌊(x : ℚ) / 16⌋ ∧ cz = ⌊(z : ℚ) / 16⌋)
    ∧ (∀ e ∈ w, ∀ p ∈ e.2.blocks, ∃ x y z : Int, p.1 = key x y z
          ∧ e.1 = chunkKey ⌊(x : ℚ) / 16⌋ ⌊(z : ℚ) / 16⌋)
    ∧ (∀ e1 ∈ w, ∀ e2 ∈ w, ∀ (x y z : Int) (b1 b2 : Block),
          (key x y z, b1) ∈ e1.2.blocks → (key x y z, b2) ∈ e2.2.blocks →
          e1 = e2 ∧ b1 = b2) := by
  obtain ⟨hwf, hnd, hcn⟩ := reachable_worldInv w h
  have hown : ∀ e ∈ w, ∀ p ∈ e.2.blocks, ∃ x y z : Int, p.1 = key x y z
      ∧ e.1 = chunkKey ⌊(x : ℚ) / 16⌋ ⌊(z : ℚ) / 16⌋ := by
    intro e he p hp
    obtain ⟨x, y, z, hk, hck⟩ := hwf e.1 e.2 (objGet_of_mem w hnd e he) p hp
    refine ⟨x, y, z, hk, ?_⟩
    rw [← hck]
    unfold blockChunkKey
    simp only [fdiv_chunk_floor]
  refine ⟨?_, hown, ?_⟩
  · intro cx cz c hc p hp
    obtain ⟨x, y, z, hk, hck⟩ := hown _ (mem_of_objGet w _ c hc) p hp
    obtain ⟨h1, h2⟩ := chunkKey_inj hck
    exact ⟨x, y, z, hk, h1, h2⟩
  · intro e1 he1 e2 he2 x y z b1 b2 hb1 hb2
    obtain ⟨x1, y1, z1, hk1, hck1⟩ := hown e1 he1 _ hb1
    obtain ⟨x2, y2, z2, hk2, hck2⟩ := hown e2 he2 _ hb2
    obtain ⟨a1, _, a3⟩ := key_inj hk1
    obtain ⟨c1, _, c3⟩ := key_inj hk2
    have hkeys : e1.1 = e2.1 := by rw [hck1, hck2, ← a1, ← a3, ← c1, ← c3]
    have g1 := objGet_of_mem w hnd e1 he1
    have g2 := objGet_of_mem w hnd e2 he2
    rw [hkeys, g2] at g1
    simp only [Option.some.injEq] at g1
    have hee : e1 = e2 := Prod.ext hkeys g1.symm
    refine ⟨hee, ?_⟩
    subst hee
    have n1 := objGet_of_mem e1.2.blocks (hcn _ _ (objGet_of_mem w hnd e1 he1)) _ hb1
    have n2 := objGet_of_mem e1.2.blocks (hcn _ _ (objGet_of_mem w hnd e1 he1)) _ hb2
    rw [n1] at n2
    simpa using n2

/-- C16 on `boundaryWorld`, reached by two `placeBlock` calls: the blocks
at `x = 15` and `x = 16` are stored in the chunks `"0,0"` and `"1,0"`. -/
theorem reachable_one_block_per_cell_witness :
    Reachable boundaryWorld
    ∧ ∀ cx cz c, objGet boundaryWorld (chunkKey cx cz) = some c →
        ∀ p ∈ c.blocks, ∃ x y z : Int, p.1 = key x y z
          ∧ cx = ⌊(x : ℚ) / 16⌋ ∧ cz = ⌊(z : ℚ) / 16⌋ :=
  ⟨Reachable.place _ 0 16 0 0 (Reachable.place _ 0 15 0 0 Reachable.empty),
    (reachable_one_block_per_cell boundaryWorld
      (Reachable.place _ 0 16 0 0 (Reachable.place _ 0 15 0 0 Reachable.empty))).1⟩

/-! ### Generation around the player -/

theorem generateAll_evolves (height : Int → Int → Int) (random : Nat → ℚ)
    (l : List (Int × Int)) : ∀ s s1 : World × Nat,
    generateAll height random l s = Except.ok s1 →
    Evolves (fun id x y z => ∃ c ∈ l, GenBlock height random c.1 c.2 id x y z) s.1 s1.1
      ∧ s.2 ≤ s1.2
      ∧ ∀ c ∈ l, ∃ ch, objGet s1.1 (chunkKey c.1 c.2) = some ch
          ∧ ch.generated = true ∧ ch.loaded = true := by
  induction l with
  | nil =>
    intro s s1 h
    simp only [generateAll, Except.ok.injEq] at h
    subst h
    exact ⟨evolves_refl _ _, le_refl _, fun c hc => by cases hc⟩
  | cons c rest ih =>
    intro s s1 h
    unfold generateAll at h
    split at h
    · cases h
    · rename_i sm hsm
      obtain ⟨e1, c1, ch, hch, hg, hl⟩ := generateChunk_evolves height random s sm c.1 c.2 hsm
      obtain ⟨e2, c2, hflags⟩ := ih sm s1 h
      refine ⟨evolves_trans _ _ _ _
        (evolves_mono _ _ _ _ (fun id x y z hq => ⟨c, List.mem_cons_self _ _, hq⟩) e1)
        (evolves_mono _ _ _ _ (fun id x y z hq => by
          obtain ⟨d, hd, hq2⟩ := hq
          exact ⟨d, List.mem_cons_of_mem _ hd, hq2⟩) e2), le_trans c1 c2, ?_⟩
      intro d hd
      rcases List.mem_cons.mp hd with h1 | h1
      · subst h1
        have hp := e2.1 (chunkKey d.1 d.2) (by rw [hch]; rfl)
        obtain ⟨ch2, hch2⟩ := Option.isSome_iff_exists.mp hp
        have hr := e2.2.2 _ ch2 hch2
        rw [hch] at hr
        exact ⟨ch2, hch2, hr.2.1 hg, hr.1 hl⟩
      · exact hflags d h1

theorem generateAll_total (height : Int → Int → Int) (random : Nat → ℚ)
    (h01 : Random01 random) (l : List (Int × Int)) : ∀ s : World × Nat, WorldOk s.1 →
    ∃ s1, generateAll height random l s = Except.ok s1 := by
  induction l with
  | nil => intro s _; exact ⟨s, rfl⟩
  | cons c rest ih =>
    intro s hok
    obtain ⟨sm, hsm⟩ := generateChunk_total height random h01 s c.1 c.2 hok
    have hokm : WorldOk sm.1 :=
      evolves_worldOk _ _ _ (genBlock_ids height random c.1 c.2)
        (generateChunk_evolves height random s sm c.1 c.2 hsm).1 hok
    obtain ⟨s1, hs1⟩ := ih sm hokm
    refine ⟨s1, ?_⟩
    unfold generateAll
    rw [hsm]
    exact hs1

theorem mem_aroundCoords (pcx pcz cx cz : Int) :
    (cx, cz) ∈ aroundCoords pcx pcz ↔ |cx - pcx| ≤ 5 ∧ |cz - pcz| ≤ 5 := by
  unfold aroundCoords MAX_GENERATE_RADIUS
  simp only [List.mem_flatMap, List.mem_map, mem_intRange, Prod.mk.injEq]
  constructor
  · rintro ⟨dx, hdx, dz, hdz, rfl, rfl⟩
    rw [abs_le, abs_le]
    omega
  · rintro ⟨h1, h2⟩
    rw [abs_le] at h1 h2
    exact ⟨cx - pcx, by omega, cz - pcz, by omega, by omega, by omega⟩

theorem objGet_map_entries (f : JSString × Chunk → JSString × Chunk)
    (hf : ∀ e, (f e).1 = e.1) (w : World) (k : JSString) :
    objGet (w.map f) k = (objGet w k).map (fun c => (f (k, c)).2) := by
  induction w with
  | nil => rfl
  | cons a w ih =>
    obtain ⟨k1, v1⟩ := a
    rw [List.map_cons]
    have e : f (k1, v1) = (k1, (f (k1, v1)).2) := Prod.ext (hf _) rfl
    rw [e]
    unfold objGet
    split_ifs with hk
    · subst hk; rfl
    · exact ih

theorem unloadEntry_key (pcx pcz : Int) (e : JSString × Chunk) :
    (unloadEntry pcx pcz e).1 = e.1 := by
  unfold unloadEntry
  dsimp only
  split_ifs <;> rfl

theorem unloadEntry_inside (pcx pcz cx cz : Int) (c : Chunk)
    (hx : |cx - pcx| ≤ 5) (hz : |cz - pcz| ≤ 5) :
    (unloadEntry pcx pcz (chunkKey cx cz, c)).2 = c := by
  unfold unloadEntry
  dsimp only
  rw [keyToArray_chunkKey]
  have h1 : beyondRadius ([some cx, some cz].get? 0).join pcx = false := by
    simp [beyondRadius, MAX_GENERATE_RADIUS, hx]
  have h2 : beyondRadius ([some cx, some cz].get? 1).join pcz = false := by
    simp [beyondRadius, MAX_GENERATE_RADIUS, hz]
  rw [h1, h2]
  rfl

theorem unloadEntry_outside (pcx pcz cx cz : Int) (c : Chunk)
    (h : 5 < |cx - pcx| ∨ 5 < |cz - pcz|) :
    (unloadEntry pcx pcz (chunkKey cx cz, c)).2 = { c with loaded := false } := by
  unfold unloadEntry
  dsimp only
  rw [keyToArray_chunkKey]
  have h1 : (beyondRadius ([some cx, some cz].get? 0).join pcx
      || beyondRadius ([some cx, some cz].get? 1).join pcz) = true := by
    rcases h with h | h
    · simp [beyondRadius, MAX_GENERATE_RADIUS, h]
    · simp [beyondRadius, MAX_GENERATE_RADIUS, h]
  rw [h1]
  simp only [if_true]
  unfold unloadChunk
  split_ifs with hl
  · rfl
  · cases c
    simp only [Bool.not_eq_true] at hl
    subst hl
    rfl

theorem unloadEntry_blocks (pcx pcz : Int) (e : JSString × Chunk) :
    (unloadEntry pcx pcz e).2.blocks = e.2.blocks
      ∧ (unloadEntry pcx pcz e).2.generated = e.2.generated := by
  unfold unloadEntry unloadChunk
  dsimp only
  split_ifs <;> exact ⟨rfl, rfl⟩

theorem playerChunk_floor (v : ℚ) :
    Int.fdiv ⌊v / CUBE_SIZE⌋ CHUNK_SIZE = ⌊(⌊v⌋ : ℚ) / 16⌋ := by
  rw [fdiv_chunk_floor]
  unfold CUBE_SIZE
  rw [div_one]

/-- C13, amended: in a world whose chunks store blocks of the block-type table
under keys of their own columns, with random numbers in `[0, 1)`,
`generateChunksAroundPlayer` returns; every chunk within five chunks of the
player's chunk on both axes then exists with `generated = true` and
`loaded = true`; every chunk of the map outside that square has
`loaded = false`, and each of its blocks was there before or is a leaf block;
every chunk that was in the map before is still present and holds every block
it held. -/
theorem generateChunksAroundPlayer_spec (height : Int → Int → Int) (random : Nat → ℚ)
    (h01 : Random01 random) (s : World × Nat) (hok : WorldOk s.1) (position : Vec3Q) :
    ∃ s1, generateChunksAroundPlayer height random s position = Except.ok s1
      ∧ (∀ cx cz : Int, |cx - ⌊(⌊position.x⌋ : ℚ) / 16⌋| ≤ 5 →
          |cz - ⌊(⌊position.z⌋ : ℚ) / 16⌋| ≤ 5 →
          ∃ c, objGet s1.1 (chunkKey cx cz) = some c
            ∧ c.generated = true ∧ c.loaded = true)
      ∧ (∀ (cx cz : Int) (c : Chunk),
          (5 < |cx - ⌊(⌊position.x⌋ : ℚ) / 16⌋| ∨ 5 < |cz - ⌊(⌊position.z⌋ : ℚ) / 16⌋|) →
          objGet s1.1 (chunkKey cx cz) = some c →
          c.loaded = false
            ∧ ∀ e ∈ c.blocks, e ∈ ((objGet s.1 (chunkKey cx cz)).getD emptyChunk).blocks
                ∨ e.2.id = BLOCK_ID.leaves)
      ∧ (∀ ck c0, objGet s.1 ck = some c0 →
          ∃ c, objGet s1.1 ck = some c
            ∧ ∀ k b, objGet c0.blocks k = some b → objGet c.blocks k = some b) := by
  unfold generateChunksAroundPlayer
  dsimp only
  rw [playerChunk_floor, playerChunk_floor]
  generalize ⌊(⌊position.x⌋ : ℚ) / 16⌋ = pcx
  generalize ⌊(⌊position.z⌋ : ℚ) / 16⌋ = pcz
  obtain ⟨s1, hs1⟩ := generateAll_total height random h01 (aroundCoords pcx pcz) s hok
  obtain ⟨hev, _, hflags⟩ := generateAll_evolves height random (aroundCoords pcx pcz) s s1 hs1
  rw [hs1]
  refine ⟨_, rfl, ?_, ?_, ?_⟩
  · intro cx cz hx hz
    obtain ⟨ch, hch, hg, hl⟩ := hflags (cx, cz) ((mem_aroundCoords pcx pcz cx cz).mpr ⟨hx, hz⟩)
    refine ⟨ch, ?_, hg, hl⟩
    dsimp only
    rw [objGet_map_entries _ (unloadEntry_key pcx pcz), hch, Option.map_some',
      unloadEntry_inside pcx pcz cx cz ch hx hz]
  · intro cx cz c hout hc
    dsimp only at hc
    rw [objGet_map_entries _ (unloadEntry_key pcx pcz)] at hc
    cases hch : objGet s1.1 (chunkKey cx cz) with
    | none => rw [hch] at hc; cases hc
    | some ch =>
      rw [hch, Option.map_some', unloadEntry_outside pcx pcz cx cz ch hout] at hc
      simp only [Option.some.injEq] at hc
      subst hc
      refine ⟨rfl, ?_⟩
      intro e he
      rcases (hev.2.2 _ ch hch).2.2.2.1 e he with hold | ⟨x, y, z, _, hck, g, hg, hq⟩
      · exact Or.inl hold
      · right
        have hnot : blockChunkKey x z ≠ chunkKey g.1 g.2 := by
          intro hown
          rw [hck] at hown
          obtain ⟨a, b⟩ := chunkKey_inj hown
          have hin := (mem_aroundCoords pcx pcz g.1 g.2).mp hg
          rw [← a, ← b] at hin
          rcases hout with h | h
          · exact absurd hin.1 (not_le.mpr h)
          · exact absurd hin.2 (not_le.mpr h)
        rcases hq with ⟨_, _, _, hown⟩ | ⟨hid, hb⟩
        · exact absurd hown hnot
        · rcases hid with hid | hid
          · exact absurd ((hb h01).2.2 hid) hnot
          · exact hid
  · intro ck c0 hc0
    obtain ⟨ch, hch⟩ := Option.isSome_iff_exists.mp (hev.1 ck (by rw [hc0]; rfl))
    refine ⟨(unloadEntry pcx pcz (ck, ch)).2, ?_, ?_⟩
    · dsimp only
      rw [objGet_map_entries _ (unloadEntry_key pcx pcz), hch, Option.map_some']
    · intro k b hb
      rw [(unloadEntry_blocks pcx pcz (ck, ch)).1]
      have hr := hev.2.2 _ ch hch
      rw [hc0] at hr
      exact hr.2.2.1 k b hb

theorem random01_half : Random01 (fun _ => 1 / 2) := by
  intro n
  constructor <;> norm_num

/-- C13, amended, from the empty chunk map with the player at the origin:
the call returns and the player's chunk `"0,0"` is generated and loaded. -/
theorem generateChunksAroundPlayer_spec_witness :
    ∃ s1, generateChunksAroundPlayer (fun _ _ => 33) (fun _ => 1 / 2) ([], 0)
        { x := 0, y := 40, z := 0 } = Except.ok s1
      ∧ ∃ c, objGet s1.1 (chunkKey 0 0) = some c ∧ c.generated = true ∧ c.loaded = true := by
  obtain ⟨s1, h1, h2, _⟩ := generateChunksAroundPlayer_spec (fun _ _ => 33) (fun _ => 1 / 2)
    random01_half ([], 0) worldOk_nil { x := 0, y := 40, z := 0 }
  exact ⟨s1, h1, h2 0 0 (by norm_num) (by norm_num)⟩

/-! ### A tree at the border of a chunk -/

theorem evolves_isSome (Q : Int → Int → Int → Int → Prop) (w w2 : World)
    (h : Evolves Q w w2) (x y z : Int) (hb : (blockAt w x y z).isSome) :
    (blockAt w2 x y z).isSome := by
  obtain ⟨b, hb2⟩ := Option.isSome_iff_exists.mp hb
  rw [evolves_blockAt Q w w2 h x y z b hb2]
  rfl

theorem placeBlock_isSome (w : World) (id x y z : Int) :
    (blockAt (placeBlock w id x y z).2 x y z).isSome := by
  rw [placeBlock_blockAt_self]
  rfl

theorem leafStep_places (random : Nat → ℚ) (rx leafY rz : Int) (s : World × Nat)
    (l : Int × Int) (hd : |l.1| + |l.2| ≤ 2) (hr : 1 / 5 < random s.2) :
    (blockAt (leafStep random rx leafY rz s l).1 (rx + l.1) leafY (rz + l.2)).isSome := by
  unfold leafStep
  dsimp only
  rw [if_pos hd, if_pos hr]
  split_ifs
  · exact evolves_isSome (fun _ _ _ _ => True) _ _
      (evolves_of_grows _ _ _ (placeBlock_grows _ _ _ _ _ _ trivial)) _ _ _
      (placeBlock_isSome _ _ _ _ _)
  · exact placeBlock_isSome _ _ _ _ _
  · exact placeBlock_isSome _ _ _ _ _

theorem leafFold_places (random : Nat → ℚ) (rx leafY rz : Int) (ls : List (Int × Int)) :
    ∀ (s : World × Nat), (∀ n, s.2 ≤ n → 1 / 5 < random n) →
    ∀ l ∈ ls, |l.1| + |l.2| ≤ 2 →
    (blockAt (ls.foldl (leafStep random rx leafY rz) s).1 (rx + l.1) leafY (rz + l.2)).isSome := by
  induction ls with
  | nil => intro s _ l hl; cases hl
  | cons l0 ls ih =>
    intro s hr l hl hd
    rw [List.foldl_cons]
    have hstep := leafStep_grows (fun _ _ _ _ => True) random rx leafY rz
      (fun _ _ => ⟨trivial, trivial⟩) s l0
    by_cases hmem : l ∈ ls
    · exact ih _ (fun n hn => hr n (le_trans hstep.2 hn)) l hmem hd
    · rcases List.mem_cons.mp hl with h | h
      · subst h
        have h1 := leafStep_places random rx leafY rz s l hd (hr _ (le_refl _))
        exact evolves_isSome (fun _ _ _ _ => True) _ _
          (evolves_of_grows _ _ _
            (leafFold_grows (fun _ _ _ _ => True) random rx leafY rz
              (fun _ _ => ⟨trivial, trivial⟩) ls _).1) _ _ _ h1
      · exact absurd h hmem

theorem treeStep_tree (random : Nat → ℚ) (startX startZ : Int) (s : World × Nat) (topY : Int)
    (ht : random s.2 < 7 / 20)
    (htop : findTopBlockY s.1 (startX + ⌊random (s.2 + 1) * (CHUNK_SIZE : ℚ)⌋)
      (startZ + ⌊random (s.2 + 2) * (CHUNK_SIZE : ℚ)⌋) = Except.ok (some topY)) :
    treeStep random startX startZ s
      = Except.ok (leafOffsets.foldl
          (leafStep random (startX + ⌊random (s.2 + 1) * (CHUNK_SIZE : ℚ)⌋)
            (topY + 1 + (2 + ⌊random (s.2 + 3) * 3⌋))
            (startZ + ⌊random (s.2 + 2) * (CHUNK_SIZE : ℚ)⌋))
          (placeAll s.1 (trunkCalls (startX + ⌊random (s.2 + 1) * (CHUNK_SIZE : ℚ)⌋)
            (topY + 1) (startZ + ⌊random (s.2 + 2) * (CHUNK_SIZE : ℚ)⌋)
            (2 + ⌊random (s.2 + 3) * 3⌋)), s.2 + 4)) := by
  unfold treeStep
  rw [if_pos ht]
  dsimp only
  rw [htop]

theorem treeStep_none (random : Nat → ℚ) (startX startZ : Int) (s : World × Nat)
    (ht : ¬ random s.2 < 7 / 20) :
    treeStep random startX startZ s = Except.ok (s.1, s.2 + 1) := by
  unfold treeStep
  rw [if_neg ht]

/-- The steps of `synthesizeChunk` behind a result. -/
theorem synthesizeChunk_steps (height : Int → Int → Int) (random : Nat → ℚ)
    (s s1 : World × Nat) (cx cz : Int)
    (h : synthesizeChunk height random s cx cz = Except.ok s1) :
    ∃ s2 chunk mesh,
      treesPass random (cx * CHUNK_SIZE) (cz * CHUNK_SIZE) 3 (terrainPass height s.1 cx cz, s.2)
        = Except.ok s2
      ∧ objGet s2.1 (chunkKey cx cz) = some chunk
      ∧ generateChunkMesh chunk = Except.ok { chunk with mesh := some mesh }
      ∧ s1 = (objSet s2.1 (chunkKey cx cz) { chunk with mesh := some mesh }, s2.2) := by
  unfold synthesizeChunk at h
  dsimp only at h
  split at h
  · cases h
  · rename_i s2 hs2
    split at h
    · cases h
    · rename_i chunk hchunk
      split at h
      · cases h
      · rename_i chunk2 hmesh
        simp only [Except.ok.injEq] at h
        obtain ⟨mesh, hm⟩ := generateChunkMesh_fields chunk chunk2 hmesh
        subst hm
        exact ⟨s2, chunk, mesh, hs2, hchunk, hmesh, h.symm⟩

/-- A tree grown in the first round of the tree loop: when all later random
numbers exceed `0.2`, each of the thirteen cells of the top leaf layer holds
a block in the world `synthesizeChunk` returns. -/
theorem synthesizeChunk_leaves (height : Int → Int → Int) (random : Nat → ℚ)
    (s s1 : World × Nat) (cx cz topY : Int)
    (h : synthesizeChunk height random s cx cz = Except.ok s1)
    (ht : random s.2 < 7 / 20)
    (htop : findTopBlockY (terrainPass height s.1 cx cz)
      (cx * CHUNK_SIZE + ⌊random (s.2 + 1) * (CHUNK_SIZE : ℚ)⌋)
      (cz * CHUNK_SIZE + ⌊random (s.2 + 2) * (CHUNK_SIZE : ℚ)⌋) = Except.ok (some topY))
    (hleaf : ∀ n, s.2 + 4 ≤ n → 1 / 5 < random n)
    (l : Int × Int) (hl : l ∈ leafOffsets) (hd : |l.1| + |l.2| ≤ 2) :
    (blockAt s1.1 (cx * CHUNK_SIZE + ⌊random (s.2 + 1) * (CHUNK_SIZE : ℚ)⌋ + l.1)
      (topY + 1 + (2 + ⌊random (s.2 + 3) * 3⌋))
      (cz * CHUNK_SIZE + ⌊random (s.2 + 2) * (CHUNK_SIZE : ℚ)⌋ + l.2)).isSome := by
  obtain ⟨s2, chunk, mesh, hs2, hchunk, _, rfl⟩ :=
    synthesizeChunk_steps height random s s1 cx cz h
  have hstep := treeStep_tree random (cx * CHUNK_SIZE) (cz * CHUNK_SIZE)
    (terrainPass height s.1 cx cz, s.2) topY ht htop
  unfold treesPass at hs2
  rw [hstep] at hs2
  dsimp only at hs2
  have hplaced := leafFold_places random
    (cx * CHUNK_SIZE + ⌊random (s.2 + 1) * (CHUNK_SIZE : ℚ)⌋)
    (topY + 1 + (2 + ⌊random (s.2 + 3) * 3⌋))
    (cz * CHUNK_SIZE + ⌊random (s.2 + 2) * (CHUNK_SIZE : ℚ)⌋) leafOffsets
    (placeAll (terrainPass height s.1 cx cz)
      (trunkCalls (cx * CHUNK_SIZE + ⌊random (s.2 + 1) * (CHUNK_SIZE : ℚ)⌋) (topY + 1)
        (cz * CHUNK_SIZE + ⌊random (s.2 + 2) * (CHUNK_SIZE : ℚ)⌋)
        (2 + ⌊random (s.2 + 3) * 3⌋)), s.2 + 4) hleaf l hl hd
  have g2 := (treesPass_grows random cx cz 2 _ s2 hs2).1
  have h2 := evolves_isSome _ _ _ (evolves_of_grows _ _ _ g2) _ _ _ hplaced
  exact evolves_isSome (fun _ _ _ _ => True) _ _
    (evolves_objSet_flags _ s2.1 (chunkKey cx cz) chunk { chunk with mesh := some mesh }
      (by rw [hchunk]; rfl) rfl (fun h => h) (fun h => h))
    _ _ _ h2

theorem findTopBlockY_exists (chunks : World) (x z y : Int) (c : Chunk)
    (hc : getBlockChunk chunks x z = some c) (h0 : 0 ≤ y) (h1 : y ≤ MAX_HEIGHT)
    (hb : (blockAt chunks x y z).isSome) :
    ∃ topY, findTopBlockY chunks x z = Except.ok (some topY) ∧ y ≤ topY ∧ topY ≤ MAX_HEIGHT := by
  obtain ⟨r, hr, hsome, hnone⟩ := findTopFrom_spec chunks x z c hc MAX_HEIGHT.toNat
  have e : ((MAX_HEIGHT.toNat : Nat) : Int) = MAX_HEIGHT := by decide
  rw [e] at hsome hnone
  cases r with
  | none =>
    have := hnone rfl y h0 h1
    rw [this] at hb
    cases hb
  | some topY =>
    obtain ⟨_, t1, _, t3⟩ := hsome topY rfl
    refine ⟨topY, hr, ?_, t1⟩
    by_contra hlt
    have := t3 y (not_le.mp hlt) h1
    rw [this] at hb
    cases hb

theorem terrainPass_isSome (height : Int → Int → Int) (w : World) (cx cz i j : Int)
    (hi : 0 ≤ i ∧ i < 16) (hj : 0 ≤ j ∧ j < 16) (y : Int) (h0 : 0 ≤ y)
    (h1 : y < height (cx * CHUNK_SIZE + i) (cz * CHUNK_SIZE + j)) :
    (blockAt (terrainPass height w cx cz) (cx * CHUNK_SIZE + i) y
      (cz * CHUNK_SIZE + j)).isSome := by
  obtain ⟨hnew, hold, _⟩ := terrainPass_column height w cx cz i j hi hj y
  cases hb : blockAt w (cx * CHUNK_SIZE + i) y (cz * CHUNK_SIZE + j) with
  | none => rw [hnew h0 h1 hb]; rfl
  | some b => rw [hold b hb]; rfl

theorem generateAll_cons_ok (height : Int → Int → Int) (random : Nat → ℚ) (c : Int × Int)
    (rest : List (Int × Int)) (s s1 : World × Nat)
    (h : generateAll height random (c :: rest) s = Except.ok s1) :
    ∃ sm, generateChunk height random s c.1 c.2 = Except.ok sm
      ∧ generateAll height random rest sm = Except.ok s1 := by
  unfold generateAll at h
  split at h
  · cases h
  · rename_i sm hsm
    exact ⟨sm, hsm, h⟩

theorem blocks_ne_nil_of_blockAt (w : World) (x y z : Int) (hb : (blockAt w x y z).isSome) :
    ∃ c, objGet w (blockChunkKey x z) = some c ∧ c.blocks ≠ [] := by
  unfold blockAt getBlockChunk at hb
  cases hc : objGet w (blockChunkKey x z) with
  | none => rw [hc] at hb; cases hb
  | some c =>
    refine ⟨c, rfl, ?_⟩
    intro hnil
    rw [hc] at hb
    simp only [Option.bind] at hb
    rw [hnil] at hb
    cases hb

theorem random01_spill : Random01 spillRandom := by
  intro n
  unfold spillRandom
  split_ifs <;> constructor <;> norm_num

theorem spillWorld_eq : spillWorld = [(chunkKey (-6) (-5), emptyChunk)] := by decide

theorem worldOk_spill : WorldOk spillWorld := by
  intro ck c hc e he
  rw [spillWorld_eq] at hc
  unfold objGet at hc
  split_ifs at hc
  · simp only [Option.some.injEq] at hc
    subst hc
    cases he
  · cases hc

/-- What `generateChunk(cx, cz)` does on a chunk that is absent or not
generated when the first round of the tree loop grows a tree of height 2 at
the first column of the chunk and every later random number exceeds `0.2`:
the top leaf layer of the tree is in the world afterwards, three cells above
the top block of the column. -/
theorem generateChunk_first_tree (height : Int → Int → Int) (random : Nat → ℚ) (w : World)
    (n : Nat) (cx cz : Int) (s1 : World × Nat)
    (hgen : ∀ c, objGet w (chunkKey cx cz) = some c → c.generated = false)
    (hh : 1 ≤ height (cx * CHUNK_SIZE) (cz * CHUNK_SIZE))
    (h : generateChunk height random (w, n) cx cz = Except.ok s1)
    (ht : random n < 7 / 20)
    (e1 : ⌊random (n + 1) * (CHUNK_SIZE : ℚ)⌋ = 0)
    (e2 : ⌊random (n + 2) * (CHUNK_SIZE : ℚ)⌋ = 0)
    (e3 : ⌊random (n + 3) * 3⌋ = 0)
    (hleaf : ∀ k, n + 4 ≤ k → 1 / 5 < random k)
    (l : Int × Int) (hl : l ∈ leafOffsets) (hd : |l.1| + |l.2| ≤ 2) :
    ∃ topY, 0 ≤ topY ∧ topY ≤ MAX_HEIGHT
      ∧ (∀ y, 0 ≤ y → y ≤ MAX_HEIGHT →
          (blockAt w (cx * CHUNK_SIZE) y (cz * CHUNK_SIZE)).isSome → y ≤ topY)
      ∧ (blockAt s1.1 (cx * CHUNK_SIZE + l.1) (topY + 3) (cz * CHUNK_SIZE + l.2)).isSome := by
  have key : ∀ w0 : World, (objGet w0 (chunkKey cx cz)).isSome →
      (∀ x y z, blockAt w0 x y z = blockAt w x y z) →
      synthesizeChunk height random (w0, n) cx cz = Except.ok s1 →
      ∃ topY, 0 ≤ topY ∧ topY ≤ MAX_HEIGHT
        ∧ (∀ y, 0 ≤ y → y ≤ MAX_HEIGHT →
            (blockAt w (cx * CHUNK_SIZE) y (cz * CHUNK_SIZE)).isSome → y ≤ topY)
        ∧ (blockAt s1.1 (cx * CHUNK_SIZE + l.1) (topY + 3) (cz * CHUNK_SIZE + l.2)).isSome := by
    intro w0 hpres hsame hs
    have g1 := terrainPass_grows height w0 cx cz
    obtain ⟨c, hc⟩ := Option.isSome_iff_exists.mp (g1.1 _ hpres)
    have hck := blockChunkKey_in_chunk cx cz 0 0 (by decide) (by decide)
    rw [add_zero, add_zero] at hck
    have hgc : getBlockChunk (terrainPass height w0 cx cz) (cx * CHUNK_SIZE) (cz * CHUNK_SIZE)
        = some c := by
      unfold getBlockChunk
      dsimp only
      rw [hck]
      exact hc
    have hbase := terrainPass_isSome height w0 cx cz 0 0 (by decide) (by decide) 0 (le_refl _)
      (by rw [add_zero, add_zero]; omega)
    rw [add_zero, add_zero] at hbase
    obtain ⟨topY, htop, t0, t1⟩ := findTopBlockY_exists (terrainPass height w0 cx cz)
      (cx * CHUNK_SIZE) (cz * CHUNK_SIZE) 0 c hgc (le_refl _) (by decide) hbase
    have hmax : ∀ y, 0 ≤ y → y ≤ MAX_HEIGHT →
        (blockAt w (cx * CHUNK_SIZE) y (cz * CHUNK_SIZE)).isSome → y ≤ topY := by
      intro y h0 h1 hb
      rw [← hsame] at hb
      have hb2 := evolves_isSome _ _ _ (evolves_of_grows _ _ _ g1) _ _ _ hb
      obtain ⟨top2, htop2, t2, _⟩ := findTopBlockY_exists (terrainPass height w0 cx cz)
        (cx * CHUNK_SIZE) (cz * CHUNK_SIZE) y c hgc h0 h1 hb2
      rw [htop] at htop2
      simp only [Except.ok.injEq, Option.some.injEq] at htop2
      rw [htop2]
      exact t2
    refine ⟨topY, t0, t1, hmax, ?_⟩
    have hleaves := synthesizeChunk_leaves height random (w0, n) s1 cx cz topY hs ht
      (by
        dsimp only
        rw [e1, e2, add_zero, add_zero]
        exact htop)
      hleaf l hl hd
    dsimp only at hleaves
    rw [e1, e2, e3, add_zero, add_zero] at hleaves
    have e4 : topY + 3 = topY + 1 + 2 := by ring
    have e5 : cz * CHUNK_SIZE + l.2 = cz * CHUNK_SIZE + 0 + l.2 := by ring
    rw [e4, e5]
    exact hleaves
  unfold generateChunk at h
  dsimp only at h
  cases hchunk : objGet w (chunkKey cx cz) with
  | some chunk =>
    rw [hchunk] at h
    dsimp only at h
    rw [if_neg (by rw [hgen chunk hchunk]; decide)] at h
    refine key _ (by rw [objGet_objSet_same]; rfl) ?_ h
    intro x y z
    unfold blockAt getBlockChunk
    by_cases hck : chunkKey cx cz = blockChunkKey x z
    · rw [← hck, objGet_objSet_same, hchunk]
      rfl
    · rw [objGet_objSet_other _ _ _ _ hck]
  | none =>
    rw [hchunk] at h
    dsimp only at h
    refine key _ (by rw [objGet_objSet_same]; rfl) ?_ h
    intro x y z
    unfold blockAt getBlockChunk
    by_cases hck : chunkKey cx cz = blockChunkKey x z
    · rw [← hck, objGet_objSet_same, hchunk]
      rfl
    · rw [objGet_objSet_other _ _ _ _ hck]


theorem spillRandom_tree :
    spillRandom 0 < 7 / 20
    ∧ ⌊spillRandom (0 + 1) * (CHUNK_SIZE : ℚ)⌋ = 0
    ∧ ⌊spillRandom (0 + 2) * (CHUNK_SIZE : ℚ)⌋ = 0
    ∧ ⌊spillRandom (0 + 3) * 3⌋ = 0
    ∧ ∀ k, 0 + 4 ≤ k → 1 / 5 < spillRandom k := by
  refine ⟨by simp [spillRandom], by simp [spillRandom], by simp [spillRandom],
    by simp [spillRandom], ?_⟩
  intro k hk
  unfold spillRandom
  rw [if_neg (by omega)]
  norm_num


theorem generateChunksAroundPlayer_eq (height : Int → Int → Int) (random : Nat → ℚ)
    (s s1 : World × Nat) (position : Vec3Q) (pcx pcz : Int)
    (hx : Int.fdiv ⌊position.x / CUBE_SIZE⌋ CHUNK_SIZE = pcx)
    (hz : Int.fdiv ⌊position.z / CUBE_SIZE⌋ CHUNK_SIZE = pcz)
    (h : generateAll height random (aroundCoords pcx pcz) s = Except.ok s1) :
    generateChunksAroundPlayer height random s position
      = Except.ok (s1.1.map (unloadEntry pcx pcz), s1.2) := by
  unfold generateChunksAroundPlayer
  dsimp only
  rw [hx, hz, h]

/-- C13 as stated fails: the world holds the empty chunk `"-6,-5"`, the
player stands at the origin, and the first tree of chunk `(-5, -5)` grows at
its first column; after `generateChunksAroundPlayer` the chunk `"-6,-5"`,
six chunks away from the player's, holds a leaf block. -/
theorem leaves_reach_chunk_outside_radius :
    ∃ s1 c, generateChunksAroundPlayer (fun _ _ => 1) spillRandom (spillWorld, 0)
        { x := 0, y := 0, z := 0 } = Except.ok s1
      ∧ objGet spillWorld (chunkKey (-6) (-5)) = some emptyChunk
      ∧ 5 < |(-6 : Int) - ⌊(⌊(0 : ℚ)⌋ : ℚ) / 16⌋|
      ∧ objGet s1.1 (chunkKey (-6) (-5)) = some c
      ∧ c.blocks ≠ emptyChunk.blocks := by
  have hp : Int.fdiv ⌊(0 : ℚ) / CUBE_SIZE⌋ CHUNK_SIZE = 0 := by
    rw [playerChunk_floor]; norm_num
  obtain ⟨s1, hs1⟩ := generateAll_total (fun _ _ => 1) spillRandom random01_spill
    (aroundCoords 0 0) (spillWorld, 0) worldOk_spill
  have hl : aroundCoords 0 0 = (-5, -5) :: (aroundCoords 0 0).tail := by decide
  have hs2 := hs1
  rw [hl] at hs2
  obtain ⟨sm, hsm, hrest⟩ := generateAll_cons_ok _ _ _ _ _ _ hs2
  have hnone : objGet spillWorld (chunkKey (-5) (-5)) = none := by decide
  have hmem : ((-1 : Int), (0 : Int)) ∈ leafOffsets := by decide
  have hdist : |((-1 : Int), (0 : Int)).1| + |((-1 : Int), (0 : Int)).2| ≤ 2 := by norm_num
  have hone : (1 : Int) ≤ (fun (_ _ : Int) => (1 : Int)) (-5 * CHUNK_SIZE) (-5 * CHUNK_SIZE) :=
    le_refl _
  obtain ⟨r0, r1, r2, r3, r4⟩ := spillRandom_tree
  obtain ⟨topY, _, _, _, hleaf⟩ := generateChunk_first_tree (fun _ _ => 1) spillRandom
    spillWorld 0 (-5) (-5) sm (fun c hc => by rw [hnone] at hc; cases hc) hone hsm
    r0 r1 r2 r3 r4 (-1, 0) hmem hdist
  have hleaf1 := evolves_isSome _ _ _ (generateAll_evolves _ _ _ sm s1 hrest).1 _ _ _ hleaf
  obtain ⟨c, hc, hne⟩ := blocks_ne_nil_of_blockAt _ _ _ _ hleaf1
  have hck : blockChunkKey (-5 * CHUNK_SIZE + (-1, 0).1) (-5 * CHUNK_SIZE + ((-1 : Int), (0 : Int)).2)
      = chunkKey (-6) (-5) := by decide
  rw [hck] at hc
  have hgo : generateChunksAroundPlayer (fun _ _ => 1) spillRandom (spillWorld, 0)
        { x := 0, y := 0, z := 0 } = Except.ok (s1.1.map (unloadEntry 0 0), s1.2) :=
    generateChunksAroundPlayer_eq _ _ _ s1 _ 0 0 hp hp hs1
  have hfar : 5 < |(-6 : Int) - ⌊(⌊(0 : ℚ)⌋ : ℚ) / 16⌋| := by norm_num
  have hbefore : objGet spillWorld (chunkKey (-6) (-5)) = some emptyChunk := by decide
  refine ⟨(s1.1.map (unloadEntry 0 0), s1.2), (unloadEntry 0 0 (chunkKey (-6) (-5), c)).2,
    hgo, hbefore, hfar, ?_, ?_⟩
  · dsimp only
    rw [objGet_map_entries _ (unloadEntry_key 0 0), hc, Option.map_some']
  · rw [(unloadEntry_blocks 0 0 (chunkKey (-6) (-5), c)).1]
    exact hne

/-! ### The terrain of a freshly generated chunk -/

theorem blockAt_objSet_blocks (w : World) (ck : JSString) (c c2 : Chunk)
    (hc : (objGet w ck).getD emptyChunk = c) (hb : c2.blocks = c.blocks) (x y z : Int) :
    blockAt (objSet w ck c2) x y z = blockAt w x y z := by
  unfold blockAt getBlockChunk
  by_cases hck : ck = blockChunkKey x z
  · rw [← hck, objGet_objSet_same]
    cases hg : objGet w ck with
    | none =>
      rw [hg] at hc
      simp only [Option.bind, hb, ← hc]
      rfl
    | some c0 =>
      rw [hg] at hc
      simp only [Option.getD_some] at hc
      simp only [Option.bind, hb, hc]
  · rw [objGet_objSet_other _ _ _ _ hck]

theorem placeBlock_blockAt_congr (w w2 : World) (id x y z : Int)
    (h : ∀ a b c, blockAt w a b c = blockAt w2 a b c) (a b c : Int) :
    blockAt (placeBlock w id x y z).2 a b c = blockAt (placeBlock w2 id x y z).2 a b c := by
  by_cases hp : (a, b, c) = (x, y, z)
  · simp only [Prod.mk.injEq] at hp
    obtain ⟨rfl, rfl, rfl⟩ := hp
    rw [placeBlock_blockAt_self, placeBlock_blockAt_self, h]
  · rw [placeBlock_blockAt_other _ _ _ _ _ _ _ _ hp, placeBlock_blockAt_other _ _ _ _ _ _ _ _ hp, h]

theorem placeAll_blockAt_congr (calls : List (Int × Int × Int × Int)) :
    ∀ (w w2 : World), (∀ a b c, blockAt w a b c = blockAt w2 a b c) →
    ∀ a b c, blockAt (placeAll w calls) a b c = blockAt (placeAll w2 calls) a b c := by
  induction calls with
  | nil => intro w w2 h; exact h
  | cons d calls ih =>
    intro w w2 h
    exact ih _ _ (placeBlock_blockAt_congr w w2 d.1 d.2.1 d.2.2.1 d.2.2.2 h)

theorem treesPass_none (random : Nat → ℚ) (startX startZ : Int) (t : Nat) :
    ∀ s : World × Nat, (∀ k, k < t → ¬ random (s.2 + k) < 7 / 20) →
    treesPass random startX startZ t s = Except.ok (s.1, s.2 + t) := by
  induction t with
  | zero => intro s _; rfl
  | succ t ih =>
    intro s h
    unfold treesPass
    rw [treeStep_none random startX startZ s (h 0 (by omega))]
    dsimp only
    rw [ih (s.1, s.2 + 1) (fun k hk => by
      have := h (k + 1) (by omega)
      rw [show s.2 + (k + 1) = s.2 + 1 + k by omega] at this
      exact this)]
    rw [show s.2 + 1 + t = s.2 + (t + 1) by omega]

/-- Without a tree, `generateChunk` on a chunk that is absent or not yet
generated returns and leaves the blocks of the terrain pass. -/
theorem generateChunk_no_trees (height : Int → Int → Int) (random : Nat → ℚ)
    (s : World × Nat) (cx cz : Int) (hok : WorldOk s.1)
    (hgen : ∀ c, objGet s.1 (chunkKey cx cz) = some c → c.generated = false)
    (hno : ∀ k, k < 3 → ¬ random (s.2 + k) < 7 / 20) :
    ∃ s1, generateChunk height random s cx cz = Except.ok s1 ∧ s1.2 = s.2 + 3
      ∧ ∀ x y z, blockAt s1.1 x y z = blockAt (terrainPass height s.1 cx cz) x y z := by
  have key : ∀ w0 : World, (objGet w0 (chunkKey cx cz)).isSome → WorldOk w0 →
      (∀ x y z, blockAt w0 x y z = blockAt s.1 x y z) →
      ∃ s1, synthesizeChunk height random (w0, s.2) cx cz = Except.ok s1 ∧ s1.2 = s.2 + 3
        ∧ ∀ x y z, blockAt s1.1 x y z = blockAt (terrainPass height s.1 cx cz) x y z := by
    intro w0 hpres hok0 hsame
    have g1 := terrainPass_grows height w0 cx cz
    obtain ⟨chunk, hchunk⟩ := Option.isSome_iff_exists.mp (g1.1 _ hpres)
    have hok1 : WorldOk (terrainPass height w0 cx cz) :=
      evolves_worldOk _ _ _ (genBlock_ids height random cx cz)
        (evolves_of_grows _ _ _ (grows_genBlock_terrain height random cx cz _ _ g1)) hok0
    have hk : KeysWellFormed chunk.blocks :=
      keysWellFormed_of_world _ (worldOk_wellFormed _ hok1) _ chunk hchunk
    have hids : IdsInTable chunk.blocks := by
      intro e he
      obtain ⟨_, _, _, _, _, hid⟩ := hok1 _ chunk hchunk e he
      exact hid
    obtain ⟨chunk2, hmesh⟩ := generateChunkMesh_total chunk hk hids
    obtain ⟨mesh, hm⟩ := generateChunkMesh_fields chunk chunk2 hmesh
    refine ⟨(objSet (terrainPass height w0 cx cz) (chunkKey cx cz) chunk2, s.2 + 3), ?_, rfl, ?_⟩
    · unfold synthesizeChunk
      dsimp only
      rw [treesPass_none random _ _ 3 (terrainPass height w0 cx cz, s.2) hno]
      dsimp only
      rw [hchunk]
      dsimp only
      rw [hmesh]
    · intro x y z
      dsimp only
      rw [blockAt_objSet_blocks _ _ chunk chunk2 (by rw [hchunk]; rfl) (by rw [hm])]
      unfold terrainPass
      exact placeAll_blockAt_congr _ w0 s.1 hsame x y z
  unfold generateChunk
  dsimp only
  cases hchunk : objGet s.1 (chunkKey cx cz) with
  | some chunk =>
    dsimp only
    rw [if_neg (by rw [hgen chunk hchunk]; decide)]
    refine key _ (by rw [objGet_objSet_same]; rfl) ?_ ?_
    · exact evolves_worldOk _ _ _ (genBlock_ids height random cx cz)
        (evolves_objSet_flags (GenBlock height random cx cz) s.1 _ chunk _
          (by rw [hchunk]; rfl) rfl (fun _ => rfl) (fun _ => rfl)) hok
    · exact blockAt_objSet_blocks s.1 _ chunk _ (by rw [hchunk]; rfl) rfl
  | none =>
    dsimp only
    refine key _ (by rw [objGet_objSet_same]; rfl) ?_ ?_
    · exact evolves_worldOk _ _ _ (genBlock_ids height random cx cz)
        (evolves_objSet_flags (GenBlock height random cx cz) s.1 _ emptyChunk _
          (by rw [hchunk]; rfl) rfl (fun _ => rfl) (fun _ => rfl)) hok
    · exact blockAt_objSet_blocks s.1 _ emptyChunk _ (by rw [hchunk]; rfl) rfl

/-- The top of a column that was empty before the terrain pass. -/
theorem terrainPass_top (height : Int → Int → Int) (w : World) (cx cz i j : Int)
    (hi : 0 ≤ i ∧ i < 16) (hj : 0 ≤ j ∧ j < 16)
    (hempty : ∀ y, blockAt w (cx * CHUNK_SIZE + i) y (cz * CHUNK_SIZE + j) = none)
    (h1 : 1 ≤ height (cx * CHUNK_SIZE + i) (cz * CHUNK_SIZE + j))
    (h2 : height (cx * CHUNK_SIZE + i) (cz * CHUNK_SIZE + j) ≤ MAX_HEIGHT + 1) :
    findTopBlockY (terrainPass height w cx cz) (cx * CHUNK_SIZE + i) (cz * CHUNK_SIZE + j)
      = Except.ok (some (height (cx * CHUNK_SIZE + i) (cz * CHUNK_SIZE + j) - 1)) := by
  have hb := terrainPass_isSome height w cx cz i j hi hj
    (height (cx * CHUNK_SIZE + i) (cz * CHUNK_SIZE + j) - 1) (by omega) (by omega)
  obtain ⟨c, hc, _⟩ := blocks_ne_nil_of_blockAt _ _ _ _ hb
  obtain ⟨topY, htop, t0, t1⟩ := findTopBlockY_exists (terrainPass height w cx cz)
    (cx * CHUNK_SIZE + i) (cz * CHUNK_SIZE + j) _ c hc (by omega) (by omega) hb
  obtain ⟨_, _, hsome⟩ := findTopBlockY_bounds _ _ _ _ htop
  rw [htop]
  by_cases hlt : topY < height (cx * CHUNK_SIZE + i) (cz * CHUNK_SIZE + j)
  · have : topY = height (cx * CHUNK_SIZE + i) (cz * CHUNK_SIZE + j) - 1 := by omega
    rw [this]
  · have hun := (terrainPass_column height w cx cz i j hi hj topY).2.2 (Or.inr (not_lt.mp hlt))
    rw [hun, hempty] at hsome
    cases hsome

theorem layerType_cases (h y : Int) :
    (y = h - 1 → layerType h y = BLOCK_ID.grass)
    ∧ (y = h - 2 ∨ y = h - 3 → layerType h y = BLOCK_ID.dirt)
    ∧ (y < h - 3 → layerType h y = BLOCK_ID.stone) := by
  unfold layerType
  refine ⟨fun h1 => by rw [if_pos h1], fun h1 => ?_, fun h1 => ?_⟩
  · rw [if_neg (by omega), if_pos (by omega)]
  · rw [if_neg (by omega), if_neg (by omega)]

/-- The height formula of line 531 over the real numbers: between 30 and
36 in every column, and 33 in column `(0, 0)`. -/
theorem terrain_formula (wx wz : Int) :
    (30 ≤ ⌊((WORLD_DEPTH : Int) : ℝ) + 10 * ((LAND_INTENSITY : ℚ) : ℝ)
        * |Real.sin ((wx : ℝ) * ((LAND_INTENSITY : ℚ) : ℝ))
            + Real.cos ((wz : ℝ) * ((LAND_INTENSITY : ℚ) : ℝ))|⌋
      ∧ ⌊((WORLD_DEPTH : Int) : ℝ) + 10 * ((LAND_INTENSITY : ℚ) : ℝ)
        * |Real.sin ((wx : ℝ) * ((LAND_INTENSITY : ℚ) : ℝ))
            + Real.cos ((wz : ℝ) * ((LAND_INTENSITY : ℚ) : ℝ))|⌋ ≤ 36)
    ∧ ⌊((WORLD_DEPTH : Int) : ℝ) + 10 * ((LAND_INTENSITY : ℚ) : ℝ)
        * |Real.sin (((0 : Int) : ℝ) * ((LAND_INTENSITY : ℚ) : ℝ))
            + Real.cos (((0 : Int) : ℝ) * ((LAND_INTENSITY : ℚ) : ℝ))|⌋ = 33 := by
  have hl : ((LAND_INTENSITY : ℚ) : ℝ) = 3 / 10 := by
    unfold LAND_INTENSITY
    norm_num
  have hw : ((WORLD_DEPTH : Int) : ℝ) = 30 := by
    unfold WORLD_DEPTH
    norm_num
  rw [hl, hw]
  refine ⟨?_, ?_⟩
  · generalize (wx : ℝ) * (3 / 10) = a
    generalize (wz : ℝ) * (3 / 10) = b
    have h0 : 0 ≤ |Real.sin a + Real.cos b| := abs_nonneg _
    have h2 : |Real.sin a + Real.cos b| ≤ 2 := by
      rw [abs_le]
      constructor
      · linarith [Real.neg_one_le_sin a, Real.neg_one_le_cos b]
      · linarith [Real.sin_le_one a, Real.cos_le_one b]
    constructor
    · rw [Int.le_floor]
      push_cast
      linarith
    · have : ⌊(30 : ℝ) + 10 * (3 / 10) * |Real.sin a + Real.cos b|⌋ < 37 := by
        rw [Int.floor_lt]
        push_cast
        linarith
      omega
  · have e : (30 : ℝ) + 10 * (3 / 10) * |Real.sin (((0 : Int) : ℝ) * (3 / 10))
        + Real.cos (((0 : Int) : ℝ) * (3 / 10))| = ((33 : Int) : ℝ) := by
      norm_num
    rw [e, Int.floor_intCast]

theorem worldOk_placeBlock (w : World) (id x y z : Int) (hid : 0 ≤ id ∧ id < 5)
    (hok : WorldOk w) : WorldOk (placeBlock w id x y z).2 :=
  evolves_worldOk (fun id _ _ _ => 0 ≤ id ∧ id < 5) _ _ (fun _ _ _ _ h => h)
    (evolves_of_grows _ _ _ (placeBlock_grows _ w id x y z hid)) hok

/-- C14 as stated fails: the chunk `"0,0"` exists, not generated, with a
stone block at `(0, 40, 0)`; the column height is 33 and no tree is drawn;
after the terrain pass, and after `generateChunk(0, 0)`, the column `(0, 0)`
still holds the stone block at `y = 40`, outside `[0, 33)`. -/
theorem terrain_keeps_earlier_block :
    (objGet stoneAboveWorld (chunkKey 0 0)).map (fun c => c.generated) = some false
    ∧ blockAt (terrainPass (fun _ _ => 33) stoneAboveWorld 0 0) 0 40 0
        = some { id := BLOCK_ID.stone }
    ∧ ¬ ((40 : Int) < 33)
    ∧ ∃ s1, generateChunk (fun _ _ => 33) (fun _ => 1 / 2) (stoneAboveWorld, 0) 0 0
          = Except.ok s1
        ∧ blockAt s1.1 0 40 0 = some { id := BLOCK_ID.stone } := by
  have hb : blockAt stoneAboveWorld 0 40 0 = some { id := BLOCK_ID.stone } := by decide
  have hgenerated :
      (objGet stoneAboveWorld (chunkKey 0 0)).map (fun c => c.generated) = some false := by
    decide
  have hterrain := placeAll_blockAt_old (terrainCalls (fun _ _ => 33) 0 0) stoneAboveWorld
    0 40 0 _ hb
  refine ⟨hgenerated, hterrain, by decide, ?_⟩
  obtain ⟨s1, hs1, _, hsame⟩ := generateChunk_no_trees (fun _ _ => 33) (fun _ => 1 / 2)
    (stoneAboveWorld, 0) 0 0
    (worldOk_placeBlock [] 2 0 40 0 (by decide) worldOk_nil)
    (fun c hc => by
      rw [hc] at hgenerated
      simpa using hgenerated)
    (fun k _ => by norm_num)
  exact ⟨s1, hs1, by rw [hsame]; exact hterrain⟩

/-- C14, amended: after the terrain pass of `generateChunk(cx, cz)`, in every
column `(wx, wz)` of the chunk with height `h = height wx wz`, every cell
with `0 <= y < h` that was empty holds grass at `y = h - 1`, dirt at
`y = h - 2` and `y = h - 3`, and stone at every `y < h - 3`; a cell that
held a block keeps that block; the cells of the column below `0` and from
`h` upwards are as before.  For a column that held no block and
`1 <= h <= MAX_HEIGHT + 1`, `findTopBlockY(wx, wz) = h - 1`.  When no tree is
drawn, `generateChunk` on an absent or not yet generated chunk returns with
the blocks of the terrain pass.  Over the real numbers the height formula
gives `30 <= h <= 36` in every column and `h = 33` in column `(0, 0)`. -/
theorem terrainPass_spec (height : Int → Int → Int) (w : World) (cx cz wx wz : Int)
    (hx : cx * CHUNK_SIZE ≤ wx ∧ wx < cx * CHUNK_SIZE + CHUNK_SIZE)
    (hz : cz * CHUNK_SIZE ≤ wz ∧ wz < cz * CHUNK_SIZE + CHUNK_SIZE) :
    (∀ y, 0 ≤ y → y < height wx wz → blockAt w wx y wz = none →
        blockAt (terrainPass height w cx cz) wx y wz
          = some { id := layerType (height wx wz) y })
    ∧ (∀ y, (y = height wx wz - 1 → layerType (height wx wz) y = BLOCK_ID.grass)
        ∧ (y = height wx wz - 2 ∨ y = height wx wz - 3 →
            layerType (height wx wz) y = BLOCK_ID.dirt)
        ∧ (y < height wx wz - 3 → layerType (height wx wz) y = BLOCK_ID.stone))
    ∧ (∀ y b, blockAt w wx y wz = some b →
        blockAt (terrainPass height w cx cz) wx y wz = some b)
    ∧ (∀ y, (y < 0 ∨ height wx wz ≤ y) →
        blockAt (terrainPass height w cx cz) wx y wz = blockAt w wx y wz)
    ∧ ((∀ y, blockAt w wx y wz = none) → 1 ≤ height wx wz → height wx wz ≤ MAX_HEIGHT + 1 →
        findTopBlockY (terrainPass height w cx cz) wx wz
          = Except.ok (some (height wx wz - 1)))
    ∧ (∀ (random : Nat → ℚ) (s : World × Nat), WorldOk s.1 →
        (∀ c, objGet s.1 (chunkKey cx cz) = some c → c.generated = false) →
        (∀ k, k < 3 → ¬ random (s.2 + k) < 7 / 20) →
        ∃ s1, generateChunk height random s cx cz = Except.ok s1
          ∧ ∀ x y z, blockAt s1.1 x y z = blockAt (terrainPass height s.1 cx cz) x y z)
    ∧ (30 ≤ ⌊((WORLD_DEPTH : Int) : ℝ) + 10 * ((LAND_INTENSITY : ℚ) : ℝ)
          * |Real.sin ((wx : ℝ) * ((LAND_INTENSITY : ℚ) : ℝ))
              + Real.cos ((wz : ℝ) * ((LAND_INTENSITY : ℚ) : ℝ))|⌋
        ∧ ⌊((WORLD_DEPTH : Int) : ℝ) + 10 * ((LAND_INTENSITY : ℚ) : ℝ)
          * |Real.sin ((wx : ℝ) * ((LAND_INTENSITY : ℚ) : ℝ))
              + Real.cos ((wz : ℝ) * ((LAND_INTENSITY : ℚ) : ℝ))|⌋ ≤ 36)
    ∧ ⌊((WORLD_DEPTH : Int) : ℝ) + 10 * ((LAND_INTENSITY : ℚ) : ℝ)
          * |Real.sin (((0 : Int) : ℝ) * ((LAND_INTENSITY : ℚ) : ℝ))
              + Real.cos (((0 : Int) : ℝ) * ((LAND_INTENSITY : ℚ) : ℝ))|⌋ = 33 := by
  have hi : 0 ≤ wx - cx * CHUNK_SIZE ∧ wx - cx * CHUNK_SIZE < 16 := by
    unfold CHUNK_SIZE at hx ⊢
    omega
  have hj : 0 ≤ wz - cz * CHUNK_SIZE ∧ wz - cz * CHUNK_SIZE < 16 := by
    unfold CHUNK_SIZE at hz ⊢
    omega
  have ex : cx * CHUNK_SIZE + (wx - cx * CHUNK_SIZE) = wx := by ring
  have ez : cz * CHUNK_SIZE + (wz - cz * CHUNK_SIZE) = wz := by ring
  have hcol := fun y => terrainPass_column height w cx cz _ _ hi hj y
  have htop := terrainPass_top height w cx cz _ _ hi hj
  rw [ex, ez] at htop
  simp only [ex, ez] at hcol
  refine ⟨fun y => (hcol y).1, fun y => layerType_cases _ y, fun y => (hcol y).2.1,
    fun y => (hcol y).2.2, htop, ?_, (terrain_formula wx wz).1, (terrain_formula wx wz).2⟩
  intro random s hok hgen hno
  obtain ⟨s1, h1, _, h3⟩ := generateChunk_no_trees height random s cx cz hok hgen hno
  exact ⟨s1, h1, h3⟩

/-- C14, amended, on the empty chunk map with height 33 everywhere: after
the terrain pass of chunk `(0, 0)` the column `(0, 0)` has grass at `y = 32`,
dirt at `y = 30`, stone at `y = 0` and its top block at `y = 32`. -/
theorem terrainPass_spec_witness :
    blockAt (terrainPass (fun _ _ => 33) [] 0 0) 0 32 0 = some { id := BLOCK_ID.grass }
    ∧ blockAt (terrainPass (fun _ _ => 33) [] 0 0) 0 30 0 = some { id := BLOCK_ID.dirt }
    ∧ blockAt (terrainPass (fun _ _ => 33) [] 0 0) 0 0 0 = some { id := BLOCK_ID.stone }
    ∧ findTopBlockY (terrainPass (fun _ _ => 33) [] 0 0) 0 0 = Except.ok (some 32) :=
  ⟨(terrainPass_spec (fun _ _ => 33) [] 0 0 0 0 (by decide) (by decide)).1 32
      (by decide) (by decide) rfl,
    (terrainPass_spec (fun _ _ => 33) [] 0 0 0 0 (by decide) (by decide)).1 30
      (by decide) (by decide) rfl,
    (terrainPass_spec (fun _ _ => 33) [] 0 0 0 0 (by decide) (by decide)).1 0
      (by decide) (by decide) rfl,
    (terrainPass_spec (fun _ _ => 33) [] 0 0 0 0 (by decide) (by decide)).2.2.2.2.1
      (fun _ => rfl) (by decide) (by decide)⟩

/-! ### Heights of stored blocks -/

theorem evolves_heightOk (Q : Int → Int → Int → Int → Prop) (w w2 : World)
    (hq : ∀ id x y z, Q id x y z → MIN_HEIGHT ≤ y ∧ y ≤ MAX_HEIGHT + 5)
    (h : Evolves Q w w2) (hok : HeightOk w) : HeightOk w2 := by
  intro ck c2 hc2 e he
  have hr := h.2.2 ck c2 hc2
  rcases hr.2.2.2.1 e he with hold | ⟨x, y, z, hk, _, hid⟩
  · cases hc : objGet w ck with
    | none =>
      rw [hc] at hold
      cases hold
    | some c =>
      rw [hc] at hold
      exact hok ck c hc e hold
  · exact ⟨x, y, z, hk, hq _ _ _ _ hid⟩

theorem heightOk_objSet (w : World) (ck : JSString) (c2 : Chunk) (hok : HeightOk w)
    (h : ∀ e ∈ c2.blocks, ∃ x y z : Int, e.1 = key x y z ∧ MIN_HEIGHT ≤ y ∧ y ≤ MAX_HEIGHT + 5) :
    HeightOk (objSet w ck c2) := by
  intro ck2 c3 hc3
  by_cases hck : ck = ck2
  · subst hck
    rw [objGet_objSet_same] at hc3
    simp only [Option.some.injEq] at hc3
    subst hc3
    exact h
  · rw [objGet_objSet_other _ _ _ _ hck] at hc3
    exact hok ck2 c3 hc3

theorem removeBlock_heightOk (w : World) (x y z : Int) (hok : HeightOk w) :
    HeightOk (removeBlock w x y z).2 := by
  unfold removeBlock
  cases hc : getBlockChunk w x z with
  | none =>
    simp only [emptyChunk, objGet, Option.isSome_none, Bool.false_eq_true, not_false_eq_true,
      if_true]
    apply heightOk_objSet w _ _ hok
    intro e he; cases he
  | some chunk =>
    dsimp only
    split_ifs
    · apply heightOk_objSet w _ _ hok
      intro e he
      exact hok _ chunk hc e (mem_objDelete _ _ e he)
    · exact hok

theorem writeCells_keys (cx cz : Int) (ids : List Int) :
    ∀ (blocks : Obj Block) (idx : Nat), ∀ e ∈ writeCells cx cz ids blocks idx,
      e ∈ blocks ∨ ∃ j, j < ids.length ∧ e.1 = idxToKey cx cz (idx + j) := by
  induction ids with
  | nil => intro blocks idx e he; exact Or.inl he
  | cons id ids ih =>
    intro blocks idx e he
    simp only [writeCells] at he
    rcases ih _ _ e he with h | ⟨j, hj, hk⟩
    · split_ifs at h
      · rcases mem_objSet _ _ _ e h with h2 | h2
        · exact Or.inl h2
        · refine Or.inr ⟨0, by simp, ?_⟩
          rw [h2]
          rfl
      · exact Or.inl h
    · refine Or.inr ⟨j + 1, by simp [hj], ?_⟩
      rw [hk]
      congr 1
      omega

/-- The blocks decoded from a code that `generateChunkSaveCode` wrote lie
between `MIN_HEIGHT` and `MAX_HEIGHT`. -/
theorem decoded_heights (ck : JSString) (saved : Chunk) (code : JSString) (blocks : Obj Block)
    (hids : ∀ k b, objGet saved.blocks k = some b → 0 ≤ b.id ∧ b.id < 4095)
    (henc : generateChunkSaveCode ck saved = Except.ok code)
    (hdec : decodeChunkSaveCode ck code = Except.ok blocks) :
    ∀ e ∈ blocks, ∃ x y z : Int, e.1 = key x y z ∧ MIN_HEIGHT ≤ y ∧ y ≤ MAX_HEIGHT := by
  unfold generateChunkSaveCode at henc
  unfold decodeChunkSaveCode at hdec
  split at henc
  · rename_i cx cz rest harr
    rw [harr] at hdec
    simp only [Except.ok.injEq] at henc
    subst henc
    dsimp only at hdec
    rw [encode_decode cx cz _ (cellIds_bounds cx cz saved.blocks hids)] at hdec
    simp only [Except.ok.injEq] at hdec
    subst hdec
    intro e he
    rcases writeCells_keys cx cz _ [] 0 e he with h | ⟨j, hj, hk⟩
    · cases h
    · rw [cellIds_length] at hj
      rw [hk]
      unfold idxToKey
      have e : CHUNK_SIZE.toNat = 16 := rfl
      refine ⟨_, _, _, rfl, ?_, ?_⟩
      · unfold MIN_HEIGHT
        rw [e]
        omega
      · unfold MAX_HEIGHT
        rw [e]
        omega
  · cases henc

theorem loadChunk_heightOk (w w2 : World) (ck : JSString) (saved : Chunk) (code : JSString)
    (generated : Bool) (hok : HeightOk w)
    (hids : ∀ k b, objGet saved.blocks k = some b → 0 ≤ b.id ∧ b.id < 4095)
    (henc : generateChunkSaveCode ck saved = Except.ok code)
    (hload : loadChunk w ck code generated = Except.ok w2) : HeightOk w2 := by
  unfold loadChunk at hload
  split at hload
  · cases hload
  · rename_i blocks hdec
    have hb : ∀ e ∈ blocks, ∃ x y z : Int,
        e.1 = key x y z ∧ MIN_HEIGHT ≤ y ∧ y ≤ MAX_HEIGHT + 5 := by
      intro e he
      obtain ⟨x, y, z, hk, h0, h1⟩ := decoded_heights ck saved code blocks hids henc hdec e he
      exact ⟨x, y, z, hk, h0, by omega⟩
    dsimp only at hload
    split_ifs at hload
    · split at hload
      · cases hload
      · rename_i chunk2 hmesh
        simp only [Except.ok.injEq] at hload
        subst hload
        obtain ⟨mesh, hm⟩ := generateChunkMesh_fields _ chunk2 hmesh
        apply heightOk_objSet w _ _ hok
        rw [hm]
        exact hb
    · simp only [Except.ok.injEq] at hload
      subst hload
      exact heightOk_objSet w _ _ hok hb

theorem reachableBounded_heightOk (height : Int → Int → Int)
    (hh : ∀ x z, height x z ≤ MAX_HEIGHT + 1) (w : World)
    (h : ReachableBounded height w) : HeightOk w := by
  induction h with
  | empty =>
    intro ck c hc
    cases hc
  | place w id x y z _ h0 h1 ih =>
    exact evolves_heightOk (fun _ _ y _ => MIN_HEIGHT ≤ y ∧ y ≤ MAX_HEIGHT + 5) _ _
      (fun _ _ _ _ hq => hq)
      (evolves_of_grows _ _ _ (placeBlock_grows _ w id x y z ⟨h0, by omega⟩)) ih
  | remove w x y z _ ih => exact removeBlock_heightOk w x y z ih
  | generate w random n cx cz s1 _ h01 hgen ih =>
    refine evolves_heightOk _ _ _ ?_
      (generateChunk_evolves height random (w, n) s1 cx cz hgen).1 ih
    intro id x y z hq
    rcases hq with ⟨h0, h1, _, _⟩ | ⟨_, hb⟩
    · have := hh x z
      unfold MIN_HEIGHT
      exact ⟨h0, by omega⟩
    · unfold MIN_HEIGHT
      exact ⟨(hb h01).1, (hb h01).2.1⟩
  | load w ck saved code generated w2 _ hids henc hload ih =>
    exact loadChunk_heightOk w w2 ck saved code generated ih hids henc hload

/-- C15 as stated fails: `placeBlock` stores a block at `y = 65`; and from
a world with one block at `y = MAX_HEIGHT`, `generateChunk(0, 0)` grows a
tree on top of that block and stores a leaf block at `y = 67`. -/
theorem blocks_above_max_height :
    (blockAt (placeBlock [] 0 0 65 0).2 0 65 0 = some { id := 0 } ∧ ¬ ((65 : Int) ≤ MAX_HEIGHT))
    ∧ ∃ s1, generateChunk (fun _ _ => 1) spillRandom (tallWorld, 0) 0 0 = Except.ok s1
        ∧ (blockAt s1.1 0 67 0).isSome = true ∧ ¬ ((67 : Int) ≤ MAX_HEIGHT) := by
  refine ⟨⟨by decide, by decide⟩, ?_⟩
  obtain ⟨s1, hs1⟩ := generateChunk_total (fun _ _ => 1) spillRandom random01_spill
    (tallWorld, 0) 0 0 (worldOk_placeBlock [] 0 0 64 0 (by decide) worldOk_nil)
  have hgenerated :
      (objGet tallWorld (chunkKey 0 0)).map (fun c => c.generated) = some false := by
    decide
  have hmem : ((0 : Int), (0 : Int)) ∈ leafOffsets := by decide
  have hdist : |((0 : Int), (0 : Int)).1| + |((0 : Int), (0 : Int)).2| ≤ 2 := by norm_num
  have hone : (1 : Int) ≤ (fun (_ _ : Int) => (1 : Int)) (0 * CHUNK_SIZE) (0 * CHUNK_SIZE) :=
    le_refl _
  obtain ⟨r0, r1, r2, r3, r4⟩ := spillRandom_tree
  obtain ⟨topY, _, t1, hmax, hleaf⟩ := generateChunk_first_tree (fun _ _ => 1) spillRandom
    tallWorld 0 0 0 s1
    (fun c hc => by
      rw [hc] at hgenerated
      simpa using hgenerated)
    hone hs1 r0 r1 r2 r3 r4 (0, 0) hmem hdist
  have h64 : (64 : Int) ≤ topY := hmax 64 (by decide) (by decide) (by decide)
  have htop : topY = 64 := by
    unfold MAX_HEIGHT at t1
    omega
  subst htop
  have e : (0 : Int) * CHUNK_SIZE + ((0 : Int), (0 : Int)).1 = 0 := by decide
  have e2 : (0 : Int) * CHUNK_SIZE + ((0 : Int), (0 : Int)).2 = 0 := by decide
  simp only [e, e2] at hleaf
  exact ⟨s1, hs1, hleaf, by decide⟩

/-- C15, amended: in every world reached from the empty chunk map by
`placeBlock` with `MIN_HEIGHT <= y <= MAX_HEIGHT`, `removeBlock`,
`generateChunk` with random numbers in `[0, 1)` and terrain heights of at
most `MAX_HEIGHT + 1`, and loading chunks from codes written by
`generateChunkSaveCode`, every stored block key is a key `key x y z` with
`MIN_HEIGHT <= y <= MAX_HEIGHT + 5`, and every block found by a lookup has
such a `y`. -/
theorem reachable_heights (height : Int → Int → Int)
    (hh : ∀ x z, height x z ≤ MAX_HEIGHT + 1) (w : World)
    (h : ReachableBounded height w) :
    (∀ ck c, objGet w ck = some c → ∀ e ∈ c.blocks, ∃ x y z : Int,
        e.1 = key x y z ∧ MIN_HEIGHT ≤ y ∧ y ≤ MAX_HEIGHT + 5)
    ∧ (∀ x y z b, blockAt w x y z = some b → MIN_HEIGHT ≤ y ∧ y ≤ MAX_HEIGHT + 5) := by
  have hok := reachableBounded_heightOk height hh w h
  refine ⟨hok, ?_⟩
  intro x y z b hb
  unfold blockAt getBlockChunk at hb
  cases hc : objGet w (blockChunkKey x z) with
  | none => rw [hc] at hb; cases hb
  | some c =>
    rw [hc] at hb
    obtain ⟨x2, y2, z2, hk, h0, h1⟩ := hok _ c hc _ (mem_of_objGet _ _ _ hb)
    obtain ⟨_, hy, _⟩ := key_inj hk
    rw [hy]
    exact ⟨h0, h1⟩

/-- C15, amended, on `tallWorld`, reached by one `placeBlock` at
`y = MAX_HEIGHT`. -/
theorem reachable_heights_witness :
    ReachableBounded (fun _ _ => 33) tallWorld
    ∧ ∀ x y z b, blockAt tallWorld x y z = some b → MIN_HEIGHT ≤ y ∧ y ≤ MAX_HEIGHT + 5 :=
  ⟨ReachableBounded.place [] 0 0 64 0 ReachableBounded.empty (by decide) (by decide),
    (reachable_heights (fun _ _ => 33) (fun _ _ => show (33 : Int) ≤ MAX_HEIGHT + 1 by decide)
      tallWorld
      (ReachableBounded.place [] 0 0 64 0 ReachableBounded.empty (by decide) (by decide))).2⟩

/-! ### Meshes of neighbouring chunks -/

theorem generateChunkMesh_blocks_only (c c2 : Chunk) (hb : c2.blocks = c.blocks) :
    (generateChunkMesh c2).map (fun r => r.mesh) = (generateChunkMesh c).map (fun r => r.mesh) := by
  unfold generateChunkMesh
  rw [hb]
  cases collectFaces c.blocks c.blocks [] with
  | error e => rfl
  | ok acc =>
    dsimp only
    cases constructFaces acc emptyMesh with
    | error e => rfl
    | ok mesh => rfl

/-- The mesh `generateChunkMesh` stores is the mesh it builds again from
the result. -/
theorem generateChunkMesh_fresh (c c2 : Chunk) (h : generateChunkMesh c = Except.ok c2) :
    generateChunkMesh c2 = Except.ok c2 := by
  obtain ⟨mesh, hm⟩ := generateChunkMesh_fields c c2 h
  have hb : c2.blocks = c.blocks := by rw [hm]
  have h2 := generateChunkMesh_blocks_only c c2 hb
  rw [h] at h2
  cases h3 : generateChunkMesh c2 with
  | error e => rw [h3] at h2; cases h2
  | ok c3 =>
    rw [h3] at h2
    obtain ⟨mesh3, hm3⟩ := generateChunkMesh_fields c2 c3 h3
    simp only [Except.map, Except.ok.injEq] at h2
    rw [hm3, hm] at h2
    simp only [Option.some.injEq] at h2
    rw [hm3, h2, hm]

/-- The chunk `(cx, cz)` after a `generateChunk(cx, cz)` that synthesised
it: generated, with the mesh of its blocks. -/
theorem generateChunk_own_mesh (height : Int → Int → Int) (random : Nat → ℚ)
    (s s1 : World × Nat) (cx cz : Int)
    (hgen : ∀ c, objGet s.1 (chunkKey cx cz) = some c → c.generated = false)
    (h : generateChunk height random s cx cz = Except.ok s1) :
    ∃ c1, objGet s1.1 (chunkKey cx cz) = some c1 ∧ c1.generated = true
      ∧ generateChunkMesh c1 = Except.ok c1 := by
  obtain ⟨_, _, c1, hc1, hg, _⟩ := generateChunk_evolves height random s s1 cx cz h
  refine ⟨c1, hc1, hg, ?_⟩
  have key : ∀ s0 : World × Nat, synthesizeChunk height random s0 cx cz = Except.ok s1 →
      generateChunkMesh c1 = Except.ok c1 := by
    intro s0 hs
    obtain ⟨s2, chunk, mesh, _, _, hmesh, rfl⟩ := synthesizeChunk_steps height random s0 s1 cx cz hs
    rw [objGet_objSet_same] at hc1
    simp only [Option.some.injEq] at hc1
    rw [← hc1]
    exact generateChunkMesh_fresh chunk _ hmesh
  unfold generateChunk at h
  dsimp only at h
  cases hchunk : objGet s.1 (chunkKey cx cz) with
  | some chunk =>
    rw [hchunk] at h
    dsimp only at h
    rw [if_neg (by rw [hgen chunk hchunk]; decide)] at h
    exact key _ h
  | none =>
    rw [hchunk] at h
    dsimp only at h
    exact key _ h

/-- The other chunks after `generateChunk(cx, cz)`: flags and mesh as
before, blocks kept, new blocks from the generator. -/
theorem generateChunk_other (height : Int → Int → Int) (random : Nat → ℚ)
    (s s1 : World × Nat) (cx cz : Int) (k : JSString) (hk : k ≠ chunkKey cx cz)
    (h : generateChunk height random s cx cz = Except.ok s1) (c : Chunk)
    (hc : objGet s1.1 k = some c) :
    ChunkGrows (GenBlock height random cx cz) k ((objGet s.1 k).getD emptyChunk) c := by
  have key : ∀ w0 : World, objGet w0 k = objGet s.1 k →
      synthesizeChunk height random (w0, s.2) cx cz = Except.ok s1 →
      ChunkGrows (GenBlock height random cx cz) k ((objGet s.1 k).getD emptyChunk) c := by
    intro w0 hsame hs
    obtain ⟨s2, chunk, mesh, hs2, _, _, rfl⟩ :=
      synthesizeChunk_steps height random (w0, s.2) s1 cx cz hs
    have g1 := terrainPass_grows height w0 cx cz
    obtain ⟨g2, _⟩ := treesPass_grows random cx cz 3 _ s2 hs2
    have g12 : Grows (GenBlock height random cx cz) w0 s2.1 :=
      grows_trans _ _ _ _ (grows_genBlock_terrain height random cx cz _ _ g1)
        (grows_genBlock_tree height random cx cz _ _ g2)
    dsimp only at hc
    rw [objGet_objSet_other _ _ _ _ (Ne.symm hk)] at hc
    have := g12.2.2 k c hc
    rw [hsame] at this
    exact this
  unfold generateChunk at h
  dsimp only at h
  cases hchunk : objGet s.1 (chunkKey cx cz) with
  | some chunk =>
    rw [hchunk] at h
    dsimp only at h
    split_ifs at h with hg hl
    · simp only [Except.ok.injEq] at h
      subst h
      rw [hc]
      exact chunkGrows_refl _ _ _
    · simp only [Except.ok.injEq] at h
      subst h
      dsimp only at hc
      rw [objGet_objSet_other _ _ _ _ (Ne.symm hk)] at hc
      rw [hc]
      exact chunkGrows_refl _ _ _
    · exact key _ (objGet_objSet_other _ _ _ _ (Ne.symm hk)) h
  | none =>
    rw [hchunk] at h
    dsimp only at h
    exact key _ (objGet_objSet_other _ _ _ _ (Ne.symm hk)) h

theorem random01_stale : Random01 staleRandom := by
  intro n
  unfold staleRandom
  split_ifs <;> constructor <;> norm_num

theorem staleRandom_tree :
    (∀ k, k < 3 → ¬ staleRandom (0 + k) < 7 / 20)
    ∧ staleRandom 3 < 7 / 20
    ∧ ⌊staleRandom (3 + 1) * (CHUNK_SIZE : ℚ)⌋ = 0
    ∧ ⌊staleRandom (3 + 2) * (CHUNK_SIZE : ℚ)⌋ = 0
    ∧ ⌊staleRandom (3 + 3) * 3⌋ = 0
    ∧ ∀ k, 3 + 4 ≤ k → 1 / 5 < staleRandom k := by
  refine ⟨?_, by simp [staleRandom], by simp [staleRandom], by simp [staleRandom],
    by simp [staleRandom], ?_⟩
  · intro k hk
    unfold staleRandom
    rw [zero_add, if_pos hk]
    norm_num
  · intro k hk
    unfold staleRandom
    rw [if_neg (by omega), if_neg (by omega)]
    norm_num

/-- C19 at the failing input: from the empty chunk map, `generateChunk(-1, 0)`
draws no tree and `generateChunk(0, 0)` then grows a tree at column `(0, 0)`.
The chunk `"-1,0"`, generated by the first call, ends with a leaf block at
`(-1, y, 0)` whose face towards `+x` is in the mesh `generateChunkMesh` builds
from the chunk's blocks, but not in the mesh the chunk holds. -/
theorem generateChunk_leaves_stale_mesh :
    ∃ (sa sb : World × Nat) (c : Chunk) (mesh : Mesh) (c2 : Chunk) (mesh2 : Mesh) (y : Int),
      generateChunk (fun _ _ => 1) staleRandom ([], 0) (-1) 0 = Except.ok sa
      ∧ generateChunk (fun _ _ => 1) staleRandom sa 0 0 = Except.ok sb
      ∧ objGet sb.1 (chunkKey (-1) 0) = some c ∧ c.generated = true ∧ c.mesh = some mesh
      ∧ generateChunkMesh c = Except.ok c2 ∧ c2.mesh = some mesh2
      ∧ blockFace faces.xp (-1, y, 0) ∈ meshFaces mesh2
      ∧ blockFace faces.xp (-1, y, 0) ∉ meshFaces mesh := by
  obtain ⟨hno, r0, r1, r2, r3, r4⟩ := staleRandom_tree
  obtain ⟨sa, hsa, hcur, hblocks⟩ := generateChunk_no_trees (fun _ _ => 1) staleRandom
    ([], 0) (-1) 0 worldOk_nil (fun c hc => by cases hc) hno
  have hoka : WorldOk sa.1 :=
    evolves_worldOk _ _ _ (genBlock_ids _ _ _ _)
      (generateChunk_evolves _ _ _ sa (-1) 0 hsa).1 worldOk_nil
  obtain ⟨ca, hca, hga, hfresh⟩ := generateChunk_own_mesh _ _ _ sa (-1) 0
    (fun c hc => by cases hc) hsa
  have hne : chunkKey 0 0 ≠ chunkKey (-1) 0 := by decide
  have hgen0 : ∀ c, objGet sa.1 (chunkKey 0 0) = some c → c.generated = false := by
    intro c hc
    exact (generateChunk_other _ _ _ sa (-1) 0 (chunkKey 0 0) hne hsa c hc).2.1
  obtain ⟨sb, hsb⟩ := generateChunk_total (fun _ _ => 1) staleRandom random01_stale sa 0 0 hoka
  have hokb : WorldOk sb.1 :=
    evolves_worldOk _ _ _ (genBlock_ids _ _ _ _)
      (generateChunk_evolves _ _ sa sb 0 0 hsb).1 hoka
  have sa_eq : sa = (sa.1, 3) := Prod.ext rfl hcur
  have hsb3 : generateChunk (fun _ _ => 1) staleRandom (sa.1, 3) 0 0 = Except.ok sb := by
    rw [← sa_eq]; exact hsb
  have hmem : ((-1 : Int), (0 : Int)) ∈ leafOffsets := by decide
  have hdist : |((-1 : Int), (0 : Int)).1| + |((-1 : Int), (0 : Int)).2| ≤ 2 := by norm_num
  have hone : (1 : Int) ≤ (fun (_ _ : Int) => (1 : Int)) (0 * CHUNK_SIZE) (0 * CHUNK_SIZE) :=
    le_refl _
  obtain ⟨topY, t0, _, _, hleaf⟩ := generateChunk_first_tree (fun _ _ => 1) staleRandom
    sa.1 3 0 0 sb hgen0 hone hsb3 r0 r1 r2 r3 r4 (-1, 0) hmem hdist
  have ex : (0 : Int) * CHUNK_SIZE + ((-1 : Int), (0 : Int)).1 = -1 := by decide
  have ez : (0 : Int) * CHUNK_SIZE + ((-1 : Int), (0 : Int)).2 = 0 := by decide
  simp only [ex, ez] at hleaf
  have hk1 : chunkKey (-1) 0 ≠ chunkKey 0 0 := by decide
  obtain ⟨c, hc⟩ := Option.isSome_iff_exists.mp
    ((generateChunk_evolves _ _ sa sb 0 0 hsb).1.1 (chunkKey (-1) 0) (by rw [hca]; rfl))
  have hgrow := generateChunk_other _ _ sa sb 0 0 (chunkKey (-1) 0) hk1 hsb c hc
  rw [hca] at hgrow
  simp only [Option.getD_some] at hgrow
  have hka : KeysWellFormed ca.blocks :=
    keysWellFormed_of_world sa.1 (worldOk_wellFormed _ hoka) _ ca hca
  obtain ⟨mesh, hm, hfaces⟩ := generateChunkMesh_faces ca ca hka hfresh
  have hmesh_a : ca.mesh = some mesh := congrArg Chunk.mesh hm
  have hkc : KeysWellFormed c.blocks :=
    keysWellFormed_of_world sb.1 (worldOk_wellFormed _ hokb) _ c hc
  have hidc : IdsInTable c.blocks := by
    intro e he
    obtain ⟨_, _, _, _, _, hid⟩ := hokb _ c hc e he
    exact hid
  obtain ⟨c2, hc2⟩ := generateChunkMesh_total c hkc hidc
  obtain ⟨mesh2, hm2, hfaces2⟩ := generateChunkMesh_faces c c2 hkc hc2
  have hxp : faces.xp ∈ faceTable := by simp [faceTable]
  have hbck : blockChunkKey (-1) 0 = chunkKey (-1) 0 := by decide
  refine ⟨sa, sb, c, mesh, c2, mesh2, topY + 3, hsa, hsb, hc, hgrow.2.1.trans hga,
    hgrow.2.2.1.trans hmesh_a, hc2, by rw [hm2], ?_, ?_⟩
  · rw [hfaces2 faces.xp hxp (-1, topY + 3, 0)]
    constructor
    · unfold blockAt getBlockChunk at hleaf
      dsimp only at hleaf
      rw [hbck, hc] at hleaf
      exact hleaf
    · cases hn : objGet c.blocks (keyOf (neighbour (-1, topY + 3, 0) faces.xp.normal)) with
      | none => rfl
      | some b =>
        obtain ⟨x, y, z, hkey, hown, _⟩ := hokb _ c hc _ (mem_of_objGet _ _ _ hn)
        have hkey2 : key (-1 + 1) (topY + 3 + 0) (0 + 0) = key x y z := hkey
        obtain ⟨h1, _, h3⟩ := key_inj hkey2
        rw [← h1, ← h3] at hown
        exact absurd hown (by decide)
  · rw [hfaces faces.xp hxp (-1, topY + 3, 0)]
    rintro ⟨hsome, _⟩
    have hb := hblocks (-1) (topY + 3) 0
    have hcol := (terrainPass_column (fun _ _ => 1) [] (-1) 0 15 0 (by decide) (by decide)
      (topY + 3)).2.2 (Or.inr (by show (1 : Int) ≤ topY + 3; omega))
    have e15 : (-1 : Int) * CHUNK_SIZE + 15 = -1 := by decide
    have e0 : (0 : Int) * CHUNK_SIZE + 0 = 0 := by decide
    simp only [e15, e0] at hcol
    have hnone : blockAt sa.1 (-1) (topY + 3) 0 = none := by
      rw [hb]
      exact hcol
    unfold blockAt getBlockChunk at hnone
    dsimp only at hnone
    rw [hbck, hca] at hnone
    have hnone2 : objGet ca.blocks (key (-1) (topY + 3) 0) = none := hnone
    have hsome2 : (objGet ca.blocks (key (-1) (topY + 3) 0)).isSome = true := hsome
    rw [hnone2] at hsome2
    cases hsome2

/-- The sibling paths rebuild: after `placeBlockGenMesh` the chunk of the
block holds the mesh of its blocks. -/
theorem placeBlockGenMesh_fresh (chunks w2 : World) (id x y z : Int)
    (h : placeBlockGenMesh chunks id x y z = Except.ok w2) :
    ∃ c, objGet w2 (blockChunkKey x z) = some c ∧ generateChunkMesh c = Except.ok c := by
  unfold placeBlockGenMesh at h
  split at h
  · cases h
  · dsimp only at h
    split at h
    · cases h
    · rename_i chunk _
      split at h
      · cases h
      · rename_i chunk2 hmesh
        simp only [Except.ok.injEq] at h
        subst h
        exact ⟨chunk2, objGet_objSet_same _ _ _, generateChunkMesh_fresh chunk chunk2 hmesh⟩

/-- After `removeBlockGenMesh` the chunk of the block holds the mesh of its
blocks. -/
theorem removeBlockGenMesh_fresh (chunks w2 : World) (x y z : Int)
    (h : removeBlockGenMesh chunks x y z = Except.ok w2) :
    ∃ c, objGet w2 (blockChunkKey x z) = some c ∧ generateChunkMesh c = Except.ok c := by
  unfold removeBlockGenMesh at h
  split at h
  · cases h
  · dsimp only at h
    split at h
    · cases h
    · rename_i chunk _
      split at h
      · cases h
      · rename_i chunk2 hmesh
        simp only [Except.ok.injEq] at h
        subst h
        exact ⟨chunk2, objGet_objSet_same _ _ _, generateChunkMesh_fresh chunk chunk2 hmesh⟩

/-! ## The `faces` table -/

/-- C23: each of the six entries of the `faces` table has four distinct
vertex offsets with coordinates 0 or 1, all on the side of the unit cube
where the coordinate along the normal axis is 0 for a negative normal and 1
for a positive one; the normals are the six outward unit axis vectors, in
the order xn, xp, yn, yp, zn, zp; the index list gives two triangles, and
for both the cross product of the edges in index order is the declared
normal. -/
theorem faces_table_geometry :
    faceTable.map (fun fd => fd.normal)
      = [(-1, 0, 0), (1, 0, 0), (0, -1, 0), (0, 1, 0), (0, 0, -1), (0, 0, 1)]
    ∧ ∀ fd ∈ faceTable,
        fd.pos.length = 4 ∧ fd.pos.Nodup
        ∧ (∀ v ∈ fd.pos, (v.1 = 0 ∨ v.1 = 1) ∧ (v.2.1 = 0 ∨ v.2.1 = 1) ∧ (v.2.2 = 0 ∨ v.2.2 = 1))
        ∧ vecDot fd.normal fd.normal = 1
        ∧ (∀ v ∈ fd.pos,
            vecDot v fd.normal = if fd.normal.1 + fd.normal.2.1 + fd.normal.2.2 = 1 then 1 else 0)
        ∧ (trianglesOf fd.idx).length = 2
        ∧ ∀ t ∈ trianglesOf fd.idx, triangleNormal fd t = some fd.normal := by
  decide

/-! ## The collision test -/

theorem intersectsBox_iff_touches (bb : Box3) (x y z : Int) :
    intersectsBox bb (blockBox x y z) = true ↔ Touches bb x y z := by
  unfold intersectsBox blockBox Touches CUBE_SIZE
  simp only [mul_one]
  constructor
  · intro h
    split_ifs at h with hor
    simp only [not_or, not_lt] at hor
    obtain ⟨h1, h2, h3, h4, h5, h6⟩ := hor
    exact ⟨h1, h2, h3, h4, h5, h6⟩
  · rintro ⟨h1, h2, h3, h4, h5, h6⟩
    rw [if_neg]
    intro hor
    rcases hor with h | h | h | h | h | h <;> linarith

/-- The scan over a list of cells whose chunks exist returns; it returns the
box of an occupied cell of the list that passes the intersection test, and
`false` only when no occupied cell of the list passes it. -/
theorem scanCells_spec (chunks : World) (bb : Box3) (cells : List (Int × Int × Int))
    (hq : ∀ c ∈ cells, (getBlockChunk chunks c.1 c.2.2).isSome) :
    ∃ r, scanCells chunks bb cells = Except.ok r
      ∧ (r = none → ∀ c ∈ cells, (blockAt chunks c.1 c.2.1 c.2.2).isSome →
          intersectsBox bb (blockBox c.1 c.2.1 c.2.2) = false)
      ∧ (∀ b, r = some b → ∃ c ∈ cells, b = blockBox c.1 c.2.1 c.2.2
          ∧ (blockAt chunks c.1 c.2.1 c.2.2).isSome
          ∧ intersectsBox bb (blockBox c.1 c.2.1 c.2.2) = true) := by
  induction cells with
  | nil =>
    refine ⟨none, rfl, ?_, ?_⟩
    · intro _ c hc; cases hc
    · intro b hb; cases hb
  | cons a cells ih =>
    obtain ⟨x, y, z⟩ := a
    obtain ⟨r, hr, hnone, hsome⟩ := ih (fun c hc => hq c (List.mem_cons_of_mem _ hc))
    obtain ⟨ch, hch⟩ := Option.isSome_iff_exists.mp (hq (x, y, z) (List.mem_cons_self _ _))
    unfold scanCells
    rw [isBlockAt_eq chunks x y z ch hch]
    cases hocc : (blockAt chunks x y z).isSome with
    | false =>
      dsimp only
      refine ⟨r, hr, ?_, ?_⟩
      · intro hrn c hc hb
        rcases List.mem_cons.mp hc with h | h
        · subst h
          rw [hocc] at hb
          cases hb
        · exact hnone hrn c h hb
      · intro b hb
        obtain ⟨c, hc, h1, h2, h3⟩ := hsome b hb
        exact ⟨c, List.mem_cons_of_mem _ hc, h1, h2, h3⟩
    | true =>
      dsimp only
      cases hint : intersectsBox bb (blockBox x y z) with
      | true =>
        rw [if_pos rfl]
        refine ⟨some (blockBox x y z), rfl, ?_, ?_⟩
        · intro h; cases h
        · intro b hb
          simp only [Option.some.injEq] at hb
          exact ⟨(x, y, z), List.mem_cons_self _ _, hb.symm, hocc, hint⟩
      | false =>
        rw [if_neg (by simp)]
        refine ⟨r, hr, ?_, ?_⟩
        · intro hrn c hc hb
          rcases List.mem_cons.mp hc with h | h
          · subst h
            exact hint
          · exact hnone hrn c h hb
        · intro b hb
          obtain ⟨c, hc, h1, h2, h3⟩ := hsome b hb
          exact ⟨c, List.mem_cons_of_mem _ hc, h1, h2, h3⟩

theorem floor_le_int_iff (q : ℚ) (n : Int) : ⌊q⌋ ≤ n ↔ q < (n : ℚ) + 1 := by
  rw [← Int.lt_add_one_iff, Int.floor_lt]
  push_cast
  rfl

/-- Which touching cells the loops visit: those whose cube reaches beyond
the lower faces of the box. -/
theorem scanned_of_touches (bb : Box3) (x y z : Int) (h : Touches bb x y z) :
    (x, y, z) ∈ scannedCells bb ↔
      bb.min.x < (x : ℚ) + 1 ∧ bb.min.y < (y : ℚ) + 1 ∧ bb.min.z < (z : ℚ) + 1 := by
  obtain ⟨_, h2, _, h4, _, h6⟩ := h
  rw [mem_scannedCells]
  unfold CUBE_SIZE
  simp only [div_one, floor_le_int_iff]
  have hi : ∀ (q : ℚ) (n : Int), (n : ℚ) ≤ q → n ≤ ⌈q⌉ := by
    intro q n hq
    exact Int.cast_le.mp (le_trans hq (Int.le_ceil q))
  constructor
  · rintro ⟨⟨a, _⟩, ⟨b, _⟩, ⟨c, _⟩⟩
    exact ⟨a, b, c⟩
  · rintro ⟨a, b, c⟩
    exact ⟨⟨a, hi _ _ h2⟩, ⟨b, hi _ _ h4⟩, ⟨c, hi _ _ h6⟩⟩

/-- C21 as stated fails: the player box at `(0.3, 0.9, 0.3)` has its lower
`x` face at `0`; the occupied block at `(-1, 0, 0)` touches it there and
passes the box-intersection test, the chunk of every scanned cell exists,
and `isPlayerColliding` returns `false`. -/
theorem touching_block_not_scanned :
    (blockAt touchWorld (-1) 0 0).isSome = true
    ∧ intersectsBox (getPlayerBB { x := 3 / 10, y := 9 / 10, z := 3 / 10 })
        (blockBox (-1) 0 0) = true
    ∧ (∀ c ∈ scannedCells (getPlayerBB { x := 3 / 10, y := 9 / 10, z := 3 / 10 }),
        (getBlockChunk touchWorld c.1 c.2.2).isSome = true)
    ∧ isPlayerColliding touchWorld { x := 3 / 10, y := 9 / 10, z := 3 / 10 }
        = Except.ok none := by
  decide!

/-- C21, amended: when the chunks of the scanned cells exist,
`isPlayerColliding` returns; it returns a block box exactly when some
occupied block of the scanned range `floor(min) .. ceil(max)` passes the
box-intersection test, and the box returned is that of such a block.  The
test is the closed one (touching counts).  The scanned range contains every
cell whose cube shares interior points with the player box, and of the cells
whose cube touches the box exactly those whose cube reaches beyond the lower
face of the box on every axis: a cube whose upper face lies on a lower face
of the box is not visited. -/
theorem isPlayerColliding_spec (chunks : World) (position : Vec3Q)
    (hq : ∀ c ∈ scannedCells (getPlayerBB position), (getBlockChunk chunks c.1 c.2.2).isSome) :
    ∃ r, isPlayerColliding chunks position = Except.ok r
      ∧ (r.isSome ↔ ∃ x y z : Int, (blockAt chunks x y z).isSome
          ∧ (x, y, z) ∈ scannedCells (getPlayerBB position)
          ∧ intersectsBox (getPlayerBB position) (blockBox x y z) = true)
      ∧ (∀ b, r = some b → ∃ x y z : Int, b = blockBox x y z
          ∧ (blockAt chunks x y z).isSome
          ∧ (x, y, z) ∈ scannedCells (getPlayerBB position)
          ∧ intersectsBox (getPlayerBB position) b = true)
      ∧ (∀ x y z : Int, intersectsBox (getPlayerBB position) (blockBox x y z) = true
          ↔ Touches (getPlayerBB position) x y z)
      ∧ (∀ x y z : Int, Overlaps (getPlayerBB position) x y z →
          (x, y, z) ∈ scannedCells (getPlayerBB position))
      ∧ (∀ x y z : Int, Touches (getPlayerBB position) x y z →
          ((x, y, z) ∈ scannedCells (getPlayerBB position) ↔
            (getPlayerBB position).min.x < (x : ℚ) + 1
            ∧ (getPlayerBB position).min.y < (y : ℚ) + 1
            ∧ (getPlayerBB position).min.z < (z : ℚ) + 1)) := by
  obtain ⟨r, hr, hnone, hsome⟩ := scanCells_spec chunks (getPlayerBB position) _ hq
  refine ⟨r, hr, ?_, ?_, fun x y z => intersectsBox_iff_touches _ x y z,
    fun x y z h => scanned_of_overlaps _ x y z h, fun x y z h => scanned_of_touches _ x y z h⟩
  · constructor
    · intro hs
      obtain ⟨b, hb⟩ := Option.isSome_iff_exists.mp hs
      obtain ⟨c, hc, _, h2, h3⟩ := hsome b hb
      exact ⟨c.1, c.2.1, c.2.2, h2, hc, h3⟩
    · rintro ⟨x, y, z, hb, hmem, hint⟩
      cases hrr : r with
      | some b => rfl
      | none =>
        have := hnone hrr (x, y, z) hmem hb
        rw [hint] at this
        cases this
  · intro b hb
    obtain ⟨c, hc, h1, h2, h3⟩ := hsome b hb
    exact ⟨c.1, c.2.1, c.2.2, h1, h2, hc, by rw [h1]; exact h3⟩

/-- C21, amended, for the falling player moved into the block of
`oneBlockWorld`: the test returns the box of the block at `(0, 0, 0)`. -/
theorem isPlayerColliding_spec_witness :
    ∃ r, isPlayerColliding oneBlockWorld { x := 1 / 2, y := 3 / 2, z := 1 / 2 } = Except.ok r
      ∧ (r.isSome ↔ ∃ x y z : Int, (blockAt oneBlockWorld x y z).isSome
          ∧ (x, y, z) ∈ scannedCells (getPlayerBB { x := 1 / 2, y := 3 / 2, z := 1 / 2 })
          ∧ intersectsBox (getPlayerBB { x := 1 / 2, y := 3 / 2, z := 1 / 2 })
              (blockBox x y z) = true) := by
  obtain ⟨r, h1, h2, _⟩ := isPlayerColliding_spec oneBlockWorld
    { x := 1 / 2, y := 3 / 2, z := 1 / 2 } (by decide!)
  exact ⟨r, h1, h2⟩

/-! ## Buffers and groups of a mesh -/

theorem sixes_flatten (L : List (List Nat)) (h6 : ∀ s ∈ L, s.length = 6) :
    sixes L.flatten = L := by
  induction L with
  | nil => rfl
  | cons s L ih =>
    have hl : s.length = 6 := h6 s (List.mem_cons_self _ _)
    have ih2 := ih (fun t ht => h6 t (List.mem_cons_of_mem _ ht))
    match s, hl with
    | [a, b, c, d, e, f], _ =>
      show sixes (a :: b :: c :: d :: e :: f :: L.flatten) = _
      rw [sixes, ih2]

theorem tiles_append (gs : List Group) (g : Group) :
    ∀ (start mi total : Nat), Tiles gs start mi total → g.start = total →
      g.materialIndex = mi + gs.length → 0 < g.count →
      Tiles (gs ++ [g]) start mi (total + g.count) := by
  induction gs with
  | nil =>
    intro start mi total h hs hm hc
    simp only [Tiles] at h
    subst h
    exact ⟨hs, by simpa using hm, hc, rfl⟩
  | cons g0 gs ih =>
    intro start mi total h hs hm hc
    obtain ⟨h1, h2, h3, h4⟩ := h
    refine ⟨h1, h2, h3, ih _ _ _ h4 hs ?_ hc⟩
    rw [hm, List.length_cons]
    omega

theorem faceTable_sizes : ∀ fd ∈ faceTable,
    fd.pos.length = 4 ∧ fd.uv.length = 4 ∧ fd.idx.length = 6 ∧ ∀ j ∈ fd.idx, j ≤ 3 := by
  decide

theorem length_flatMap_const {α β : Type} (l : List α) (f : α → List β) (n : Nat)
    (h : ∀ a ∈ l, (f a).length = n) : (l.flatMap f).length = n * l.length := by
  induction l with
  | nil => simp
  | cons a l ih =>
    rw [List.flatMap_cons, List.length_append, h a (List.mem_cons_self _ _),
      ih (fun b hb => h b (List.mem_cons_of_mem _ hb)), List.length_cons]
    ring

theorem length_flatten_replicate {β : Type} (n : Nat) (l : List β) :
    (List.replicate n l).flatten.length = l.length * n := by
  induction n with
  | zero => simp
  | succ n ih =>
    rw [List.replicate_succ, List.flatten_cons, List.length_append, ih]
    ring

/-- One call of `addFaces` with an entry of the `faces` table keeps the
shape of the mesh and adds one group when `poss` is not empty. -/
theorem addFaces_shape (m : Mesh) (F : Nat) (gs : List Nat) (fd : FaceData)
    (hfd : fd ∈ faceTable) (poss : List (Int × Int × Int)) (mat : Option Material)
    (h : MeshShape m F gs) :
    MeshShape (addFaces m fd poss mat) (F + poss.length)
      (gs ++ ([poss.length].filter (fun n => 0 < n))) := by
  obtain ⟨h4, hu4, h6, hj⟩ := faceTable_sizes fd hfd
  obtain ⟨hp, hn, hu, hi, ⟨L, hL, hflat, hlen, hblk⟩, hg, ht, hm, hs⟩ := h
  unfold addFaces
  split
  · rename_i h0
    have : poss = [] := List.length_eq_zero.mp h0
    subst this
    simp only [List.length_nil, Nat.add_zero, lt_self_iff_false, decide_False,
      List.filter_cons_of_neg, List.filter_nil, List.append_nil, Bool.false_eq_true,
      not_false_eq_true]
    exact ⟨hp, hn, hu, hi, ⟨L, hL, hflat, hlen, hblk⟩, hg, ht, hm, hs⟩
  · rename_i h0
    have hpos : 0 < poss.length := Nat.pos_of_ne_zero h0
    have hfilter : [poss.length].filter (fun n => decide (0 < n)) = [poss.length] := by
      simp [hpos]
    rw [hfilter]
    dsimp only
    have hnewidx : ((List.range poss.length).flatMap (fun i =>
        fd.idx.map (fun idx => idx + m.positions.length + i * fd.pos.length))).length
        = 6 * poss.length := by
      rw [length_flatMap_const _ _ 6 (fun a _ => by rw [List.length_map, h6]),
        List.length_range]
    refine ⟨?_, ?_, ?_, ?_, ?_, ?_, ?_, ?_, ?_⟩
    · rw [List.length_append, hp,
        length_flatMap_const _ _ 4 (fun a _ => by rw [List.length_map, h4])]
      ring
    · rw [List.length_append, hn, List.length_replicate, h4]
      ring
    · rw [List.length_append, hu, length_flatten_replicate, hu4]
      ring
    · rw [List.length_append, hi, hnewidx]
      ring
    · refine ⟨L ++ (List.range poss.length).map (fun i =>
          fd.idx.map (fun idx => idx + m.positions.length + i * fd.pos.length)), ?_, ?_, ?_, ?_⟩
      · rw [List.length_append, List.length_map, List.length_range, hL]
      · show m.indices ++ (List.range poss.length).flatMap (fun i =>
            fd.idx.map (fun idx => idx + m.positions.length + i * fd.pos.length)) = _
        rw [List.flatten_append, ← hflat, List.flatMap_def]
      · intro s hs2
        rcases List.mem_append.mp hs2 with h1 | h1
        · exact hlen s h1
        · obtain ⟨i, _, rfl⟩ := List.mem_map.mp h1
          rw [List.length_map, h6]
      · intro k s hk i hi2
        by_cases hkL : k < L.length
        · rw [List.get?_eq_getElem?, List.getElem?_append_left hkL,
            ← List.get?_eq_getElem?] at hk
          exact hblk k s hk i hi2
        · rw [List.get?_eq_getElem?, List.getElem?_append_right (not_lt.mp hkL),
            List.getElem?_map] at hk
          cases hr : (List.range poss.length)[k - L.length]? with
          | none => rw [hr] at hk; cases hk
          | some a =>
            rw [hr] at hk
            simp only [Option.map_some', Option.some.injEq] at hk
            have ha : a = k - L.length := by
              by_cases hlt : k - L.length < poss.length
              · rw [List.getElem?_range hlt] at hr
                simpa using hr.symm
              · rw [List.getElem?_eq_none (by rw [List.length_range]; omega)] at hr
                cases hr
            subst hk
            obtain ⟨j, hjm, rfl⟩ := List.mem_map.mp hi2
            have := hj j hjm
            rw [hp, h4, ha, hL]
            omega
    · rw [List.map_append, List.map_append, hg, h6]
      rfl
    · have := tiles_append m.groups
        { start := m.indices.length, count := fd.idx.length * poss.length,
          materialIndex := m.materials.length } 0 0 m.indices.length ht rfl
        (by simp [hm]) (by
          dsimp only
          rw [h6]
          omega)
      rw [List.length_append, hnewidx]
      rw [h6] at this ⊢
      exact this
    · rw [List.length_append, List.length_append, hm]
      rfl
    · rw [List.sum_append, hs]
      simp

theorem meshShape_empty : MeshShape emptyMesh 0 [] := by
  refine ⟨rfl, rfl, rfl, rfl, ⟨[], rfl, rfl, ?_, ?_⟩, rfl, rfl, rfl, rfl⟩
  · intro s hs; cases hs
  · intro k s hk; cases hk

/-- The loop over `facesByID` keeps the shape of the mesh: it adds the faces
of all buckets and one group per bucket that is not empty. -/
theorem constructFaces_shape (acc : List (Int × FaceBuckets)) :
    ∀ (m m2 : Mesh) (F : Nat) (gs : List Nat), MeshShape m F gs →
      constructFaces acc m = Except.ok m2 →
      MeshShape m2 (F + ((bucketList acc).map List.length).sum)
        (gs ++ ((bucketList acc).map List.length).filter (fun n => 0 < n)) := by
  induction acc with
  | nil =>
    intro m m2 F gs h hc
    simp only [constructFaces, Except.ok.injEq] at hc
    subst hc
    simpa [bucketList] using h
  | cons e acc ih =>
    intro m m2 F gs h hc
    obtain ⟨blockID, bf⟩ := e
    simp only [constructFaces] at hc
    cases hm : blockTypeMaterials blockID with
    | none => simp [hm] at hc
    | some mats =>
      simp only [hm] at hc
      have h5 := addFaces_shape m F gs faces.xn (by decide) bf.f5 (mats.get? 5).join h
      have h3 := addFaces_shape _ _ _ faces.xp (by decide) bf.f3 (mats.get? 3).join h5
      have h1 := addFaces_shape _ _ _ faces.yn (by decide) bf.f1 (mats.get? 1).join h3
      have h0 := addFaces_shape _ _ _ faces.yp (by decide) bf.f0 (mats.get? 0).join h1
      have h2 := addFaces_shape _ _ _ faces.zn (by decide) bf.f2 (mats.get? 2).join h0
      have h4 := addFaces_shape _ _ _ faces.zp (by decide) bf.f4 (mats.get? 4).join h2
      have := ih _ m2 _ _ h4 hc
      have eF : F + bf.f5.length + bf.f3.length + bf.f1.length + bf.f0.length + bf.f2.length
          + bf.f4.length + ((bucketList acc).map List.length).sum
          = F + ((bucketList ((blockID, bf) :: acc)).map List.length).sum := by
        simp only [bucketList, List.flatMap_cons, List.map_append, List.sum_append, List.map_cons,
          List.map_nil, List.sum_cons, List.sum_nil]
        omega
      have eG : gs ++ [bf.f5.length].filter (fun n => decide (0 < n))
          ++ [bf.f3.length].filter (fun n => decide (0 < n))
          ++ [bf.f1.length].filter (fun n => decide (0 < n))
          ++ [bf.f0.length].filter (fun n => decide (0 < n))
          ++ [bf.f2.length].filter (fun n => decide (0 < n))
          ++ [bf.f4.length].filter (fun n => decide (0 < n))
          ++ ((bucketList acc).map List.length).filter (fun n => decide (0 < n))
          = gs ++ ((bucketList ((blockID, bf) :: acc)).map List.length).filter
              (fun n => decide (0 < n)) := by
        have e : (bucketList ((blockID, bf) :: acc)).map List.length
            = [bf.f5.length] ++ ([bf.f3.length] ++ ([bf.f1.length] ++ ([bf.f0.length]
                ++ ([bf.f2.length] ++ ([bf.f4.length] ++ (bucketList acc).map List.length))))) := by
          simp only [bucketList, List.flatMap_cons, List.map_append, List.map_cons, List.map_nil,
            List.cons_append, List.nil_append]
        rw [e]
        simp only [List.filter_append, List.append_assoc]
      rw [eF, eG] at this
      exact this

theorem facesEnsure_sorted (acc : List (Int × FaceBuckets)) (id : Int)
    (h : (acc.map (fun e => e.1)).Pairwise (fun a b => a < b)) :
    ((facesEnsure acc id).map (fun e => e.1)).Pairwise (fun a b => a < b) := by
  induction acc with
  | nil => simp [facesEnsure]
  | cons a acc ih =>
    obtain ⟨id1, fb⟩ := a
    rw [List.map_cons, List.pairwise_cons] at h
    unfold facesEnsure
    split_ifs with h1 h2
    · rw [List.map_cons, List.pairwise_cons]
      exact h
    · rw [List.map_cons, List.map_cons, List.pairwise_cons, List.pairwise_cons]
      refine ⟨?_, h⟩
      intro b hb
      rcases List.mem_cons.mp hb with hb | hb
      · rw [hb]; exact h2
      · exact lt_trans h2 (h.1 b hb)
    · rw [List.map_cons, List.pairwise_cons]
      refine ⟨?_, ih h.2⟩
      intro b hb
      obtain ⟨e, he, rfl⟩ := List.mem_map.mp hb
      rcases facesEnsure_mem acc id e he with h3 | h3
      · exact h.1 _ (List.mem_map.mpr ⟨e, h3, rfl⟩)
      · rw [h3]
        simp only at h1 h2 ⊢
        omega

theorem facesModify_keys (acc : List (Int × FaceBuckets)) (id : Int)
    (f : FaceBuckets → FaceBuckets) :
    (facesModify acc id f).map (fun e => e.1) = acc.map (fun e => e.1) := by
  unfold facesModify
  rw [List.map_map]
  apply List.map_congr_left
  intro e _
  simp only [Function.comp]
  split_ifs <;> rfl

theorem collectFaces_sorted (blocks : Obj Block) (rest : List (JSString × Block)) :
    ∀ acc acc2 : List (Int × FaceBuckets),
      (acc.map (fun e => e.1)).Pairwise (fun a b => a < b) →
      collectFaces blocks rest acc = Except.ok acc2 →
      (acc2.map (fun e => e.1)).Pairwise (fun a b => a < b) := by
  induction rest with
  | nil =>
    intro acc acc2 h hc
    simp only [collectFaces, Except.ok.injEq] at hc
    subst hc
    exact h
  | cons a rest ih =>
    intro acc acc2 h hc
    obtain ⟨k, block⟩ := a
    unfold collectFaces at hc
    split at hc
    · refine ih _ acc2 ?_ hc
      rw [facesModify_keys]
      exact facesEnsure_sorted acc block.id h
    · cases hc

theorem length_entryFaces (acc : List (Int × FaceBuckets)) :
    (acc.flatMap entryFaces).length = ((bucketList acc).map List.length).sum := by
  induction acc with
  | nil => rfl
  | cons e acc ih =>
    rw [List.flatMap_cons, List.length_append, ih]
    simp only [entryFaces, bucketList, List.flatMap_cons, List.length_append, List.length_map,
      List.map_append, List.sum_append, List.map_cons, List.map_nil, List.sum_cons, List.sum_nil]
    omega

theorem indexBlocks_lt (indices : List Nat) (L : List (List Nat)) (h : IndexBlocks indices L) :
    ∀ i ∈ indices, i < 4 * L.length := by
  obtain ⟨hflat, _, hblk⟩ := h
  intro i hi
  rw [hflat, List.mem_flatten] at hi
  obtain ⟨s, hs, his⟩ := hi
  obtain ⟨k, hk, hget⟩ := List.getElem_of_mem hs
  have := hblk k s (by rw [List.get?_eq_getElem?, List.getElem?_eq_getElem hk, hget]) i his
  omega

/-- C22: for a chunk whose block keys are block keys and whose ids are in
the block-type table, `generateChunkMesh` returns a mesh with `F` faces, the
sum of the sizes of the buckets of `facesByID` (one entry per block id),
such that positions, normals and uvs have `4 * F` entries and the index
buffer has `6 * F`; every index is below the vertex count; cut into sixes,
the index buffer has `F` blocks and block `k` holds only indices among
`4k .. 4k+3`; the group sizes are `6` times the sizes of the non-empty
buckets, in bucket order; the groups follow one another from `0` to the end
of the index buffer without gap or overlap. -/
theorem generateChunkMesh_buffers (chunk : Chunk) (hk : KeysWellFormed chunk.blocks)
    (hids : IdsInTable chunk.blocks) :
    ∃ facesByID mesh,
      collectFaces chunk.blocks chunk.blocks [] = Except.ok facesByID
      ∧ generateChunkMesh chunk = Except.ok { chunk with mesh := some mesh }
      ∧ (facesByID.map (fun e => e.1)).Nodup
      ∧ (meshFaces mesh).length = ((bucketList facesByID).map List.length).sum
      ∧ mesh.positions.length = 4 * (meshFaces mesh).length
      ∧ mesh.normals.length = 4 * (meshFaces mesh).length
      ∧ mesh.uvs.length = 4 * (meshFaces mesh).length
      ∧ mesh.indices.length = 6 * (meshFaces mesh).length
      ∧ (∀ i ∈ mesh.indices, i < mesh.positions.length)
      ∧ (sixes mesh.indices).length = (meshFaces mesh).length
      ∧ (∀ k s, (sixes mesh.indices).get? k = some s →
          s.length = 6 ∧ ∀ i ∈ s, 4 * k ≤ i ∧ i ≤ 4 * k + 3)
      ∧ mesh.groups.map (fun g => g.count)
          = (((bucketList facesByID).map List.length).filter (fun n => 0 < n)).map
              (fun n => 6 * n)
      ∧ Tiles mesh.groups 0 0 mesh.indices.length := by
  obtain ⟨acc, hc, _, hid2⟩ := collectFaces_spec chunk.blocks chunk.blocks [] hk
  have hacc : ∀ e ∈ acc, 0 ≤ e.1 ∧ e.1 < 5 := by
    intro e he
    rcases hid2 e he with ⟨e0, he0, _⟩ | ⟨e1, he1, hid1⟩
    · cases he0
    · rw [← hid1]
      exact hids e1 he1
  obtain ⟨mesh, hm⟩ := constructFaces_total acc hacc emptyMesh
  have hw := constructFaces_whole acc emptyMesh mesh [] meshWhole_empty hm
  have hfaces := meshFaces_whole mesh _ hw
  rw [List.nil_append] at hfaces
  have hF : (meshFaces mesh).length = ((bucketList acc).map List.length).sum := by
    rw [hfaces, length_entryFaces]
  obtain ⟨hp, hn, hu, hi, ⟨L, hL, hblocks⟩, hg, ht, _, _⟩ :=
    constructFaces_shape acc emptyMesh mesh 0 [] meshShape_empty hm
  rw [Nat.zero_add, ← hF] at hp hn hu hi hL
  rw [List.nil_append] at hg
  have hsorted := collectFaces_sorted chunk.blocks chunk.blocks [] acc List.Pairwise.nil hc
  refine ⟨acc, mesh, hc, ?_, ?_, hF, hp, hn, hu, hi, ?_, ?_, ?_, hg, ht⟩
  · unfold generateChunkMesh
    rw [hc]
    dsimp only
    rw [hm]
  · exact List.Pairwise.imp (fun h => ne_of_lt h) hsorted
  · intro i him
    have := indexBlocks_lt _ L hblocks i him
    rw [hp, ← hL]
    exact this
  · rw [hblocks.1, sixes_flatten L hblocks.2.1, hL]
  · intro k s hks
    rw [hblocks.1, sixes_flatten L hblocks.2.1] at hks
    exact ⟨hblocks.2.1 s (List.get?_mem hks), hblocks.2.2 k s hks⟩

/-- C22 on `twoBlockChunk`: the mesh is built and its buffers have the
sizes of its faces. -/
theorem generateChunkMesh_buffers_witness :
    ∃ mesh, generateChunkMesh twoBlockChunk
        = Except.ok { twoBlockChunk with mesh := some mesh }
      ∧ mesh.positions.length = 4 * (meshFaces mesh).length
      ∧ mesh.indices.length = 6 * (meshFaces mesh).length
      ∧ Tiles mesh.groups 0 0 mesh.indices.length := by
  obtain ⟨_, mesh, _, h1, _, _, h2, _, _, h3, _, _, _, _, h4⟩ :=
    generateChunkMesh_buffers twoBlockChunk twoBlockChunk_keys twoBlockChunk_ids
  exact ⟨mesh, h1, h2, h3, h4⟩

/-! ## Termination of the correction loop -/

theorem epsilon_pos : 0 < EPSILON := by
  unfold EPSILON
  norm_num

theorem faceOf_le_frontOf (d : Vec3Q) (a b : Box3) (h : intersectsBox a b = true) :
    faceOf d b ≤ frontOf d a := by
  unfold intersectsBox at h
  split_ifs at h with hor
  simp only [not_or, not_lt] at hor
  obtain ⟨h1, h2, h3, h4, h5, h6⟩ := hor
  unfold faceOf frontOf
  split_ifs <;> linarith

theorem intersectsBox_false_of_passed (d : Vec3Q) (a b : Box3)
    (h : frontOf d a < faceOf d b) : intersectsBox a b = false := by
  cases hi : intersectsBox a b with
  | false => rfl
  | true =>
    have := faceOf_le_frontOf d a b hi
    linarith

/-- After `correctCollision` the leading face of the player box is
`EPSILON` in front of the block face. -/
theorem frontOf_correctCollision (p : Player) (d : Vec3Q) (b : Box3) :
    frontOf d (getPlayerBB (correctCollision p d b).position) = faceOf d b - EPSILON := by
  unfold correctCollision frontOf faceOf
  dsimp only
  split_ifs <;> simp only [getPlayerBB, setFromCenterAndSize, PLAYER_SIZE] <;> ring

theorem offAxis_correctCollision (p : Player) (d : Vec3Q) (b : Box3) :
    offAxis d (correctCollision p d b).position = offAxis d p.position := by
  unfold correctCollision offAxis
  dsimp only
  split_ifs <;> rfl

theorem blockAt_of_isBlockAt (chunks : World) (x y z : Int)
    (h : isBlockAt chunks x y z = Except.ok true) : (blockAt chunks x y z).isSome := by
  unfold isBlockAt at h
  unfold blockAt
  cases hc : getBlockChunk chunks x z with
  | none => rw [hc] at h; cases h
  | some c =>
    rw [hc] at h
    simp only [Except.ok.injEq] at h
    simpa using h

theorem isBlockAt_error (chunks : World) (x y z : Int) (e : Err)
    (h : isBlockAt chunks x y z = Except.error e) : e = Err.typeError := by
  unfold isBlockAt at h
  split at h
  · simp only [Except.error.injEq] at h
    exact h.symm
  · cases h

/-- What a scan returns without a hypothesis on the chunks: a box is that
of an occupied cell of the list that passes the test, and an exception is
the `TypeError` of `isBlockAt`. -/
theorem scanCells_result (chunks : World) (bb : Box3) (cells : List (Int × Int × Int)) :
    (∀ b, scanCells chunks bb cells = Except.ok (some b) →
      ∃ c ∈ cells, b = blockBox c.1 c.2.1 c.2.2 ∧ (blockAt chunks c.1 c.2.1 c.2.2).isSome
        ∧ intersectsBox bb (blockBox c.1 c.2.1 c.2.2) = true)
    ∧ (∀ e, scanCells chunks bb cells = Except.error e → e = Err.typeError) := by
  induction cells with
  | nil =>
    constructor
    · intro b h; cases h
    · intro e h; cases h
  | cons a cells ih =>
    obtain ⟨x, y, z⟩ := a
    obtain ⟨ih1, ih2⟩ := ih
    unfold scanCells
    cases hb : isBlockAt chunks x y z with
    | error e0 =>
      constructor
      · intro b h; cases h
      · intro e h
        simp only [Except.error.injEq] at h
        rw [← h]
        exact isBlockAt_error chunks x y z e0 hb
    | ok occ =>
      cases occ with
      | false =>
        dsimp only
        constructor
        · intro b h
          obtain ⟨c, hc, h1⟩ := ih1 b h
          exact ⟨c, List.mem_cons_of_mem _ hc, h1⟩
        · exact ih2
      | true =>
        dsimp only
        cases hint : intersectsBox bb (blockBox x y z) with
        | true =>
          rw [if_pos rfl]
          constructor
          · intro b h
            simp only [Except.ok.injEq, Option.some.injEq] at h
            exact ⟨(x, y, z), List.mem_cons_self _ _, h.symm,
              blockAt_of_isBlockAt chunks x y z hb, hint⟩
          · intro e h; cases h
        | false =>
          rw [if_neg (by simp)]
          constructor
          · intro b h
            obtain ⟨c, hc, h1⟩ := ih1 b h
            exact ⟨c, List.mem_cons_of_mem _ hc, h1⟩
          · exact ih2

theorem mem_storedCells (chunks : World) (x y z : Int)
    (h : (blockAt chunks x y z).isSome) : (x, y, z) ∈ storedCells chunks := by
  unfold blockAt getBlockChunk at h
  cases hc : objGet chunks (blockChunkKey x z) with
  | none => rw [hc] at h; cases h
  | some c =>
    rw [hc] at h
    obtain ⟨b, hb⟩ := Option.isSome_iff_exists.mp h
    have hmc := mem_of_objGet chunks _ c hc
    have hmb := mem_of_objGet c.blocks _ b hb
    unfold storedCells
    rw [List.mem_flatMap]
    refine ⟨_, hmc, ?_⟩
    rw [List.mem_filterMap]
    refine ⟨_, hmb, ?_⟩
    dsimp only
    rw [keyToArray_key]

theorem storedCells_length (chunks : World) : (storedCells chunks).length ≤ blockCount chunks := by
  unfold storedCells blockCount
  induction chunks with
  | nil => simp
  | cons e chunks ih =>
    rw [List.flatMap_cons, List.length_append, List.map_cons, List.sum_cons]
    have := List.length_filterMap_le (fun (kb : JSString × Block) =>
      match keyToArray kb.1 with
      | some x :: some y :: some z :: _ => some (x, y, z)
      | _ => none) e.2.blocks
    omega

theorem length_filter_lt {α : Type} (l : List α) (P Q : α → Bool)
    (hmono : ∀ a ∈ l, Q a = true → P a = true) (c : α) (hc : c ∈ l)
    (hP : P c = true) (hQ : Q c = false) :
    (l.filter Q).length < (l.filter P).length := by
  induction l with
  | nil => cases hc
  | cons a l ih =>
    have hle : (l.filter Q).length ≤ (l.filter P).length := by
      have hm : ∀ b ∈ l, Q b = true → P b = true :=
        fun b hb => hmono b (List.mem_cons_of_mem _ hb)
      clear ih hc
      induction l with
      | nil => simp
      | cons b l ih2 =>
        have h1 := ih2 (fun x hx => hmono x (by
          rcases List.mem_cons.mp hx with h | h
          · rw [h]; exact List.mem_cons_self _ _
          · exact List.mem_cons_of_mem _ (List.mem_cons_of_mem _ h)))
          (fun x hx => hm x (List.mem_cons_of_mem _ hx))
        have h2 := hm b (List.mem_cons_self _ _)
        cases hqb : Q b with
        | false =>
          rw [List.filter_cons_of_neg (by simp [hqb])]
          cases hpb : P b with
          | false =>
            rw [List.filter_cons_of_neg (by simp [hpb])]
            exact h1
          | true =>
            rw [List.filter_cons_of_pos hpb, List.length_cons]
            omega
        | true =>
          rw [List.filter_cons_of_pos hqb, List.filter_cons_of_pos (h2 hqb), List.length_cons,
            List.length_cons]
          omega
    rcases List.mem_cons.mp hc with h | h
    · subst h
      rw [List.filter_cons_of_neg (by simp [hQ]), List.filter_cons_of_pos hP, List.length_cons]
      omega
    · have h3 := ih (fun b hb => hmono b (List.mem_cons_of_mem _ hb)) h
      cases hqa : Q a with
      | false =>
        rw [List.filter_cons_of_neg (by simp [hqa])]
        cases hpa : P a with
        | false =>
          rw [List.filter_cons_of_neg (by simp [hpa])]
          exact h3
        | true =>
          rw [List.filter_cons_of_pos hpa, List.length_cons]
          omega
      | true =>
        rw [List.filter_cons_of_pos hqa,
          List.filter_cons_of_pos (hmono a (List.mem_cons_self _ _) hqa), List.length_cons,
          List.length_cons]
        omega

/-- A correction against a box that the player box intersects moves the
position by `EPSILON` or more against the direction of travel. -/
theorem along_correctCollision (p : Player) (d : Vec3Q) (b : Box3)
    (h : intersectsBox (getPlayerBB p.position) b = true) :
    along d (correctCollision p d b).position ≤ along d p.position - EPSILON := by
  have hle := faceOf_le_frontOf d _ _ h
  unfold faceOf frontOf at hle
  unfold correctCollision along
  dsimp only
  split_ifs at hle ⊢ <;> dsimp only <;> linarith

theorem movePlayerAxis_eq (fuel : Nat) (chunks : World) (p : Player) (deltaPos : Vec3Q) :
    movePlayerAxis fuel chunks p deltaPos
      = correctionLoop chunks deltaPos fuel (addPosition p deltaPos) := rfl

/-- What `isPlayerColliding` returns, whatever chunks exist. -/
theorem isPlayerColliding_result (chunks : World) (position : Vec3Q) :
    (∀ b, isPlayerColliding chunks position = Except.ok (some b) →
      ∃ c ∈ storedCells chunks, b = blockBox c.1 c.2.1 c.2.2
        ∧ intersectsBox (getPlayerBB position) b = true)
    ∧ (∀ e, isPlayerColliding chunks position = Except.error e → e = Err.typeError) := by
  obtain ⟨h1, h2⟩ := scanCells_result chunks (getPlayerBB position)
    (scannedCells (getPlayerBB position))
  constructor
  · intro b hb
    obtain ⟨c, _, hbc, hocc, hint⟩ := h1 b hb
    refine ⟨c, mem_storedCells chunks c.1 c.2.1 c.2.2 hocc, hbc, ?_⟩
    rw [hbc]
    exact hint
  · exact h2

theorem aheadCount_le (chunks : World) (d : Vec3Q) (position : Vec3Q) :
    aheadCount chunks d position ≤ blockCount chunks := by
  unfold aheadCount
  exact le_trans (List.length_filter_le _ _) (storedCells_length chunks)

/-- A correction passes the face of the block corrected against, and no
face passed before comes back in front. -/
theorem aheadCount_correctCollision (chunks : World) (d : Vec3Q) (p : Player) (b : Box3)
    (h : isPlayerColliding chunks p.position = Except.ok (some b)) :
    aheadCount chunks d (correctCollision p d b).position < aheadCount chunks d p.position := by
  obtain ⟨c, hc, hbc, hint⟩ := (isPlayerColliding_result chunks p.position).1 b h
  have hle := faceOf_le_frontOf d _ _ hint
  have hfront := frontOf_correctCollision p d b
  have heps := epsilon_pos
  unfold aheadCount
  apply length_filter_lt _ _ _ _ c hc
  · rw [decide_eq_true_eq, ← hbc]
    exact hle
  · rw [decide_eq_false_iff_not, ← hbc, hfront]
    intro hcon
    linarith
  · intro a _ ha
    rw [decide_eq_true_eq] at ha ⊢
    rw [hfront] at ha
    linarith

theorem correctedBoxes_front (chunks : World) (d : Vec3Q) (fuel : Nat) :
    ∀ p : Player, ∀ b ∈ correctedBoxes chunks d fuel p,
      faceOf d b ≤ frontOf d (getPlayerBB p.position) := by
  induction fuel with
  | zero => intro p b hb; cases hb
  | succ fuel ih =>
    intro p b hb
    unfold correctedBoxes at hb
    cases hc : isPlayerColliding chunks p.position with
    | error e => rw [hc] at hb; cases hb
    | ok r =>
      rw [hc] at hb
      cases r with
      | none => cases hb
      | some bb =>
        dsimp only at hb
        obtain ⟨c, _, _, hint⟩ := (isPlayerColliding_result chunks p.position).1 bb hc
        have hle := faceOf_le_frontOf d _ _ hint
        rcases List.mem_cons.mp hb with h | h
        · rw [h]; exact hle
        · have h2 := ih _ b h
          rw [frontOf_correctCollision] at h2
          have heps := epsilon_pos
          linarith

/-- The loop corrects against boxes of stored blocks, against none twice,
and against fewer of them than `aheadCount` counts, whatever the fuel. -/
theorem correctedBoxes_spec (chunks : World) (d : Vec3Q) (fuel : Nat) :
    ∀ p : Player, (correctedBoxes chunks d fuel p).Nodup
      ∧ (correctedBoxes chunks d fuel p).length ≤ aheadCount chunks d p.position
      ∧ (∀ b ∈ correctedBoxes chunks d fuel p,
          ∃ c ∈ storedCells chunks, b = blockBox c.1 c.2.1 c.2.2) := by
  induction fuel with
  | zero =>
    intro p
    refine ⟨List.nodup_nil, Nat.zero_le _, ?_⟩
    intro b hb; cases hb
  | succ fuel ih =>
    intro p
    unfold correctedBoxes
    cases hc : isPlayerColliding chunks p.position with
    | error e =>
      refine ⟨List.nodup_nil, Nat.zero_le _, ?_⟩
      intro b hb; cases hb
    | ok r =>
      cases r with
      | none =>
        refine ⟨List.nodup_nil, Nat.zero_le _, ?_⟩
        intro b hb; cases hb
      | some bb =>
        dsimp only
        obtain ⟨ih1, ih2, ih3⟩ := ih (correctCollision p d bb)
        obtain ⟨c, hcm, hbc, _⟩ := (isPlayerColliding_result chunks p.position).1 bb hc
        have hdec := aheadCount_correctCollision chunks d p bb hc
        refine ⟨List.nodup_cons.mpr ⟨?_, ih1⟩, ?_, ?_⟩
        · intro hmem
          have h2 := correctedBoxes_front chunks d fuel _ bb hmem
          rw [frontOf_correctCollision] at h2
          have heps := epsilon_pos
          linarith
        · rw [List.length_cons]
          omega
        · intro b hb
          rcases List.mem_cons.mp hb with h | h
          · rw [h]; exact ⟨c, hcm, hbc⟩
          · exact ih3 b h

/-- With more fuel than `aheadCount` the loop does not run out of it. -/
theorem correctionLoop_result (chunks : World) (d : Vec3Q) (fuel : Nat) :
    ∀ p : Player, aheadCount chunks d p.position < fuel →
      (∃ p2, correctionLoop chunks d fuel p = Except.ok p2)
        ∨ correctionLoop chunks d fuel p = Except.error Err.typeError := by
  induction fuel with
  | zero => intro p h; omega
  | succ fuel ih =>
    intro p h
    unfold correctionLoop
    cases hc : isPlayerColliding chunks p.position with
    | error e =>
      right
      rw [(isPlayerColliding_result chunks p.position).2 e hc]
    | ok r =>
      cases r with
      | none => left; exact ⟨p, rfl⟩
      | some bb =>
        dsimp only
        have hdec := aheadCount_correctCollision chunks d p bb hc
        exact ih _ (by omega)

/-- With more fuel than `aheadCount`, and the chunks of the scanned cells
in place at every position the loop tests, the loop returns a player. -/
theorem correctionLoop_total (chunks : World) (d : Vec3Q) (fuel : Nat) :
    ∀ p : Player, aheadCount chunks d p.position < fuel →
      (∀ q ∈ loopPositions chunks d fuel p, ∀ c ∈ scannedCells (getPlayerBB q),
        (getBlockChunk chunks c.1 c.2.2).isSome) →
      ∃ p2, correctionLoop chunks d fuel p = Except.ok p2 := by
  induction fuel with
  | zero => intro p h; omega
  | succ fuel ih =>
    intro p h hq
    unfold loopPositions at hq
    obtain ⟨r, hr, _⟩ := scanCells_spec chunks (getPlayerBB p.position)
      (scannedCells (getPlayerBB p.position)) (hq p.position (List.mem_cons_self _ _))
    have hc : isPlayerColliding chunks p.position = Except.ok r := hr
    unfold correctionLoop
    rw [hc] at hq ⊢
    cases r with
    | none => exact ⟨p, rfl⟩
    | some bb =>
      dsimp only at hq ⊢
      have hdec := aheadCount_correctCollision chunks d p bb hc
      exact ih _ (by omega) (fun q hqm => hq q (List.mem_cons_of_mem _ hqm))

/-- Fuel beyond what the loop needs does not change its result. -/
theorem correctionLoop_fuel (chunks : World) (d : Vec3Q) (fuel : Nat) :
    ∀ p : Player, correctionLoop chunks d fuel p ≠ Except.error Err.outOfFuel →
      ∀ fuel2, fuel ≤ fuel2 →
        correctionLoop chunks d fuel2 p = correctionLoop chunks d fuel p := by
  induction fuel with
  | zero => intro p h; exact absurd rfl h
  | succ fuel ih =>
    intro p h fuel2 hle
    obtain ⟨k, rfl⟩ : ∃ k, fuel2 = k + 1 := ⟨fuel2 - 1, by omega⟩
    unfold correctionLoop at h ⊢
    cases hc : isPlayerColliding chunks p.position with
    | error e => rfl
    | ok r =>
      rw [hc] at h
      cases r with
      | none => rfl
      | some bb =>
        dsimp only at h ⊢
        exact ih _ h k (by omega)

/-- Any two amounts of fuel above `aheadCount` give the same result. -/
theorem correctionLoop_fuel_eq (chunks : World) (d : Vec3Q) (p : Player) (fuel fuel2 : Nat)
    (h1 : aheadCount chunks d p.position < fuel) (h2 : aheadCount chunks d p.position < fuel2) :
    correctionLoop chunks d fuel2 p = correctionLoop chunks d fuel p := by
  have hne : ∀ n, aheadCount chunks d p.position < n →
      correctionLoop chunks d n p ≠ Except.error Err.outOfFuel := by
    intro n hn hcon
    rcases correctionLoop_result chunks d n p hn with ⟨p2, h⟩ | h
    · rw [h] at hcon; cases hcon
    · rw [h] at hcon; cases hcon
  rcases Nat.le_total fuel fuel2 with hle | hle
  · exact correctionLoop_fuel chunks d fuel p (hne fuel h1) fuel2 hle
  · exact (correctionLoop_fuel chunks d fuel2 p (hne fuel2 h2) fuel hle).symm

/-- C24: for every world, player and delta (the zero delta included), with
more fuel than the world stores blocks and the chunks of the scanned cells
in place at every position the loop tests, `movePlayerAxis` returns a player
that collides with nothing, and every other amount of fuel above the number
of blocks returns the same player. Whatever the fuel, the loop corrects
against boxes of stored blocks only, against none twice, and so against no
more boxes than there are blocks. A call of `correctCollision` with a box
that the player box intersects keeps the two coordinates off the axis chosen
by the delta, moves the position by `EPSILON` or more against the fixed
direction along that axis, and leaves the player box clear of that box. -/
theorem movePlayerAxis_terminates (chunks : World) (p : Player) (deltaPos : Vec3Q) (fuel : Nat)
    (hfuel : blockCount chunks < fuel)
    (hq : ∀ q ∈ loopPositions chunks deltaPos fuel (addPosition p deltaPos),
      ∀ c ∈ scannedCells (getPlayerBB q), (getBlockChunk chunks c.1 c.2.2).isSome) :
    (∃ p2, movePlayerAxis fuel chunks p deltaPos = Except.ok p2
        ∧ isPlayerColliding chunks p2.position = Except.ok none
        ∧ ∀ fuel2, blockCount chunks < fuel2 →
            movePlayerAxis fuel2 chunks p deltaPos = Except.ok p2)
    ∧ (∀ n, (correctedBoxes chunks deltaPos n (addPosition p deltaPos)).Nodup
        ∧ (correctedBoxes chunks deltaPos n (addPosition p deltaPos)).length ≤ blockCount chunks
        ∧ ∀ b ∈ correctedBoxes chunks deltaPos n (addPosition p deltaPos),
            ∃ c ∈ storedCells chunks, b = blockBox c.1 c.2.1 c.2.2)
    ∧ (∀ (q : Player) (b : Box3), intersectsBox (getPlayerBB q.position) b = true →
        offAxis deltaPos (correctCollision q deltaPos b).position = offAxis deltaPos q.position
        ∧ along deltaPos (correctCollision q deltaPos b).position
            ≤ along deltaPos q.position - EPSILON
        ∧ intersectsBox (getPlayerBB (correctCollision q deltaPos b).position) b = false) := by
  have hahead : ∀ n, blockCount chunks < n →
      aheadCount chunks deltaPos (addPosition p deltaPos).position < n :=
    fun n hn => lt_of_le_of_lt (aheadCount_le chunks deltaPos _) hn
  refine ⟨?_, ?_, ?_⟩
  · obtain ⟨p2, hp2⟩ := correctionLoop_total chunks deltaPos fuel (addPosition p deltaPos)
      (hahead fuel hfuel) hq
    refine ⟨p2, ?_, correctionLoop_ok chunks deltaPos fuel _ p2 hp2, ?_⟩
    · rw [movePlayerAxis_eq]
      exact hp2
    · intro fuel2 h2
      rw [movePlayerAxis_eq, correctionLoop_fuel_eq chunks deltaPos _ fuel fuel2
        (hahead fuel hfuel) (hahead fuel2 h2)]
      exact hp2
  · intro n
    obtain ⟨h1, h2, h3⟩ := correctedBoxes_spec chunks deltaPos n (addPosition p deltaPos)
    exact ⟨h1, le_trans h2 (aheadCount_le chunks deltaPos _), h3⟩
  · intro q b hint
    refine ⟨offAxis_correctCollision q deltaPos b, along_correctCollision q deltaPos b hint, ?_⟩
    apply intersectsBox_false_of_passed deltaPos
    rw [frontOf_correctCollision]
    have heps := epsilon_pos
    linarith

/-- C24 on `oneBlockWorld`: the falling player moved half a block down
into the block is put back on top of it within two tests of the loop
condition, after one correction at most. -/
theorem movePlayerAxis_terminates_witness :
    ∃ p2, movePlayerAxis 2 oneBlockWorld fallingPlayer { x := 0, y := -1 / 2, z := 0 }
        = Except.ok p2
      ∧ isPlayerColliding oneBlockWorld p2.position = Except.ok none
      ∧ (correctedBoxes oneBlockWorld { x := 0, y := -1 / 2, z := 0 } 2
          (addPosition fallingPlayer { x := 0, y := -1 / 2, z := 0 })).length
            ≤ blockCount oneBlockWorld := by
  obtain ⟨⟨p2, h1, h2, _⟩, h3, _⟩ := movePlayerAxis_terminates oneBlockWorld fallingPlayer
    { x := 0, y := -1 / 2, z := 0 } 2 (by decide) (by decide!)
  exact ⟨p2, h1, h2, (h3 2).2.1⟩

end Voxel
